import Mathlib

/-!
# Eskala equity tracking: the client-side scripts

Shallow embedding of the scripts under `flaskapp/js`: `evaluateFormula` and
`calculateFields` of `profit_form.client.js` and `matching-equity.client.js` (the two
bodies of `evaluateFormula` are character-for-character the same, so one
definition embeds both), the formula builder of `formula-manager.client.js`, the
autosave of `form-autosave.js`, the login and sign-up handlers, the navigation
of `form-navbar.js` and the rate table of `exchange-rate-manager.client.js`.

Strings are lists of characters.  The JavaScript runtime pieces the scripts
call (`String.prototype.replace` with the regular expression `\bkey\b`,
`Number::toString`, `parseFloat`, `toFixed`, `isNaN`, `isFinite`, and the `Function`
constructor) are modelled after ECMAScript.  The `Function` constructor runs
arbitrary program text, so `evaluateFormula` takes the runtime as a parameter; a
reference runtime for the arithmetic fragment is defined below.
-/

namespace Eskala

/-! ## JavaScript values -/

/-- An IEEE-754 binary64 number: not-a-number, an infinity, or the finite
value `(-1)^neg * m * 2^e`.  Canonical finite numbers have `m < 2^53`,
`-1074 ≤ e`, and `2^52 ≤ m` unless `e = -1074`; zero is `m = 0, e = -1074`
and carries a sign. -/
inductive JsNum where
  | nan : JsNum
  | inf (neg : Bool) : JsNum
  | fin (neg : Bool) (m : Nat) (e : Int) : JsNum
  deriving DecidableEq, Repr

/-- The primitive values of the modelled fragment. -/
inductive JsVal where
  | num (n : JsNum) : JsVal
  | bool (b : Bool) : JsVal
  | null : JsVal
  | undefined : JsVal
  deriving DecidableEq, Repr

/-- The outcome of running a function body: a returned value or a thrown
exception. -/
inductive Completion where
  | normal (v : JsVal) : Completion
  | throw : Completion
  deriving DecidableEq, Repr

/-- The number zero, `+0`. -/
def JsNum.zero : JsNum := .fin false 0 (-1074)

/-- ECMAScript `ToNumber` on the primitives of the fragment. -/
def toNumber : JsVal → JsNum
  | .num n => n
  | .bool true => .fin false (2 ^ 52) (-52)
  | .bool false => JsNum.zero
  | .null => JsNum.zero
  | .undefined => .nan

/-- Global `isNaN(v)`: `ToNumber(v)` is NaN. -/
def isNaN (v : JsVal) : Bool :=
  match toNumber v with
  | .nan => true
  | _ => false

/-- Global `isFinite(v)`: `ToNumber(v)` is neither NaN nor an infinity. -/
def isFinite (v : JsVal) : Bool :=
  match toNumber v with
  | .fin _ _ _ => true
  | _ => false

/-- ECMAScript `ToBoolean`: the falsy primitives are `false`, `null`,
`undefined`, `NaN`, `+0` and `-0`. -/
def toBoolean : JsVal → Bool
  | .num .nan => false
  | .num (.inf _) => true
  | .num (.fin _ m _) => m != 0
  | .bool b => b
  | .null => false
  | .undefined => false

/-- The expression `value || 0`. -/
def orZero (value : JsVal) : JsVal :=
  if toBoolean value then value else .num JsNum.zero

/-! ## Binary64 arithmetic -/

/-- Halving count: `log2Aux fuel n` is the floor of the binary logarithm of
`n` when `fuel` is at least that logarithm. -/
def log2Aux : Nat → Nat → Nat
  | 0, _ => 0
  | fuel + 1, n => if n < 2 then 0 else log2Aux fuel (n / 2) + 1

/-- The floor of the binary logarithm of `n` (and `0` for `n = 0`). -/
def floorLog2 (n : Nat) : Nat := log2Aux n n

/-- Rounds the positive rational `n / d` (with `0 < d`) to the nearest
binary64 number, ties to even, with sign `neg`; overflow gives an infinity
and `n = 0` gives a zero. -/
def roundRat (neg : Bool) (n d : Nat) : JsNum :=
  if n = 0 then .fin neg 0 (-1074)
  else
    let l : Int := (floorLog2 n : Int) - (floorLog2 d : Int)
    let ge : Bool :=
      if 0 ≤ l then decide (d * 2 ^ l.toNat ≤ n) else decide (d ≤ n * 2 ^ (-l).toNat)
    let ex : Int := if ge then l else l - 1
    let p : Int := max (ex - 52) (-1074)
    let nn : Nat := if p ≤ 0 then n * 2 ^ (-p).toNat else n
    let dd : Nat := if p ≤ 0 then d else d * 2 ^ p.toNat
    let q : Nat := nn / dd
    let r : Nat := nn % dd
    let up : Bool := decide (dd < 2 * r) || (decide (2 * r = dd) && decide (q % 2 = 1))
    let q1 : Nat := if up then q + 1 else q
    let m : Nat := if q1 = 2 ^ 53 then 2 ^ 52 else q1
    let e : Int := if q1 = 2 ^ 53 then p + 1 else p
    if 971 < e then .inf neg else .fin neg m e

/-- Rounds the exact value `(-1)^neg * n * 2^e`. -/
def roundScaled (neg : Bool) (n : Nat) (e : Int) : JsNum :=
  if 0 ≤ e then roundRat neg (n * 2 ^ e.toNat) 1 else roundRat neg n (2 ^ (-e).toNat)

/-- The signed integer `(-1)^neg * m * 2^(e - e0)` for `e0 ≤ e`. -/
def scaledInt (neg : Bool) (m : Nat) (e e0 : Int) : Int :=
  let a : Int := ((m * 2 ^ (e - e0).toNat : Nat) : Int)
  if neg then -a else a

/-- Unary minus. -/
def JsNum.neg : JsNum → JsNum
  | .nan => .nan
  | .inf s => .inf (!s)
  | .fin s m e => .fin (!s) m e

/-- Number addition, `x + y`.  A zero added to a number leaves the number; two
zeros give `-0` only when both are `-0`; an exact sum of zero is `+0`. -/
def JsNum.add : JsNum → JsNum → JsNum
  | .nan, _ => .nan
  | _, .nan => .nan
  | .inf s, .inf t => if s = t then .inf s else .nan
  | .inf s, .fin _ _ _ => .inf s
  | .fin _ _ _, .inf t => .inf t
  | .fin s m e, .fin t k f =>
    if m = 0 then (if k = 0 then .fin (s && t) 0 (-1074) else .fin t k f)
    else if k = 0 then .fin s m e
    else
      let e0 : Int := min e f
      let sum : Int := scaledInt s m e e0 + scaledInt t k f e0
      if sum = 0 then .fin false 0 (-1074)
      else roundScaled (decide (sum < 0)) sum.natAbs e0

/-- Number subtraction, `x - y`. -/
def JsNum.sub (x y : JsNum) : JsNum := x.add y.neg

/-- Number multiplication, `x * y`. -/
def JsNum.mul : JsNum → JsNum → JsNum
  | .nan, _ => .nan
  | _, .nan => .nan
  | .inf s, .inf t => .inf (xor s t)
  | .inf s, .fin t k _ => if k = 0 then .nan else .inf (xor s t)
  | .fin s m _, .inf t => if m = 0 then .nan else .inf (xor s t)
  | .fin s m e, .fin t k f => roundScaled (xor s t) (m * k) (e + f)

/-- Number division, `x / y`. -/
def JsNum.div : JsNum → JsNum → JsNum
  | .nan, _ => .nan
  | _, .nan => .nan
  | .inf _, .inf _ => .nan
  | .inf s, .fin t _ _ => .inf (xor s t)
  | .fin s _ _, .inf t => .fin (xor s t) 0 (-1074)
  | .fin s m e, .fin t k f =>
    if k = 0 then (if m = 0 then .nan else .inf (xor s t))
    else if f ≤ e then roundRat (xor s t) (m * 2 ^ (e - f).toNat) k
    else roundRat (xor s t) m (k * 2 ^ (f - e).toNat)

/-- Number remainder, `x % y`: the sign of the dividend, truncating division. -/
def JsNum.rem : JsNum → JsNum → JsNum
  | .nan, _ => .nan
  | _, .nan => .nan
  | .inf _, _ => .nan
  | .fin s m e, .inf _ => .fin s m e
  | .fin s m e, .fin _ k f =>
    if k = 0 then .nan
    else if m = 0 then .fin s 0 (-1074)
    else
      let e0 : Int := min e f
      let a : Nat := m * 2 ^ (e - e0).toNat
      let b : Nat := k * 2 ^ (f - e0).toNat
      roundScaled s (a % b) e0

/-- The binary64 number of a natural number. -/
def JsNum.ofNat (n : Nat) : JsNum := roundRat false n 1

/-! ## Numbers and text -/

/-- The value of a decimal digit character. -/
def digitVal (c : Char) : Nat := c.toNat - 48

/-- The natural number written by a list of decimal digits. -/
def digitsVal (ds : List Char) : Nat :=
  ds.foldl (fun acc c => acc * 10 + digitVal c) 0

/-- The mathematical value `int.frac * 10^ex` of a decimal literal, rounded to
binary64: `intDigits` and `fracDigits` are the digits before and after the
point, `ex` the exponent. -/
def decimalValue (intDigits fracDigits : List Char) (ex : Int) : JsNum :=
  let n : Nat := digitsVal (intDigits ++ fracDigits)
  let sh : Int := ex - (fracDigits.length : Int)
  if 0 ≤ sh then roundRat false (n * 10 ^ sh.toNat) 1
  else roundRat false n (10 ^ (-sh).toNat)

/-- The decimal digits of `n`, most significant first; `fuel` bounds their
number. -/
def natDigitsAux : Nat → Nat → List Char → List Char
  | 0, _, acc => acc
  | fuel + 1, n, acc =>
    let acc1 := Char.ofNat (48 + n % 10) :: acc
    if n < 10 then acc1 else natDigitsAux fuel (n / 10) acc1

/-- The decimal digits of `n`, most significant first. -/
def natDigits (n : Nat) : List Char := natDigitsAux (n + 1) n []

/-- Searches upward for the least `j` with `b ≤ a * 10^(j+1)`, that is the
number of zeros right after the point in `a / b < 1`. -/
def leadingZeros (a b : Nat) : Nat → Nat → Nat
  | 0, j => j
  | fuel + 1, j => if b ≤ a * 10 ^ (j + 1) then j else leadingZeros a b fuel (j + 1)

/-- The decimal exponent `n` of the positive rational `a / b`: the integer with
`10^(n-1) ≤ a / b < 10^n`. -/
def decimalExponent (a b : Nat) : Int :=
  if b ≤ a then ((natDigits (a / b)).length : Int)
  else -((leadingZeros a b 400 0 : Nat) : Int)

/-- The exact rational value `a / b` of the finite number `m * 2^e`. -/
def exactNum (m : Nat) (e : Int) : Nat × Nat :=
  if 0 ≤ e then (m * 2 ^ e.toNat, 1) else (m, 2 ^ (-e).toNat)

/-- The `k`-digit decimal significand and decimal exponent for `m * 2^e`,
if a `k`-digit decimal rounds back to `m * 2^e`: `n` is the decimal exponent
of the exact value, and of the two integers next to `(a / b) / 10^(n-k)` the
closer one is preferred.  The upper neighbour may be `10^k`, which is the
significand `10^(k-1)` with exponent `n + 1`. -/
def digitsCandidate (m : Nat) (e : Int) (n : Int) (k : Nat) : Option (Nat × Int) :=
  let ab := exactNum m e
  let sh : Int := n - (k : Int)
  let num : Nat := if 0 ≤ sh then ab.1 else ab.1 * 10 ^ (-sh).toNat
  let den : Nat := if 0 ≤ sh then ab.2 * 10 ^ sh.toNat else ab.2
  let lo : Nat := num / den
  let hi : Nat := lo + 1
  let back (s : Nat) : Bool :=
    decide ((if 0 ≤ sh then roundRat false (s * 10 ^ sh.toNat) 1
             else roundRat false s (10 ^ (-sh).toNat)) = JsNum.fin false m e)
  let loOk : Bool := decide (10 ^ (k - 1) ≤ lo) && back lo
  let hiOk : Bool := back hi
  let hiOut : Nat × Int := if hi = 10 ^ k then (10 ^ (k - 1), n + 1) else (hi, n)
  let hiCloser : Bool := decide ((lo + hi) * den < 2 * num)
  if loOk && hiOk then (if hiCloser then some hiOut else some (lo, n))
  else if loOk then some (lo, n)
  else if hiOk then some hiOut
  else none

/-- The shortest significand: tries `k = 18 - fuel, ..., 17` digits in turn and
gives the significand, its number of digits and the decimal exponent. -/
def shortestDigits (m : Nat) (e : Int) (n : Int) : Nat → Option (Nat × Nat × Int)
  | 0 => none
  | fuel + 1 =>
    match digitsCandidate m e n (18 - (fuel + 1)) with
    | some (s, n1) => some (s, 18 - (fuel + 1), n1)
    | none => shortestDigits m e n fuel

/-- Lays out the digits `ds` (there are `k` of them) with decimal exponent
`n` as `Number::toString` does. -/
def layoutDigits (ds : List Char) (k : Nat) (n : Int) : List Char :=
  if (k : Int) ≤ n ∧ n ≤ 21 then ds ++ List.replicate (n - (k : Int)).toNat '0'
  else if 0 < n ∧ n ≤ 21 then ds.take n.toNat ++ '.' :: ds.drop n.toNat
  else if -6 < n ∧ n ≤ 0 then '0' :: '.' :: (List.replicate (-n).toNat '0' ++ ds)
  else
    let ex : Int := n - 1
    let sign : Char := if ex < 0 then '-' else '+'
    let tail : List Char := 'e' :: sign :: natDigits ex.natAbs
    if k = 1 then ds ++ tail else ds.take 1 ++ '.' :: (ds.drop 1 ++ tail)

/-- ECMAScript `Number::toString` in radix 10. -/
def numberToString : JsNum → List Char
  | .nan => "NaN".toList
  | .inf neg => if neg then "-Infinity".toList else "Infinity".toList
  | .fin neg m e =>
    if m = 0 then "0".toList
    else
      let ab := exactNum m e
      let n := decimalExponent ab.1 ab.2
      let body : List Char :=
        match shortestDigits m e n 17 with
        | some (s, k, n1) => layoutDigits (natDigits s) k n1
        | none => []
      if neg then '-' :: body else body

/-- ECMAScript `ToString` on the primitives of the fragment. -/
def jsToString : JsVal → List Char
  | .num n => numberToString n
  | .bool true => "true".toList
  | .bool false => "false".toList
  | .null => "null".toList
  | .undefined => "undefined".toList

/-! ## Word-boundary replacement -/

/-- The class `\w` of a regular expression without the unicode flag. -/
def isWordChar (c : Char) : Bool :=
  c.isAlphanum || c == '_'

/-- A binding key made of word characters only, so that `\bkey\b` holds no
regular-expression metacharacter and both `\b` assert a true boundary. -/
def isWordKey (key : List Char) : Bool :=
  !key.isEmpty && key.all isWordChar

/-- Strips `key` from the front of `s` when it is there. -/
def stripKey : List Char → List Char → Option (List Char)
  | [], s => some s
  | _ :: _, [] => none
  | k :: ks, c :: cs => if k = c then stripKey ks cs else none

/-- Does `\b` hold between a word character and the text `rest`? -/
def boundaryAfter : List Char → Bool
  | [] => true
  | c :: _ => !isWordChar c

/-- The scan of `s.replace(new RegExp("\\b" + key + "\\b", "g"), rep)` for a
word key, with `prevWord` telling whether the character before the current
position is a word character.  `fuel` bounds the number of steps; the length
of the text plus one is enough. -/
def replaceScan (key rep : List Char) : Nat → Bool → List Char → List Char
  | 0, _, s => s
  | _ + 1, _, [] => []
  | fuel + 1, prevWord, c :: cs =>
    match stripKey key (c :: cs) with
    | some rest =>
      if !prevWord && boundaryAfter rest then
        rep ++ replaceScan key rep fuel true rest
      else
        c :: replaceScan key rep fuel (isWordChar c) cs
    | none => c :: replaceScan key rep fuel (isWordChar c) cs

/-- The call `s.replace(new RegExp("\\b" + key + "\\b", "g"), rep)` for a word key
and a replacement text without `$`. -/
def replaceWord (key rep s : List Char) : List Char :=
  replaceScan key rep (s.length + 1) false s


/-! ## A reference runtime for the arithmetic fragment

The text handed to `Function` is JavaScript.  The reference runtime below
gives the completion of `Function(body)()` for bodies of the shape
`"use strict"; return (` text `)` whose text is written with blanks, decimal
literals, the punctuators `+ - * / % ** ( ) ++ --`, comments, and the names `true`,
`false`, `null`, `undefined`, `NaN`, `Infinity` and the six formula variables,
none of which is declared as a global by the scripts of the repository.  It
answers `none` for every other text: regular-expression literals, line
breaks, other names and other characters are outside the fragment, and so is
`**` where ECMAScript leaves its result to the implementation. -/

/-- The six variable names of the formula vocabulary: the keys `calculateFields`
binds in `profit_form.client.js` (`profit_l`, `expected_profit_pct`,
`company_value_l`, `investment_l`, `exchange_rate`) and in
`matching-equity.client.js` (`reported_shares`, `investment_l`,
`exchange_rate`). -/
def vocabulary : List (List Char) :=
  ["profit_l".toList, "expected_profit_pct".toList, "company_value_l".toList,
   "investment_l".toList, "exchange_rate".toList, "reported_shares".toList]

/-- Tokens of the fragment.  `bad` is a token the strict-mode lexer rejects (a
decimal literal with a leading zero). -/
inductive Token where
  | num (n : JsNum) : Token
  | ident (name : List Char) : Token
  | plus | minus | star | slash | percent | pow | lparen | rparen
  | incr | decr | bad
  deriving DecidableEq, Repr

/-- The names the fragment gives a meaning to: the literals `true`, `false`,
`null`, and the immutable globals `undefined`, `NaN`, `Infinity`. -/
def constantNames : List (List Char) :=
  ["true".toList, "false".toList, "null".toList, "undefined".toList, "NaN".toList,
   "Infinity".toList]

/-- A character that may start an identifier (ASCII part). -/
def isIdentStart (c : Char) : Bool := c.isAlpha || c == '_' || c == '$'

/-- A character that may continue an identifier (ASCII part). -/
def isIdentPart (c : Char) : Bool := c.isAlphanum || c == '_' || c == '$'

/-- Reads an exponent part `e`, optional sign, digits from the front of `s`:
the exponent and the rest.  Without an exponent part the exponent is `0`. -/
def lexExponent (s : List Char) : Int × List Char :=
  match s with
  | c :: d :: rest =>
    if c = 'e' ∨ c = 'E' then
      if d.isDigit then
        ((digitsVal ((d :: rest).takeWhile Char.isDigit) : Nat),
          (d :: rest).dropWhile Char.isDigit)
      else if (d = '+' ∨ d = '-') ∧ (rest.head?.map Char.isDigit = some true) then
        let v : Int := (digitsVal (rest.takeWhile Char.isDigit) : Nat)
        (if d = '-' then -v else v, rest.dropWhile Char.isDigit)
      else (0, s)
    else (0, s)
  | _ => (0, s)

/-- The digits of a fraction part `.digits` at the front of the text; none when
the text does not start with a point. -/
def fracDigitsOf : List Char → List Char
  | '.' :: r => r.takeWhile Char.isDigit
  | _ => []

/-- The text after a fraction part `.digits` at its front. -/
def afterFraction : List Char → List Char
  | '.' :: r => r.dropWhile Char.isDigit
  | r1 => r1

/-- Reads a decimal literal from the front of `s`, which starts with a digit or
with a point followed by a digit: the token and the rest. -/
def lexNumber (s : List Char) : Token × List Char :=
  let intDigits := s.takeWhile Char.isDigit
  let r1 := s.dropWhile Char.isDigit
  let legacy : Bool := decide (1 < intDigits.length) && intDigits.head? == some '0'
  if legacy then (.bad, r1)
  else
    let er := lexExponent (afterFraction r1)
    (.num (decimalValue intDigits (fracDigitsOf r1) er.1), er.2)

/-- The text after the `*/` that closes a block comment, if there is one. -/
def skipBlockComment : List Char → Option (List Char)
  | [] => none
  | [_] => none
  | c :: d :: rest => if c = '*' ∧ d = '/' then some rest else skipBlockComment (d :: rest)

/-- The lexer of the fragment; `none` when the text leaves the fragment.  A
`//` comment runs to the end of the text, which has no line break; a block
comment is skipped, and one that is not closed is a `bad` token.  `fuel`
bounds the number of steps, the length of the text is enough. -/
def tokenize : Nat → List Char → Option (List Token)
  | _, [] => some []
  | 0, _ :: _ => none
  | fuel + 1, c :: cs =>
    if c = ' ' ∨ c = '\t' then tokenize fuel cs
    else if c.isDigit ∨ (c = '.' ∧ cs.head?.map Char.isDigit = some true) then
      let tr := lexNumber (c :: cs)
      if tr.2.head?.map isIdentPart = some true then none
      else (tokenize fuel tr.2).map (tr.1 :: ·)
    else if isIdentStart c then
      let name := (c :: cs).takeWhile isIdentPart
      if name ∈ constantNames ∨ name ∈ vocabulary then
        (tokenize fuel ((c :: cs).dropWhile isIdentPart)).map (.ident name :: ·)
      else none
    else if c = '+' then
      match cs with
      | '+' :: r => (tokenize fuel r).map (.incr :: ·)
      | _ => (tokenize fuel cs).map (.plus :: ·)
    else if c = '-' then
      match cs with
      | '-' :: r => (tokenize fuel r).map (.decr :: ·)
      | _ => (tokenize fuel cs).map (.minus :: ·)
    else if c = '*' then
      match cs with
      | '*' :: r => (tokenize fuel r).map (.pow :: ·)
      | _ => (tokenize fuel cs).map (.star :: ·)
    else if c = '/' then
      match cs with
      | '/' :: _ => some []
      | '*' :: r =>
        match skipBlockComment r with
        | some rest => tokenize fuel rest
        | none => some [.bad]
      | _ => (tokenize fuel cs).map (.slash :: ·)
    else if c = '%' then (tokenize fuel cs).map (.percent :: ·)
    else if c = '(' then (tokenize fuel cs).map (.lparen :: ·)
    else if c = ')' then (tokenize fuel cs).map (.rparen :: ·)
    else none

/-- A token after which `/` is a division sign. -/
def endsOperand : Token → Bool
  | .num _ => true
  | .ident _ => true
  | .rparen => true
  | _ => false

/-- Is some `/` of the token list at a place where JavaScript starts a
regular-expression literal, that is, not right after an operand?  `prev`
tells whether the token before the list ends an operand. -/
def slashStartsRegex : Bool → List Token → Bool
  | _, [] => false
  | prev, .slash :: ts => !prev || slashStartsRegex false ts
  | _, t :: ts => slashStartsRegex (endsOperand t) ts


/-- The binary operators of the fragment. -/
inductive BinOp where
  | add | sub | mul | div | rem | pow
  deriving DecidableEq, Repr

/-- Expressions of the fragment.  `unbound x` is a reference to a name that has
no binding; evaluating it raises a `ReferenceError`. -/
inductive JsExpr where
  | lit (v : JsVal) : JsExpr
  | unbound (name : List Char) : JsExpr
  | neg (e : JsExpr) : JsExpr
  | pos (e : JsExpr) : JsExpr
  | bin (op : BinOp) (l r : JsExpr) : JsExpr
  deriving DecidableEq, Repr

/-- The result of a parsing function: an expression and the tokens left, a
`SyntaxError`, or not enough fuel. -/
inductive Parsed where
  | ok (e : JsExpr) (rest : List Token) : Parsed
  | syntaxError : Parsed
  | outOfFuel : Parsed
  deriving DecidableEq, Repr

/-- The expression a name stands for. -/
def identExpr (name : List Char) : JsExpr :=
  if name = "true".toList then .lit (.bool true)
  else if name = "false".toList then .lit (.bool false)
  else if name = "null".toList then .lit .null
  else if name = "undefined".toList then .lit .undefined
  else if name = "NaN".toList then .lit (.num .nan)
  else if name = "Infinity".toList then .lit (.num (.inf false))
  else .unbound name

mutual

/-- PrimaryExpression: a literal, a name, or a parenthesised expression. -/
def parsePrimary : Nat → List Token → Parsed
  | 0, _ => .outOfFuel
  | _ + 1, .num n :: ts => .ok (.lit (.num n)) ts
  | _ + 1, .ident x :: ts => .ok (identExpr x) ts
  | fuel + 1, .lparen :: ts =>
    match parseAdditive fuel ts with
    | .ok e (.rparen :: rest) => .ok e rest
    | .ok _ _ => .syntaxError
    | .syntaxError => .syntaxError
    | .outOfFuel => .outOfFuel
  | _ + 1, _ => .syntaxError

/-- UnaryExpression: `+` or `-` in front of a unary expression, or a primary
expression.  A primary expression followed by `(` is a call of a value that
is not a function and is rejected here. -/
def parseUnary : Nat → List Token → Parsed
  | 0, _ => .outOfFuel
  | fuel + 1, .minus :: ts =>
    match parseUnary fuel ts with
    | .ok e rest => .ok (.neg e) rest
    | r => r
  | fuel + 1, .plus :: ts =>
    match parseUnary fuel ts with
    | .ok e rest => .ok (.pos e) rest
    | r => r
  | fuel + 1, ts =>
    match parsePrimary fuel ts with
    | .ok _ (.lparen :: _) => .syntaxError
    | r => r

/-- ExponentiationExpression: a unary expression, or a primary expression,
`**` and an exponentiation expression (right associative; the left operand
takes no sign). -/
def parseExponent : Nat → List Token → Parsed
  | 0, _ => .outOfFuel
  | fuel + 1, ts =>
    match parseUnary fuel ts with
    | .ok e (.pow :: rest) =>
      match ts with
      | .minus :: _ => .syntaxError
      | .plus :: _ => .syntaxError
      | _ =>
        match parseExponent fuel rest with
        | .ok r rest1 => .ok (.bin .pow e r) rest1
        | r => r
    | r => r

/-- The operator-operand pairs that continue a MultiplicativeExpression. -/
def parseMulRest : Nat → JsExpr → List Token → Parsed
  | 0, _, _ => .outOfFuel
  | fuel + 1, lhs, .star :: ts =>
    match parseExponent fuel ts with
    | .ok rhs rest => parseMulRest fuel (.bin .mul lhs rhs) rest
    | r => r
  | fuel + 1, lhs, .slash :: ts =>
    match parseExponent fuel ts with
    | .ok rhs rest => parseMulRest fuel (.bin .div lhs rhs) rest
    | r => r
  | fuel + 1, lhs, .percent :: ts =>
    match parseExponent fuel ts with
    | .ok rhs rest => parseMulRest fuel (.bin .rem lhs rhs) rest
    | r => r
  | _ + 1, lhs, ts => .ok lhs ts

/-- MultiplicativeExpression, left associative. -/
def parseMultiplicative : Nat → List Token → Parsed
  | 0, _ => .outOfFuel
  | fuel + 1, ts =>
    match parseExponent fuel ts with
    | .ok lhs rest => parseMulRest fuel lhs rest
    | r => r

/-- The operator-operand pairs that continue an AdditiveExpression. -/
def parseAddRest : Nat → JsExpr → List Token → Parsed
  | 0, _, _ => .outOfFuel
  | fuel + 1, lhs, .plus :: ts =>
    match parseMultiplicative fuel ts with
    | .ok rhs rest => parseAddRest fuel (.bin .add lhs rhs) rest
    | r => r
  | fuel + 1, lhs, .minus :: ts =>
    match parseMultiplicative fuel ts with
    | .ok rhs rest => parseAddRest fuel (.bin .sub lhs rhs) rest
    | r => r
  | _ + 1, lhs, ts => .ok lhs ts

/-- AdditiveExpression, left associative. -/
def parseAdditive : Nat → List Token → Parsed
  | 0, _ => .outOfFuel
  | fuel + 1, ts =>
    match parseMultiplicative fuel ts with
    | .ok lhs rest => parseAddRest fuel lhs rest
    | r => r

end

/-- The result of evaluating an expression: a value, a thrown exception, or
`unmodelled` where ECMAScript does not fix the result. -/
inductive Outcome where
  | value (v : JsVal) : Outcome
  | throw : Outcome
  | unmodelled : Outcome
  deriving DecidableEq, Repr

/-- `Number::exponentiate` where ECMAScript fixes it without reference to an
approximation: a NaN exponent gives NaN, a zero exponent gives 1, a NaN base
gives NaN. -/
def JsNum.pow : JsNum → JsNum → Option JsNum
  | _, .nan => some .nan
  | _, .fin _ 0 _ => some (.fin false (2 ^ 52) (-52))
  | .nan, _ => some .nan
  | _, _ => none

/-- Applies a binary operator to two numbers. -/
def BinOp.apply : BinOp → JsNum → JsNum → Option JsNum
  | .add, x, y => some (x.add y)
  | .sub, x, y => some (x.sub y)
  | .mul, x, y => some (x.mul y)
  | .div, x, y => some (x.div y)
  | .rem, x, y => some (x.rem y)
  | .pow, x, y => x.pow y

/-- Evaluation of an expression of the fragment, operands left to right.  No
operand is a string or an object, so every operator works on `ToNumber` of
its operands. -/
def evalExpr : JsExpr → Outcome
  | .lit v => .value v
  | .unbound _ => .throw
  | .neg e =>
    match evalExpr e with
    | .value v => .value (.num (toNumber v).neg)
    | o => o
  | .pos e =>
    match evalExpr e with
    | .value v => .value (.num (toNumber v))
    | o => o
  | .bin op l r =>
    match evalExpr l with
    | .value a =>
      match evalExpr r with
      | .value b =>
        match op.apply (toNumber a) (toNumber b) with
        | some n => .value (.num n)
        | none => .unmodelled
      | o => o
    | o => o

/-- The text in front of the expression in the body handed to `Function`. -/
def bodyPrefix : List Char := "\"use strict\"; return (".toList

/-- The completion of a body whose tokens after `return (` are `toks`: the
tokens, with the `(` in front, must form one expression. -/
def runTokens (toks : List Token) : Option Completion :=
  let all := Token.lparen :: toks
  if slashStartsRegex false all then none
  else
    match parseAdditive (4 * all.length + 4) all with
    | .outOfFuel => none
    | .syntaxError => some .throw
    | .ok _ (_ :: _) => some .throw
    | .ok e [] =>
      match evalExpr e with
      | .value v => some (.normal v)
      | .throw => some .throw
      | .unmodelled => none

/-- The completion of `Function(body)()` for a body of the fragment, `none`
for any other body. -/
def refRuntime (body : List Char) : Option Completion :=
  match stripKey bodyPrefix body with
  | none => none
  | some text =>
    match tokenize text.length text with
    | none => none
    | some toks => runTokens toks

/-! ## The page state and `evaluateFormula` -/

/-- The state a script can reach outside its own variables: the values of the
form fields of the page by element id, the number of lines written with
`console.error`, and the clock in milliseconds. -/
structure World where
  fields : List (List Char × List Char)
  errorLines : Nat
  clock : Nat
  deriving DecidableEq, Repr

/-- A JavaScript runtime as `evaluateFormula` uses it: the outcome of
`Function(body)()` in a given state of the page, and the state it leaves.  A
call that does not return is not modelled. -/
abbrev Runtime := List Char → World → Completion × World

/-- A runtime implements the fragment when it gives every body of the
fragment the completion of the reference runtime and leaves the page as it
is: arithmetic has no side effect. -/
def Implements (run : Runtime) : Prop :=
  ∀ body c w, refRuntime body = some c → run body w = (c, w)

/-- The reference runtime as a total runtime; bodies outside the fragment are
given a thrown exception. -/
def refEngine : Runtime :=
  fun body w => ((refRuntime body).getD .throw, w)

/-- The `for` loop of `evaluateFormula`: every entry of `Object.entries(values)`
in order replaces the whole-word occurrences of its key by the text of
`value || 0`. -/
def substitute (expression : List Char) (values : List (List Char × JsVal)) : List Char :=
  values.foldl (fun evalExpression kv =>
    replaceWord kv.1 (jsToString (orZero kv.2)) evalExpression) expression

/-- The body `'"use strict"; return (' + evalExpression + ")"`. -/
def functionBody (evalExpression : List Char) : List Char :=
  bodyPrefix ++ evalExpression ++ [')']

/-- The `try` block of `evaluateFormula`. -/
def evaluateFormulaTry (run : Runtime) (expression : List Char)
    (values : List (List Char × JsVal)) (w : World) : Completion × World :=
  let evalExpression := substitute expression values
  match run (functionBody evalExpression) w with
  | (.throw, w1) => (.throw, w1)
  | (.normal result, w1) =>
    if isNaN result || !isFinite result then (.normal .null, w1)
    else (.normal result, w1)

/-- The function `evaluateFormula(expression, values)` of
`profit_form.client.js` and `matching-equity.client.js`: the `try` block, and
the `catch` block that logs with `console.error` and returns `null`. -/
def evaluateFormula (run : Runtime) (expression : List Char)
    (values : List (List Char × JsVal)) (w : World) : Completion × World :=
  match evaluateFormulaTry run expression values w with
  | (.throw, w1) => (.normal .null, { w1 with errorLines := w1.errorLines + 1 })
  | r => r

/-- Sets the value of the form field with element id `id`. -/
def setField (id value : List Char) : List (List Char × List Char) → List (List Char × List Char)
  | [] => []
  | (k, v) :: rest => if k = id then (k, value) :: rest else (k, v) :: setField id value rest

/-- The symbols of the formula grammar (`AVAILABLE_OPERATORS` in
`formula-manager.client.js`). -/
def grammarSymbols : List Char := ['+', '-', '*', '/', '(', ')']

/-- The number 75000. -/
def n75000 : JsNum := JsNum.ofNat 75000

/-- The number 2. -/
def n2 : JsNum := JsNum.ofNat 2

/-- The number 1. -/
def n1 : JsNum := JsNum.ofNat 1

/-- The number 7. -/
def n7 : JsNum := JsNum.ofNat 7

/-- An expression outside the fragment that reads the clock. -/
def clockText : List Char := "Date.now()".toList

/-- An expression outside the fragment that writes the form field `inv-usd`. -/
def assignText : List Char := "document.getElementById(\"inv-usd\").value = 1".toList

/-- A browser runtime on two bodies outside the fragment, and the reference
runtime elsewhere: `Date.now()` returns the clock of the page, and the
assignment of `1` to the `value` of the element `inv-usd` stores the text `1`
in that field and returns `1`. -/
def pageRuntime : Runtime :=
  fun body w =>
    if body = functionBody clockText then (.normal (.num (JsNum.ofNat w.clock)), w)
    else if body = functionBody assignText then
      (.normal (.num (JsNum.ofNat 1)),
        { w with fields := setField "inv-usd".toList "1".toList w.fields })
    else refEngine body w

/-- A page whose field `inv-usd` is empty. -/
def emptyPage : World :=
  { fields := [("inv-usd".toList, [])], errorLines := 0, clock := 0 }

/-- The levels of the expression grammar, tightest first. -/
inductive Level where
  | prim | unary | exp | mul | add
  deriving DecidableEq, Repr

/-- The expression grammar of the fragment as a relation: `Derives lv ts e`
says the tokens `ts` are an expression of level `lv` with syntax tree `e`. -/
inductive Derives : Level → List Token → JsExpr → Prop where
  | num (n : JsNum) : Derives .prim [.num n] (.lit (.num n))
  | ident (x : List Char) : Derives .prim [.ident x] (identExpr x)
  | paren {ts : List Token} {e : JsExpr} :
    Derives .add ts e → Derives .prim (.lparen :: ts ++ [.rparen]) e
  | ofPrim {ts : List Token} {e : JsExpr} : Derives .prim ts e → Derives .unary ts e
  | neg {ts : List Token} {e : JsExpr} :
    Derives .unary ts e → Derives .unary (.minus :: ts) (.neg e)
  | pos {ts : List Token} {e : JsExpr} :
    Derives .unary ts e → Derives .unary (.plus :: ts) (.pos e)
  | ofUnary {ts : List Token} {e : JsExpr} : Derives .unary ts e → Derives .exp ts e
  | pow {l r : List Token} {el er : JsExpr} :
    Derives .prim l el → Derives .exp r er → Derives .exp (l ++ .pow :: r) (.bin .pow el er)
  | ofExp {ts : List Token} {e : JsExpr} : Derives .exp ts e → Derives .mul ts e
  | mul {l r : List Token} {el er : JsExpr} :
    Derives .mul l el → Derives .exp r er → Derives .mul (l ++ .star :: r) (.bin .mul el er)
  | div {l r : List Token} {el er : JsExpr} :
    Derives .mul l el → Derives .exp r er → Derives .mul (l ++ .slash :: r) (.bin .div el er)
  | rem {l r : List Token} {el er : JsExpr} :
    Derives .mul l el → Derives .exp r er →
      Derives .mul (l ++ .percent :: r) (.bin .rem el er)
  | ofMul {ts : List Token} {e : JsExpr} : Derives .mul ts e → Derives .add ts e
  | add {l r : List Token} {el er : JsExpr} :
    Derives .add l el → Derives .mul r er → Derives .add (l ++ .plus :: r) (.bin .add el er)
  | sub {l r : List Token} {el er : JsExpr} :
    Derives .add l el → Derives .mul r er → Derives .add (l ++ .minus :: r) (.bin .sub el er)

/-- Does the expression refer to a name without binding? -/
def hasUnbound : JsExpr → Bool
  | .lit _ => false
  | .unbound _ => true
  | .neg e => hasUnbound e
  | .pos e => hasUnbound e
  | .bin _ l r => hasUnbound l || hasUnbound r

/-- The tokens of the body for the substituted text `text`: those of `text`
and of the closing `)` the body adds. -/
def bodyTokens (text : List Char) : Option (List Token) :=
  tokenize (text ++ [')']).length (text ++ [')'])

/-- A piece of text: a maximal run of word characters or one other
character. -/
inductive Segment where
  | word (w : List Char) : Segment
  | sep (c : Char) : Segment
  deriving DecidableEq, Repr

/-- The text of a piece. -/
def Segment.text : Segment → List Char
  | .word w => w
  | .sep c => [c]

/-- The text made of the pieces in order. -/
def joinSegs : List Segment → List Char
  | [] => []
  | seg :: rest => seg.text ++ joinSegs rest

/-- Cuts a text into its maximal runs of word characters and its other
characters. -/
def segments : List Char → List Segment
  | [] => []
  | c :: cs =>
    if isWordChar c then
      match segments cs with
      | .word w :: rest => .word (c :: w) :: rest
      | rest => .word [c] :: rest
    else .sep c :: segments cs

/-- What one replacement makes of a piece: the replacement text for the word
`key`, and the piece itself otherwise. -/
def substSeg (key rep : List Char) : Segment → List Char
  | .word w => if w = key then rep else w
  | .sep c => [c]

/-- The text of the pieces after one replacement. -/
def substSegs (key rep : List Char) : List Segment → List Char
  | [] => []
  | seg :: rest => substSeg key rep seg ++ substSegs key rep rest

/-- The pieces are those of a text: every word piece is a non-empty run of
word characters, every other piece a character that is none, and no two word
pieces are neighbours.  `prevWord` tells whether a word piece stands before
the list. -/
def wellSeg : Bool → List Segment → Bool
  | _, [] => true
  | _, .sep c :: rest => !isWordChar c && wellSeg false rest
  | prevWord, .word w :: rest =>
    !prevWord && !w.isEmpty && w.all isWordChar && wellSeg true rest

/-- The text the loop of `evaluateFormula` puts for the word `w`: the text of
`value || 0` for the first entry whose key is `w`, and `w` itself when there
is none. -/
def lookupText : List (List Char × JsVal) → List Char → List Char
  | [], w => w
  | (key, value) :: rest, w =>
    if w = key then jsToString (orZero value) else lookupText rest w

/-- The text of the pieces after every word piece is looked up in the binding
set. -/
def substAllSegs (values : List (List Char × JsVal)) : List Segment → List Char
  | [] => []
  | .word w :: rest => lookupText values w ++ substAllSegs values rest
  | .sep c :: rest => c :: substAllSegs values rest

/-- No replacement text of the binding set holds a key of the binding set as a
whole word, so that a later replacement leaves an earlier one as it is. -/
def freshTexts (values : List (List Char × JsVal)) : Bool :=
  values.all fun kv => values.all fun kv1 =>
    !(segments (jsToString (orZero kv.2))).contains (.word kv1.1)

/-- Every key of the binding set is made of word characters. -/
def wordKeys (values : List (List Char × JsVal)) : Bool :=
  values.all fun kv => isWordKey kv.1

/-- The pieces of the text after one replacement: the pieces of the
replacement text in place of every word piece `key`. -/
def replSegs (key rep : List Char) : List Segment → List Segment
  | [] => []
  | .word w :: rest =>
    (if w = key then segments rep else [.word w]) ++ replSegs key rep rest
  | .sep c :: rest => .sep c :: replSegs key rep rest

/-- A token that can start an expression: an operand, `(`, or a sign. -/
def startsOperand : Token → Bool
  | .num _ => true
  | .ident _ => true
  | .lparen => true
  | .plus => true
  | .minus => true
  | _ => false

/-- A binary operator token. -/
def isBinaryOp : Token → Bool
  | .plus => true
  | .minus => true
  | .star => true
  | .slash => true
  | .percent => true
  | .pow => true
  | _ => false

/-- May token `b` follow token `a` in an expression?  After an operand or `)`
comes a binary operator or `)`; after an operator or `(` comes the start of
an operand; `++`, `--` and rejected literals fit nowhere. -/
def validPair (a b : Token) : Bool :=
  if endsOperand a then isBinaryOp b || b == .rparen
  else if isBinaryOp a || a == .lparen then startsOperand b
  else false

/-- Every token of the list may follow the one before it, `prev` being the
token before the list. -/
def chainOk : Token → List Token → Bool
  | _, [] => true
  | prev, t :: ts => validPair prev t && chainOk t ts

/-- The last token of the list, `prev` for the empty list. -/
def lastOf : Token → List Token → Token
  | prev, [] => prev
  | _, t :: ts => lastOf t ts

/-- The number 5. -/
def n5 : JsNum := JsNum.ofNat 5

/-- A blank or a symbol of the grammar. -/
def isGrammarSep (c : Char) : Bool :=
  c == ' ' || c == '\t' || grammarSymbols.contains c

/-- The expression is built only from the variables of the vocabulary, the
symbols `+ - * / ( )` and blanks. -/
def builtFromGrammar (expression : List Char) : Bool :=
  (segments expression).all fun seg =>
    match seg with
    | .word w => vocabulary.contains w
    | .sep c => isGrammarSep c

/-- The binding set that binds every variable of the vocabulary to 0. -/
def zeroBindings : List (List Char × JsVal) :=
  vocabulary.map fun x => (x, .num JsNum.zero)

/-- A character of a text in which every variable has been replaced by `0`. -/
def isZeroChar (c : Char) : Bool :=
  c == '0' || isGrammarSep c

/-- A token of such a text: no name, and no number but zero. -/
def zeroTok : Token → Bool
  | .num n => n == JsNum.zero
  | .ident _ => false
  | _ => true

/-- A number that is NaN or a zero of either sign. -/
def zeroish : JsNum → Bool
  | .nan => true
  | .fin _ m _ => m == 0
  | .inf _ => false

/-! ## The formula grammar of the specification -/

/-- A parse tree of the formula grammar: variables, decimal literals, the
four binary operators and parentheses.  Every token carries the number of
blanks written before it (`paren` also those before its `)`). -/
inductive Formula where
  | var (sp : Nat) (x : List Char) : Formula
  | lit (sp : Nat) (intDigits fracDigits : List Char) (point : Bool) : Formula
  | paren (sp : Nat) (e : Formula) (sp2 : Nat) : Formula
  | mul (l : Formula) (sp : Nat) (r : Formula) : Formula
  | div (l : Formula) (sp : Nat) (r : Formula) : Formula
  | add (l : Formula) (sp : Nat) (r : Formula) : Formula
  | sub (l : Formula) (sp : Nat) (r : Formula) : Formula
  deriving DecidableEq, Repr

/-- The level of a tree: 0 for a factor, 1 for a product or quotient, 2 for a
sum or difference. -/
def Formula.level : Formula → Nat
  | .var _ _ => 0
  | .lit _ _ _ _ => 0
  | .paren _ _ _ => 0
  | .mul _ _ _ => 1
  | .div _ _ _ => 1
  | .add _ _ _ => 2
  | .sub _ _ _ => 2

/-- An identifier of the specification, `[a-z_]+`. -/
def isVarName (x : List Char) : Bool :=
  !x.isEmpty && x.all fun c => c.isLower || c == '_'

/-- The tree follows the grammar with standard precedence: `*` and `/` bind
tighter than `+` and `-`, all four associate to the left, and parentheses
override.  A literal is `digits`, `digits.` or `digits.digits` without a
superfluous leading zero. -/
def Formula.wf : Formula → Bool
  | .var _ x => isVarName x
  | .lit _ i f p =>
    !i.isEmpty && i.all Char.isDigit && f.all Char.isDigit && (p || f.isEmpty) &&
      (i.length == 1 || i.head? != some '0')
  | .paren _ e _ => e.wf
  | .mul l _ r => l.wf && r.wf && decide (l.level ≤ 1) && decide (r.level = 0)
  | .div l _ r => l.wf && r.wf && decide (l.level ≤ 1) && decide (r.level = 0)
  | .add l _ r => l.wf && r.wf && decide (r.level ≤ 1)
  | .sub l _ r => l.wf && r.wf && decide (r.level ≤ 1)

/-- A run of `n` blanks. -/
def blanks (n : Nat) : List Char := List.replicate n ' '

/-- The expression string of a tree. -/
def Formula.text : Formula → List Char
  | .var sp x => blanks sp ++ x
  | .lit sp i f p => blanks sp ++ (i ++ (if p then '.' :: f else []))
  | .paren sp e sp2 => blanks sp ++ '(' :: (e.text ++ (blanks sp2 ++ [')']))
  | .mul l sp r => l.text ++ (blanks sp ++ '*' :: r.text)
  | .div l sp r => l.text ++ (blanks sp ++ '/' :: r.text)
  | .add l sp r => l.text ++ (blanks sp ++ '+' :: r.text)
  | .sub l sp r => l.text ++ (blanks sp ++ '-' :: r.text)

/-- The number `value || 0` stands for, for the first entry whose key is `x`;
`+0` when there is none. -/
def lookupNum : List (List Char × JsVal) → List Char → JsNum
  | [], _ => JsNum.zero
  | (key, value) :: rest, x =>
    if x = key then toNumber (orZero value) else lookupNum rest x

/-- The arithmetic value of a tree in binary64 arithmetic, every variable
standing for its bound number. -/
def Formula.value (values : List (List Char × JsVal)) : Formula → JsNum
  | .var _ x => lookupNum values x
  | .lit _ i f _ => decimalValue i f 0
  | .paren _ e _ => e.value values
  | .mul l _ r => (l.value values).mul (r.value values)
  | .div l _ r => (l.value values).div (r.value values)
  | .add l _ r => (l.value values).add (r.value values)
  | .sub l _ r => (l.value values).sub (r.value values)

/-- The tokens of a tree once every variable is replaced by its number. -/
def Formula.toks (values : List (List Char × JsVal)) : Formula → List Token
  | .var _ x => [.num (lookupNum values x)]
  | .lit _ i f _ => [.num (decimalValue i f 0)]
  | .paren _ e _ => .lparen :: (e.toks values ++ [.rparen])
  | .mul l _ r => l.toks values ++ .star :: r.toks values
  | .div l _ r => l.toks values ++ .slash :: r.toks values
  | .add l _ r => l.toks values ++ .plus :: r.toks values
  | .sub l _ r => l.toks values ++ .minus :: r.toks values

/-- The syntax tree JavaScript builds for a tree of the grammar. -/
def Formula.expr (values : List (List Char × JsVal)) : Formula → JsExpr
  | .var _ x => .lit (.num (lookupNum values x))
  | .lit _ i f _ => .lit (.num (decimalValue i f 0))
  | .paren _ e _ => e.expr values
  | .mul l _ r => .bin .mul (l.expr values) (r.expr values)
  | .div l _ r => .bin .div (l.expr values) (r.expr values)
  | .add l _ r => .bin .add (l.expr values) (r.expr values)
  | .sub l _ r => .bin .sub (l.expr values) (r.expr values)

/-- The number of factors of a product read from the left: one more than the
`*` and `/` at the top of the tree. -/
def Formula.mulSteps : Formula → Nat
  | .mul l _ _ => l.mulSteps + 1
  | .div l _ _ => l.mulSteps + 1
  | _ => 1

/-- The number of terms of a sum read from the left: one more than the `+` and
`-` at the top of the tree. -/
def Formula.addSteps : Formula → Nat
  | .add l _ _ => l.addSteps + 1
  | .sub l _ _ => l.addSteps + 1
  | _ => 1

/-- A token list that does not go on an exponentiation operand: it starts
neither with `**` nor with `(`. -/
def okAfterOperand : List Token → Bool
  | .pow :: _ => false
  | .lparen :: _ => false
  | _ => true

/-- A token list that does not go on a product: as `okAfterOperand`, and it
starts with none of `*`, `/`, `%`. -/
def okAfterProduct : List Token → Bool
  | .pow :: _ => false
  | .lparen :: _ => false
  | .star :: _ => false
  | .slash :: _ => false
  | .percent :: _ => false
  | _ => true

/-- A token list that does not go on a sum: as `okAfterProduct`, and it starts
with neither `+` nor `-`. -/
def okAfterSum : List Token → Bool
  | .pow :: _ => false
  | .lparen :: _ => false
  | .star :: _ => false
  | .slash :: _ => false
  | .percent :: _ => false
  | .plus :: _ => false
  | .minus :: _ => false
  | _ => true

/-- A character that ends a numeral: no digit, no point, no letter, `_` or `$`. -/
def isDelim (c : Char) : Bool :=
  !c.isDigit && c != '.' && !isIdentPart c

/-- The text is empty or starts with a character that ends a numeral. -/
def delimStart : List Char → Bool
  | [] => true
  | c :: _ => isDelim c

/-- The expression string of a tree after the substitution loop: every
variable is replaced by the text the binding set gives it. -/
def Formula.textWith (values : List (List Char × JsVal)) : Formula → List Char
  | .var sp x => blanks sp ++ lookupText values x
  | .lit sp i f p => blanks sp ++ (i ++ (if p then '.' :: f else []))
  | .paren sp e sp2 => blanks sp ++ '(' :: (e.textWith values ++ (blanks sp2 ++ [')']))
  | .mul l sp r => l.textWith values ++ (blanks sp ++ '*' :: r.textWith values)
  | .div l sp r => l.textWith values ++ (blanks sp ++ '/' :: r.textWith values)
  | .add l sp r => l.textWith values ++ (blanks sp ++ '+' :: r.textWith values)
  | .sub l sp r => l.textWith values ++ (blanks sp ++ '-' :: r.textWith values)

/-- The number of blanks and tokens of a tree: the steps the lexer takes. -/
def Formula.steps : Formula → Nat
  | .var sp _ => sp + 1
  | .lit sp _ _ _ => sp + 1
  | .paren sp e sp2 => sp + 1 + e.steps + sp2 + 1
  | .mul l sp r => l.steps + sp + 1 + r.steps
  | .div l sp r => l.steps + sp + 1 + r.steps
  | .add l sp r => l.steps + sp + 1 + r.steps
  | .sub l sp r => l.steps + sp + 1 + r.steps

/-- Every variable of the tree has an entry in the binding set. -/
def Formula.bound (values : List (List Char × JsVal)) : Formula → Bool
  | .var _ x => values.any fun kv => kv.1 == x
  | .lit _ _ _ _ => true
  | .paren _ e _ => e.bound values
  | .mul l _ r => l.bound values && r.bound values
  | .div l _ r => l.bound values && r.bound values
  | .add l _ r => l.bound values && r.bound values
  | .sub l _ r => l.bound values && r.bound values

/-- The text `t` is a numeral that reads as the number `n`: it starts with a
digit and the lexer takes all of it as the literal `n`. -/
def numeralOk (t : List Char) (n : JsNum) : Bool :=
  (t.head?.map Char.isDigit == some true) && decide (lexNumber t = (.num n, []))

/-- The value `value || 0` of a binding is a finite number that is not
negative, and its decimal text reads back as the same number (as ECMAScript
requires of `Number::toString`). -/
def goodBinding (v : JsVal) : Bool :=
  match orZero v with
  | .num (.fin false m e) => numeralOk (numberToString (.fin false m e)) (.fin false m e)
  | _ => false

/-- Every binding is keyed by an identifier and holds a finite number that is
not negative. -/
def goodBindings (values : List (List Char × JsVal)) : Bool :=
  values.all fun kv => isVarName kv.1 && goodBinding kv.2

/-- The text starts with a blank, a digit or `(`: an operand follows. -/
def operandStart : List Char → Bool
  | c :: _ => c == ' ' || c.isDigit || c == '('
  | [] => false

/-- The bindings `profit_l = 50000`, `expected_profit_pct = 15.5` of the
example of the specification. -/
def exampleValues : List (List Char × JsVal) :=
  [("profit_l".toList, .num (JsNum.ofNat 50000)),
   ("expected_profit_pct".toList, .num (decimalValue "15".toList "5".toList 0))]

/-- The parse tree of `profit_l / (expected_profit_pct / 100)`. -/
def exampleFormula : Formula :=
  .div (.var 0 "profit_l".toList) 1
    (.paren 1 (.div (.var 0 "expected_profit_pct".toList) 1
      (.lit 1 "100".toList [] false)) 0)

/-- The bindings `profit_l = 3`, `investment_l = -5`. -/
def negativeValues : List (List Char × JsVal) :=
  [("profit_l".toList, .num (JsNum.ofNat 3)),
   ("investment_l".toList, .num (JsNum.ofNat 5).neg)]

/-- The parse tree of `profit_l-investment_l`. -/
def differenceFormula : Formula :=
  .sub (.var 0 "profit_l".toList) 0 (.var 0 "investment_l".toList)

/-! ## Sign-up: the username made from an e-mail address -/

/-- The characters that `makeUsername` keeps, the class `[a-z0-9._-]` (the
others match `/[^a-z0-9._-]/g` and are removed). -/
def isUsernameChar (c : Char) : Bool :=
  c.isLower || c.isDigit || c == '.' || c == '_' || c == '-'

/-- The text `email.split("@")[0]`: what stands before the first `@`, all of
the address when it holds none. -/
def localPart (email : List Char) : List Char :=
  email.takeWhile fun c => c != '@'

/-- The decimal text of an integer; a time value is integral and below
`10^21` in magnitude, so `"user" + Date.now()` appends these digits. -/
def intText (n : Int) : List Char :=
  if n < 0 then '-' :: natDigits n.natAbs else natDigits n.natAbs

/-- The function `makeUsername(email)` of `signup.client.js`; `toLowerCase` is
`String.prototype.toLowerCase` and `now` the value of `Date.now()`. -/
def makeUsername (toLowerCase : List Char → List Char) (now : Int)
    (email : List Char) : List Char :=
  let lowered := toLowerCase (localPart email)
  let cleaned := lowered.filter isUsernameChar
  let head := cleaned.take 30
  if head.isEmpty then "user".toList ++ intText now else head

/-- The lower-casing of ASCII letters. -/
def asciiLower (s : List Char) : List Char := s.map Char.toLower

/-! ## Navigation after login -/

/-- An argument of a page function: a string, or a primitive that is not a
string. -/
inductive JsArg where
  | str (s : List Char) : JsArg
  | prim (v : JsVal) : JsArg
  deriving DecidableEq, Repr

/-- The text `String(type || "")`. -/
def argText : JsArg → List Char
  | .str s => s
  | .prim v => if toBoolean v then jsToString v else []

/-- White space and line terminators of ECMAScript, which `trim` removes. -/
def isJsSpace (c : Char) : Bool :=
  let n := c.toNat
  n == 9 || n == 10 || n == 11 || n == 12 || n == 13 || n == 32 || n == 160 ||
    n == 5760 || (8192 ≤ n && n ≤ 8202) || n == 8232 || n == 8233 || n == 8239 ||
    n == 8287 || n == 12288 || n == 65279

/-- The method `String.prototype.trim`. -/
def jsTrim (s : List Char) : List Char :=
  ((s.dropWhile isJsSpace).reverse.dropWhile isJsSpace).reverse

/-- What `routeAfterLogin` acts on: the entries of `localStorage`, whether
`localStorage.setItem` throws (storage blocked or full), and the string last
assigned to `window.location.href`. -/
structure Browser where
  storage : List (List Char × List Char)
  storageThrows : Bool
  href : List Char
  deriving DecidableEq, Repr

/-- The call `localStorage.setItem(key, value)` on the entries. -/
def setItem (key value : List Char) :
    List (List Char × List Char) → List (List Char × List Char)
  | [] => [(key, value)]
  | (k, v) :: rest => if k = key then (k, value) :: rest else (k, v) :: setItem key value rest

/-- The template literal assigned to `window.location.href` in
`routeAfterLogin`, as it stands in `form-navbar.js` (lines 74-76): it holds
no `${`, so its value is this fixed text, line breaks included. -/
def dashboardHref : List Char :=
  "/web/Dashboard.html\n      roleParam\n    )\x7d".toList

/-- The function `routeAfterLogin(type)` of `form-navbar.js`; `toLowerCase` is
`String.prototype.toLowerCase`. -/
def routeAfterLogin (toLowerCase : List Char → List Char) (type : JsArg)
    (b : Browser) : Browser :=
  let t := toLowerCase (jsTrim (argText type))
  let roleParam : List Char :=
    if t = "staff".toList ∨ t = "admin".toList then "Staff".toList
    else if t = "partner".toList ∨ t = "partners".toList ∨ t = "bank_partner".toList then
      "Partner".toList
    else "Partner".toList
  let norm := roleParam.map Char.toUpper
  let b1 := if b.storageThrows then b
    else { b with storage := setItem "eskala_role".toList norm b.storage }
  { b1 with href := dashboardHref }

/-- A browser with empty storage on the login page. -/
def loginPage : Browser :=
  { storage := [], storageThrows := false, href := "/web/login.html".toList }

/-! ## Exchange rates: the unified table -/

/-- A record of the rates list, as `combineRatesAndHistory` reads it;
`valid_to` is `null` for the rate in force. -/
structure Rate where
  from_currency : List Char
  to_currency : List Char
  rate : JsNum
  valid_from : List Char
  valid_to : Option (List Char)
  deriving DecidableEq, Repr

/-- A record of the history list. -/
structure HistoryRecord where
  from_currency : List Char
  to_currency : List Char
  effective_date : List Char
  changed_by : List Char
  changed_at : List Char
  reason : List Char
  deriving DecidableEq, Repr

/-- A row of the unified table. -/
structure UnifiedRow where
  from_currency : List Char
  to_currency : List Char
  rate : JsNum
  valid_from : List Char
  valid_to : Option (List Char)
  status : List Char
  changed_by : List Char
  changed_at : List Char
  reason : List Char
  deriving DecidableEq, Repr

/-- The key text of a currency pair at a date, joined by `-`. -/
def historyKey (fromCurrency toCurrency date : List Char) : List Char :=
  fromCurrency ++ '-' :: (toCurrency ++ '-' :: date)

/-- The method `Map.prototype.set`: an existing key keeps its place and takes
the new value, a new key goes last. -/
def mapSet (key : List Char) (h : HistoryRecord) :
    List (List Char × HistoryRecord) → List (List Char × HistoryRecord)
  | [] => [(key, h)]
  | (k, v) :: rest => if k = key then (k, h) :: rest else (k, v) :: mapSet key h rest

/-- The method `Map.prototype.get`. -/
def mapGet (key : List Char) : List (List Char × HistoryRecord) → Option HistoryRecord
  | [] => none
  | (k, v) :: rest => if k = key then some v else mapGet key rest

/-- The row pushed for one rate. -/
def unifiedRow (historyMap : List (List Char × HistoryRecord)) (rate : Rate) : UnifiedRow :=
  let historyRecord :=
    mapGet (historyKey rate.from_currency rate.to_currency rate.valid_from) historyMap
  { from_currency := rate.from_currency
    to_currency := rate.to_currency
    rate := rate.rate
    valid_from := rate.valid_from
    valid_to := rate.valid_to
    status :=
      if rate.valid_to = none ∨ rate.valid_to = some [] then "current".toList
      else "expired".toList
    changed_by := match historyRecord with
      | some h => h.changed_by
      | none => "System".toList
    changed_at := match historyRecord with
      | some h => h.changed_at
      | none => rate.valid_from
    reason := match historyRecord with
      | some h => h.reason
      | none => "—".toList }

/-- The comparator `(a, b) => new Date(b.valid_from) - new Date(a.valid_from)`;
`parseDate` is the time value of `new Date(text)`, `none` for an invalid
date, whose difference is `NaN`, which `sort` takes as `+0`. -/
def compareRows (parseDate : List Char → Option Int) (a b : UnifiedRow) : Int :=
  match parseDate b.valid_from, parseDate a.valid_from with
  | some tb, some ta => tb - ta
  | _, _ => 0

/-- The method `Array.prototype.sort` with that comparator: a stable sort, here
by insertion; `a` stays before `b` when the comparator is not positive. -/
def sortRows (parseDate : List Char → Option Int) (rows : List UnifiedRow) : List UnifiedRow :=
  rows.insertionSort fun a b => compareRows parseDate a b ≤ 0

/-- The function `combineRatesAndHistory(rates, history)` of
`exchange-rate-manager.client.js`. -/
def combineRatesAndHistory (parseDate : List Char → Option Int) (rates : List Rate)
    (history : List HistoryRecord) : List UnifiedRow :=
  let historyMap := history.foldl
    (fun m h => mapSet (historyKey h.from_currency h.to_currency h.effective_date) h m) []
  let unified := rates.map (unifiedRow historyMap)
  sortRows parseDate unified

/-- The rate a row was made from, read back from the row. -/
def UnifiedRow.toRate (r : UnifiedRow) : Rate :=
  { from_currency := r.from_currency, to_currency := r.to_currency, rate := r.rate,
    valid_from := r.valid_from, valid_to := r.valid_to }

/-- The time value of the `valid_from` of a row; 0 stands in for an invalid
date. -/
def UnifiedRow.time (parseDate : List Char → Option Int) (r : UnifiedRow) : Int :=
  (parseDate r.valid_from).getD 0

/-- The time values of two dates, as `new Date` reads them: a sample of
`parseDate`. -/
def sampleDates (text : List Char) : Option Int :=
  if text = "2024-01-01".toList then some 1704067200000
  else if text = "2024-06-01".toList then some 1717200000000
  else none

/-- Two rates, the older one first. -/
def sampleRates : List Rate :=
  [{ from_currency := "HNL".toList, to_currency := "USD".toList, rate := JsNum.ofNat 25,
     valid_from := "2024-01-01".toList, valid_to := some "2024-06-01".toList },
   { from_currency := "HNL".toList, to_currency := "USD".toList, rate := JsNum.ofNat 26,
     valid_from := "2024-06-01".toList, valid_to := none }]

/-! ## The formula manager: parsing an expression into components -/

/-- The text after an optional sign `+` or `-`. -/
def dropSign : List Char → List Char
  | '-' :: u => u
  | '+' :: u => u
  | t => t

/-- The global function `parseFloat(text)`: leading white space is skipped and
the longest prefix that is a decimal literal (sign, `Infinity`, digits, point,
exponent) is read; `NaN` when there is none. -/
def parseFloat (text : List Char) : JsNum :=
  let t := text.dropWhile isJsSpace
  let neg : Bool := t.head? == some '-'
  let u := dropSign t
  match stripKey "Infinity".toList u with
  | some _ => .inf neg
  | none =>
    let intDigits := u.takeWhile Char.isDigit
    let r1 := u.dropWhile Char.isDigit
    if intDigits.isEmpty && (fracDigitsOf r1).isEmpty then .nan
    else
      let v := decimalValue intDigits (fracDigitsOf r1) (lexExponent (afterFraction r1)).1
      if neg then v.neg else v

/-- The names of `AVAILABLE_VARIABLES` in `formula-manager.client.js`. -/
def AVAILABLE_VARIABLES : List (List Char) :=
  ["profit_l".toList, "expected_profit_pct".toList, "company_value_l".toList,
   "investment_l".toList, "exchange_rate".toList]

/-- The symbols of `AVAILABLE_OPERATORS` in `formula-manager.client.js`. -/
def AVAILABLE_OPERATORS : List (List Char) :=
  [['+'], ['-'], ['*'], ['/'], ['('], [')']]

/-- The class `[a-z_]` under the flag `i`: the ASCII letters and `_`. -/
def isNameChar (c : Char) : Bool := c.isAlpha || c == '_'

/-- The class `[+\-*/()]`. -/
def isOperatorChar (c : Char) : Bool :=
  c == '+' || c == '-' || c == '*' || c == '/' || c == '(' || c == ')'

/-- A match of `/([a-z_]+|\d+\.?\d*|[+\-*/()])/i` at the very start of the text:
the matched token and the text after it.  The alternatives are tried in order
and every quantifier is greedy. -/
def matchAt : List Char → Option (List Char × List Char)
  | [] => none
  | c :: s =>
    if isNameChar c then some (c :: s.takeWhile isNameChar, s.dropWhile isNameChar)
    else if c.isDigit then
      let r1 := s.dropWhile Char.isDigit
      match r1 with
      | '.' :: r2 =>
        some (c :: (s.takeWhile Char.isDigit ++ '.' :: r2.takeWhile Char.isDigit),
          r2.dropWhile Char.isDigit)
      | _ => some (c :: s.takeWhile Char.isDigit, r1)
    else if isOperatorChar c then some ([c], s)
    else none

/-- The matches of `text.match(/([a-z_]+|\d+\.?\d*|[+\-*/()])/gi) || []`: the scan goes
on after each match and skips a character where nothing matches.  `fuel`
bounds the number of steps; the length of the text is enough. -/
def matchAll : Nat → List Char → List (List Char)
  | 0, _ => []
  | _ + 1, [] => []
  | fuel + 1, c :: s =>
    match matchAt (c :: s) with
    | some (token, rest) => token :: matchAll fuel rest
    | none => matchAll fuel s

/-- The type of a component of the formula builder. -/
inductive ComponentType where
  | variable | operator | number
  deriving DecidableEq, Repr

/-- A component `{ type, value }` of the formula builder. -/
structure Component where
  type : ComponentType
  value : List Char
  deriving DecidableEq, Repr

/-- The body of the `forEach` of `parseFormula`: the component pushed for a
token, or none. -/
def componentOf (token : List Char) : Option Component :=
  if token ∈ AVAILABLE_VARIABLES then some { type := .variable, value := token }
  else if token ∈ AVAILABLE_OPERATORS then some { type := .operator, value := token }
  else if !isNaN (.num (parseFloat token)) then some { type := .number, value := token }
  else none

/-- The array `expression.match(/([a-z_]+|\d+\.?\d*|[+\-*/()])/gi) || []`. -/
def matchTokens (expression : List Char) : List (List Char) :=
  matchAll expression.length expression

/-- The function `parseFormula(expression)` of `formula-manager.client.js`. -/
def parseFormula (expression : List Char) : List Component :=
  (matchTokens expression).filterMap componentOf

/-- The expression `formulaComponents.map(c => c.value).join(' ')` of
`updateFormulaPreview`. -/
def joinValues : List Component → List Char
  | [] => []
  | [c] => c.value
  | c :: d :: rest => c.value ++ ' ' :: joinValues (d :: rest)

/-- An edit event of the formula builder: the `change` of the select or the
`input` of the number field rendered for the component at `index`, with the
new value of the control. -/
structure Edit where
  index : Nat
  value : List Char
  deriving DecidableEq, Repr

/-- The assignment `formulaComponents[index].value = e.target.value`. -/
def setValue (index : Nat) (value : List Char) : List Component → List Component
  | [] => []
  | c :: rest =>
    match index with
    | 0 => { c with value := value } :: rest
    | i + 1 => c :: setValue i value rest

/-- The effect of an edit event on `formulaComponents`: `renderFormulaBuilder` gives a
listener to the controls of operator and number components only; a
variable is rendered as a label, which raises no event. -/
def applyEdit (formulaComponents : List Component) (e : Edit) : List Component :=
  match formulaComponents.get? e.index with
  | some c =>
    if c.type = .variable then formulaComponents
    else setValue e.index e.value formulaComponents
  | none => formulaComponents

/-- A sequence of edit events. -/
def applyEdits (formulaComponents : List Component) (edits : List Edit) : List Component :=
  edits.foldl applyEdit formulaComponents

/-- The text is empty or starts with a blank or an operator symbol: a token
before it ends there. -/
def sepStart : List Char → Bool
  | [] => true
  | c :: _ => c == ' ' || isOperatorChar c

/-- The shapes of a token the pattern of `parseFormula` matches: letters and
`_`; digits, with an optional point and further digits; one operator
symbol. -/
def isLexeme : List Char → Bool
  | [] => false
  | c :: s =>
    if isNameChar c then s.all isNameChar
    else if c.isDigit then
      (s.dropWhile Char.isDigit).isEmpty ||
        ((s.dropWhile Char.isDigit).head? == some '.' &&
          ((s.dropWhile Char.isDigit).drop 1).all Char.isDigit)
    else isOperatorChar c && s.isEmpty

/-- The components of a tree of the grammar, one per token in source order:
a variable component for a variable, a number component for a literal, an
operator component for each of `+ - * / ( )`. -/
def Formula.components : Formula → List Component
  | .var _ x => [{ type := .variable, value := x }]
  | .lit _ i f p => [{ type := .number, value := i ++ (if p then '.' :: f else []) }]
  | .paren _ e _ =>
    { type := .operator, value := ['('] } ::
      (e.components ++ [{ type := .operator, value := [')'] }])
  | .mul l _ r => l.components ++ { type := .operator, value := ['*'] } :: r.components
  | .div l _ r => l.components ++ { type := .operator, value := ['/'] } :: r.components
  | .add l _ r => l.components ++ { type := .operator, value := ['+'] } :: r.components
  | .sub l _ r => l.components ++ { type := .operator, value := ['-'] } :: r.components

/-- The tokens of the tree are tokens of the formula builder: every variable
is one of `names`, every literal is `digits`, `digits.` or `digits.digits`. -/
def Formula.tokensOk (names : List (List Char)) : Formula → Bool
  | .var _ x => decide (x ∈ names)
  | .lit _ i f p => !i.isEmpty && i.all Char.isDigit && f.all Char.isDigit && (p || f.isEmpty)
  | .paren _ e _ => e.tokensOk names
  | .mul l _ r => l.tokensOk names && r.tokensOk names
  | .div l _ r => l.tokensOk names && r.tokensOk names
  | .add l _ r => l.tokensOk names && r.tokensOk names
  | .sub l _ r => l.tokensOk names && r.tokensOk names

/-! ## Autosave: the storage key of a draft -/

/-- The session data `check-session` answers with, as `getCurrentUserKey` reads
it: `email` and `username` are strings or absent, `user_id` a number or
absent. -/
structure SessionData where
  email : Option (List Char)
  username : Option (List Char)
  user_id : Option Nat
  deriving DecidableEq, Repr

/-- A string field is truthy when it is there and not empty. -/
def truthyText : Option (List Char) → Option (List Char)
  | some (c :: s) => some (c :: s)
  | _ => none

/-- The function `getCurrentUserKey()` of the form scripts (the same body in
`profit_form.client.js`, `matching-equity.client.js`, `Equity_Entry.client.js` and
`Equity_Conversion.client.js`); `response` is `none` when the request or the
reading of its JSON throws, or when the data is `null`. -/
def getCurrentUserKey (toLowerCase : List Char → List Char)
    (response : Option SessionData) : List Char :=
  match response with
  | none => "anonymous".toList
  | some data =>
    match truthyText data.email with
    | some email => toLowerCase email
    | none =>
      match truthyText data.username with
      | some username => toLowerCase username
      | none =>
        match data.user_id with
        | some (n + 1) => natDigits (n + 1)
        | _ => "anonymous".toList

/-- The line `this.storageKey = options.storageKey || ("autosave_" + formId)` of
the constructor of `FormAutosave`. -/
def FormAutosave.storageKey (formId : List Char) (optionsStorageKey : Option (List Char)) :
    List Char :=
  match truthyText optionsStorageKey with
  | some key => key
  | none => "autosave_".toList ++ formId

/-- The scripts that make a `FormAutosave`. -/
inductive AutosaveScript where
  | profitFormClient | matchingEquity | equityEntry | equityConversion
  | loanVsInvestments | profitForm
  deriving DecidableEq, Repr

/-- The storage key of the `FormAutosave` each script makes, for the user key
`getCurrentUserKey` returned: four scripts pass
`storageKey: "autosave_<form>:" + userKey`; `Loan_vs_Investments.client.js` (line
633) and `profit_form.js` (line 167) pass no `storageKey`. -/
def AutosaveScript.storageKey (userKey : List Char) : AutosaveScript → List Char
  | .profitFormClient =>
    FormAutosave.storageKey "profit-form".toList
      (some ("autosave_profit-form:".toList ++ userKey))
  | .matchingEquity =>
    FormAutosave.storageKey "matching-form".toList
      (some ("autosave_matching-equity:".toList ++ userKey))
  | .equityEntry =>
    FormAutosave.storageKey "equity-form".toList
      (some ("autosave_equity-entry:".toList ++ userKey))
  | .equityConversion =>
    FormAutosave.storageKey "conversion-form".toList
      (some ("autosave_equity-conversion:".toList ++ userKey))
  | .loanVsInvestments => FormAutosave.storageKey "ivl-form".toList none
  | .profitForm => FormAutosave.storageKey "profit-form".toList none

/-- The session of the user `ana@eskala.org`. -/
def sessionAna : SessionData :=
  { email := some "Ana@eskala.org".toList, username := some "ana".toList, user_id := some 7 }

/-- The session of the user `luis@eskala.org`. -/
def sessionLuis : SessionData :=
  { email := some "luis@eskala.org".toList, username := some "luis".toList, user_id := some 8 }

/-! ## Form submission: requests in flight -/

/-- What a submit handler does against a second submission while a request
is pending: `disableButton` sets `submitButton.disabled = true` before the request
and `false` in its `finally` block (`profit_form.client.js` 259-339,
`matching-equity.client.js` 306-381, `Loan_vs_Investments.client.js` 409-441);
`busyFlag` returns at once when `busy` is set, sets it before the request and
clears it in `finally` (`login.client.js` 152-207); `unguarded` does neither
(`Equity_Entry.client.js` 44-124, `Equity_Conversion.client.js`,
`signup.client.js`). -/
inductive Guard where
  | disableButton | busyFlag | unguarded
  deriving DecidableEq, Repr

/-- The submit handlers of the form scripts. -/
inductive SubmitHandler where
  | profitForm | matchingEquity | loanVsInvestments | login
  | equityEntry | equityConversion | signup
  deriving DecidableEq, Repr

/-- The guard each handler has in the source. -/
def SubmitHandler.guard : SubmitHandler → Guard
  | .profitForm => .disableButton
  | .matchingEquity => .disableButton
  | .loanVsInvestments => .disableButton
  | .login => .busyFlag
  | .equityEntry => .unguarded
  | .equityConversion => .unguarded
  | .signup => .unguarded

/-- The state of a form between events: whether its submit button is
disabled, the `busy` variable of the login script, and the number of
submission requests that are in flight. -/
structure FormState where
  disabled : Bool
  busy : Bool
  pending : Nat
  deriving DecidableEq, Repr

/-- An event of a form: the user activates the submit trigger (the fields
pass or fail the checks the handler makes before its request), or a request
in flight settles and the rest of the handler runs, `finally` included. -/
inductive FormEvent where
  | activate (valid : Bool) : FormEvent
  | settle : FormEvent
  deriving DecidableEq, Repr

/-- One event on a form with guard `g`.  A disabled button raises no event.
A handler that fails its checks sends no request and leaves the state as it
was once it has run. -/
def handle (g : Guard) (s : FormState) : FormEvent → FormState
  | .activate valid =>
    if s.disabled then s
    else
      match g with
      | .disableButton =>
        if valid then { s with disabled := true, pending := s.pending + 1 } else s
      | .busyFlag =>
        if s.busy then s
        else if valid then { s with busy := true, pending := s.pending + 1 } else s
      | .unguarded => if valid then { s with pending := s.pending + 1 } else s
  | .settle =>
    match s.pending with
    | 0 => s
    | n + 1 =>
      match g with
      | .disableButton => { s with disabled := false, pending := n }
      | .busyFlag => { s with busy := false, pending := n }
      | .unguarded => { s with pending := n }

/-- The form as the page loads it. -/
def FormState.initial : FormState := { disabled := false, busy := false, pending := 0 }

/-- The state of a form after a sequence of events. -/
def runEvents (g : Guard) (events : List FormEvent) : FormState :=
  events.foldl (handle g) FormState.initial

/-! ## The forms: the calculated fields -/

/-- The value `field?.value` of the element with the given id: none when the
page holds no such element (the variable is `null`). -/
def fieldValue (id : List Char) (w : World) : Option (List Char) :=
  (w.fields.find? fun kv => kv.1 == id).map fun kv => kv.2

/-- The expression `parseFloat(field?.value) || 0`. -/
def readNumber (id : List Char) (w : World) : JsVal :=
  orZero (.num (match fieldValue id w with
    | some text => parseFloat text
    | none => .nan))

/-- The comparison `x > 0` on numbers. -/
def JsNum.isPositive : JsNum → Bool
  | .nan => false
  | .inf neg => !neg
  | .fin neg m _ => !neg && decide (0 < m)

/-- The digits of `n` with a point before the last two, padded with zeros to
three digits at least. -/
def fixedText (n : Nat) : List Char :=
  let padded := List.replicate (3 - (natDigits n).length) '0' ++ natDigits n
  padded.take (padded.length - 2) ++ '.' :: padded.drop (padded.length - 2)

/-- The method call `x.toFixed(2)` on a number: the integer `n` nearest to
`100 * x` (the larger one on a tie) written with two decimals; `ToString(x)`
from `10^21` on and for a value that is not finite. -/
def toFixed2 : JsNum → List Char
  | .fin neg m e =>
    let q := exactNum m e
    if 10 ^ 21 * q.2 ≤ q.1 then numberToString (.fin neg m e)
    else
      (if neg && decide (0 < m) then ['-'] else []) ++
        fixedText ((200 * q.1 + q.2) / (2 * q.2))
  | x => numberToString x

/-- The assignment `values.key = value` on a binding set that holds the key. -/
def setBinding (key : List Char) (value : JsVal) :
    List (List Char × JsVal) → List (List Char × JsVal)
  | [] => []
  | (k, v) :: rest =>
    if k = key then (k, value) :: rest else (k, v) :: setBinding key value rest

/-- The outcome of one block of `calculateFields`: the binding set and the page
it leaves, or a thrown exception. -/
inductive BlockResult where
  | done (values : List (List Char × JsVal)) (w : World) : BlockResult
  | thrown (w : World) : BlockResult
  deriving DecidableEq, Repr

/-- The page with the field `id` set to `text`. -/
def withField (id text : List Char) (w : World) : World :=
  { w with fields := setField id text w.fields }

/-- One block of `calculateFields`, for the computed field shown in the element
`id`:
`if (activeFormulas.f) { const r = evaluateFormula(activeFormulas.f.expression, values);
if (r !== null && r > 0) { field.value = r.toFixed(2); values.f = r; } else { field.value = ""; } }`.
The blocks of `company_value_l` and `investment_l` assign to `values` (`key` is the
name), the block of `investment_usd` does not.  A value that is no number has
no `toFixed`, and an element that is missing cannot be assigned to: both throw
a `TypeError`. -/
def computedField (run : Runtime) (formula : Option (List Char)) (id : List Char)
    (key : Option (List Char)) (values : List (List Char × JsVal)) (w : World) :
    BlockResult :=
  match formula with
  | none => .done values w
  | some expression =>
    match evaluateFormula run expression values w with
    | (.throw, w1) => .thrown w1
    | (.normal result, w1) =>
      if result != .null && (toNumber result).isPositive then
        match result, fieldValue id w1 with
        | .num n, some _ =>
          .done (match key with
            | some k => setBinding k result values
            | none => values) (withField id (toFixed2 n) w1)
        | _, _ => .thrown w1
      else
        match fieldValue id w1 with
        | some _ => .done values (withField id [] w1)
        | none => .thrown w1

/-- The formulas `activeFormulas` loaded from the backend, by computed field;
each one present carries its `expression`. -/
structure ActiveFormulas where
  company_value_l : Option (List Char)
  investment_l : Option (List Char)
  investment_usd : Option (List Char)
  deriving DecidableEq, Repr

/-- The object `values` at the start of `calculateFields` in
`profit_form.client.js`. -/
def ProfitForm.values (w : World) : List (List Char × JsVal) :=
  [("profit_l".toList, readNumber "profit-l".toList w),
   ("expected_profit_pct".toList, readNumber "expected-pct".toList w),
   ("company_value_l".toList, .num JsNum.zero),
   ("investment_l".toList, .num JsNum.zero),
   ("exchange_rate".toList, readNumber "fx".toList w)]

/-- The function `calculateFields()` of `profit_form.client.js` (lines 132-181). -/
def ProfitForm.calculateFields (run : Runtime) (activeFormulas : ActiveFormulas)
    (w : World) : Completion × World :=
  match computedField run activeFormulas.company_value_l "company-value".toList
      (some "company_value_l".toList) (ProfitForm.values w) w with
  | .thrown w1 => (.throw, w1)
  | .done values1 w1 =>
    match computedField run activeFormulas.investment_l "inv-l".toList
        (some "investment_l".toList) values1 w1 with
    | .thrown w2 => (.throw, w2)
    | .done values2 w2 =>
      match computedField run activeFormulas.investment_usd "inv-usd".toList none
          values2 w2 with
      | .thrown w3 => (.throw, w3)
      | .done _ w3 => (.normal .undefined, w3)

/-- The object `values` at the start of `calculateFields` in
`matching-equity.client.js`. -/
def MatchingForm.values (w : World) : List (List Char × JsVal) :=
  [("reported_shares".toList, readNumber "reported-shares".toList w),
   ("investment_l".toList, readNumber "inv-l".toList w),
   ("exchange_rate".toList, readNumber "fx".toList w)]

/-- The function `calculateFields()` of `matching-equity.client.js` (lines 131-149);
only `activeFormulas.investment_usd` is read. -/
def MatchingForm.calculateFields (run : Runtime) (activeFormulas : ActiveFormulas)
    (w : World) : Completion × World :=
  match computedField run activeFormulas.investment_usd "inv-usd".toList none
      (MatchingForm.values w) w with
  | .thrown w1 => (.throw, w1)
  | .done _ w1 => (.normal .undefined, w1)

/-- The matching form with empty inputs and an amount left in `inv-usd`. -/
def matchingPage : World :=
  { fields := [("reported-shares".toList, []), ("inv-l".toList, []),
      ("inv-usd".toList, "12.00".toList), ("fx".toList, [])],
    errorLines := 0, clock := 0 }

/-- The profit form with a profit and a rate typed in. -/
def profitPage : World :=
  { fields := [("profit-l".toList, "50000".toList), ("expected-pct".toList, "15.5".toList),
      ("company-value".toList, []), ("inv-l".toList, []), ("inv-usd".toList, []),
      ("fx".toList, "24.5".toList)],
    errorLines := 0, clock := 0 }

/-! ## The reference evaluator of the specification -/

/-- The token texts of an expression for the reference evaluator: white space
is skipped, a token is read with the pattern of the grammar (a name, a
decimal literal, one of `+ - * / ( )`), and any other character makes the
expression unevaluable.  `fuel` bounds the number of steps; one more than the
length of the text is enough. -/
def referenceLex : Nat → List Char → Option (List (List Char))
  | 0, _ => none
  | _ + 1, [] => some []
  | fuel + 1, c :: s =>
    if isJsSpace c then referenceLex fuel s
    else
      match matchAt (c :: s) with
      | some (token, rest) => (referenceLex fuel rest).map (token :: ·)
      | none => none

/-- The token texts of an expression, with fuel enough for all of it. -/
def referenceLexemes (expression : List Char) : Option (List (List Char)) :=
  referenceLex (expression.length + 1) expression

/-- The number a decimal literal `digits`, `digits.` or `digits.digits` writes. -/
def literalValue (t : List Char) : JsNum :=
  decimalValue (t.takeWhile Char.isDigit) (fracDigitsOf (t.dropWhile Char.isDigit)) 0

/-- The token of a token text for the reference evaluator: a literal is its
number, a recognized variable (one of the six names of the vocabulary) is the
number bound to it, zero when it has no binding, and the six symbols are
themselves; any other token is not recognized. -/
def referenceToken (values : List (List Char × JsVal)) (t : List Char) : Option Token :=
  if t.head?.map Char.isDigit = some true then some (.num (literalValue t))
  else if t ∈ vocabulary then some (.num (lookupNum values t))
  else if t = ['+'] then some .plus
  else if t = ['-'] then some .minus
  else if t = ['*'] then some .star
  else if t = ['/'] then some .slash
  else if t = ['('] then some .lparen
  else if t = [')'] then some .rparen
  else none

/-- The tokens of a list of token texts, when every one is recognized. -/
def referenceTokens (values : List (List Char × JsVal)) : List (List Char) → Option (List Token)
  | [] => some []
  | t :: ts =>
    match referenceToken values t, referenceTokens values ts with
    | some a, some b => some (a :: b)
    | _, _ => none

mutual

/-- A factor: a number, or a sum in parentheses. -/
def referenceFactor : Nat → List Token → Option (JsNum × List Token)
  | 0, _ => none
  | _ + 1, .num n :: rest => some (n, rest)
  | fuel + 1, .lparen :: rest =>
    match referenceSum fuel rest with
    | some (v, .rparen :: rest2) => some (v, rest2)
    | _ => none
  | _ + 1, _ => none

/-- The factors that follow in a term, taken from the left. -/
def referenceTermRest : Nat → JsNum → List Token → Option (JsNum × List Token)
  | 0, _, _ => none
  | fuel + 1, acc, .star :: rest =>
    match referenceFactor fuel rest with
    | some (v, rest2) => referenceTermRest fuel (acc.mul v) rest2
    | none => none
  | fuel + 1, acc, .slash :: rest =>
    match referenceFactor fuel rest with
    | some (v, rest2) => referenceTermRest fuel (acc.div v) rest2
    | none => none
  | _ + 1, acc, rest => some (acc, rest)

/-- A term: factors joined by `*` and `/`. -/
def referenceTerm : Nat → List Token → Option (JsNum × List Token)
  | 0, _ => none
  | fuel + 1, ts =>
    match referenceFactor fuel ts with
    | some (v, rest) => referenceTermRest fuel v rest
    | none => none

/-- The terms that follow in a sum, taken from the left. -/
def referenceSumRest : Nat → JsNum → List Token → Option (JsNum × List Token)
  | 0, _, _ => none
  | fuel + 1, acc, .plus :: rest =>
    match referenceTerm fuel rest with
    | some (v, rest2) => referenceSumRest fuel (acc.add v) rest2
    | none => none
  | fuel + 1, acc, .minus :: rest =>
    match referenceTerm fuel rest with
    | some (v, rest2) => referenceSumRest fuel (acc.sub v) rest2
    | none => none
  | _ + 1, acc, rest => some (acc, rest)

/-- A sum: terms joined by `+` and `-`. -/
def referenceSum : Nat → List Token → Option (JsNum × List Token)
  | 0, _ => none
  | fuel + 1, ts =>
    match referenceTerm fuel ts with
    | some (v, rest) => referenceSumRest fuel v rest
    | none => none

end

/-- The reference evaluator of the specification: a recursive-descent
evaluator over the fixed grammar (literals, the six variable names, `+ - * /`,
parentheses) with standard precedence, in binary64 arithmetic; a binding that
is missing counts as zero.  It gives a finite number, or `none` for
"unevaluable": an unknown token, a malformed expression, or a result that is
not finite. -/
def referenceEvaluate (expression : List Char) (values : List (List Char × JsVal)) :
    Option JsNum :=
  match (referenceLexemes expression).bind (referenceTokens values) with
  | none => none
  | some ts =>
    match referenceSum (4 * ts.length + 4) ts with
    | some (v, []) => if isFinite (.num v) then some v else none
    | _ => none

/-- The result of `evaluateFormula` that stands for an outcome of the reference
evaluator: the number, or `null` for "unevaluable". -/
def referenceResult : Option JsNum → JsVal
  | some v => .num v
  | none => .null

/-- The parse tree of `profit_l + 1`. -/
def incrementFormula : Formula :=
  .add (.var 0 "profit_l".toList) 1 (.lit 1 "1".toList [] false)

/-- A binding set that binds `exchange_rate` only. -/
def rateOnly : List (List Char × JsVal) := [("exchange_rate".toList, .num n2)]

/-- The parse tree of `007 + 1`. -/
def paddedFormula : Formula :=
  .add (.lit 0 "007".toList [] false) 1 (.lit 1 "1".toList [] false)

/-- The number a block of `calculateFields` assigns to `values` for an outcome of
`evaluateFormula`: the result when it is not `null` and greater than 0, and
otherwise the 0 the binding started with. -/
def positiveOrZero : Completion × World → JsNum
  | (.normal result, _) =>
    if result != .null && (toNumber result).isPositive then toNumber result else JsNum.zero
  | (.throw, _) => JsNum.zero

/-- The formulas of a profit form whose company value formula is `true`. -/
def booleanFormulas : ActiveFormulas :=
  { company_value_l := some "true".toList, investment_l := none, investment_usd := none }

/-- The number a block of `calculateFields` computes in a call: that of its
formula's result when greater than 0, and 0 otherwise or without formula. -/
def computedValue (run : Runtime) (formula : Option (List Char))
    (values : List (List Char × JsVal)) (w : World) : JsNum :=
  match formula with
  | none => JsNum.zero
  | some expression => positiveOrZero (evaluateFormula run expression values w)

/-! ## Sign-up: the validation of the form -/

/-- A line terminator, which `.` of a regular expression does not match. -/
def isLineTerminator (c : Char) : Bool :=
  c == '\n' || c == '\r' || c.toNat == 8232 || c.toNat == 8233

/-- The texts that can follow a match of `.+` at the front of a text: one for
every non-empty run of characters that are no line terminators. -/
def afterDotPlus : List Char → List (List Char)
  | [] => []
  | c :: s => if isLineTerminator c then [] else s :: afterDotPlus s

/-- Does `.+@.+\..+` match at the very front of the text? -/
def emailAt (s : List Char) : Bool :=
  (afterDotPlus s).any fun r1 =>
    match r1 with
    | '@' :: r2 =>
      (afterDotPlus r2).any fun r3 =>
        match r3 with
        | '.' :: r4 => !(afterDotPlus r4).isEmpty
        | _ => false
    | _ => false

/-- The test `/.+@.+\..+/.test(email)`: the pattern matches somewhere in the text. -/
def emailPattern (email : List Char) : Bool :=
  email.tails.any emailAt

/-- The test `/^\d{5,}$/.test(rtn)`. -/
def rtnPattern (rtn : List Char) : Bool :=
  rtn.all Char.isDigit && decide (5 ≤ rtn.length)

/-- The `length` of a string: its number of UTF-16 code units. -/
def utf16Length (s : List Char) : Nat :=
  (s.map fun c => if c.toNat < 65536 then 1 else 2).sum

/-- The errors `validateForm` throws, by message. -/
inductive ValidationError where
  | invalidEmail | shortPassword | passwordMismatch | missingRtn | rtnNotNumeric
  deriving DecidableEq, Repr

/-- The message of the `Error` thrown. -/
def ValidationError.message : ValidationError → List Char
  | .invalidEmail => "Please enter a valid email.".toList
  | .shortPassword => "Password must be at least 8 characters.".toList
  | .passwordMismatch => "Passwords do not match.".toList
  | .missingRtn => "Please enter the partner RTN number.".toList
  | .rtnNotNumeric => "RTN must be numeric.".toList

/-- The argument of `validateForm`: the role and the values of the elements;
`rtn` is `none` when the page has no RTN element (`rtnEl?.value`). -/
structure SignupFields where
  roleApi : List Char
  email : List Char
  pw1 : List Char
  pw2 : List Char
  rtn : Option (List Char)
  deriving DecidableEq, Repr

/-- The text `(rtnEl?.value || "").trim()`. -/
def SignupFields.rtnText (f : SignupFields) : List Char := jsTrim (f.rtn.getD [])

/-- The function `validateForm` of `signup.client.js`: the error it throws, `none`
when it returns; `toLowerCase` is `String.prototype.toLowerCase`. -/
def validateForm (toLowerCase : List Char → List Char) (f : SignupFields) :
    Option ValidationError :=
  let email := toLowerCase (jsTrim f.email)
  if email.isEmpty || !emailPattern email then some .invalidEmail
  else if utf16Length f.pw1 < 8 then some .shortPassword
  else if f.pw1 ≠ f.pw2 then some .passwordMismatch
  else if f.roleApi = "COMMUNITY_REP".toList then
    if f.rtnText.isEmpty then some .missingRtn
    else if !rtnPattern f.rtnText then some .rtnNotNumeric
    else none
  else none

/-- A sign-up of a partner. -/
def partnerSignup : SignupFields :=
  { roleApi := "COMMUNITY_REP".toList, email := " Ana@Eskala.org ".toList,
    pw1 := "s3cret-pw".toList, pw2 := "s3cret-pw".toList, rtn := some " 08011999 ".toList }

/-! ## Login: the status shown after a click -/

/-- The field `ok` of a response body: `true`, `false`, or anything else (absent
included). -/
inductive OkField where
  | isTrue | isFalse | other
  deriving DecidableEq, Repr

/-- The body of a login response as the scripts read it; `error` and `message`
are `none` when absent, `role` is `data.user?.role`. -/
structure LoginData where
  ok : OkField
  error : Option (List Char)
  message : Option (List Char)
  needs_verification : Bool
  pending_approval : Bool
  needs_password_setup : Bool
  role : Option (List Char)
  deriving DecidableEq, Repr

/-- The response of `fetch` as `postJSON` reads it: `res.ok`, the text
`res.status + " " + res.statusText`, and the body, `none` when `res.json()` throws. -/
structure HttpResponse where
  ok : Bool
  statusLine : List Char
  data : Option LoginData
  deriving DecidableEq, Repr

/-- The object `{ ok: true }` that `postJSON` returns for a missing body. -/
def LoginData.okOnly : LoginData :=
  { ok := .isTrue, error := none, message := none, needs_verification := false,
    pending_approval := false, needs_password_setup := false, role := none }

/-- The function `postJSON` of `api.js` once `fetch` has answered: the data it
returns, or the message of the `Error` it throws when `res.ok` is false or
`data.ok === false`. -/
def postJSON (res : HttpResponse) : Except (List Char) LoginData :=
  let failed : Bool := !res.ok || (match res.data with
    | some data => data.ok == .isFalse
    | none => false)
  if failed then
    .error (match res.data with
      | some data =>
        match truthyText data.error with
        | some text => text
        | none =>
          match truthyText data.message with
          | some text => text
          | none => res.statusLine
      | none => res.statusLine)
  else .ok (res.data.getD LoginData.okOnly)

/-- The messages of the login status. -/
inductive StatusMessage where
  | verifyEmail | pendingApproval | passwordSetup
  | text (message : List Char)
  deriving DecidableEq, Repr

/-- What a click on the login button ends with: a status shown with its type
(`info` or `error`), or the redirect of `routeAfterLogin` with the role. -/
inductive LoginOutcome where
  | info (message : StatusMessage) : LoginOutcome
  | error (message : StatusMessage) : LoginOutcome
  | redirect (role : List Char) : LoginOutcome
  deriving DecidableEq, Repr

/-- The text `err.message || "Login failed"` of the `catch` block. -/
def errorText (message : List Char) : StatusMessage :=
  .text (if message.isEmpty then "Login failed".toList else message)

/-- The click handler of `wireLogin` (`login.client.js` 153-208) when `busy` is
clear and the credentials are typed in: `res` is what `fetch` answers for the
request of `partnerLogin` or `staffLogin`, and `partner` tells the page. -/
def loginClick (partner : Bool) (res : HttpResponse) : LoginOutcome :=
  match postJSON res with
  | .error message => .error (errorText message)
  | .ok data =>
    if data.ok ≠ .isTrue then
      if data.needs_verification then .info .verifyEmail
      else if data.pending_approval then .info .pendingApproval
      else if data.needs_password_setup then .info .passwordSetup
      else
        .error (errorText ((truthyText data.error).getD "Invalid credentials".toList))
    else
      .redirect ((truthyText data.role).getD
        (if partner then "COMMUNITY_REP".toList else "STAFF".toList))

/-- A body that says the email is not verified. -/
def unverifiedData : LoginData :=
  { ok := .isFalse, error := some "Email not verified".toList, message := none,
    needs_verification := true, pending_approval := false, needs_password_setup := false,
    role := none }

/-- A response `403` with that body. -/
def unverifiedResponse : HttpResponse :=
  { ok := false, statusLine := "403 FORBIDDEN".toList, data := some unverifiedData }

/-! ## Autosave: saving and restoring a draft -/

/-- The kinds of element of a form that the autosave tells apart: `text` is an
`input` of any type but checkbox, radio and file; `other` is an element that is
no `input`, `select` or `textarea` (a button, a `div`). -/
inductive ControlKind where
  | text | checkbox | radio | file | select | textarea | other
  deriving DecidableEq, Repr

/-- An element of a form with what the autosave reads and writes. -/
structure Control where
  kind : ControlKind
  name : List Char
  id : List Char
  value : List Char
  checked : Bool
  deriving DecidableEq, Repr

/-- A value of the draft's `data` object: a boolean or a string. -/
inductive DraftValue where
  | flag (b : Bool) : DraftValue
  | text (s : List Char) : DraftValue
  deriving DecidableEq, Repr

/-- The elements of `querySelectorAll('input:not([type="file"]), select, textarea')`. -/
def Control.isInput (c : Control) : Bool :=
  c.kind != .file && c.kind != .other

/-- The expression `input.name || input.id`. -/
def Control.key (c : Control) : List Char :=
  if c.name.isEmpty then c.id else c.name

/-- The assignment `data[key] = value`: a key that is there keeps its place. -/
def setEntry (key : List Char) (value : DraftValue) :
    List (List Char × DraftValue) → List (List Char × DraftValue)
  | [] => [(key, value)]
  | (k, v) :: rest =>
    if k = key then (k, value) :: rest else (k, v) :: setEntry key value rest

/-- The body of the `forEach` of `saveDraft` for one element. -/
def saveInput (excludeFields : List (List Char)) (data : List (List Char × DraftValue))
    (input : Control) : List (List Char × DraftValue) :=
  if input.isInput && !input.key.isEmpty && !excludeFields.contains input.key then
    match input.kind with
    | .checkbox => setEntry input.key (.flag input.checked) data
    | .radio => if input.checked then setEntry input.key (.text input.value) data else data
    | _ => setEntry input.key (.text input.value) data
  else data

/-- The object `data` that `saveDraft` builds from the form. -/
def draftData (excludeFields : List (List Char)) (form : List Control) :
    List (List Char × DraftValue) :=
  form.foldl (saveInput excludeFields) []

/-- The test of `init` for attaching the save listeners to an element:
`!excludeFields.includes(input.name) && !excludeFields.includes(input.id)`. -/
def listens (excludeFields : List (List Char)) (input : Control) : Bool :=
  input.isInput && !excludeFields.contains input.name && !excludeFields.contains input.id

/-- What `localStorage` holds under a key, as `restoreDraft` reads it: the empty
string; another text that `JSON.parse` rejects; JSON whose `data` cannot be
listed (`null`, or an object without `data`); or a draft with its `data` entries.
The `timestamp` is its time value, `none` when it is missing or no date. -/
inductive Stored where
  | empty : Stored
  | notJson : Stored
  | noData (timestamp : Option Int) : Stored
  | draft (data : List (List Char × DraftValue)) (timestamp : Option Int) : Stored
  deriving DecidableEq, Repr

/-- The call `localStorage.setItem(key, item)`. -/
def storeItem (key : List Char) (item : Stored) :
    List (List Char × Stored) → List (List Char × Stored)
  | [] => [(key, item)]
  | (k, v) :: rest =>
    if k = key then (k, item) :: rest else (k, v) :: storeItem key item rest

/-- The call `localStorage.getItem(key)`. -/
def getItem (key : List Char) : List (List Char × Stored) → Option Stored
  | [] => none
  | (k, v) :: rest => if k = key then some v else getItem key rest

/-- The call `localStorage.removeItem(key)`. -/
def removeItem (key : List Char) (storage : List (List Char × Stored)) :
    List (List Char × Stored) :=
  storage.filter fun kv => kv.1 != key

/-- The method `saveDraft()`: the storage it leaves; `now` is the time value of
`new Date()`. -/
def saveDraft (storageKey : List Char) (excludeFields : List (List Char)) (now : Int)
    (form : List Control) (storage : List (List Char × Stored)) :
    List (List Char × Stored) :=
  let data := draftData excludeFields form
  if data.isEmpty then storage else storeItem storageKey (.draft data (some now)) storage
/-- A key that is an array index (`"0"`, `"17"`): `Object.entries` lists such keys
first, in ascending order. -/
def isIndexKey (key : List Char) : Bool :=
  !key.isEmpty && key.all Char.isDigit && (key.length == 1 || key.head? != some '0') &&
    decide (digitsVal key < 4294967295)

/-- The array `Object.entries(data)`: the index keys in ascending order, then the
other keys in the order they were added. -/
def entriesOf (data : List (List Char × DraftValue)) : List (List Char × DraftValue) :=
  (data.filter fun kv => isIndexKey kv.1).insertionSort
      (fun a b => digitsVal a.1 ≤ digitsVal b.1) ++
    data.filter fun kv => !isIndexKey kv.1

/-- The constant `maxAge`, seven days in milliseconds. -/
def maxAge : Int := 7 * 24 * 60 * 60 * 1000

/-- The test `draftAge > maxAge` for `draftAge = Date.now() - new Date(timestamp).getTime()`; it fails
for a timestamp that is no date. -/
def isExpired (timestamp : Option Int) (now : Int) : Bool :=
  match timestamp with
  | some t => decide (maxAge < now - t)
  | none => false

/-- The element matches `[name='key'], #key`. -/
def Control.matchesKey (key : List Char) (c : Control) : Bool :=
  c.name == key || c.id == key

/-- The index of the element `form.querySelector("[name='key'], #key")` finds: the first
one in document order that matches. -/
def findFirst (key : List Char) : List Control → Option Nat
  | [] => none
  | c :: rest => if c.matchesKey key then some 0 else (findFirst key rest).map (· + 1)

/-- The assignment the restore loop makes to an element that is no radio
button about to be checked: nothing for a file input, `checked` for a checkbox
(`value === 'on' || value === 'true' || value === true`), and `input.value = value` for the
others (a boolean is written as its text). -/
def restoreInput (value : DraftValue) (target : Control) : Control :=
  match target.kind with
  | .file => target
  | .checkbox =>
    { target with checked := match value with
        | .flag b => b
        | .text s => decide (s = "on".toList) || decide (s = "true".toList) }
  | .radio => target
  | _ =>
    { target with value := match value with
        | .text s => s
        | .flag b => if b then "true".toList else "false".toList }

/-- Applies `f` to the element at index `i`. -/
def updateAt (f : Control → Control) : Nat → List Control → List Control
  | _, [] => []
  | 0, c :: rest => f c :: rest
  | i + 1, c :: rest => c :: updateAt f i rest

/-- The assignment `input.checked = true` on the radio button at index `i`: the
browser unchecks the other radio buttons of its group, those of the same
name. -/
def checkRadio (name : List Char) : Nat → List Control → List Control
  | _, [] => []
  | 0, c :: rest =>
    { c with checked := true } :: rest.map fun d =>
      if d.kind = .radio ∧ d.name = name ∧ ¬ name = [] then { d with checked := false } else d
  | i + 1, c :: rest =>
    (if c.kind = .radio ∧ c.name = name ∧ ¬ name = [] then { c with checked := false } else c)
      :: checkRadio name i rest

/-- The body of the `forEach` of `restoreDraft` for one entry, when the selector is
valid. -/
def restoreEntry (form : List Control) (key : List Char) (value : DraftValue) :
    List Control :=
  match findFirst key form with
  | none => form
  | some i =>
    match form.get? i with
    | none => form
    | some target =>
      if target.kind = .radio ∧ value = .text target.value then checkRadio target.name i form
      else updateAt (restoreInput value) i form

/-- The loop of `restoreDraft` over the entries: the form it leaves, and whether
it ran to its end.  `querySelector` throws for a key that makes
`"[name='" + key + "'], #" + key` no valid selector (`selectorOk` is false), which ends
the loop. -/
def applyEntries (selectorOk : List Char → Bool) :
    List (List Char × DraftValue) → List Control → List Control × Bool
  | [], form => (form, true)
  | (key, value) :: rest, form =>
    if selectorOk key then applyEntries selectorOk rest (restoreEntry form key value)
    else (form, false)

/-- What `restoreDraft` leaves: the form, the storage, whether the draft was
restored (the message is shown, `onRestore` is called), and whether the `catch`
block logged an error. -/
structure RestoreResult where
  form : List Control
  storage : List (List Char × Stored)
  restored : Bool
  errorLogged : Bool
  deriving DecidableEq, Repr

/-- The method `restoreDraft()`; `now` is `Date.now()`. -/
def restoreDraft (selectorOk : List Char → Bool) (storageKey : List Char) (now : Int)
    (form : List Control) (storage : List (List Char × Stored)) : RestoreResult :=
  match getItem storageKey storage with
  | none => { form := form, storage := storage, restored := false, errorLogged := false }
  | some .empty =>
    { form := form, storage := storage, restored := false, errorLogged := false }
  | some .notJson =>
    { form := form, storage := removeItem storageKey storage, restored := false,
      errorLogged := true }
  | some (.noData timestamp) =>
    { form := form, storage := removeItem storageKey storage, restored := false,
      errorLogged := !isExpired timestamp now }
  | some (.draft data timestamp) =>
    if isExpired timestamp now then
      { form := form, storage := removeItem storageKey storage, restored := false,
        errorLogged := false }
    else
      match applyEntries selectorOk (entriesOf data) form with
      | (form1, true) =>
        { form := form1, storage := storage, restored := true, errorLogged := false }
      | (form1, false) =>
        { form := form1, storage := removeItem storageKey storage, restored := false,
          errorLogged := true }

/-- A character of a CSS identifier. -/
def isCssNameChar (c : Char) : Bool :=
  c.isAlphanum || c == '-' || c == '_' || decide (128 ≤ c.toNat)

/-- The key is a CSS identifier, so that `[name='key'], #key` is a selector for
"the name or the id is `key`".  A key that starts with a digit is none: the
selector text is then invalid and `querySelector` throws a `SyntaxError`. -/
def isCssIdent : List Char → Bool
  | [] => false
  | [c] => isCssNameChar c && !c.isDigit && c != '-'
  | c :: d :: rest =>
    isCssNameChar c && !c.isDigit && (c != '-' || !d.isDigit) &&
      (d :: rest).all isCssNameChar
/-- A form with a text field and a radio group of two, the second one checked. -/
def paymentForm : List Control :=
  [{ kind := .text, name := "partner_name".toList, id := "partner-name".toList,
     value := "Coop".toList, checked := false },
   { kind := .radio, name := "method".toList, id := "method-cash".toList,
     value := "cash".toList, checked := false },
   { kind := .radio, name := "method".toList, id := "method-bank".toList,
     value := "bank".toList, checked := true }]

/-- The same form after `reset()`: the text empty, no radio button checked. -/
def paymentFormReset : List Control :=
  [{ kind := .text, name := "partner_name".toList, id := "partner-name".toList,
     value := [], checked := false },
   { kind := .radio, name := "method".toList, id := "method-cash".toList,
     value := "cash".toList, checked := false },
   { kind := .radio, name := "method".toList, id := "method-bank".toList,
     value := "bank".toList, checked := false }]

/-- A form of two text fields with the keys `amount` and `total`; the id of the
first is the name of the second. -/
def totalsForm : List Control :=
  [{ kind := .text, name := "amount".toList, id := "total".toList, value := "12".toList,
     checked := false },
   { kind := .text, name := "total".toList, id := [], value := "99".toList,
     checked := false }]

/-- The same form after `reset()`. -/
def totalsFormReset : List Control :=
  [{ kind := .text, name := "amount".toList, id := "total".toList, value := [],
     checked := false },
   { kind := .text, name := "total".toList, id := [], value := [], checked := false }]

/-- A form with one field whose name starts with a digit. -/
def codeForm : List Control :=
  [{ kind := .text, name := "2fa".toList, id := [], value := "123456".toList,
     checked := false }]

/-- The same form after `reset()`. -/
def codeFormReset : List Control :=
  [{ kind := .text, name := "2fa".toList, id := [], value := [], checked := false }]

/-! ## Bindings of either sign -/

/-- The number is finite and carries a minus sign. -/
def JsNum.isNegative : JsNum → Bool
  | .fin true _ _ => true
  | _ => false

/-- The magnitude of a number. -/
def JsNum.abs : JsNum → JsNum
  | .nan => .nan
  | .inf _ => .inf false
  | .fin _ m e => .fin false m e

/-- The tokens of the decimal text of a number: `-` and the numeral of the
magnitude for a number below zero, the numeral of the number otherwise. -/
def numberToks (n : JsNum) : List Token :=
  if n.isNegative then [.minus, .num n.abs] else [.num n]

/-- The syntax tree JavaScript builds for the decimal text of a number: a
unary minus over the numeral of the magnitude for a number below zero. -/
def numberExpr (n : JsNum) : JsExpr :=
  if n.isNegative then .neg (.lit (.num n.abs)) else .lit (.num n)

/-- The tokens of a tree once every variable is replaced by the decimal text of
its number, whatever the sign of the number. -/
def Formula.signedToks (values : List (List Char × JsVal)) : Formula → List Token
  | .var _ x => numberToks (lookupNum values x)
  | .lit _ i f _ => [.num (decimalValue i f 0)]
  | .paren _ e _ => .lparen :: (e.signedToks values ++ [.rparen])
  | .mul l _ r => l.signedToks values ++ .star :: r.signedToks values
  | .div l _ r => l.signedToks values ++ .slash :: r.signedToks values
  | .add l _ r => l.signedToks values ++ .plus :: r.signedToks values
  | .sub l _ r => l.signedToks values ++ .minus :: r.signedToks values

/-- The syntax tree JavaScript builds for a tree of the grammar whose variables
are replaced by the decimal texts of their numbers. -/
def Formula.signedExpr (values : List (List Char × JsVal)) : Formula → JsExpr
  | .var _ x => numberExpr (lookupNum values x)
  | .lit _ i f _ => .lit (.num (decimalValue i f 0))
  | .paren _ e _ => e.signedExpr values
  | .mul l _ r => .bin .mul (l.signedExpr values) (r.signedExpr values)
  | .div l _ r => .bin .div (l.signedExpr values) (r.signedExpr values)
  | .add l _ r => .bin .add (l.signedExpr values) (r.signedExpr values)
  | .sub l _ r => .bin .sub (l.signedExpr values) (r.signedExpr values)

/-- The text of the tree starts, without a blank, with a variable whose number
is below zero: after the substitution it starts with `-`. -/
def Formula.startsNegative (values : List (List Char × JsVal)) : Formula → Bool
  | .var sp x => sp == 0 && (lookupNum values x).isNegative
  | .lit _ _ _ _ => false
  | .paren _ _ _ => false
  | .mul l _ _ => l.startsNegative values
  | .div l _ _ => l.startsNegative values
  | .add l _ _ => l.startsNegative values
  | .sub l _ _ => l.startsNegative values

/-- No variable whose number is below zero is written directly after the
operator `-`, that is, without a blank between the two. -/
def Formula.signSafe (values : List (List Char × JsVal)) : Formula → Bool
  | .var _ _ => true
  | .lit _ _ _ _ => true
  | .paren _ e _ => e.signSafe values
  | .mul l _ r => l.signSafe values && r.signSafe values
  | .div l _ r => l.signSafe values && r.signSafe values
  | .add l _ r => l.signSafe values && r.signSafe values
  | .sub l _ r => l.signSafe values && r.signSafe values && !r.startsNegative values

/-- The tokens the lexer makes of the text of a tree after the substitution:
those of `signedToks`, but a `-` written directly before a variable whose
number is below zero forms, with the sign of the number, the one token `--`. -/
def Formula.rawToks (values : List (List Char × JsVal)) : Formula → List Token
  | .var _ x => numberToks (lookupNum values x)
  | .lit _ i f _ => [.num (decimalValue i f 0)]
  | .paren _ e _ => .lparen :: (e.rawToks values ++ [.rparen])
  | .mul l _ r => l.rawToks values ++ .star :: r.rawToks values
  | .div l _ r => l.rawToks values ++ .slash :: r.rawToks values
  | .add l _ r => l.rawToks values ++ .plus :: r.rawToks values
  | .sub l _ r =>
    if r.startsNegative values then l.rawToks values ++ .decr :: (r.rawToks values).tail
    else l.rawToks values ++ .minus :: r.rawToks values

/-- The number of blanks and tokens of the text of a tree after the
substitution: the steps the lexer takes. -/
def Formula.rawSteps (values : List (List Char × JsVal)) : Formula → Nat
  | .var sp x => sp + (numberToks (lookupNum values x)).length
  | .lit sp _ _ _ => sp + 1
  | .paren sp e sp2 => sp + 1 + e.rawSteps values + sp2 + 1
  | .mul l sp r => l.rawSteps values + sp + 1 + r.rawSteps values
  | .div l sp r => l.rawSteps values + sp + 1 + r.rawSteps values
  | .add l sp r => l.rawSteps values + sp + 1 + r.rawSteps values
  | .sub l sp r =>
    if r.startsNegative values then l.rawSteps values + sp + r.rawSteps values
    else l.rawSteps values + sp + 1 + r.rawSteps values

/-- The parser stopped at a `--`: it reports a `SyntaxError`, or it hands back
tokens that start with `--`. -/
def Parsed.stopsAtDecr : Parsed → Bool
  | .syntaxError => true
  | .ok _ (.decr :: _) => true
  | _ => false

/-- The value `value || 0` of a binding is a finite number, of either sign, and
the decimal text of its magnitude reads back as the same number (as
ECMAScript requires of `Number::toString`). -/
def finiteBinding (v : JsVal) : Bool :=
  match orZero v with
  | .num (.fin _ m e) => numeralOk (numberToString (.fin false m e)) (.fin false m e)
  | _ => false

/-- Every binding is keyed by an identifier and holds a finite number. -/
def finiteBindings (values : List (List Char × JsVal)) : Bool :=
  values.all fun kv => isVarName kv.1 && finiteBinding kv.2

/-- The text starts with a blank, a digit, `(` or a minus sign: an operand,
with or without sign, follows. -/
def signedStart : List Char → Bool
  | c :: _ => c == ' ' || c.isDigit || c == '(' || c == '-'
  | [] => false

/-- The parse tree of `profit_l - investment_l`. -/
def spacedDifference : Formula :=
  .sub (.var 0 "profit_l".toList) 1 (.var 1 "investment_l".toList)

/-- The parse tree of `profit_l*investment_l/(investment_l+profit_l)`. -/
def signedQuotient : Formula :=
  .div (.mul (.var 0 "profit_l".toList) 0 (.var 0 "investment_l".toList)) 0
    (.paren 0 (.add (.var 0 "investment_l".toList) 0 (.var 0 "profit_l".toList)) 0)

/-! ## Runtimes -/

theorem implements_refEngine : Implements refEngine := by
  intro body c w h
  simp [refEngine, h]

set_option maxRecDepth 100000 in
theorem refRuntime_clockText : refRuntime (functionBody clockText) = none := by decide

set_option maxRecDepth 100000 in
theorem refRuntime_assignText : refRuntime (functionBody assignText) = none := by decide

theorem implements_pageRuntime : Implements pageRuntime := by
  intro body c w h
  unfold pageRuntime
  by_cases h1 : body = functionBody clockText
  · rw [h1, refRuntime_clockText] at h
    cases h
  · by_cases h2 : body = functionBody assignText
    · rw [h2, refRuntime_assignText] at h
      cases h
    · rw [if_neg h1, if_neg h2]
      exact implements_refEngine body c w h

/-! ## The two ways through `evaluateFormula` -/

theorem evaluateFormula_of_throw {run : Runtime} {expression : List Char}
    {values : List (List Char × JsVal)} {w w1 : World}
    (h : run (functionBody (substitute expression values)) w = (.throw, w1)) :
    evaluateFormula run expression values w
      = (.normal .null, { w1 with errorLines := w1.errorLines + 1 }) := by
  simp only [evaluateFormula, evaluateFormulaTry, h]

theorem evaluateFormula_of_normal {run : Runtime} {expression : List Char}
    {values : List (List Char × JsVal)} {w w1 : World} {v : JsVal}
    (h : run (functionBody (substitute expression values)) w = (.normal v, w1)) :
    evaluateFormula run expression values w
      = (.normal (if isNaN v || !isFinite v then .null else v), w1) := by
  simp only [evaluateFormula, evaluateFormulaTry, h]
  by_cases hv : (isNaN v || !isFinite v) = true
  · simp only [hv, if_true]
  · simp [hv]

theorem evaluateFormula_of_ref {run : Runtime} (hrun : Implements run) {expression : List Char}
    {values : List (List Char × JsVal)} {w : World} {v : JsVal}
    (h : refRuntime (functionBody (substitute expression values)) = some (.normal v)) :
    evaluateFormula run expression values w
      = (.normal (if isNaN v || !isFinite v then .null else v), w) :=
  evaluateFormula_of_normal (hrun _ _ w h)

theorem evaluateFormula_of_ref_throw {run : Runtime} (hrun : Implements run)
    {expression : List Char} {values : List (List Char × JsVal)} {w : World}
    (h : refRuntime (functionBody (substitute expression values)) = some .throw) :
    evaluateFormula run expression values w
      = (.normal .null, { w with errorLines := w.errorLines + 1 }) :=
  evaluateFormula_of_throw (hrun _ _ w h)

/-! ## C1: what `evaluateFormula` returns -/

/-- C1 (as stated, refuted): on the expression `true` with no bindings the
function returns the boolean `true`, which is neither a number nor `null`. -/
theorem evaluateFormula_returns_boolean :
    Implements refEngine ∧
      evaluateFormula refEngine "true".toList [] emptyPage
        = (.normal (.bool true), emptyPage) := by
  refine ⟨implements_refEngine, ?_⟩
  have h : refRuntime (functionBody (substitute "true".toList []))
      = some (.normal (.bool true)) := by decide
  rw [evaluateFormula_of_ref implements_refEngine h]
  rfl

/-- C1 (amended): for every runtime, expression, binding set and page,
`evaluateFormula` completes normally, never with an exception.  What it
returns is `null`, or the very value the evaluated body returned, and that
value then passes `!isNaN && isFinite`; a returned number is always finite. -/
theorem evaluateFormula_never_throws (run : Runtime) (expression : List Char)
    (values : List (List Char × JsVal)) (w : World) :
    ∃ r w1, evaluateFormula run expression values w = (.normal r, w1) ∧
      (r = .null ∨
        ((run (functionBody (substitute expression values)) w).1 = .normal r ∧
          isNaN r = false ∧ isFinite r = true)) ∧
      (∀ n, r = .num n → ∃ s m x, n = .fin s m x) := by
  rcases hrun : run (functionBody (substitute expression values)) w with ⟨c, w1⟩
  cases c with
  | throw =>
    exact ⟨.null, _, evaluateFormula_of_throw hrun, Or.inl rfl, by intro n h; cases h⟩
  | normal v =>
    refine ⟨_, w1, evaluateFormula_of_normal hrun, ?_, ?_⟩
    · by_cases hv : (isNaN v || !isFinite v) = true
      · left; simp [hv]
      · right
        rw [if_neg hv]
        refine ⟨rfl, ?_, ?_⟩
        · cases h : isNaN v <;> simp_all
        · cases h : isFinite v <;> simp_all
    · intro n hn
      by_cases hv : (isNaN v || !isFinite v) = true
      · rw [if_pos hv] at hn; cases hn
      · rw [if_neg hv] at hn
        subst hn
        cases n with
        | nan => simp [isNaN, toNumber] at hv
        | inf s => simp [isNaN, isFinite, toNumber] at hv
        | fin s m x => exact ⟨s, m, x, rfl⟩

/-! ## C2: no token is checked -/

/-- C2 (as stated, refuted): `%` is no symbol of the grammar, yet the
expression `7 % 4` yields the value 3. -/
theorem evaluateFormula_remainder_yields_value :
    Implements refEngine ∧ '%' ∉ grammarSymbols ∧
      evaluateFormula refEngine "7 % 4".toList [] emptyPage
        = (.normal (.num (JsNum.ofNat 3)), emptyPage) := by
  refine ⟨implements_refEngine, by decide, ?_⟩
  have h : refRuntime (functionBody (substitute "7 % 4".toList []))
      = some (.normal (.num (JsNum.ofNat 3))) := by decide
  rw [evaluateFormula_of_ref implements_refEngine h]
  rfl

/-- C2 (amended): `evaluateFormula` returns `null` exactly when running the
substituted text throws or returns a value that is NaN, infinite or `null`
itself; in every other case it returns the value of the text.  No token of
the expression is checked against the grammar. -/
theorem evaluateFormula_null_iff (run : Runtime) (expression : List Char)
    (values : List (List Char × JsVal)) (w : World) :
    ((evaluateFormula run expression values w).1 = .normal .null ↔
      ((run (functionBody (substitute expression values)) w).1 = .throw ∨
        ∃ v, (run (functionBody (substitute expression values)) w).1 = .normal v ∧
          (isNaN v = true ∨ isFinite v = false ∨ v = .null))) ∧
    (∀ v, (run (functionBody (substitute expression values)) w).1 = .normal v →
      isNaN v = false → isFinite v = true →
      (evaluateFormula run expression values w).1 = .normal v) := by
  rcases hrun : run (functionBody (substitute expression values)) w with ⟨c, w1⟩
  cases c with
  | throw =>
    rw [evaluateFormula_of_throw hrun]
    refine ⟨⟨fun _ => Or.inl rfl, fun _ => rfl⟩, ?_⟩
    intro v hv
    cases hv
  | normal v =>
    rw [evaluateFormula_of_normal hrun]
    refine ⟨⟨?_, ?_⟩, ?_⟩
    · intro h
      right
      refine ⟨v, rfl, ?_⟩
      by_cases hv : (isNaN v || !isFinite v) = true
      · cases h1 : isNaN v
        · right; left
          simpa [h1] using hv
        · left; rfl
      · right; right
        simpa [hv] using h
    · rintro (h | ⟨v1, h1, h2⟩)
      · cases h
      · cases h1
        rcases h2 with h2 | h2 | h2
        · simp [h2]
        · simp [h2]
        · subst h2
          simp
    · intro v1 h1 h2 h3
      cases h1
      simp [h2, h3]

/-! ## C4: results that are not finite -/

theorem div_zero_not_finite (x : JsNum) (s : Bool) (e : Int) :
    x.div (.fin s 0 e) = .nan ∨ ∃ t, x.div (.fin s 0 e) = .inf t := by
  cases x with
  | nan => left; rfl
  | inf t => right; exact ⟨xor t s, rfl⟩
  | fin t m f =>
    by_cases hm : m = 0
    · left; simp [JsNum.div, hm]
    · right; exact ⟨xor t s, by simp [JsNum.div, hm]⟩

/-- C4: whenever the substituted text evaluates to NaN or to an infinity,
`evaluateFormula` returns `null`; a division whose divisor evaluates to zero
always evaluates so; and `investment_l / exchange_rate` with
`investment_l = 75000` and `exchange_rate = 0` returns `null`. -/
theorem evaluateFormula_nonfinite_is_null (run : Runtime) (hrun : Implements run)
    (expression : List Char) (values : List (List Char × JsVal)) (w : World) :
    (∀ v w1, run (functionBody (substitute expression values)) w = (.normal v, w1) →
      (isNaN v = true ∨ isFinite v = false) →
      evaluateFormula run expression values w = (.normal .null, w1)) ∧
    (∀ (l r : JsExpr) (a b : JsVal), evalExpr l = .value a → evalExpr r = .value b →
      (∃ s x, toNumber b = .fin s 0 x) →
      ∃ n, evalExpr (.bin .div l r) = .value (.num n) ∧
        (isNaN (.num n) = true ∨ isFinite (.num n) = false)) ∧
    evaluateFormula run "investment_l / exchange_rate".toList
        [("investment_l".toList, .num n75000), ("exchange_rate".toList, .num JsNum.zero)] w
      = (.normal .null, w) := by
  refine ⟨?_, ?_, ?_⟩
  · intro v w1 h hv
    rw [evaluateFormula_of_normal h]
    rcases hv with hv | hv <;> simp [hv]
  · rintro l r a b hl hr ⟨s, x, hb⟩
    refine ⟨(toNumber a).div (toNumber b), ?_, ?_⟩
    · simp [evalExpr, hl, hr, BinOp.apply]
    · rw [hb]
      rcases div_zero_not_finite (toNumber a) s x with h | ⟨t, h⟩
      · left
        show isNaN (.num ((toNumber a).div (.fin s 0 x))) = true
        rw [h]; rfl
      · right
        show isFinite (.num ((toNumber a).div (.fin s 0 x))) = false
        rw [h]; rfl
  · have hs : substitute "investment_l / exchange_rate".toList
        [("investment_l".toList, .num n75000), ("exchange_rate".toList, .num JsNum.zero)]
        = "75000 / 0".toList := by decide
    have h : refRuntime (functionBody (substitute "investment_l / exchange_rate".toList
        [("investment_l".toList, .num n75000), ("exchange_rate".toList, .num JsNum.zero)]))
        = some (.normal (.num (.inf false))) := by
      rw [hs]; decide
    rw [evaluateFormula_of_ref hrun h]
    rfl

theorem evaluateFormula_nonfinite_is_null_witness :
    evaluateFormula refEngine "investment_l / exchange_rate".toList
        [("investment_l".toList, .num n75000), ("exchange_rate".toList, .num JsNum.zero)]
        emptyPage
      = (.normal .null, emptyPage) :=
  (evaluateFormula_nonfinite_is_null refEngine implements_refEngine [] [] emptyPage).2.2

/-! ## C9: determinism -/

/-- C9 (as stated, refuted): the expression `Date.now()` evaluates to the
clock of the page, so the same expression and bindings give 0 on a page
whose clock is 0 and 1 on the same page one millisecond later. -/
theorem evaluateFormula_depends_on_clock :
    Implements pageRuntime ∧
      (evaluateFormula pageRuntime clockText [] emptyPage).1
        = .normal (.num (JsNum.ofNat 0)) ∧
      (evaluateFormula pageRuntime clockText [] { emptyPage with clock := 1 }).1
        = .normal (.num (JsNum.ofNat 1)) ∧
      JsNum.ofNat 0 ≠ JsNum.ofNat 1 := by
  refine ⟨implements_pageRuntime, ?_, ?_, by decide⟩
  · have h : pageRuntime (functionBody (substitute clockText [])) emptyPage
        = (.normal (.num (JsNum.ofNat 0)), emptyPage) := by
      simp [pageRuntime, substitute]
      rfl
    rw [evaluateFormula_of_normal h]
    rfl
  · have h : pageRuntime (functionBody (substitute clockText []))
        { emptyPage with clock := 1 }
        = (.normal (.num (JsNum.ofNat 1)), { emptyPage with clock := 1 }) := by
      simp [pageRuntime, substitute]
    rw [evaluateFormula_of_normal h]
    rfl

/-- C9 (amended): when the substituted text lies in the arithmetic fragment,
the value `evaluateFormula` returns depends on the expression and the
bindings alone: any two runtimes that implement the fragment, in any two
states of the page, return the same value. -/
theorem evaluateFormula_deterministic (run1 run2 : Runtime) (h1 : Implements run1)
    (h2 : Implements run2) (expression : List Char) (values : List (List Char × JsVal))
    (w1 w2 : World)
    (hfrag : (refRuntime (functionBody (substitute expression values))).isSome = true) :
    (evaluateFormula run1 expression values w1).1
      = (evaluateFormula run2 expression values w2).1 := by
  rcases hc : refRuntime (functionBody (substitute expression values)) with _ | c
  · rw [hc] at hfrag; cases hfrag
  · cases c with
    | throw =>
      rw [evaluateFormula_of_ref_throw h1 hc, evaluateFormula_of_ref_throw h2 hc]
    | normal v =>
      rw [evaluateFormula_of_ref h1 hc, evaluateFormula_of_ref h2 hc]

theorem evaluateFormula_deterministic_witness :
    (evaluateFormula refEngine "7 % 4".toList [] emptyPage).1
      = (evaluateFormula pageRuntime "7 % 4".toList [] { emptyPage with clock := 1 }).1 :=
  evaluateFormula_deterministic refEngine pageRuntime implements_refEngine
    implements_pageRuntime "7 % 4".toList [] emptyPage { emptyPage with clock := 1 }
    (by decide)

/-! ## C10: effects -/

/-- C10 (as stated, refuted): evaluating the expression
`document.getElementById("inv-usd").value = 1` returns 1 and leaves the form
field `inv-usd` holding `1` where it was empty. -/
theorem evaluateFormula_writes_field :
    Implements pageRuntime ∧
      evaluateFormula pageRuntime assignText [] emptyPage
        = (.normal (.num (JsNum.ofNat 1)),
            { emptyPage with fields := [("inv-usd".toList, "1".toList)] }) ∧
      emptyPage.fields = [("inv-usd".toList, [])] := by
  refine ⟨implements_pageRuntime, ?_, rfl⟩
  have h : pageRuntime (functionBody (substitute assignText [])) emptyPage
      = (.normal (.num (JsNum.ofNat 1)),
          { emptyPage with fields := [("inv-usd".toList, "1".toList)] }) := by
    have hne : functionBody assignText ≠ functionBody clockText := by decide
    simp [pageRuntime, substitute, hne]
    rfl
  rw [evaluateFormula_of_normal h]
  rfl

/-- C10 (amended): the statements of `evaluateFormula` change no form field
and not the clock: the page is left as the evaluated text leaves it, but for
one `console.error` line when the evaluation throws.  When the substituted
text lies in the arithmetic fragment the text has no effect either, so the
fields and the clock are as before the call. -/
theorem evaluateFormula_frame (run : Runtime) (expression : List Char)
    (values : List (List Char × JsVal)) (w : World) :
    (evaluateFormula run expression values w).2.fields
        = (run (functionBody (substitute expression values)) w).2.fields ∧
    (evaluateFormula run expression values w).2.clock
        = (run (functionBody (substitute expression values)) w).2.clock ∧
    ((evaluateFormula run expression values w).2.errorLines
        = (run (functionBody (substitute expression values)) w).2.errorLines +
          (if (run (functionBody (substitute expression values)) w).1 = .throw then 1 else 0)) ∧
    (Implements run →
      (refRuntime (functionBody (substitute expression values))).isSome = true →
      (evaluateFormula run expression values w).2.fields = w.fields ∧
      (evaluateFormula run expression values w).2.clock = w.clock ∧
      ((evaluateFormula run expression values w).2.errorLines = w.errorLines ∨
        ((evaluateFormula run expression values w).1 = .normal .null ∧
          (evaluateFormula run expression values w).2.errorLines = w.errorLines + 1))) := by
  rcases hrun : run (functionBody (substitute expression values)) w with ⟨c, w1⟩
  have key : (evaluateFormula run expression values w).2.fields = w1.fields ∧
      (evaluateFormula run expression values w).2.clock = w1.clock ∧
      (evaluateFormula run expression values w).2.errorLines
        = w1.errorLines + (if c = .throw then 1 else 0) := by
    cases c with
    | throw => rw [evaluateFormula_of_throw hrun]; simp
    | normal v => rw [evaluateFormula_of_normal hrun]; simp
  refine ⟨key.1, key.2.1, key.2.2, ?_⟩
  intro himp hfrag
  rcases hc : refRuntime (functionBody (substitute expression values)) with _ | c1
  · rw [hc] at hfrag; cases hfrag
  · have hw := himp _ _ w hc
    rw [hrun] at hw
    cases hw
    refine ⟨key.1, key.2.1, ?_⟩
    cases c with
    | throw =>
      right
      rw [evaluateFormula_of_throw hrun]
      exact ⟨rfl, rfl⟩
    | normal v =>
      left
      rw [evaluateFormula_of_normal hrun]

theorem evaluateFormula_frame_witness :
    (evaluateFormula refEngine "7 % 4".toList [] emptyPage).2.fields = emptyPage.fields ∧
    (evaluateFormula refEngine "7 % 4".toList [] emptyPage).2.clock = emptyPage.clock ∧
    ((evaluateFormula refEngine "7 % 4".toList [] emptyPage).2.errorLines
        = emptyPage.errorLines ∨
      ((evaluateFormula refEngine "7 % 4".toList [] emptyPage).1 = .normal .null ∧
        (evaluateFormula refEngine "7 % 4".toList [] emptyPage).2.errorLines
          = emptyPage.errorLines + 1)) :=
  (evaluateFormula_frame refEngine "7 % 4".toList [] emptyPage).2.2.2
    implements_refEngine (by decide)

/-! ## Falsy bindings -/

theorem jsToString_orZero_of_falsy (v : JsVal) (h : toBoolean v = false) :
    jsToString (orZero v) = "0".toList := by
  simp [orZero, h]
  rfl

theorem substitute_append (expression : List Char) (pre post : List (List Char × JsVal)) :
    substitute expression (pre ++ post) = substitute (substitute expression pre) post := by
  simp [substitute, List.foldl_append]

theorem substitute_falsy (expression : List Char) (pre post : List (List Char × JsVal))
    (key : List Char) (v : JsVal) (h : toBoolean v = false) :
    substitute expression (pre ++ (key, v) :: post)
      = substitute expression (pre ++ (key, .num JsNum.zero) :: post) := by
  rw [substitute_append, substitute_append]
  simp only [substitute, List.foldl_cons]
  rw [jsToString_orZero_of_falsy v h, jsToString_orZero_of_falsy (.num JsNum.zero) rfl]

/-! ## The parser is sound for the grammar -/

theorem parsePrimary_sound_step (fuel : Nat)
    (ihA : ∀ ts e rest, parseAdditive fuel ts = .ok e rest →
      ∃ c, ts = c ++ rest ∧ Derives .add c e)
    (ts : List Token) (e : JsExpr) (rest : List Token)
    (h : parsePrimary (fuel + 1) ts = .ok e rest) :
    ∃ c, ts = c ++ rest ∧ Derives .prim c e := by
  cases ts with
  | nil => simp [parsePrimary] at h
  | cons t ts =>
    cases t with
    | num n =>
      simp only [parsePrimary] at h
      cases h
      exact ⟨[.num n], rfl, .num n⟩
    | ident x =>
      simp only [parsePrimary] at h
      cases h
      exact ⟨[.ident x], rfl, .ident x⟩
    | lparen =>
      simp only [parsePrimary] at h
      cases hp : parseAdditive fuel ts with
      | ok e1 r1 =>
        rw [hp] at h
        obtain ⟨c, hc, hd⟩ := ihA ts e1 r1 hp
        cases r1 with
        | nil => simp at h
        | cons t1 r1 =>
          cases t1 <;> simp at h
          obtain ⟨he, hr⟩ := h
          subst he hr
          exact ⟨.lparen :: c ++ [.rparen], by simp [hc], .paren hd⟩
      | syntaxError => rw [hp] at h; simp at h
      | outOfFuel => rw [hp] at h; simp at h
    | _ => simp [parsePrimary] at h

theorem parseUnary_sound_step (fuel : Nat)
    (ihP : ∀ ts e rest, parsePrimary fuel ts = .ok e rest →
      ∃ c, ts = c ++ rest ∧ Derives .prim c e)
    (ihU : ∀ ts e rest, parseUnary fuel ts = .ok e rest →
      ∃ c, ts = c ++ rest ∧ Derives .unary c e ∧
        (ts.head? ≠ some .minus → ts.head? ≠ some .plus → Derives .prim c e))
    (ts : List Token) (e : JsExpr) (rest : List Token)
    (h : parseUnary (fuel + 1) ts = .ok e rest) :
    ∃ c, ts = c ++ rest ∧ Derives .unary c e ∧
      (ts.head? ≠ some .minus → ts.head? ≠ some .plus → Derives .prim c e) := by
  have prim : ∀ ts, (match parsePrimary fuel ts with
      | .ok _ (.lparen :: _) => Parsed.syntaxError
      | r => r) = .ok e rest → ∃ c, ts = c ++ rest ∧ Derives .prim c e := by
    intro ts h
    cases hp : parsePrimary fuel ts with
    | ok e1 r1 =>
      rw [hp] at h
      have : e1 = e ∧ r1 = rest := by
        cases r1 with
        | nil => simpa using h
        | cons t1 r1 => cases t1 <;> simp at h <;> simp [h]
      obtain ⟨he, hr⟩ := this
      subst he hr
      exact ihP ts _ _ hp
    | syntaxError => rw [hp] at h; simp at h
    | outOfFuel => rw [hp] at h; simp at h
  cases ts with
  | nil =>
    simp only [parseUnary] at h
    obtain ⟨c, hc, hd⟩ := prim [] h
    exact ⟨c, hc, .ofPrim hd, fun _ _ => hd⟩
  | cons t ts =>
    cases t with
    | minus =>
      simp only [parseUnary] at h
      cases hp : parseUnary fuel ts with
      | ok e1 r1 =>
        rw [hp] at h
        simp at h
        obtain ⟨he, hr⟩ := h
        subst he hr
        obtain ⟨c, hc, hd, _⟩ := ihU ts _ _ hp
        exact ⟨.minus :: c, by simp [hc], .neg hd, fun h1 _ => absurd rfl h1⟩
      | syntaxError => rw [hp] at h; simp at h
      | outOfFuel => rw [hp] at h; simp at h
    | plus =>
      simp only [parseUnary] at h
      cases hp : parseUnary fuel ts with
      | ok e1 r1 =>
        rw [hp] at h
        simp at h
        obtain ⟨he, hr⟩ := h
        subst he hr
        obtain ⟨c, hc, hd, _⟩ := ihU ts _ _ hp
        exact ⟨.plus :: c, by simp [hc], .pos hd, fun _ h2 => absurd rfl h2⟩
      | syntaxError => rw [hp] at h; simp at h
      | outOfFuel => rw [hp] at h; simp at h
    | _ =>
      simp only [parseUnary] at h
      obtain ⟨c, hc, hd⟩ := prim _ h
      exact ⟨c, hc, .ofPrim hd, fun _ _ => hd⟩

theorem parseExponent_sound_step (fuel : Nat)
    (ihU : ∀ ts e rest, parseUnary fuel ts = .ok e rest →
      ∃ c, ts = c ++ rest ∧ Derives .unary c e ∧
        (ts.head? ≠ some .minus → ts.head? ≠ some .plus → Derives .prim c e))
    (ihE : ∀ ts e rest, parseExponent fuel ts = .ok e rest →
      ∃ c, ts = c ++ rest ∧ Derives .exp c e)
    (ts : List Token) (e : JsExpr) (rest : List Token)
    (h : parseExponent (fuel + 1) ts = .ok e rest) :
    ∃ c, ts = c ++ rest ∧ Derives .exp c e := by
  simp only [parseExponent] at h
  cases hp : parseUnary fuel ts with
  | syntaxError => rw [hp] at h; simp at h
  | outOfFuel => rw [hp] at h; simp at h
  | ok e1 r1 =>
    rw [hp] at h
    obtain ⟨c, hc, hd, hprim⟩ := ihU ts e1 r1 hp
    have plain : e1 = e → r1 = rest → ∃ c, ts = c ++ rest ∧ Derives .exp c e := by
      intro he hr
      subst he hr
      exact ⟨c, hc, .ofUnary hd⟩
    cases r1 with
    | nil => simp at h; exact plain h.1 h.2.symm
    | cons t1 r1 =>
      cases t1 with
      | pow =>
        simp only at h
        cases ts with
        | nil => simp at hc
        | cons t ts =>
          have hpow : ∀ (_ : t ≠ .minus) (_ : t ≠ .plus),
              (match parseExponent fuel r1 with
                | .ok r rest1 => Parsed.ok (.bin .pow e1 r) rest1
                | r => r) = .ok e rest → ∃ c, t :: ts = c ++ rest ∧ Derives .exp c e := by
            intro hm hpl h
            cases hq : parseExponent fuel r1 with
            | syntaxError => rw [hq] at h; simp at h
            | outOfFuel => rw [hq] at h; simp at h
            | ok e2 r2 =>
              rw [hq] at h
              simp at h
              obtain ⟨he, hr⟩ := h
              subst he hr
              obtain ⟨c2, hc2, hd2⟩ := ihE r1 e2 r2 hq
              refine ⟨c ++ .pow :: c2, ?_, .pow (hprim ?_ ?_) hd2⟩
              · rw [hc, hc2]; simp
              · simpa using hm
              · simpa using hpl
          cases t with
          | minus => simp at h
          | plus => simp at h
          | _ => exact hpow (by simp) (by simp) h
      | _ => simp at h; exact plain h.1 h.2

theorem parseMulRest_sound_step (fuel : Nat)
    (ihE : ∀ ts e rest, parseExponent fuel ts = .ok e rest →
      ∃ c, ts = c ++ rest ∧ Derives .exp c e)
    (ihR : ∀ lhs ts e rest, parseMulRest fuel lhs ts = .ok e rest →
      ∀ l, Derives .mul l lhs → ∃ c, ts = c ++ rest ∧ Derives .mul (l ++ c) e)
    (lhs : JsExpr) (ts : List Token) (e : JsExpr) (rest : List Token)
    (h : parseMulRest (fuel + 1) lhs ts = .ok e rest)
    (l : List Token) (hl : Derives .mul l lhs) :
    ∃ c, ts = c ++ rest ∧ Derives .mul (l ++ c) e := by
  have stop : lhs = e → ts = rest → ∃ c, ts = c ++ rest ∧ Derives .mul (l ++ c) e := by
    intro he hr
    subst he hr
    exact ⟨[], by simp, by simpa using hl⟩
  have go : ∀ (t : Token) (op : BinOp) (ts1 : List Token),
      (∀ {r er}, Derives .exp r er → Derives .mul (l ++ t :: r) (.bin op lhs er)) →
      (match parseExponent fuel ts1 with
        | .ok rhs rest => parseMulRest fuel (.bin op lhs rhs) rest
        | r => r) = .ok e rest →
      ∃ c, t :: ts1 = c ++ rest ∧ Derives .mul (l ++ c) e := by
    intro t op ts1 hmk h
    cases hp : parseExponent fuel ts1 with
    | syntaxError => rw [hp] at h; simp at h
    | outOfFuel => rw [hp] at h; simp at h
    | ok e1 r1 =>
      rw [hp] at h
      obtain ⟨c1, hc1, hd1⟩ := ihE ts1 e1 r1 hp
      obtain ⟨c2, hc2, hd2⟩ := ihR _ r1 e rest h (l ++ t :: c1) (hmk hd1)
      refine ⟨t :: c1 ++ c2, ?_, ?_⟩
      · rw [hc1, hc2]; simp
      · simpa using hd2
  cases ts with
  | nil => simp only [parseMulRest] at h; simp at h; exact stop h.1 h.2.symm
  | cons t ts =>
    cases t with
    | star => simp only [parseMulRest] at h; exact go .star .mul ts (fun hr => .mul hl hr) h
    | slash => simp only [parseMulRest] at h; exact go .slash .div ts (fun hr => .div hl hr) h
    | percent =>
      simp only [parseMulRest] at h; exact go .percent .rem ts (fun hr => .rem hl hr) h
    | _ => simp only [parseMulRest] at h; simp at h; exact stop h.1 h.2

theorem parseMultiplicative_sound_step (fuel : Nat)
    (ihE : ∀ ts e rest, parseExponent fuel ts = .ok e rest →
      ∃ c, ts = c ++ rest ∧ Derives .exp c e)
    (ihR : ∀ lhs ts e rest, parseMulRest fuel lhs ts = .ok e rest →
      ∀ l, Derives .mul l lhs → ∃ c, ts = c ++ rest ∧ Derives .mul (l ++ c) e)
    (ts : List Token) (e : JsExpr) (rest : List Token)
    (h : parseMultiplicative (fuel + 1) ts = .ok e rest) :
    ∃ c, ts = c ++ rest ∧ Derives .mul c e := by
  simp only [parseMultiplicative] at h
  cases hp : parseExponent fuel ts with
  | syntaxError => rw [hp] at h; simp at h
  | outOfFuel => rw [hp] at h; simp at h
  | ok e1 r1 =>
    rw [hp] at h
    obtain ⟨c1, hc1, hd1⟩ := ihE ts e1 r1 hp
    obtain ⟨c2, hc2, hd2⟩ := ihR _ r1 e rest h c1 (.ofExp hd1)
    exact ⟨c1 ++ c2, by rw [hc1, hc2]; simp, hd2⟩

theorem parseAddRest_sound_step (fuel : Nat)
    (ihM : ∀ ts e rest, parseMultiplicative fuel ts = .ok e rest →
      ∃ c, ts = c ++ rest ∧ Derives .mul c e)
    (ihR : ∀ lhs ts e rest, parseAddRest fuel lhs ts = .ok e rest →
      ∀ l, Derives .add l lhs → ∃ c, ts = c ++ rest ∧ Derives .add (l ++ c) e)
    (lhs : JsExpr) (ts : List Token) (e : JsExpr) (rest : List Token)
    (h : parseAddRest (fuel + 1) lhs ts = .ok e rest)
    (l : List Token) (hl : Derives .add l lhs) :
    ∃ c, ts = c ++ rest ∧ Derives .add (l ++ c) e := by
  have stop : lhs = e → ts = rest → ∃ c, ts = c ++ rest ∧ Derives .add (l ++ c) e := by
    intro he hr
    subst he hr
    exact ⟨[], by simp, by simpa using hl⟩
  have go : ∀ (t : Token) (op : BinOp) (ts1 : List Token),
      (∀ {r er}, Derives .mul r er → Derives .add (l ++ t :: r) (.bin op lhs er)) →
      (match parseMultiplicative fuel ts1 with
        | .ok rhs rest => parseAddRest fuel (.bin op lhs rhs) rest
        | r => r) = .ok e rest →
      ∃ c, t :: ts1 = c ++ rest ∧ Derives .add (l ++ c) e := by
    intro t op ts1 hmk h
    cases hp : parseMultiplicative fuel ts1 with
    | syntaxError => rw [hp] at h; simp at h
    | outOfFuel => rw [hp] at h; simp at h
    | ok e1 r1 =>
      rw [hp] at h
      obtain ⟨c1, hc1, hd1⟩ := ihM ts1 e1 r1 hp
      obtain ⟨c2, hc2, hd2⟩ := ihR _ r1 e rest h (l ++ t :: c1) (hmk hd1)
      refine ⟨t :: c1 ++ c2, ?_, ?_⟩
      · rw [hc1, hc2]; simp
      · simpa using hd2
  cases ts with
  | nil => simp only [parseAddRest] at h; simp at h; exact stop h.1 h.2.symm
  | cons t ts =>
    cases t with
    | plus => simp only [parseAddRest] at h; exact go .plus .add ts (fun hr => .add hl hr) h
    | minus => simp only [parseAddRest] at h; exact go .minus .sub ts (fun hr => .sub hl hr) h
    | _ => simp only [parseAddRest] at h; simp at h; exact stop h.1 h.2

theorem parseAdditive_sound_step (fuel : Nat)
    (ihM : ∀ ts e rest, parseMultiplicative fuel ts = .ok e rest →
      ∃ c, ts = c ++ rest ∧ Derives .mul c e)
    (ihR : ∀ lhs ts e rest, parseAddRest fuel lhs ts = .ok e rest →
      ∀ l, Derives .add l lhs → ∃ c, ts = c ++ rest ∧ Derives .add (l ++ c) e)
    (ts : List Token) (e : JsExpr) (rest : List Token)
    (h : parseAdditive (fuel + 1) ts = .ok e rest) :
    ∃ c, ts = c ++ rest ∧ Derives .add c e := by
  simp only [parseAdditive] at h
  cases hp : parseMultiplicative fuel ts with
  | syntaxError => rw [hp] at h; simp at h
  | outOfFuel => rw [hp] at h; simp at h
  | ok e1 r1 =>
    rw [hp] at h
    obtain ⟨c1, hc1, hd1⟩ := ihM ts e1 r1 hp
    obtain ⟨c2, hc2, hd2⟩ := ihR _ r1 e rest h c1 (.ofMul hd1)
    exact ⟨c1 ++ c2, by rw [hc1, hc2]; simp, hd2⟩

theorem parse_sound (fuel : Nat) :
    (∀ ts e rest, parsePrimary fuel ts = .ok e rest →
      ∃ c, ts = c ++ rest ∧ Derives .prim c e) ∧
    (∀ ts e rest, parseUnary fuel ts = .ok e rest →
      ∃ c, ts = c ++ rest ∧ Derives .unary c e ∧
        (ts.head? ≠ some .minus → ts.head? ≠ some .plus → Derives .prim c e)) ∧
    (∀ ts e rest, parseExponent fuel ts = .ok e rest →
      ∃ c, ts = c ++ rest ∧ Derives .exp c e) ∧
    (∀ lhs ts e rest, parseMulRest fuel lhs ts = .ok e rest →
      ∀ l, Derives .mul l lhs → ∃ c, ts = c ++ rest ∧ Derives .mul (l ++ c) e) ∧
    (∀ ts e rest, parseMultiplicative fuel ts = .ok e rest →
      ∃ c, ts = c ++ rest ∧ Derives .mul c e) ∧
    (∀ lhs ts e rest, parseAddRest fuel lhs ts = .ok e rest →
      ∀ l, Derives .add l lhs → ∃ c, ts = c ++ rest ∧ Derives .add (l ++ c) e) ∧
    (∀ ts e rest, parseAdditive fuel ts = .ok e rest →
      ∃ c, ts = c ++ rest ∧ Derives .add c e) := by
  induction fuel with
  | zero =>
    refine ⟨?_, ?_, ?_, ?_, ?_, ?_, ?_⟩ <;> intros <;>
      simp_all [parsePrimary, parseUnary, parseExponent, parseMulRest, parseMultiplicative,
        parseAddRest, parseAdditive]
  | succ fuel ih =>
    obtain ⟨ihP, ihU, ihE, ihMR, ihM, ihAR, ihA⟩ := ih
    exact ⟨parsePrimary_sound_step fuel ihA, parseUnary_sound_step fuel ihP ihU,
      parseExponent_sound_step fuel ihU ihE, parseMulRest_sound_step fuel ihE ihMR,
      parseMultiplicative_sound_step fuel ihE ihMR, parseAddRest_sound_step fuel ihM ihAR,
      parseAdditive_sound_step fuel ihM ihAR⟩

theorem parseAdditive_sound {fuel : Nat} {ts : List Token} {e : JsExpr}
    (h : parseAdditive fuel ts = .ok e []) : Derives .add ts e := by
  obtain ⟨c, hc, hd⟩ := (parse_sound fuel).2.2.2.2.2.2 ts e [] h
  simp at hc
  rw [hc]
  exact hd

/-! ## From the reference runtime to the grammar -/

theorem stripKey_append (key s : List Char) : stripKey key (key ++ s) = some s := by
  induction key with
  | nil => cases s <;> rfl
  | cons k ks ih => simp [stripKey, ih]

theorem refRuntime_functionBody (text : List Char) :
    refRuntime (functionBody text) = (bodyTokens text).bind runTokens := by
  unfold refRuntime functionBody bodyTokens
  rw [List.append_assoc, stripKey_append]
  simp only
  cases tokenize (text ++ [')']).length (text ++ [')']) <;> rfl

theorem runTokens_normal {toks : List Token} {v : JsVal}
    (h : runTokens toks = some (.normal v)) :
    ∃ e, Derives .add (.lparen :: toks) e ∧ evalExpr e = .value v := by
  unfold runTokens at h
  simp only at h
  split at h
  · cases h
  · cases hp : parseAdditive (4 * (Token.lparen :: toks).length + 4) (.lparen :: toks) with
    | outOfFuel => rw [hp] at h; cases h
    | syntaxError => rw [hp] at h; cases h
    | ok e rest =>
      rw [hp] at h
      cases rest with
      | cons t ts => cases h
      | nil =>
        refine ⟨e, parseAdditive_sound hp, ?_⟩
        simp only at h
        cases he : evalExpr e with
        | value v1 => rw [he] at h; simp at h; rw [h]
        | throw => rw [he] at h; cases h
        | unmodelled => rw [he] at h; cases h

theorem runTokens_throw_of_no_value {toks : List Token}
    (h : ∀ e, Derives .add (.lparen :: toks) e → ∀ v, evalExpr e ≠ .value v)
    (hsome : (runTokens toks).isSome = true) : runTokens toks = some .throw := by
  cases hr : runTokens toks with
  | none => rw [hr] at hsome; cases hsome
  | some c =>
    cases c with
    | throw => rfl
    | normal v =>
      obtain ⟨e, hd, he⟩ := runTokens_normal hr
      exact absurd he (h e hd v)

theorem evaluateFormula_null_of_no_value {run : Runtime} (hrun : Implements run)
    {expression : List Char} {values : List (List Char × JsVal)} {toks : List Token}
    (w : World)
    (htok : bodyTokens (substitute expression values) = some toks)
    (hsome : (refRuntime (functionBody (substitute expression values))).isSome = true)
    (h : ∀ e, Derives .add (.lparen :: toks) e → ∀ v, evalExpr e ≠ .value v) :
    evaluateFormula run expression values w
      = (.normal .null, { w with errorLines := w.errorLines + 1 }) := by
  apply evaluateFormula_of_ref_throw hrun
  rw [refRuntime_functionBody, htok] at hsome ⊢
  exact runTokens_throw_of_no_value h hsome

/-! ## Names without binding -/

theorem vocabulary_not_constant : ∀ x ∈ vocabulary, x ∉ constantNames := by decide

theorem identExpr_of_not_constant {x : List Char} (h : x ∉ constantNames) :
    identExpr x = .unbound x := by
  simp [constantNames] at h
  simp [identExpr, h]

theorem hasUnbound_of_derives {lv : Level} {ts : List Token} {e : JsExpr}
    (h : Derives lv ts e) {x : List Char} (hx : Token.ident x ∈ ts)
    (hc : x ∉ constantNames) : hasUnbound e = true := by
  induction h with
  | num n => simp at hx
  | ident y =>
    simp at hx
    subst hx
    rw [identExpr_of_not_constant hc]
    rfl
  | paren _ ih => simp at hx; exact ih hx
  | ofPrim _ ih => exact ih hx
  | neg _ ih => simp at hx; simpa [hasUnbound] using ih hx
  | pos _ ih => simp at hx; simpa [hasUnbound] using ih hx
  | ofUnary _ ih => exact ih hx
  | ofExp _ ih => exact ih hx
  | ofMul _ ih => exact ih hx
  | pow _ _ ih1 ih2 | mul _ _ ih1 ih2 | div _ _ ih1 ih2 | rem _ _ ih1 ih2
  | add _ _ ih1 ih2 | sub _ _ ih1 ih2 =>
    simp at hx
    rcases hx with hx | hx
    · simp [hasUnbound, ih1 hx]
    · simp [hasUnbound, ih2 hx]

theorem hasUnbound_of_value {e : JsExpr} {v : JsVal} (h : evalExpr e = .value v) :
    hasUnbound e = false := by
  induction e generalizing v with
  | lit _ => rfl
  | unbound _ => simp [evalExpr] at h
  | neg e ih =>
    simp only [evalExpr] at h
    cases he : evalExpr e with
    | value v1 => simpa [hasUnbound] using ih he
    | throw => rw [he] at h; simp at h
    | unmodelled => rw [he] at h; simp at h
  | pos e ih =>
    simp only [evalExpr] at h
    cases he : evalExpr e with
    | value v1 => simpa [hasUnbound] using ih he
    | throw => rw [he] at h; simp at h
    | unmodelled => rw [he] at h; simp at h
  | bin op l r ihl ihr =>
    simp only [evalExpr] at h
    cases hl : evalExpr l with
    | value a =>
      cases hr : evalExpr r with
      | value b => simp [hasUnbound, ihl hl, ihr hr]
      | throw => rw [hl, hr] at h; simp at h
      | unmodelled => rw [hl, hr] at h; simp at h
    | throw => rw [hl] at h; simp at h
    | unmodelled => rw [hl] at h; simp at h


/-! ## C7: missing and falsy bindings -/

/-- C7 (as stated, refuted): with `exchange_rate = 2` and no entry for the
vocabulary variable `profit_l`, the expression `profit_l + exchange_rate`
returns `null`, not `0 + 2`; with `profit_l` bound to 0 it returns 2. -/
theorem evaluateFormula_missing_binding_is_null :
    Implements refEngine ∧ "profit_l".toList ∈ vocabulary ∧
      evaluateFormula refEngine "profit_l + exchange_rate".toList
          [("exchange_rate".toList, .num n2)] emptyPage
        = (.normal .null, { emptyPage with errorLines := 1 }) ∧
      evaluateFormula refEngine "profit_l + exchange_rate".toList
          [("profit_l".toList, .num JsNum.zero), ("exchange_rate".toList, .num n2)] emptyPage
        = (.normal (.num n2), emptyPage) := by
  refine ⟨implements_refEngine, by decide, ?_, ?_⟩
  · have hs : substitute "profit_l + exchange_rate".toList
        [("exchange_rate".toList, .num n2)] = "profit_l + 2".toList := by decide
    have h : refRuntime (functionBody (substitute "profit_l + exchange_rate".toList
        [("exchange_rate".toList, .num n2)])) = some .throw := by
      rw [hs]; decide
    rw [evaluateFormula_of_ref_throw implements_refEngine h]
    rfl
  · have hs : substitute "profit_l + exchange_rate".toList
        [("profit_l".toList, .num JsNum.zero), ("exchange_rate".toList, .num n2)]
        = "0 + 2".toList := by decide
    have h : refRuntime (functionBody (substitute "profit_l + exchange_rate".toList
        [("profit_l".toList, .num JsNum.zero), ("exchange_rate".toList, .num n2)]))
        = some (.normal (.num n2)) := by
      rw [hs]; decide
    rw [evaluateFormula_of_ref implements_refEngine h]
    rfl

/-- C7 (amended): a binding whose value is falsy (`undefined`, `null`, `NaN`,
`false`, `0`) is evaluated exactly as if it were bound to 0.  A vocabulary
variable that is still in the text after the substitution, as one with no
entry in the binding set is, makes `evaluateFormula` return `null` whenever
the text lies in the arithmetic fragment. -/
theorem evaluateFormula_falsy_or_missing (run : Runtime) (hrun : Implements run)
    (expression : List Char) (w : World) :
    (∀ (pre post : List (List Char × JsVal)) (key : List Char) (v : JsVal),
      toBoolean v = false →
      evaluateFormula run expression (pre ++ (key, v) :: post) w
        = evaluateFormula run expression (pre ++ (key, .num JsNum.zero) :: post) w) ∧
    (∀ (values : List (List Char × JsVal)) (toks : List Token) (x : List Char),
      bodyTokens (substitute expression values) = some toks →
      Token.ident x ∈ toks → x ∈ vocabulary →
      (refRuntime (functionBody (substitute expression values))).isSome = true →
      evaluateFormula run expression values w
        = (.normal .null, { w with errorLines := w.errorLines + 1 })) := by
  constructor
  · intro pre post key v hv
    unfold evaluateFormula evaluateFormulaTry
    rw [substitute_falsy expression pre post key v hv]
  · intro values toks x htok hx hvoc hsome
    refine evaluateFormula_null_of_no_value hrun w htok hsome ?_
    intro e hd v hv
    have h1 := hasUnbound_of_derives hd (List.mem_cons_of_mem _ hx)
      (vocabulary_not_constant x hvoc)
    rw [hasUnbound_of_value hv] at h1
    cases h1

theorem evaluateFormula_falsy_or_missing_witness :
    toBoolean .undefined = false ∧
      evaluateFormula refEngine "profit_l + exchange_rate".toList
          ([] ++ [("profit_l".toList, .undefined)]) emptyPage
        = evaluateFormula refEngine "profit_l + exchange_rate".toList
          ([] ++ [("profit_l".toList, .num JsNum.zero)]) emptyPage :=
  ⟨rfl, (evaluateFormula_falsy_or_missing refEngine implements_refEngine
    "profit_l + exchange_rate".toList emptyPage).1 [] [] "profit_l".toList .undefined rfl⟩

/-! ## Word-boundary replacement, piece by piece -/

theorem stripKey_length {key s rest : List Char} (h : stripKey key s = some rest) :
    rest.length + key.length = s.length := by
  induction key generalizing s with
  | nil => cases s <;> simp_all [stripKey]
  | cons k ks ih =>
    cases s with
    | nil => simp [stripKey] at h
    | cons c cs =>
      simp only [stripKey] at h
      split at h
      · have := ih h
        simp; omega
      · cases h

theorem replaceScan_fuel (key rep : List Char) (hkey : key ≠ []) (f1 f2 : Nat) (pw : Bool)
    (s : List Char) (h1 : s.length ≤ f1) (h2 : s.length ≤ f2) :
    replaceScan key rep f1 pw s = replaceScan key rep f2 pw s := by
  induction f1 generalizing f2 pw s with
  | zero =>
    have : s = [] := by cases s <;> simp_all
    subst this
    cases f2 <;> rfl
  | succ f1 ih =>
    cases s with
    | nil => cases f2 <;> rfl
    | cons c cs =>
      cases f2 with
      | zero => simp at h2
      | succ f2 =>
        simp only [replaceScan]
        have hcs1 : cs.length ≤ f1 := by simpa using h1
        have hcs2 : cs.length ≤ f2 := by simpa using h2
        cases hs : stripKey key (c :: cs) with
        | none => simp only; rw [ih f2 _ cs hcs1 hcs2]
        | some rest =>
          have hl := stripKey_length hs
          have hk : 0 < key.length := List.length_pos.mpr hkey
          have hr1 : rest.length ≤ f1 := by simp at hl; omega
          have hr2 : rest.length ≤ f2 := by simp at hl; omega
          simp only
          rw [ih f2 _ rest hr1 hr2, ih f2 _ cs hcs1 hcs2]

theorem isWordKey_ne_nil {key : List Char} (h : isWordKey key = true) : key ≠ [] := by
  intro hk
  subst hk
  simp [isWordKey] at h

theorem isWordKey_cons {k : Char} {ks : List Char} (h : isWordKey (k :: ks) = true) :
    isWordChar k = true ∧ ks.all isWordChar = true := by
  simp [isWordKey] at h
  exact ⟨h.1, by simpa using h.2⟩

theorem stripKey_sep {key : List Char} (hkey : isWordKey key = true) {c : Char}
    (hc : isWordChar c = false) (cs : List Char) : stripKey key (c :: cs) = none := by
  cases key with
  | nil => simp [isWordKey] at hkey
  | cons k ks =>
    have hk := (isWordKey_cons hkey).1
    have : k ≠ c := by
      intro h
      rw [h, hc] at hk
      cases hk
    simp [stripKey, this]

theorem boundaryAfter_of_wellSeg {rest : List Segment} (h : wellSeg true rest = true) :
    boundaryAfter (joinSegs rest) = true := by
  cases rest with
  | nil => rfl
  | cons seg rest =>
    cases seg with
    | word w => simp [wellSeg] at h
    | sep c =>
      simp [wellSeg] at h
      simp [joinSegs, Segment.text, boundaryAfter, h.1]

theorem wellSeg_of_true {pw : Bool} {rest : List Segment} (h : wellSeg true rest = true) :
    wellSeg pw rest = true := by
  cases rest with
  | nil => rfl
  | cons seg rest =>
    cases seg with
    | word w => simp [wellSeg] at h
    | sep c => simpa [wellSeg] using h

theorem stripKey_word_boundary {key w t r : List Char} (hkey : key.all isWordChar = true)
    (hkne : key ≠ []) (hw : w.all isWordChar = true) (ht : boundaryAfter t = true)
    (hne : w ≠ key) (h : stripKey key (w ++ t) = some r) : boundaryAfter r = false := by
  induction key generalizing w with
  | nil => exact absurd rfl hkne
  | cons k ks ih =>
    cases w with
    | nil =>
      cases t with
      | nil => simp [stripKey] at h
      | cons d t =>
        simp only [List.nil_append, stripKey] at h
        split at h
        · rename_i hkd
          simp [boundaryAfter] at ht
          simp at hkey
          rw [hkd, ht] at hkey
          simp at hkey
        · cases h
    | cons c cs =>
      simp only [List.cons_append, stripKey] at h
      split at h
      · rename_i hkc
        subst hkc
        have hks : ks.all isWordChar = true := by simp at hkey ⊢; exact hkey.2
        have hcs : cs.all isWordChar = true := by simp at hw ⊢; exact hw.2
        cases ks with
        | nil =>
          simp only [stripKey] at h
          have hr : r = cs ++ t := by
            cases hx : cs ++ t <;> simp_all [stripKey]
          cases cs with
          | nil => exact absurd rfl hne
          | cons d ds =>
            subst hr
            simp at hw
            simp [boundaryAfter, hw.2.1]
        | cons k2 ks2 =>
          exact ih hks (by simp) hcs (by simpa using hne) h
      · cases h

theorem replaceScan_word (key rep : List Char) (u t : List Char)
    (hu : u.all isWordChar = true) (fuel : Nat) (hf : (u ++ t).length ≤ fuel) :
    replaceScan key rep fuel true (u ++ t)
      = u ++ replaceScan key rep (fuel - u.length) true t := by
  induction u generalizing fuel with
  | nil => simp
  | cons c cs ih =>
    cases fuel with
    | zero => simp at hf
    | succ f =>
      have hc : isWordChar c = true := by simp at hu; exact hu.1
      have hcs : cs.all isWordChar = true := by simp at hu ⊢; exact hu.2
      simp only [List.cons_append, replaceScan]
      have hlen : (cs ++ t).length ≤ f := by simpa using hf
      cases stripKey key (c :: (cs ++ t)) <;>
        simp [hc, ih hcs f hlen]

theorem joinSegs_sep (c : Char) (rest : List Segment) :
    joinSegs (.sep c :: rest) = c :: joinSegs rest := rfl

theorem joinSegs_word (w : List Char) (rest : List Segment) :
    joinSegs (.word w :: rest) = w ++ joinSegs rest := rfl

theorem replaceScan_segs (key rep : List Char) (hkey : isWordKey key = true)
    (segs : List Segment) (pw : Bool) (fuel : Nat) (hw : wellSeg pw segs = true)
    (hf : (joinSegs segs).length ≤ fuel) :
    replaceScan key rep fuel pw (joinSegs segs) = substSegs key rep segs := by
  induction segs generalizing pw fuel with
  | nil => cases fuel <;> rfl
  | cons seg rest ih =>
    cases seg with
    | sep c =>
      simp [wellSeg] at hw
      rw [joinSegs_sep] at hf ⊢
      cases fuel with
      | zero => simp at hf
      | succ f =>
        have hlen : (joinSegs rest).length ≤ f := by simpa using hf
        simp only [replaceScan, stripKey_sep hkey hw.1, substSegs, substSeg]
        rw [hw.1, ih false f hw.2 hlen]
        rfl
    | word w =>
      simp [wellSeg] at hw
      obtain ⟨⟨⟨hpw, hwne⟩, hall⟩, hrest⟩ := hw
      subst hpw
      have hbd := boundaryAfter_of_wellSeg hrest
      have hall' : w.all isWordChar = true := by simpa using hall
      rw [joinSegs_word] at hf ⊢
      cases w with
      | nil => exact absurd rfl hwne
      | cons c cs =>
        cases fuel with
        | zero => simp at hf
        | succ f =>
          have hlen : (cs ++ joinSegs rest).length ≤ f := by simpa using hf
          have hlen2 : (joinSegs rest).length ≤ f - cs.length := by
            simp at hlen; omega
          have hlen3 : (joinSegs rest).length ≤ f := by omega
          by_cases hk : c :: cs = key
          · have hs : stripKey key (c :: (cs ++ joinSegs rest)) = some (joinSegs rest) := by
              rw [← List.cons_append, hk, stripKey_append]
            have hsub : substSegs key rep (.word (c :: cs) :: rest)
                = rep ++ substSegs key rep rest := by
              simp [substSegs, substSeg, hk]
            rw [hsub, List.cons_append]
            simp only [replaceScan, hs, hbd]
            rw [ih true f hrest hlen3]
            rfl
          · have hc : isWordChar c = true := by simp at hall'; exact hall'.1
            have hcs : cs.all isWordChar = true := by simp at hall' ⊢; exact hall'.2
            have hstep : replaceScan key rep (f + 1) false (c :: (cs ++ joinSegs rest))
                = c :: replaceScan key rep f true (cs ++ joinSegs rest) := by
              simp only [replaceScan]
              cases hs : stripKey key (c :: (cs ++ joinSegs rest)) with
              | none => simp [hc]
              | some r =>
                have hb := stripKey_word_boundary (w := c :: cs)
                  (by have := hkey; simp [isWordKey] at this; simpa using this.2)
                  (isWordKey_ne_nil hkey) hall' hbd hk (by simpa using hs)
                simp [hb, hc]
            have hsub : substSegs key rep (.word (c :: cs) :: rest)
                = c :: cs ++ substSegs key rep rest := by
              simp [substSegs, substSeg, hk]
            rw [hsub, List.cons_append, hstep, replaceScan_word key rep cs _ hcs f hlen,
              ih true (f - cs.length) hrest hlen2]
            rfl

theorem segments_cons_word {c : Char} (hc : isWordChar c = true) (cs : List Char) :
    (∃ w rest, segments cs = .word w :: rest ∧ segments (c :: cs) = .word (c :: w) :: rest) ∨
    ((∀ w rest, segments cs ≠ .word w :: rest) ∧
      segments (c :: cs) = .word [c] :: segments cs) := by
  cases h : segments cs with
  | nil => right; simp [segments, hc, h]
  | cons seg rest =>
    cases seg with
    | word w => left; exact ⟨w, rest, rfl, by simp [segments, hc, h]⟩
    | sep d => right; simp [segments, hc, h]

theorem joinSegs_segments (s : List Char) : joinSegs (segments s) = s := by
  induction s with
  | nil => rfl
  | cons c cs ih =>
    by_cases hc : isWordChar c = true
    · rcases segments_cons_word hc cs with ⟨w, rest, h1, h2⟩ | ⟨_, h2⟩
      · rw [h2, joinSegs_word, List.cons_append, ← joinSegs_word, ← h1, ih]
      · rw [h2, joinSegs_word, ih]; rfl
    · simp only [segments, hc]
      simp [joinSegs_sep, ih]

theorem wellSeg_segments (s : List Char) : wellSeg false (segments s) = true := by
  induction s with
  | nil => rfl
  | cons c cs ih =>
    by_cases hc : isWordChar c = true
    · rcases segments_cons_word hc cs with ⟨w, rest, h1, h2⟩ | ⟨hno, h2⟩
      · rw [h1] at ih
        rw [h2]
        simp [wellSeg] at ih ⊢
        exact ⟨⟨hc, ih.1.2⟩, ih.2⟩
      · rw [h2]
        simp [wellSeg, hc]
        cases h : segments cs with
        | nil => rfl
        | cons seg rest =>
          cases seg with
          | word w => exact absurd h (hno w rest)
          | sep d => rw [h] at ih; simpa [wellSeg] using ih
    · simp only [segments, hc]
      simp [wellSeg, hc, ih]

theorem replaceWord_eq_substSegs (key rep s : List Char) (hkey : isWordKey key = true) :
    replaceWord key rep s = substSegs key rep (segments s) := by
  unfold replaceWord
  have h := replaceScan_segs key rep hkey (segments s) false (s.length + 1)
    (wellSeg_segments s) (by rw [joinSegs_segments]; omega)
  rw [joinSegs_segments] at h
  exact h


/-! ## The whole substitution loop, piece by piece -/

theorem segments_sep {c : Char} (hc : isWordChar c = false) (cs : List Char) :
    segments (c :: cs) = .sep c :: segments cs := by
  simp [segments, hc]

theorem segments_ne_nil {s : List Char} (h : s ≠ []) : segments s ≠ [] := by
  intro hs
  have := joinSegs_segments s
  rw [hs] at this
  exact h this.symm

theorem segments_head_sep {s : List Char} (h : boundaryAfter s = true) :
    ∀ w rest, segments s ≠ .word w :: rest := by
  intro w rest
  cases s with
  | nil => simp [segments]
  | cons c cs =>
    simp [boundaryAfter] at h
    rw [segments_sep h]
    simp

theorem segments_append_of_boundary (a b : List Char) (hb : boundaryAfter b = true) :
    segments (a ++ b) = segments a ++ segments b := by
  induction a with
  | nil => rfl
  | cons c cs ih =>
    by_cases hc : isWordChar c = true
    · rw [List.cons_append]
      rcases segments_cons_word hc cs with ⟨w, rest, h1, h2⟩ | ⟨hno, h2⟩
      · rcases segments_cons_word hc (cs ++ b) with ⟨w1, rest1, h3, h4⟩ | ⟨hno1, _⟩
        · rw [h4, h2]
          rw [ih, h1] at h3
          simp at h3
          simp [h3.1, h3.2]
        · exact absurd (by rw [ih, h1]; rfl) (hno1 w (rest ++ segments b))
      · rcases segments_cons_word hc (cs ++ b) with ⟨w1, rest1, h3, _⟩ | ⟨_, h4⟩
        · rw [ih] at h3
          cases hcs : segments cs with
          | nil =>
            rw [hcs] at h3
            exact absurd h3 (segments_head_sep hb w1 rest1)
          | cons seg rest =>
            rw [hcs] at h3
            cases seg with
            | word w => exact absurd hcs (hno w rest)
            | sep d => simp at h3
        · rw [h4, h2, ih]; rfl
    · have hc' : isWordChar c = false := by simpa using hc
      rw [List.cons_append, segments_sep hc', segments_sep hc', ih]; rfl

theorem segments_word {w : List Char} (hne : w ≠ []) (hw : w.all isWordChar = true) :
    segments w = [.word w] := by
  induction w with
  | nil => exact absurd rfl hne
  | cons c cs ih =>
    have hc : isWordChar c = true := by simp at hw; exact hw.1
    have hcs : cs.all isWordChar = true := by simp at hw ⊢; exact hw.2
    cases cs with
    | nil => simp [segments, hc]
    | cons d ds =>
      have := ih (by simp) hcs
      simp [segments, hc] at this ⊢
      rw [this]

theorem boundaryAfter_substSegs {key rep : List Char} {rest : List Segment}
    (h : wellSeg true rest = true) : boundaryAfter (substSegs key rep rest) = true := by
  cases rest with
  | nil => rfl
  | cons seg rest =>
    cases seg with
    | word w => simp [wellSeg] at h
    | sep c =>
      simp [wellSeg] at h
      simp [substSegs, substSeg, boundaryAfter, h.1]

theorem segments_substSegs (key rep : List Char) (segs : List Segment) (pw : Bool)
    (hw : wellSeg pw segs = true) :
    segments (substSegs key rep segs) = replSegs key rep segs := by
  induction segs generalizing pw with
  | nil => rfl
  | cons seg rest ih =>
    cases seg with
    | sep c =>
      simp [wellSeg] at hw
      simp only [substSegs, substSeg, replSegs, List.singleton_append]
      rw [segments_sep hw.1, ih false hw.2]
    | word w =>
      simp [wellSeg] at hw
      obtain ⟨⟨⟨_, hwne⟩, hall⟩, hrest⟩ := hw
      simp only [substSegs, substSeg, replSegs]
      rw [segments_append_of_boundary _ _ (boundaryAfter_substSegs hrest), ih true hrest]
      by_cases hk : w = key
      · simp [hk]
      · simp only [hk, if_false]
        rw [segments_word hwne (by simpa using hall)]

theorem substAllSegs_nil (segs : List Segment) : substAllSegs [] segs = joinSegs segs := by
  induction segs with
  | nil => rfl
  | cons seg rest ih =>
    cases seg <;> simp [substAllSegs, lookupText, joinSegs, Segment.text, ih]

theorem substAllSegs_append (values : List (List Char × JsVal)) (a b : List Segment) :
    substAllSegs values (a ++ b) = substAllSegs values a ++ substAllSegs values b := by
  induction a with
  | nil => rfl
  | cons seg rest ih =>
    cases seg <;> simp [substAllSegs, ih]

theorem lookupText_of_not_key {values : List (List Char × JsVal)} {w : List Char}
    (h : ∀ kv ∈ values, kv.1 ≠ w) : lookupText values w = w := by
  induction values with
  | nil => rfl
  | cons kv rest ih =>
    obtain ⟨k, v⟩ := kv
    have hk : w ≠ k := fun e => h (k, v) (by simp) e.symm
    simp only [lookupText, hk, if_false]
    exact ih (fun kv hkv => h kv (by simp [hkv]))

theorem substAllSegs_of_no_key {values : List (List Char × JsVal)} {segs : List Segment}
    (h : ∀ kv ∈ values, Segment.word kv.1 ∉ segs) :
    substAllSegs values segs = joinSegs segs := by
  induction segs with
  | nil => rfl
  | cons seg rest ih =>
    have hrest : ∀ kv ∈ values, Segment.word kv.1 ∉ rest :=
      fun kv hkv hm => h kv hkv (by simp [hm])
    cases seg with
    | sep c => simp [substAllSegs, joinSegs, Segment.text, ih hrest]
    | word w =>
      have hw : lookupText values w = w :=
        lookupText_of_not_key (fun kv hkv e => h kv hkv (by simp [e]))
      simp [substAllSegs, joinSegs, Segment.text, ih hrest, hw]

theorem substAllSegs_replSegs (key : List Char) (v : JsVal) (values : List (List Char × JsVal))
    (segs : List Segment)
    (hfresh : ∀ kv ∈ values, Segment.word kv.1 ∉ segments (jsToString (orZero v))) :
    substAllSegs values (replSegs key (jsToString (orZero v)) segs)
      = substAllSegs ((key, v) :: values) segs := by
  induction segs with
  | nil => rfl
  | cons seg rest ih =>
    cases seg with
    | sep c => simp [replSegs, substAllSegs, ih]
    | word w =>
      simp only [replSegs, substAllSegs, substAllSegs_append, ih, lookupText]
      by_cases hk : w = key
      · simp only [hk, if_true]
        rw [substAllSegs_of_no_key hfresh, joinSegs_segments]
      · simp [hk, substAllSegs]

theorem freshTexts_spec {values : List (List Char × JsVal)} (h : freshTexts values = true) :
    ∀ kv ∈ values, ∀ kv1 ∈ values,
      Segment.word kv1.1 ∉ segments (jsToString (orZero kv.2)) := by
  intro kv hkv kv1 hkv1
  simp only [freshTexts, List.all_eq_true] at h
  have := h kv hkv kv1 hkv1
  simpa using this

theorem substitute_eq_substAllSegs (s : List Char) (values : List (List Char × JsVal))
    (hkeys : ∀ kv ∈ values, isWordKey kv.1 = true)
    (hfresh : ∀ kv ∈ values, ∀ kv1 ∈ values,
      Segment.word kv1.1 ∉ segments (jsToString (orZero kv.2))) :
    substitute s values = substAllSegs values (segments s) := by
  induction values generalizing s with
  | nil => rw [substAllSegs_nil, joinSegs_segments]; rfl
  | cons kv rest ih =>
    obtain ⟨k, v⟩ := kv
    have hstep : substitute s ((k, v) :: rest)
        = substitute (replaceWord k (jsToString (orZero v)) s) rest := rfl
    rw [hstep, ih _ (fun kv h => hkeys kv (by simp [h]))
      (fun kv h kv1 h1 => hfresh kv (by simp [h]) kv1 (by simp [h1])),
      replaceWord_eq_substSegs _ _ _ (hkeys (k, v) (by simp)),
      segments_substSegs _ _ _ false (wellSeg_segments s)]
    exact substAllSegs_replSegs k v rest (segments s)
      (fun kv h => hfresh (k, v) (by simp) kv (by simp [h]))

/-! ## C6: substitution respects word boundaries -/

/-- C6: for a key made of word characters, one replacement of the loop
rewrites exactly the pieces of the text that are the key as a whole word:
`segments` cuts the text into its maximal runs of word characters and its
other characters, and every piece but the word `key` is left as it is, so a
key inside a longer identifier is never replaced.  Over the whole loop every
word piece gets the text of the value bound to that very word.  With
`investment = 1` and `investment_l = 7` the expression `investment_l`
evaluates to 7. -/
theorem substitution_is_whole_word (key rep s : List Char) (hkey : isWordKey key = true) :
    (replaceWord key rep s = substSegs key rep (segments s) ∧
      joinSegs (segments s) = s ∧ wellSeg false (segments s) = true) ∧
    (∀ values : List (List Char × JsVal), wordKeys values = true →
      freshTexts values = true →
      substitute s values = substAllSegs values (segments s)) ∧
    evaluateFormula refEngine "investment_l".toList
        [("investment".toList, .num n1), ("investment_l".toList, .num n7)] emptyPage
      = (.normal (.num n7), emptyPage) := by
  refine ⟨⟨replaceWord_eq_substSegs key rep s hkey, joinSegs_segments s,
    wellSeg_segments s⟩, ?_, ?_⟩
  · intro values hk hf
    refine substitute_eq_substAllSegs s values ?_ (freshTexts_spec hf)
    intro kv hkv
    simp only [wordKeys, List.all_eq_true] at hk
    exact hk kv hkv
  · have hs : substitute "investment_l".toList
        [("investment".toList, .num n1), ("investment_l".toList, .num n7)]
        = "7".toList := by decide
    have h : refRuntime (functionBody (substitute "investment_l".toList
        [("investment".toList, .num n1), ("investment_l".toList, .num n7)]))
        = some (.normal (.num n7)) := by
      rw [hs]; decide
    rw [evaluateFormula_of_ref implements_refEngine h]
    rfl

theorem substitution_is_whole_word_witness :
    isWordKey "investment".toList = true ∧
      replaceWord "investment".toList "1".toList "investment_l + investment".toList
        = substSegs "investment".toList "1".toList
            (segments "investment_l + investment".toList) ∧
      substSegs "investment".toList "1".toList (segments "investment_l + investment".toList)
        = "investment_l + 1".toList :=
  ⟨by decide,
    (substitution_is_whole_word "investment".toList "1".toList
      "investment_l + investment".toList (by decide)).1.1, by decide⟩


/-! ## What every expression of the grammar looks like -/

theorem chainOk_append (p : Token) (a b : List Token) :
    chainOk p (a ++ b) = (chainOk p a && chainOk (lastOf p a) b) := by
  induction a generalizing p with
  | nil => simp [chainOk, lastOf]
  | cons t ts ih => simp [chainOk, lastOf, ih, Bool.and_assoc]

theorem lastOf_append (p : Token) (a b : List Token) :
    lastOf p (a ++ b) = lastOf (lastOf p a) b := by
  induction a generalizing p with
  | nil => rfl
  | cons t ts ih => simp [lastOf, ih]

theorem chainOk_of_opener {p : Token} (hp : (isBinaryOp p || p == .lparen) = true)
    (hpe : endsOperand p = false) (ts : List Token) :
    chainOk p ts = chainOk .lparen ts := by
  cases ts with
  | nil => rfl
  | cons t ts =>
    simp only [chainOk, validPair, hpe, hp]
    simp [endsOperand, isBinaryOp]

theorem lastOf_of_ends {p : Token} {ts : List Token}
    (h : endsOperand (lastOf .lparen ts) = true) : lastOf p ts = lastOf .lparen ts := by
  cases ts with
  | nil => simp [lastOf, endsOperand] at h
  | cons t ts => rfl

theorem derives_shape {lv : Level} {ts : List Token} {e : JsExpr} (h : Derives lv ts e) :
    chainOk .lparen ts = true ∧ endsOperand (lastOf .lparen ts) = true ∧
      ts.count .lparen = ts.count .rparen := by
  have binary : ∀ (l r : List Token) (op : Token), isBinaryOp op = true →
      op ≠ .lparen → op ≠ .rparen →
      (chainOk .lparen l = true ∧ endsOperand (lastOf .lparen l) = true ∧
        l.count .lparen = l.count .rparen) →
      (chainOk .lparen r = true ∧ endsOperand (lastOf .lparen r) = true ∧
        r.count .lparen = r.count .rparen) →
      chainOk .lparen (l ++ op :: r) = true ∧
        endsOperand (lastOf .lparen (l ++ op :: r)) = true ∧
        (l ++ op :: r).count .lparen = (l ++ op :: r).count .rparen := by
    intro l r op hop hl hr ⟨h1, h2, h3⟩ ⟨h4, h5, h6⟩
    have hope : endsOperand op = false := by cases op <;> simp_all [isBinaryOp, endsOperand]
    refine ⟨?_, ?_, ?_⟩
    · rw [chainOk_append, h1]
      simp only [chainOk, validPair, h2, hop, if_true, Bool.true_or, Bool.true_and]
      rw [chainOk_of_opener (by simp [hop]) hope, h4]
    · rw [lastOf_append]
      simp only [lastOf]
      rw [lastOf_of_ends h5, h5]
    · simp only [List.count_append, List.count_cons, h3, h6]
      have e1 : (op == Token.lparen) = false := by simpa using hl
      have e2 : (op == Token.rparen) = false := by simpa using hr
      simp [e1, e2]
  induction h with
  | num n => exact ⟨rfl, rfl, rfl⟩
  | ident x => exact ⟨rfl, rfl, rfl⟩
  | @paren ts1 _ _ ih =>
    obtain ⟨h1, h2, h3⟩ := ih
    refine ⟨?_, ?_, ?_⟩
    · have hc : chainOk .lparen (Token.lparen :: (ts1 ++ [Token.rparen]))
          = (validPair .lparen .lparen && chainOk .lparen (ts1 ++ [Token.rparen])) := rfl
      rw [List.cons_append, hc, chainOk_append, h1]
      simp only [chainOk, validPair, h2]
      rfl
    · have hl : lastOf .lparen (Token.lparen :: (ts1 ++ [Token.rparen]))
          = lastOf .lparen (ts1 ++ [Token.rparen]) := rfl
      rw [List.cons_append, hl, lastOf_append]
      rfl
    · simp [List.count_cons, List.count_append, h3]
  | ofPrim _ ih => exact ih
  | ofUnary _ ih => exact ih
  | ofExp _ ih => exact ih
  | ofMul _ ih => exact ih
  | neg _ ih =>
    obtain ⟨h1, h2, h3⟩ := ih
    refine ⟨?_, ?_, ?_⟩
    · simp only [chainOk]
      rw [chainOk_of_opener (p := .minus) rfl rfl, h1]
      rfl
    · simp only [lastOf]; rw [lastOf_of_ends h2, h2]
    · simp [List.count_cons, h3]
  | pos _ ih =>
    obtain ⟨h1, h2, h3⟩ := ih
    refine ⟨?_, ?_, ?_⟩
    · simp only [chainOk]
      rw [chainOk_of_opener (p := .plus) rfl rfl, h1]
      rfl
    · simp only [lastOf]; rw [lastOf_of_ends h2, h2]
    · simp [List.count_cons, h3]
  | pow _ _ ih1 ih2 => exact binary _ _ .pow rfl (by simp) (by simp) ih1 ih2
  | mul _ _ ih1 ih2 => exact binary _ _ .star rfl (by simp) (by simp) ih1 ih2
  | div _ _ ih1 ih2 => exact binary _ _ .slash rfl (by simp) (by simp) ih1 ih2
  | rem _ _ ih1 ih2 => exact binary _ _ .percent rfl (by simp) (by simp) ih1 ih2
  | add _ _ ih1 ih2 => exact binary _ _ .plus rfl (by simp) (by simp) ih1 ih2
  | sub _ _ ih1 ih2 => exact binary _ _ .minus rfl (by simp) (by simp) ih1 ih2

theorem evaluateFormula_normal (run : Runtime) (expression : List Char)
    (values : List (List Char × JsVal)) (w : World) :
    ∃ r w1, evaluateFormula run expression values w = (.normal r, w1) := by
  rcases hrun : run (functionBody (substitute expression values)) w with ⟨c, w1⟩
  cases c with
  | throw => exact ⟨_, _, evaluateFormula_of_throw hrun⟩
  | normal v => exact ⟨_, _, evaluateFormula_of_normal hrun⟩

/-! ## C5: malformed expressions -/

set_option maxRecDepth 100000 in
/-- C5 (as stated, refuted): `2 * -3` has two operators next to each other, so
it is not well formed under the grammar of binary operators, yet it returns
-6: the `-` is a sign. -/
theorem evaluateFormula_sign_after_operator :
    Implements refEngine ∧
      evaluateFormula refEngine "2 * -3".toList [] emptyPage
        = (.normal (.num (JsNum.ofNat 6).neg), emptyPage) := by
  refine ⟨implements_refEngine, ?_⟩
  have h : refRuntime (functionBody (substitute "2 * -3".toList []))
      = some (.normal (.num (JsNum.ofNat 6).neg)) := by decide
  rw [evaluateFormula_of_ref implements_refEngine h]
  rfl

/-- C5 (amended): `evaluateFormula` raises no exception on any expression.
When the substituted text lies in the arithmetic fragment it returns `null`
as soon as the tokens break the shape of an expression: a token that may not
follow the one before it (an operator or `(` followed by `)`, `*`, `/` or
`%`, two operands next to each other, `++` or `--`), or numbers of `(` and
`)` that differ.  A `+` or `-` after an operator is a sign and is accepted. -/
theorem evaluateFormula_malformed_is_null (run : Runtime) (hrun : Implements run)
    (expression : List Char) (values : List (List Char × JsVal)) (w : World)
    (toks : List Token)
    (htok : bodyTokens (substitute expression values) = some toks)
    (hfrag : (refRuntime (functionBody (substitute expression values))).isSome = true)
    (hbad : chainOk .lparen toks = false ∨ toks.count .lparen + 1 ≠ toks.count .rparen) :
    evaluateFormula run expression values w
        = (.normal .null, { w with errorLines := w.errorLines + 1 }) ∧
      ∀ (expression1 : List Char) (values1 : List (List Char × JsVal)) (w1 : World),
        (evaluateFormula run expression1 values1 w1).1 ≠ .throw := by
  constructor
  · refine evaluateFormula_null_of_no_value hrun w htok hfrag ?_
    intro e hd v _
    obtain ⟨h1, _, h3⟩ := derives_shape hd
    rcases hbad with hbad | hbad
    · have hc : chainOk .lparen (Token.lparen :: toks) = chainOk .lparen toks := rfl
      rw [hc, hbad] at h1
      cases h1
    · apply hbad
      simp [List.count_cons] at h3
      omega
  · intro expression1 values1 w1
    obtain ⟨r, w2, h⟩ := evaluateFormula_normal run expression1 values1 w1
    rw [h]
    simp

theorem evaluateFormula_malformed_is_null_witness :
    evaluateFormula refEngine "profit_l + (".toList [("profit_l".toList, .num n5)] emptyPage
      = (.normal .null, { emptyPage with errorLines := emptyPage.errorLines + 1 }) := by
  have hs : substitute "profit_l + (".toList [("profit_l".toList, .num n5)]
      = "5 + (".toList := by decide
  have htok : bodyTokens (substitute "profit_l + (".toList [("profit_l".toList, .num n5)])
      = some [.num n5, .plus, .lparen, .rparen] := by
    rw [hs]; decide
  have hfrag : (refRuntime (functionBody
      (substitute "profit_l + (".toList [("profit_l".toList, .num n5)]))).isSome = true := by
    rw [hs]; decide
  exact (evaluateFormula_malformed_is_null refEngine implements_refEngine
    "profit_l + (".toList [("profit_l".toList, .num n5)] emptyPage
    [.num n5, .plus, .lparen, .rparen] htok hfrag (Or.inl (by decide))).1


/-! ## Arithmetic on zeros -/

theorem roundRat_zero (neg : Bool) (d : Nat) : roundRat neg 0 d = .fin neg 0 (-1074) := by
  simp [roundRat]

theorem roundScaled_zero (neg : Bool) (e : Int) : roundScaled neg 0 e = .fin neg 0 (-1074) := by
  unfold roundScaled
  split <;> simp [roundRat_zero]

theorem zeroish_neg {a : JsNum} (ha : zeroish a = true) : zeroish a.neg = true := by
  cases a <;> simp_all [zeroish, JsNum.neg]

theorem zeroish_add {a b : JsNum} (ha : zeroish a = true) (hb : zeroish b = true) :
    zeroish (a.add b) = true := by
  cases a <;> cases b <;> simp_all [zeroish, JsNum.add]

theorem zeroish_mul {a b : JsNum} (ha : zeroish a = true) (hb : zeroish b = true) :
    zeroish (a.mul b) = true := by
  cases a <;> cases b <;> simp_all [zeroish, JsNum.mul, roundScaled_zero]

theorem zeroish_div {a b : JsNum} (ha : zeroish a = true) (hb : zeroish b = true) :
    zeroish (a.div b) = true := by
  cases a <;> cases b <;> simp_all [zeroish, JsNum.div]

theorem zeroish_rem {a b : JsNum} (ha : zeroish a = true) (hb : zeroish b = true) :
    zeroish (a.rem b) = true := by
  cases a <;> cases b <;> simp_all [zeroish, JsNum.rem]

theorem zeroish_of_derives {lv : Level} {ts : List Token} {e : JsExpr} (h : Derives lv ts e)
    (hz : ∀ t ∈ ts, zeroTok t = true) (hp : Token.pow ∉ ts) {v : JsVal}
    (hv : evalExpr e = .value v) : ∃ n, v = .num n ∧ zeroish n = true := by
  have binary : ∀ (op : BinOp) (l r : JsExpr), op ≠ .pow →
      (∀ v, evalExpr l = .value v → ∃ n, v = .num n ∧ zeroish n = true) →
      (∀ v, evalExpr r = .value v → ∃ n, v = .num n ∧ zeroish n = true) →
      ∀ v, evalExpr (.bin op l r) = .value v → ∃ n, v = .num n ∧ zeroish n = true := by
    intro op l r hop hl hr v hv
    simp only [evalExpr] at hv
    cases hel : evalExpr l with
    | throw => rw [hel] at hv; simp at hv
    | unmodelled => rw [hel] at hv; simp at hv
    | value a =>
      cases her : evalExpr r with
      | throw => rw [hel, her] at hv; simp at hv
      | unmodelled => rw [hel, her] at hv; simp at hv
      | value b =>
        obtain ⟨na, rfl, hna⟩ := hl a hel
        obtain ⟨nb, rfl, hnb⟩ := hr b her
        rw [hel, her] at hv
        cases op with
        | pow => exact absurd rfl hop
        | add => simp [BinOp.apply, toNumber] at hv; exact ⟨_, hv.symm, zeroish_add hna hnb⟩
        | sub =>
          simp [BinOp.apply, toNumber] at hv
          exact ⟨_, hv.symm, zeroish_add hna (zeroish_neg hnb)⟩
        | mul => simp [BinOp.apply, toNumber] at hv; exact ⟨_, hv.symm, zeroish_mul hna hnb⟩
        | div => simp [BinOp.apply, toNumber] at hv; exact ⟨_, hv.symm, zeroish_div hna hnb⟩
        | rem => simp [BinOp.apply, toNumber] at hv; exact ⟨_, hv.symm, zeroish_rem hna hnb⟩
  have unary : ∀ (e : JsExpr),
      (∀ v, evalExpr e = .value v → ∃ n, v = .num n ∧ zeroish n = true) →
      (∀ v, evalExpr (.neg e) = .value v → ∃ n, v = .num n ∧ zeroish n = true) ∧
      (∀ v, evalExpr (.pos e) = .value v → ∃ n, v = .num n ∧ zeroish n = true) := by
    intro e he
    constructor <;> intro v hv <;> simp only [evalExpr] at hv
    · cases hee : evalExpr e with
      | throw => rw [hee] at hv; simp at hv
      | unmodelled => rw [hee] at hv; simp at hv
      | value a =>
        obtain ⟨na, rfl, hna⟩ := he a hee
        rw [hee] at hv
        simp [toNumber] at hv
        exact ⟨_, hv.symm, zeroish_neg hna⟩
    · cases hee : evalExpr e with
      | throw => rw [hee] at hv; simp at hv
      | unmodelled => rw [hee] at hv; simp at hv
      | value a =>
        obtain ⟨na, rfl, hna⟩ := he a hee
        rw [hee] at hv
        simp [toNumber] at hv
        exact ⟨_, hv.symm, hna⟩
  induction h generalizing v with
  | num n =>
    have := hz (.num n) (by simp)
    simp [zeroTok] at this
    simp [evalExpr] at hv
    exact ⟨n, hv.symm, by rw [this]; rfl⟩
  | ident x =>
    have := hz (.ident x) (by simp)
    simp [zeroTok] at this
  | paren _ ih =>
    exact ih (fun t ht => hz t (by simp [ht])) (fun hm => hp (by simp [hm])) hv
  | ofPrim _ ih => exact ih hz hp hv
  | ofUnary _ ih => exact ih hz hp hv
  | ofExp _ ih => exact ih hz hp hv
  | ofMul _ ih => exact ih hz hp hv
  | neg _ ih =>
    exact (unary _ (fun v hv => ih (fun t ht => hz t (by simp [ht]))
      (fun hm => hp (by simp [hm])) hv)).1 v hv
  | pos _ ih =>
    exact (unary _ (fun v hv => ih (fun t ht => hz t (by simp [ht]))
      (fun hm => hp (by simp [hm])) hv)).2 v hv
  | pow _ _ _ _ => exact absurd (by simp) hp
  | mul _ _ ih1 ih2 =>
    exact binary .mul _ _ (by simp)
      (fun v hv => ih1 (fun t ht => hz t (by simp [ht])) (fun hm => hp (by simp [hm])) hv)
      (fun v hv => ih2 (fun t ht => hz t (by simp [ht])) (fun hm => hp (by simp [hm])) hv)
      v hv
  | div _ _ ih1 ih2 =>
    exact binary .div _ _ (by simp)
      (fun v hv => ih1 (fun t ht => hz t (by simp [ht])) (fun hm => hp (by simp [hm])) hv)
      (fun v hv => ih2 (fun t ht => hz t (by simp [ht])) (fun hm => hp (by simp [hm])) hv)
      v hv
  | rem _ _ ih1 ih2 =>
    exact binary .rem _ _ (by simp)
      (fun v hv => ih1 (fun t ht => hz t (by simp [ht])) (fun hm => hp (by simp [hm])) hv)
      (fun v hv => ih2 (fun t ht => hz t (by simp [ht])) (fun hm => hp (by simp [hm])) hv)
      v hv
  | add _ _ ih1 ih2 =>
    exact binary .add _ _ (by simp)
      (fun v hv => ih1 (fun t ht => hz t (by simp [ht])) (fun hm => hp (by simp [hm])) hv)
      (fun v hv => ih2 (fun t ht => hz t (by simp [ht])) (fun hm => hp (by simp [hm])) hv)
      v hv
  | sub _ _ ih1 ih2 =>
    exact binary .sub _ _ (by simp)
      (fun v hv => ih1 (fun t ht => hz t (by simp [ht])) (fun hm => hp (by simp [hm])) hv)
      (fun v hv => ih2 (fun t ht => hz t (by simp [ht])) (fun hm => hp (by simp [hm])) hv)
      v hv

/-! ## The tokens of a text of zeros -/

theorem isZeroChar_cases {c : Char} (h : isZeroChar c = true) :
    c = '0' ∨ c = ' ' ∨ c = '\t' ∨ c = '+' ∨ c = '-' ∨ c = '*' ∨ c = '/' ∨ c = '(' ∨
      c = ')' := by
  simp [isZeroChar, isGrammarSep, grammarSymbols] at h
  tauto

theorem dropWhile_mem {p : Char → Bool} {s : List Char} {c : Char}
    (h : c ∈ s.dropWhile p) : c ∈ s :=
  (List.dropWhile_sublist p).subset h

theorem skipBlockComment_mem {s rest : List Char} (h : skipBlockComment s = some rest)
    {c : Char} (hc : c ∈ rest) : c ∈ s := by
  induction s using skipBlockComment.induct with
  | case1 => simp [skipBlockComment] at h
  | case2 _ => simp [skipBlockComment] at h
  | case3 a b r hab =>
    simp [skipBlockComment, hab] at h
    subst h
    simp [hc]
  | case4 a b r hab ih =>
    simp only [skipBlockComment, hab, if_false] at h
    have := ih h
    simp at this ⊢
    tauto

theorem lexExponent_of_sep (s : List Char)
    (h : ∀ c, s.head? = some c → c ≠ 'e' ∧ c ≠ 'E') : lexExponent s = (0, s) := by
  unfold lexExponent
  split
  · rename_i c d rest
    have := h c rfl
    simp [this.1, this.2]
  · rfl

theorem lexNumber_zero (cs : List Char) (h : ∀ c ∈ cs, isZeroChar c = true) :
    ((lexNumber ('0' :: cs)).1 = .bad ∨ (lexNumber ('0' :: cs)).1 = .num JsNum.zero) ∧
      ∀ c ∈ (lexNumber ('0' :: cs)).2, isZeroChar c = true := by
  have hd : ('0' : Char).isDigit = true := by decide
  have htw : ('0' :: cs).takeWhile Char.isDigit = '0' :: cs.takeWhile Char.isDigit := by
    simp [List.takeWhile, hd]
  have hdw : ('0' :: cs).dropWhile Char.isDigit = cs.dropWhile Char.isDigit := by
    simp [List.dropWhile, hd]
  have hr1 : ∀ c ∈ cs.dropWhile Char.isDigit, isZeroChar c = true :=
    fun c hc => h c (dropWhile_mem hc)
  unfold lexNumber
  simp only [htw, hdw]
  cases htk : cs.takeWhile Char.isDigit with
  | cons d ds =>
    simp
    exact hr1
  | nil =>
    have hdot : ∀ r, cs.dropWhile Char.isDigit ≠ '.' :: r := by
      intro r hr
      have := hr1 '.' (by rw [hr]; simp)
      simp [isZeroChar, isGrammarSep, grammarSymbols] at this
    have hfrac : fracDigitsOf (cs.dropWhile Char.isDigit) = [] := by
      unfold fracDigitsOf
      split
      · rename_i r hr; exact absurd hr (hdot r)
      · rfl
    have hr2 : afterFraction (cs.dropWhile Char.isDigit) = cs.dropWhile Char.isDigit := by
      unfold afterFraction
      split
      · rename_i r hr; exact absurd hr (hdot r)
      · rfl
    have hex : lexExponent (cs.dropWhile Char.isDigit) = (0, cs.dropWhile Char.isDigit) := by
      apply lexExponent_of_sep
      intro c hc
      have hm : c ∈ cs.dropWhile Char.isDigit := List.mem_of_mem_head? hc
      have := isZeroChar_cases (hr1 c hm)
      constructor <;> (intro hce; subst hce; simp at this)
    simp only [hfrac, hr2, hex]
    simp
    constructor
    · rfl
    · exact hr1

theorem zeroTok_of_map {t0 : Token} {r : Option (List Token)} {toks : List Token}
    (h0 : zeroTok t0 = true) (hr : ∀ ts, r = some ts → ∀ t ∈ ts, zeroTok t = true)
    (h : r.map (t0 :: ·) = some toks) : ∀ t ∈ toks, zeroTok t = true := by
  cases r with
  | none => simp at h
  | some ts =>
    simp at h
    subst h
    intro t ht
    simp at ht
    rcases ht with rfl | ht
    · exact h0
    · exact hr ts rfl t ht

theorem tokenize_zero (fuel : Nat) (text : List Char) (toks : List Token)
    (h : ∀ c ∈ text, isZeroChar c = true) (ht : tokenize fuel text = some toks) :
    ∀ t ∈ toks, zeroTok t = true := by
  induction fuel generalizing text toks with
  | zero =>
    cases text with
    | nil => simp [tokenize] at ht; subst ht; simp
    | cons c cs => simp [tokenize] at ht
  | succ fuel ih =>
    cases text with
    | nil => simp [tokenize] at ht; subst ht; simp
    | cons c cs =>
      have hcs : ∀ c ∈ cs, isZeroChar c = true := fun d hd => h d (by simp [hd])
      have rec : ∀ (s : List Char), (∀ c ∈ s, c ∈ cs) →
          ∀ ts, tokenize fuel s = some ts → ∀ t ∈ ts, zeroTok t = true :=
        fun s hs ts hts => ih s ts (fun d hd => hcs d (hs d hd)) hts
      have tl : ∀ {d : Char} {r : List Char}, cs = d :: r → ∀ c ∈ r, c ∈ cs := by
        intro d r hcs c hc
        rw [hcs]; simp [hc]
      rcases isZeroChar_cases (h c (by simp)) with
        rfl | rfl | rfl | rfl | rfl | rfl | rfl | rfl | rfl
      · -- '0'
        simp only [tokenize] at ht
        have hz := lexNumber_zero cs hcs
        simp at ht
        obtain ⟨_, a, ha, rfl⟩ := ht
        intro t htm
        simp at htm
        rcases htm with rfl | htm
        · rcases hz.1 with h1 | h1 <;> rw [h1] <;> rfl
        · exact ih _ a hz.2 ha t htm
      · simp [tokenize] at ht; exact rec cs (fun _ hc => hc) toks ht
      · simp [tokenize] at ht; exact rec cs (fun _ hc => hc) toks ht
      · -- '+'
        have e : isIdentStart '+' = false := by decide
        simp [tokenize, e] at ht
        split at ht
        · rename_i r
          refine zeroTok_of_map ?_ (rec r (tl rfl)) ht <;> rfl
        · refine zeroTok_of_map ?_ (rec cs (fun _ hc => hc)) ht <;> rfl
      · -- '-'
        have e : isIdentStart '-' = false := by decide
        simp [tokenize, e] at ht
        split at ht
        · rename_i r
          refine zeroTok_of_map ?_ (rec r (tl rfl)) ht <;> rfl
        · refine zeroTok_of_map ?_ (rec cs (fun _ hc => hc)) ht <;> rfl
      · -- '*'
        have e : isIdentStart '*' = false := by decide
        simp [tokenize, e] at ht
        split at ht
        · rename_i r
          refine zeroTok_of_map ?_ (rec r (tl rfl)) ht <;> rfl
        · refine zeroTok_of_map ?_ (rec cs (fun _ hc => hc)) ht <;> rfl
      · -- '/'
        have e : isIdentStart '/' = false := by decide
        simp [tokenize, e] at ht
        split at ht
        · simp at ht; subst ht; simp
        · rename_i r
          split at ht
          · rename_i rest hrest
            exact rec rest (fun c hc => tl rfl c (skipBlockComment_mem hrest hc)) toks ht
          · simp at ht; subst ht; simp [zeroTok]
        · refine zeroTok_of_map ?_ (rec cs (fun _ hc => hc)) ht <;> rfl
      · -- '('
        have e : isIdentStart '(' = false := by decide
        simp [tokenize, e] at ht
        obtain ⟨a, ha, rfl⟩ := ht
        intro t htm
        simp at htm
        rcases htm with rfl | htm
        · rfl
        · exact rec cs (fun _ hc => hc) a ha t htm
      · -- ')'
        have e : isIdentStart ')' = false := by decide
        simp [tokenize, e] at ht
        obtain ⟨a, ha, rfl⟩ := ht
        intro t htm
        simp at htm
        rcases htm with rfl | htm
        · rfl
        · exact rec cs (fun _ hc => hc) a ha t htm

theorem substAllSegs_zero {values : List (List Char × JsVal)} {segs : List Segment}
    (hzero : ∀ x ∈ vocabulary, lookupText values x = "0".toList)
    (h : ∀ seg ∈ segs, (match seg with
      | .word w => vocabulary.contains w
      | .sep c => isGrammarSep c) = true) :
    ∀ c ∈ substAllSegs values segs, isZeroChar c = true := by
  induction segs with
  | nil => intro c hc; simp [substAllSegs] at hc
  | cons seg rest ih =>
    have hrest := ih (fun s hs => h s (by simp [hs]))
    have hseg := h seg (by simp)
    cases seg with
    | word w =>
      simp at hseg
      intro c hc
      simp only [substAllSegs, List.mem_append] at hc
      rcases hc with hc | hc
      · rw [hzero w hseg] at hc
        simp at hc
        subst hc
        rfl
      · exact hrest c hc
    | sep d =>
      simp at hseg
      intro c hc
      simp only [substAllSegs, List.mem_cons] at hc
      rcases hc with hc | hc
      · subst hc
        simp [isZeroChar, hseg]
      · exact hrest c hc

/-! ## C8: every variable bound to 0 -/

/-- C8 (as stated, refuted): `profit_l**profit_l` is built only from a
recognized variable and the symbol `*`; with every variable bound to 0 it is
`0**0`, JavaScript's exponentiation, and returns 1. -/
theorem evaluateFormula_zero_power_is_one :
    Implements refEngine ∧ builtFromGrammar "profit_l**profit_l".toList = true ∧
      evaluateFormula refEngine "profit_l**profit_l".toList zeroBindings emptyPage
        = (.normal (.num n1), emptyPage) := by
  refine ⟨implements_refEngine, by decide, ?_⟩
  have hs : substitute "profit_l**profit_l".toList zeroBindings = "0**0".toList := by decide
  have h : refRuntime (functionBody (substitute "profit_l**profit_l".toList zeroBindings))
      = some (.normal (.num n1)) := by
    rw [hs]; decide
  rw [evaluateFormula_of_ref implements_refEngine h]
  rfl

/-- C8 (amended): for every expression built only from variables of the
vocabulary, the symbols `+ - * / ( )` and blanks, and every binding set that
gives each variable the text `0`: when the substituted text lies in the
arithmetic fragment and holds no `**`, `evaluateFormula` returns `null` or a
zero (`0` or `-0`).  It never throws. -/
theorem evaluateFormula_all_zero (run : Runtime) (hrun : Implements run)
    (expression : List Char) (values : List (List Char × JsVal)) (w : World)
    (toks : List Token)
    (hbuilt : builtFromGrammar expression = true)
    (hkeys : wordKeys values = true) (hfresh : freshTexts values = true)
    (hzero : ∀ x ∈ vocabulary, lookupText values x = "0".toList)
    (htok : bodyTokens (substitute expression values) = some toks)
    (hpow : Token.pow ∉ toks)
    (hfrag : (refRuntime (functionBody (substitute expression values))).isSome = true) :
    (evaluateFormula run expression values w).1 = .normal .null ∨
      ∃ s x, (evaluateFormula run expression values w).1 = .normal (.num (.fin s 0 x)) := by
  have hchars : ∀ c ∈ substitute expression values ++ [')'], isZeroChar c = true := by
    have hk : ∀ kv ∈ values, isWordKey kv.1 = true := by
      intro kv hkv
      simp only [wordKeys, List.all_eq_true] at hkeys
      exact hkeys kv hkv
    rw [substitute_eq_substAllSegs expression values hk (freshTexts_spec hfresh)]
    intro c hc
    simp only [List.mem_append, List.mem_singleton] at hc
    rcases hc with hc | hc
    · refine substAllSegs_zero hzero ?_ c hc
      intro seg hseg
      simp only [builtFromGrammar, List.all_eq_true] at hbuilt
      exact hbuilt seg hseg
    · subst hc; rfl
  have hz : ∀ t ∈ Token.lparen :: toks, zeroTok t = true := by
    intro t ht
    simp only [List.mem_cons] at ht
    rcases ht with rfl | ht
    · rfl
    · exact tokenize_zero _ _ toks hchars htok t ht
  rcases hc : refRuntime (functionBody (substitute expression values)) with _ | c
  · rw [hc] at hfrag; cases hfrag
  · cases c with
    | throw =>
      left
      rw [evaluateFormula_of_ref_throw hrun hc]
    | normal v =>
      rw [evaluateFormula_of_ref hrun hc]
      rw [refRuntime_functionBody, htok] at hc
      obtain ⟨e, hd, he⟩ := runTokens_normal hc
      obtain ⟨n, rfl, hn⟩ := zeroish_of_derives hd hz (by simpa using hpow) he
      cases n with
      | nan => left; rfl
      | inf s => simp [zeroish] at hn
      | fin s m x =>
        simp [zeroish] at hn
        subst hn
        right
        exact ⟨s, x, rfl⟩

theorem evaluateFormula_all_zero_witness :
    (evaluateFormula refEngine "profit_l * (exchange_rate - investment_l)".toList
        zeroBindings emptyPage).1 = .normal .null ∨
      ∃ s x, (evaluateFormula refEngine "profit_l * (exchange_rate - investment_l)".toList
        zeroBindings emptyPage).1 = .normal (.num (.fin s 0 x)) := by
  have hs : substitute "profit_l * (exchange_rate - investment_l)".toList zeroBindings
      = "0 * (0 - 0)".toList := by decide
  have htok : bodyTokens (substitute "profit_l * (exchange_rate - investment_l)".toList
      zeroBindings)
      = some [.num JsNum.zero, .star, .lparen, .num JsNum.zero, .minus, .num JsNum.zero,
          .rparen, .rparen] := by
    rw [hs]; decide
  have hfrag : (refRuntime (functionBody
      (substitute "profit_l * (exchange_rate - investment_l)".toList zeroBindings))).isSome
      = true := by
    rw [hs]; decide
  exact evaluateFormula_all_zero refEngine implements_refEngine
    "profit_l * (exchange_rate - investment_l)".toList zeroBindings emptyPage _
    (by decide) (by decide) (by decide) (by decide) htok (by decide) hfrag


/-! ## The parser is complete for the formula grammar -/

theorem parseMulRest_exit (fuel : Nat) (lhs : JsExpr) (rest : List Token)
    (h : okAfterProduct rest = true) : parseMulRest (fuel + 1) lhs rest = .ok lhs rest := by
  cases rest with
  | nil => simp [parseMulRest]
  | cons t ts => cases t <;> simp_all [parseMulRest, okAfterProduct]

theorem parseAddRest_exit (fuel : Nat) (lhs : JsExpr) (rest : List Token)
    (h : okAfterSum rest = true) : parseAddRest (fuel + 1) lhs rest = .ok lhs rest := by
  cases rest with
  | nil => simp [parseAddRest]
  | cons t ts => cases t <;> simp_all [parseAddRest, okAfterSum]

theorem okAfterOperand_of_product {rest : List Token} (h : okAfterProduct rest = true) :
    okAfterOperand rest = true := by
  cases rest with
  | nil => rfl
  | cons t ts => cases t <;> simp_all [okAfterProduct, okAfterOperand]

/-- A token list that starts with a literal or with `(`. -/
theorem parseExponent_of_primary {ts rest : List Token} {e : JsExpr} {fuel : Nat}
    (hstart : ∃ t ts1, ts = t :: ts1 ∧ t ≠ .minus ∧ t ≠ .plus)
    (hp : parsePrimary fuel (ts ++ rest) = .ok e rest)
    (hrest : okAfterOperand rest = true) :
    parseExponent (fuel + 2) (ts ++ rest) = .ok e rest := by
  obtain ⟨t, ts1, rfl, hm, hpl⟩ := hstart
  have hu : parseUnary (fuel + 1) (t :: ts1 ++ rest) = .ok e rest := by
    have : parseUnary (fuel + 1) (t :: ts1 ++ rest)
        = (match parsePrimary fuel (t :: ts1 ++ rest) with
          | .ok _ (.lparen :: _) => Parsed.syntaxError
          | r => r) := by
      cases t <;> first | exact absurd rfl hm | exact absurd rfl hpl | simp [parseUnary]
    rw [this, hp]
    cases rest with
    | nil => rfl
    | cons r rs => cases r <;> simp_all [okAfterOperand]
  simp only [parseExponent, hu]
  cases rest with
  | nil => rfl
  | cons r rs => cases r <;> simp_all [okAfterOperand]

theorem multiplicative_of_primary {ts : List Token} {e : JsExpr}
    (hstart : ∃ t ts1, ts = t :: ts1 ∧ t ≠ .minus ∧ t ≠ .plus)
    (hP : ∀ rest F, 4 * ts.length ≤ F + 3 → parsePrimary F (ts ++ rest) = .ok e rest)
    (rest : List Token) (F : Nat) (hF : 4 * ts.length ≤ F)
    (hrest : okAfterOperand rest = true) :
    parseMultiplicative F (ts ++ rest) = parseMulRest (F - 1) e rest := by
  have hlen : 1 ≤ ts.length := by
    obtain ⟨t, ts1, rfl, _⟩ := hstart
    simp
  obtain ⟨F0, rfl⟩ : ∃ F0, F = F0 + 3 := ⟨F - 3, by omega⟩
  have hE := parseExponent_of_primary hstart (hP rest F0 (by omega)) hrest
  simp only [parseMultiplicative, hE]
  rfl

theorem multiplicative_complete {ts : List Token} {e : JsExpr} {steps : Nat}
    (hT : ∀ rest F, 4 * ts.length ≤ F → okAfterOperand rest = true →
      parseMultiplicative F (ts ++ rest) = parseMulRest (F - steps) e rest)
    (hsteps : steps ≤ ts.length) (hlen : 1 ≤ ts.length)
    (rest : List Token) (F : Nat) (hF : 4 * ts.length ≤ F)
    (hrest : okAfterProduct rest = true) :
    parseMultiplicative F (ts ++ rest) = .ok e rest := by
  rw [hT rest F hF (okAfterOperand_of_product hrest)]
  obtain ⟨k, hk⟩ : ∃ k, F - steps = k + 1 := ⟨F - steps - 1, by omega⟩
  rw [hk, parseMulRest_exit k e rest hrest]

theorem additive_of_multiplicative {ts : List Token} {e : JsExpr} {steps : Nat}
    (hT : ∀ rest F, 4 * ts.length ≤ F → okAfterOperand rest = true →
      parseMultiplicative F (ts ++ rest) = parseMulRest (F - steps) e rest)
    (hsteps : steps ≤ ts.length) (hlen : 1 ≤ ts.length)
    (rest : List Token) (F : Nat) (hF : 4 * ts.length + 1 ≤ F)
    (hrest : okAfterProduct rest = true) :
    parseAdditive F (ts ++ rest) = parseAddRest (F - 1) e rest := by
  obtain ⟨F1, rfl⟩ : ∃ F1, F = F1 + 1 := ⟨F - 1, by omega⟩
  have hM := multiplicative_complete hT hsteps hlen rest F1 (by omega) hrest
  simp only [parseAdditive, hM]
  rfl

theorem okAfterProduct_of_sum {rest : List Token} (h : okAfterSum rest = true) :
    okAfterProduct rest = true := by
  cases rest with
  | nil => rfl
  | cons t ts => cases t <;> simp_all [okAfterProduct, okAfterSum]

theorem additive_complete {ts : List Token} {e : JsExpr} {steps : Nat}
    (hA : ∀ rest F, 4 * ts.length + 1 ≤ F → okAfterProduct rest = true →
      parseAdditive F (ts ++ rest) = parseAddRest (F - steps) e rest)
    (hsteps : steps ≤ ts.length) (hlen : 1 ≤ ts.length)
    (rest : List Token) (F : Nat) (hF : 4 * ts.length + 1 ≤ F)
    (hrest : okAfterSum rest = true) :
    parseAdditive F (ts ++ rest) = .ok e rest := by
  rw [hA rest F hF (okAfterProduct_of_sum hrest)]
  obtain ⟨k, hk⟩ : ∃ k, F - steps = k + 1 := ⟨F - steps - 1, by omega⟩
  rw [hk, parseAddRest_exit k e rest hrest]

theorem parse_complete (values : List (List Char × JsVal)) (g : Formula)
    (hwf : g.wf = true) :
    (g.level = 0 →
      (∃ t ts1, g.toks values = t :: ts1 ∧ t ≠ .minus ∧ t ≠ .plus) ∧
      ∀ rest F, 4 * (g.toks values).length ≤ F + 3 →
        parsePrimary F (g.toks values ++ rest) = .ok (g.expr values) rest) ∧
    (g.level ≤ 1 → ∀ rest F, 4 * (g.toks values).length ≤ F →
      okAfterOperand rest = true →
      parseMultiplicative F (g.toks values ++ rest)
        = parseMulRest (F - g.mulSteps) (g.expr values) rest) ∧
    (∀ rest F, 4 * (g.toks values).length + 1 ≤ F → okAfterProduct rest = true →
      parseAdditive F (g.toks values ++ rest)
        = parseAddRest (F - g.addSteps) (g.expr values) rest) ∧
    g.mulSteps ≤ (g.toks values).length ∧ g.addSteps ≤ (g.toks values).length ∧
    1 ≤ (g.toks values).length := by
  induction g with
  | var sp x =>
    have hP : ∀ rest F, 4 * (Formula.toks values (.var sp x)).length ≤ F + 3 →
        parsePrimary F ((Formula.var sp x).toks values ++ rest)
          = .ok ((Formula.var sp x).expr values) rest := by
      intro rest F hF
      obtain ⟨F0, rfl⟩ : ∃ F0, F = F0 + 1 := ⟨F - 1, by simp [Formula.toks] at hF; omega⟩
      simp [Formula.toks, Formula.expr, parsePrimary]
    have hs : ∃ t ts1, (Formula.var sp x).toks values = t :: ts1 ∧ t ≠ .minus ∧ t ≠ .plus :=
      ⟨_, _, rfl, by simp, by simp⟩
    have hT := multiplicative_of_primary hs hP
    refine ⟨fun _ => ⟨hs, hP⟩, fun _ => hT, ?_, by simp [Formula.mulSteps, Formula.toks],
      by simp [Formula.addSteps, Formula.toks], by simp [Formula.toks]⟩
    exact @additive_of_multiplicative _ _ 1 hT (by simp [Formula.toks])
      (by simp [Formula.toks])
  | lit sp i f p =>
    have hP : ∀ rest F, 4 * (Formula.toks values (.lit sp i f p)).length ≤ F + 3 →
        parsePrimary F ((Formula.lit sp i f p).toks values ++ rest)
          = .ok ((Formula.lit sp i f p).expr values) rest := by
      intro rest F hF
      obtain ⟨F0, rfl⟩ : ∃ F0, F = F0 + 1 := ⟨F - 1, by simp [Formula.toks] at hF; omega⟩
      simp [Formula.toks, Formula.expr, parsePrimary]
    have hs : ∃ t ts1, (Formula.lit sp i f p).toks values = t :: ts1 ∧ t ≠ .minus ∧
        t ≠ .plus := ⟨_, _, rfl, by simp, by simp⟩
    have hT := multiplicative_of_primary hs hP
    refine ⟨fun _ => ⟨hs, hP⟩, fun _ => hT, ?_, by simp [Formula.mulSteps, Formula.toks],
      by simp [Formula.addSteps, Formula.toks], by simp [Formula.toks]⟩
    exact @additive_of_multiplicative _ _ 1 hT (by simp [Formula.toks])
      (by simp [Formula.toks])
  | paren sp e sp2 ih =>
    simp only [Formula.wf] at hwf
    obtain ⟨_, _, ihA, _, ihas, ihn⟩ := ih hwf
    have hlen : (Formula.toks values (.paren sp e sp2)).length
        = (e.toks values).length + 2 := by simp [Formula.toks]
    have hP : ∀ rest F, 4 * (Formula.toks values (.paren sp e sp2)).length ≤ F + 3 →
        parsePrimary F ((Formula.paren sp e sp2).toks values ++ rest)
          = .ok ((Formula.paren sp e sp2).expr values) rest := by
      intro rest F hF
      rw [hlen] at hF
      obtain ⟨F0, rfl⟩ : ∃ F0, F = F0 + 1 := ⟨F - 1, by omega⟩
      have hA := additive_complete ihA ihas ihn (.rparen :: rest) F0 (by omega) rfl
      simp only [Formula.toks, Formula.expr, List.cons_append, List.append_assoc,
        List.singleton_append, List.nil_append, parsePrimary, hA]
    have hs : ∃ t ts1, (Formula.paren sp e sp2).toks values = t :: ts1 ∧ t ≠ .minus ∧
        t ≠ .plus := ⟨_, _, rfl, by simp, by simp⟩
    have hT := multiplicative_of_primary hs hP
    refine ⟨fun _ => ⟨hs, hP⟩, fun _ => hT, ?_, by simp [Formula.mulSteps, Formula.toks],
      by simp [Formula.addSteps, Formula.toks], by simp [Formula.toks]⟩
    exact @additive_of_multiplicative _ _ 1 hT (by simp [Formula.toks])
      (by simp [Formula.toks])
  | mul l sp r ihl ihr =>
    simp only [Formula.wf, Bool.and_eq_true, decide_eq_true_eq] at hwf
    obtain ⟨⟨⟨hwl, hwr⟩, hll⟩, hlr⟩ := hwf
    obtain ⟨_, ihlT, _, ihlm, _, ihln⟩ := ihl hwl
    obtain ⟨ihrP, _, _, _, _, ihrn⟩ := ihr hwr
    obtain ⟨hrs, ihrP⟩ := ihrP hlr
    have hlen : (Formula.toks values (.mul l sp r)).length
        = (l.toks values).length + 1 + (r.toks values).length := by
      simp [Formula.toks]; omega
    have hT : ∀ rest F, 4 * (Formula.toks values (.mul l sp r)).length ≤ F →
        okAfterOperand rest = true →
        parseMultiplicative F ((Formula.mul l sp r).toks values ++ rest)
          = parseMulRest (F - (Formula.mul l sp r).mulSteps)
              ((Formula.mul l sp r).expr values) rest := by
      intro rest F hF hrest
      rw [hlen] at hF
      have h1 := ihlT hll (Token.star :: (r.toks values ++ rest)) F (by omega) rfl
      obtain ⟨K, hK⟩ : ∃ K, F - l.mulSteps = K + 3 := ⟨F - l.mulSteps - 3, by omega⟩
      have hE := parseExponent_of_primary hrs (ihrP rest K (by omega)) hrest
      have hsteps : F - (Formula.mul l sp r).mulSteps = K + 2 := by
        simp only [Formula.mulSteps]; omega
      simp only [Formula.toks, Formula.expr, List.append_assoc, List.cons_append]
      rw [h1, hK, hsteps]
      simp only [parseMulRest, hE]
    refine ⟨fun h => by simp [Formula.level] at h, fun _ => hT, ?_,
      by simp only [Formula.mulSteps]; omega, by simp only [Formula.addSteps]; omega,
      by omega⟩
    have := @additive_of_multiplicative _ _ (Formula.mul l sp r).mulSteps hT
      (by simp only [Formula.mulSteps]; omega) (by omega)
    simpa [Formula.addSteps] using this
  | div l sp r ihl ihr =>
    simp only [Formula.wf, Bool.and_eq_true, decide_eq_true_eq] at hwf
    obtain ⟨⟨⟨hwl, hwr⟩, hll⟩, hlr⟩ := hwf
    obtain ⟨_, ihlT, _, ihlm, _, ihln⟩ := ihl hwl
    obtain ⟨ihrP, _, _, _, _, ihrn⟩ := ihr hwr
    obtain ⟨hrs, ihrP⟩ := ihrP hlr
    have hlen : (Formula.toks values (.div l sp r)).length
        = (l.toks values).length + 1 + (r.toks values).length := by
      simp [Formula.toks]; omega
    have hT : ∀ rest F, 4 * (Formula.toks values (.div l sp r)).length ≤ F →
        okAfterOperand rest = true →
        parseMultiplicative F ((Formula.div l sp r).toks values ++ rest)
          = parseMulRest (F - (Formula.div l sp r).mulSteps)
              ((Formula.div l sp r).expr values) rest := by
      intro rest F hF hrest
      rw [hlen] at hF
      have h1 := ihlT hll (Token.slash :: (r.toks values ++ rest)) F (by omega) rfl
      obtain ⟨K, hK⟩ : ∃ K, F - l.mulSteps = K + 3 := ⟨F - l.mulSteps - 3, by omega⟩
      have hE := parseExponent_of_primary hrs (ihrP rest K (by omega)) hrest
      have hsteps : F - (Formula.div l sp r).mulSteps = K + 2 := by
        simp only [Formula.mulSteps]; omega
      simp only [Formula.toks, Formula.expr, List.append_assoc, List.cons_append]
      rw [h1, hK, hsteps]
      simp only [parseMulRest, hE]
    refine ⟨fun h => by simp [Formula.level] at h, fun _ => hT, ?_,
      by simp only [Formula.mulSteps]; omega, by simp only [Formula.addSteps]; omega,
      by omega⟩
    have := @additive_of_multiplicative _ _ (Formula.div l sp r).mulSteps hT
      (by simp only [Formula.mulSteps]; omega) (by omega)
    simpa [Formula.addSteps] using this
  | add l sp r ihl ihr =>
    simp only [Formula.wf, Bool.and_eq_true, decide_eq_true_eq] at hwf
    obtain ⟨⟨hwl, hwr⟩, hlr⟩ := hwf
    obtain ⟨_, _, ihlA, _, ihla, ihln⟩ := ihl hwl
    obtain ⟨_, ihrT, _, ihrm, _, ihrn⟩ := ihr hwr
    have hlen : (Formula.toks values (.add l sp r)).length
        = (l.toks values).length + 1 + (r.toks values).length := by
      simp [Formula.toks]; omega
    have hA : ∀ rest F, 4 * (Formula.toks values (.add l sp r)).length + 1 ≤ F →
        okAfterProduct rest = true →
        parseAdditive F ((Formula.add l sp r).toks values ++ rest)
          = parseAddRest (F - (Formula.add l sp r).addSteps)
              ((Formula.add l sp r).expr values) rest := by
      intro rest F hF hrest
      rw [hlen] at hF
      have h1 := ihlA (Token.plus :: (r.toks values ++ rest)) F (by omega) rfl
      obtain ⟨K, hK⟩ : ∃ K, F - l.addSteps = K + 1 := ⟨F - l.addSteps - 1, by omega⟩
      have hM := multiplicative_complete (ihrT hlr) ihrm ihrn rest K (by omega) hrest
      have hsteps : F - (Formula.add l sp r).addSteps = K := by
        simp only [Formula.addSteps]; omega
      simp only [Formula.toks, Formula.expr, List.append_assoc, List.cons_append]
      rw [h1, hK, hsteps]
      simp only [parseAddRest, hM]
    refine ⟨fun h => by simp [Formula.level] at h, fun h => by simp [Formula.level] at h, hA,
      by simp only [Formula.mulSteps]; omega, by simp only [Formula.addSteps]; omega,
      by omega⟩
  | sub l sp r ihl ihr =>
    simp only [Formula.wf, Bool.and_eq_true, decide_eq_true_eq] at hwf
    obtain ⟨⟨hwl, hwr⟩, hlr⟩ := hwf
    obtain ⟨_, _, ihlA, _, ihla, ihln⟩ := ihl hwl
    obtain ⟨_, ihrT, _, ihrm, _, ihrn⟩ := ihr hwr
    have hlen : (Formula.toks values (.sub l sp r)).length
        = (l.toks values).length + 1 + (r.toks values).length := by
      simp [Formula.toks]; omega
    have hA : ∀ rest F, 4 * (Formula.toks values (.sub l sp r)).length + 1 ≤ F →
        okAfterProduct rest = true →
        parseAdditive F ((Formula.sub l sp r).toks values ++ rest)
          = parseAddRest (F - (Formula.sub l sp r).addSteps)
              ((Formula.sub l sp r).expr values) rest := by
      intro rest F hF hrest
      rw [hlen] at hF
      have h1 := ihlA (Token.minus :: (r.toks values ++ rest)) F (by omega) rfl
      obtain ⟨K, hK⟩ : ∃ K, F - l.addSteps = K + 1 := ⟨F - l.addSteps - 1, by omega⟩
      have hM := multiplicative_complete (ihrT hlr) ihrm ihrn rest K (by omega) hrest
      have hsteps : F - (Formula.sub l sp r).addSteps = K := by
        simp only [Formula.addSteps]; omega
      simp only [Formula.toks, Formula.expr, List.append_assoc, List.cons_append]
      rw [h1, hK, hsteps]
      simp only [parseAddRest, hM]
    refine ⟨fun h => by simp [Formula.level] at h, fun h => by simp [Formula.level] at h, hA,
      by simp only [Formula.mulSteps]; omega, by simp only [Formula.addSteps]; omega,
      by omega⟩


/-! ## Numerals in front of other text -/

theorem takeWhile_append_of_head {p : Char → Bool} (a rest : List Char)
    (h : ∀ c, rest.head? = some c → p c = false) :
    (a ++ rest).takeWhile p = a.takeWhile p ∧
      (a ++ rest).dropWhile p = a.dropWhile p ++ rest := by
  induction a with
  | nil =>
    cases rest with
    | nil => simp
    | cons c cs =>
      have := h c rfl
      simp [List.takeWhile, List.dropWhile, this]
  | cons x xs ih =>
    by_cases hx : p x = true
    · simp [List.takeWhile, List.dropWhile, hx, ih.1, ih.2]
    · simp [List.takeWhile, List.dropWhile, hx]

theorem delimStart_head {rest : List Char} (h : delimStart rest = true) :
    ∀ c, rest.head? = some c → c.isDigit = false ∧ c ≠ '.' ∧ isIdentPart c = false := by
  intro c hc
  cases rest with
  | nil => simp at hc
  | cons d ds =>
    simp at hc
    subst hc
    simp [delimStart, isDelim] at h
    exact ⟨h.1.1, h.1.2, h.2⟩

theorem delim_not_e {c : Char} (h : isIdentPart c = false) : c ≠ 'e' ∧ c ≠ 'E' := by
  constructor <;> (intro hc; subst hc; revert h; decide)

theorem lexExponent_digit {c d : Char} {r : List Char} (hc : c = 'e' ∨ c = 'E')
    (hd : d.isDigit = true) :
    lexExponent (c :: d :: r)
      = (((digitsVal ((d :: r).takeWhile Char.isDigit) : Nat) : Int),
          (d :: r).dropWhile Char.isDigit) := by
  simp only [lexExponent, hc, hd, if_true]

theorem lexExponent_sign {c d : Char} {r : List Char} (hc : c = 'e' ∨ c = 'E')
    (hd : d.isDigit = false)
    (hs : (d = '+' ∨ d = '-') ∧ (r.head?.map Char.isDigit = some true)) :
    lexExponent (c :: d :: r)
      = ((if d = '-' then -((digitsVal (r.takeWhile Char.isDigit) : Nat) : Int)
          else ((digitsVal (r.takeWhile Char.isDigit) : Nat) : Int)),
          r.dropWhile Char.isDigit) := by
  simp only [lexExponent, hc, hd, hs, and_self, if_true]
  simp

theorem lexExponent_none {c d : Char} {r : List Char}
    (h : ¬(c = 'e' ∨ c = 'E') ∨
      (d.isDigit = false ∧ ¬((d = '+' ∨ d = '-') ∧ (r.head?.map Char.isDigit = some true)))) :
    lexExponent (c :: d :: r) = (0, c :: d :: r) := by
  rcases h with h | ⟨h1, h2⟩
  · simp only [lexExponent, h, if_false]
  · by_cases hc : c = 'e' ∨ c = 'E'
    · simp only [lexExponent, hc, h1, h2, if_true, if_false]
      simp
    · simp only [lexExponent, hc, if_false]

theorem lexExponent_append (s rest : List Char) (hs : (lexExponent s).2 = [])
    (hrest : delimStart rest = true) :
    lexExponent (s ++ rest) = ((lexExponent s).1, rest) := by
  have hd := delimStart_head hrest
  have hdig : ∀ c, rest.head? = some c → Char.isDigit c = false := fun c hc => (hd c hc).1
  match s, hs with
  | [], _ =>
    have : lexExponent rest = (0, rest) :=
      lexExponent_of_sep rest (fun c hc => delim_not_e (hd c hc).2.2)
    simpa [lexExponent] using this
  | [c], hs => simp [lexExponent] at hs
  | c :: d :: r, hs =>
    by_cases hce : c = 'e' ∨ c = 'E'
    · by_cases hdd : d.isDigit = true
      · rw [lexExponent_digit hce hdd] at hs ⊢
        have := takeWhile_append_of_head (p := Char.isDigit) (d :: r) rest hdig
        simp only at hs
        rw [List.cons_append, List.cons_append, lexExponent_digit hce hdd,
          ← List.cons_append, this.1, this.2, hs]
        rfl
      · have hdd' : d.isDigit = false := by simpa using hdd
        by_cases hsg : (d = '+' ∨ d = '-') ∧ (r.head?.map Char.isDigit = some true)
        · have hr : (r ++ rest).head?.map Char.isDigit = some true := by
            cases r with
            | nil => simp at hsg
            | cons x xs => simpa using hsg.2
          rw [lexExponent_sign hce hdd' hsg] at hs ⊢
          have := takeWhile_append_of_head (p := Char.isDigit) r rest hdig
          simp only at hs
          rw [List.cons_append, List.cons_append, lexExponent_sign hce hdd' ⟨hsg.1, hr⟩,
            this.1, this.2, hs]
          rfl
        · rw [lexExponent_none (Or.inr ⟨hdd', hsg⟩)] at hs
          simp at hs
    · rw [lexExponent_none (Or.inl hce)] at hs
      simp at hs

theorem fracDigitsOf_of_ne {c : Char} (hc : c ≠ '.') (s : List Char) :
    fracDigitsOf (c :: s) = [] ∧ afterFraction (c :: s) = c :: s := by
  unfold fracDigitsOf afterFraction
  constructor <;> split
  · rename_i r hr
    simp at hr
    exact absurd hr.1 hc
  · rfl
  · rename_i r hr
    simp at hr
    exact absurd hr.1 hc
  · rfl

theorem fracDigitsOf_of_delim {rest : List Char} (hrest : delimStart rest = true) :
    fracDigitsOf rest = [] ∧ afterFraction rest = rest := by
  cases rest with
  | nil => exact ⟨rfl, rfl⟩
  | cons c cs => exact fracDigitsOf_of_ne (delimStart_head hrest c rfl).2.1 cs

theorem lexNumber_append (t rest : List Char) (hs : (lexNumber t).2 = [])
    (hrest : delimStart rest = true) :
    lexNumber (t ++ rest) = ((lexNumber t).1, rest) := by
  have hd := delimStart_head hrest
  have hdig : ∀ c, rest.head? = some c → Char.isDigit c = false := fun c hc => (hd c hc).1
  have htw := takeWhile_append_of_head (p := Char.isDigit) t rest hdig
  unfold lexNumber at hs ⊢
  simp only [htw.1, htw.2] at hs ⊢
  by_cases hleg : (decide (1 < (t.takeWhile Char.isDigit).length) &&
      (t.takeWhile Char.isDigit).head? == some '0') = true
  · simp only [hleg, if_true] at hs ⊢
    rw [hs]
    rfl
  · simp only [hleg] at hs ⊢
    cases hr1 : t.dropWhile Char.isDigit with
    | nil =>
      rw [hr1] at hs
      have hex := lexExponent_append [] rest rfl hrest
      simp only [List.nil_append] at hex
      simp only [List.nil_append, (fracDigitsOf_of_delim hrest).1,
        (fracDigitsOf_of_delim hrest).2, hex]
      rfl
    | cons c r =>
      rw [hr1] at hs
      by_cases hc : c = '.'
      · subst hc
        have hfw := takeWhile_append_of_head (p := Char.isDigit) r rest hdig
        have e1 : fracDigitsOf ('.' :: r ++ rest) = fracDigitsOf ('.' :: r) := by
          simp only [List.cons_append, fracDigitsOf, hfw.1]
        have e2 : afterFraction ('.' :: r ++ rest) = afterFraction ('.' :: r) ++ rest := by
          simp only [List.cons_append, afterFraction, hfw.2]
        simp only [if_false, Bool.false_eq_true] at hs
        have hex := lexExponent_append (afterFraction ('.' :: r)) rest hs hrest
        simp only [e1, e2, hex]
        rfl
      · have h1 := fracDigitsOf_of_ne hc r
        have h2 := fracDigitsOf_of_ne hc (r ++ rest)
        simp only [if_false, Bool.false_eq_true] at hs
        rw [h1.2] at hs
        have hex := lexExponent_append (c :: r) rest hs hrest
        simp only [List.cons_append] at hex ⊢
        simp only [h1.1, h1.2, h2.1, h2.2, hex]
        rfl


/-! ## The tokens of a substituted formula -/

theorem tokenize_blanks (n F : Nat) (s : List Char) :
    tokenize (F + n) (blanks n ++ s) = tokenize F s := by
  induction n with
  | zero => rfl
  | succ n ih =>
    have : blanks (n + 1) ++ s = ' ' :: (blanks n ++ s) := by
      simp [blanks, List.replicate_succ]
    rw [this, ← Nat.add_assoc]
    simp only [tokenize, true_or, if_true]
    exact ih

theorem tokenize_number {t rest : List Char} {tok : Token} (F : Nat)
    (hhead : t.head?.map Char.isDigit = some true)
    (hlex : lexNumber t = (tok, [])) (hrest : delimStart rest = true) :
    tokenize (F + 1) (t ++ rest) = (tokenize F rest).map (tok :: ·) := by
  have happ := lexNumber_append t rest (by rw [hlex]) hrest
  rw [hlex] at happ
  cases t with
  | nil => simp at hhead
  | cons d t1 =>
    have hd : d.isDigit = true := by simpa using hhead
    have hb : ¬(d = ' ' ∨ d = '\t') := by
      rintro (h | h) <;> (subst h; revert hd; decide)
    have hid : rest.head?.map isIdentPart ≠ some true := by
      cases rest with
      | nil => simp
      | cons c cs =>
        have := (delimStart_head hrest c rfl).2.2
        simp [this]
    rw [List.cons_append] at happ ⊢
    simp only [tokenize, hb, if_false, hd, true_or, if_true, happ, hid]

theorem tokenize_symbol {c : Char} {tok : Token} {rest : List Char} (F : Nat)
    (hc : (c = '*' ∧ tok = .star) ∨ (c = '/' ∧ tok = .slash) ∨ (c = '+' ∧ tok = .plus) ∨
      (c = '-' ∧ tok = .minus))
    (hrest : operandStart rest = true) :
    tokenize (F + 1) (c :: rest) = (tokenize F rest).map (tok :: ·) := by
  cases rest with
  | nil => simp [operandStart] at hrest
  | cons d ds =>
    simp [operandStart] at hrest
    have hne : d ≠ '*' ∧ d ≠ '/' ∧ d ≠ '+' ∧ d ≠ '-' := by
      refine ⟨?_, ?_, ?_, ?_⟩ <;> (intro h; subst h; revert hrest; decide)
    rcases hc with ⟨rfl, rfl⟩ | ⟨rfl, rfl⟩ | ⟨rfl, rfl⟩ | ⟨rfl, rfl⟩
    · have e : isIdentStart '*' = false := by decide
      simp [tokenize, e, hne.1]
    · have e : isIdentStart '/' = false := by decide
      simp [tokenize, e, hne.1, hne.2.1]
    · have e : isIdentStart '+' = false := by decide
      simp [tokenize, e, hne.2.2.1]
    · have e : isIdentStart '-' = false := by decide
      simp [tokenize, e, hne.2.2.2]

theorem tokenize_lparen (F : Nat) (rest : List Char) :
    tokenize (F + 1) ('(' :: rest) = (tokenize F rest).map (Token.lparen :: ·) := by
  have e : isIdentStart '(' = false := by decide
  simp [tokenize, e]

theorem tokenize_rparen (F : Nat) (rest : List Char) :
    tokenize (F + 1) (')' :: rest) = (tokenize F rest).map (Token.rparen :: ·) := by
  have e : isIdentStart ')' = false := by decide
  simp [tokenize, e]

theorem lookup_good {values : List (List Char × JsVal)} (hgood : goodBindings values = true)
    {x : List Char} (hx : (values.any fun kv => kv.1 == x) = true) :
    numeralOk (lookupText values x) (lookupNum values x) = true ∧
      ∃ m e, lookupNum values x = .fin false m e := by
  induction values with
  | nil => simp at hx
  | cons kv rest ih =>
    obtain ⟨k, v⟩ := kv
    simp only [goodBindings, List.all_cons, Bool.and_eq_true] at hgood
    obtain ⟨⟨_, hv⟩, hrest⟩ := hgood
    by_cases hk : x = k
    · simp only [lookupText, lookupNum, hk, if_true]
      unfold goodBinding at hv
      split at hv
      · rename_i m e heq
        rw [heq]
        exact ⟨hv, m, e, rfl⟩
      · cases hv
    · simp only [lookupText, lookupNum, hk, if_false]
      apply ih hrest
      simp only [List.any_cons, Bool.or_eq_true] at hx
      rcases hx with hx | hx
      · simp at hx; exact absurd hx.symm hk
      · exact hx

theorem takeWhile_all {p : Char → Bool} {a : List Char} (h : a.all p = true) :
    a.takeWhile p = a ∧ a.dropWhile p = [] := by
  induction a with
  | nil => exact ⟨rfl, rfl⟩
  | cons x xs ih =>
    simp only [List.all_cons, Bool.and_eq_true] at h
    simp [List.takeWhile, List.dropWhile, h.1, ih h.2]

theorem lexNumber_literal {i f : List Char} {p : Bool} {sp : Nat}
    (hwf : (Formula.lit sp i f p).wf = true) :
    (i ++ (if p then '.' :: f else [])).head?.map Char.isDigit = some true ∧
      lexNumber (i ++ (if p then '.' :: f else [])) = (.num (decimalValue i f 0), []) := by
  simp only [Formula.wf, Bool.and_eq_true] at hwf
  obtain ⟨⟨⟨⟨hne, hi⟩, hf⟩, hp⟩, hlead⟩ := hwf
  have hdot : ∀ c, (if p then '.' :: f else []).head? = some c → Char.isDigit c = false := by
    intro c hc
    cases p with
    | true => simp at hc; subst hc; decide
    | false => simp at hc
  have htw := takeWhile_append_of_head (p := Char.isDigit) i _ hdot
  rw [(takeWhile_all hi).1, (takeWhile_all hi).2, List.nil_append] at htw
  constructor
  · cases i with
    | nil => simp at hne
    | cons d ds =>
      simp only [List.all_cons, Bool.and_eq_true] at hi
      simp [hi.1]
  · unfold lexNumber
    simp only [htw.1, htw.2]
    have hleg : (decide (1 < i.length) && i.head? == some '0') = false := by
      simp only [Bool.or_eq_true, beq_iff_eq, bne_iff_ne, ne_eq] at hlead
      rcases hlead with h | h
      · simp [h]
      · simp [h]
    simp only [hleg]
    cases p with
    | true =>
      simp [fracDigitsOf, afterFraction, (takeWhile_all hf).1, (takeWhile_all hf).2,
        lexExponent]
    | false =>
      simp at hp
      subst hp
      simp [fracDigitsOf, afterFraction, lexExponent]

theorem operandStart_blanks (sp : Nat) {s : List Char} (h : operandStart s = true) :
    operandStart (blanks sp ++ s) = true := by
  cases sp with
  | zero => simpa [blanks] using h
  | succ n => simp [blanks, List.replicate_succ, operandStart]

theorem operandStart_of_digit {t : List Char} (h : t.head?.map Char.isDigit = some true)
    (tail : List Char) : operandStart (t ++ tail) = true := by
  cases t with
  | nil => simp at h
  | cons d ds =>
    simp at h
    simp [operandStart, h]

theorem delimStart_blanks (sp : Nat) {c : Char} (hc : isDelim c = true) (s : List Char) :
    delimStart (blanks sp ++ c :: s) = true := by
  cases sp with
  | zero => simpa [blanks, delimStart] using hc
  | succ n =>
    simp only [blanks, List.replicate_succ, List.cons_append, delimStart]
    decide

theorem tokenize_textWith (values : List (List Char × JsVal))
    (hgood : goodBindings values = true) (g : Formula) (hwf : g.wf = true)
    (hb : g.bound values = true) :
    (∀ tail, operandStart (g.textWith values ++ tail) = true) ∧
    ∀ tail F, g.steps ≤ F → delimStart tail = true →
      tokenize F (g.textWith values ++ tail)
        = (tokenize (F - g.steps) tail).map (g.toks values ++ ·) := by
  induction g with
  | var sp x =>
    simp only [Formula.bound] at hb
    obtain ⟨hnum, _⟩ := lookup_good hgood (x := x) hb
    simp only [numeralOk, Bool.and_eq_true, beq_iff_eq, decide_eq_true_eq] at hnum
    constructor
    · intro tail
      simp only [Formula.textWith, List.append_assoc]
      exact operandStart_blanks sp (operandStart_of_digit hnum.1 tail)
    · intro tail F hF htail
      simp only [Formula.steps] at hF
      obtain ⟨K, rfl⟩ : ∃ K, F = (K + 1) + sp := ⟨F - sp - 1, by omega⟩
      have hK : K + 1 + sp - (Formula.var sp x).steps = K := by
        simp only [Formula.steps]; omega
      simp only [Formula.textWith, Formula.toks, List.append_assoc]
      rw [tokenize_blanks, tokenize_number K hnum.1 hnum.2 htail, hK]
      rfl
  | lit sp i f p =>
    obtain ⟨hhead, hlex⟩ := lexNumber_literal hwf
    constructor
    · intro tail
      simp only [Formula.textWith, List.append_assoc]
      have := operandStart_blanks sp (operandStart_of_digit hhead tail)
      simpa [List.append_assoc] using this
    · intro tail F hF htail
      simp only [Formula.steps] at hF
      obtain ⟨K, rfl⟩ : ∃ K, F = (K + 1) + sp := ⟨F - sp - 1, by omega⟩
      have hK : K + 1 + sp - (Formula.lit sp i f p).steps = K := by
        simp only [Formula.steps]; omega
      simp only [Formula.textWith, Formula.toks]
      rw [List.append_assoc, tokenize_blanks, tokenize_number K hhead hlex htail, hK]
      rfl
  | paren sp e sp2 ih =>
    simp only [Formula.wf] at hwf
    simp only [Formula.bound] at hb
    obtain ⟨_, ihT⟩ := ih hwf hb
    constructor
    · intro tail
      simp only [Formula.textWith, List.append_assoc]
      exact operandStart_blanks sp (by simp [operandStart])
    · intro tail F hF htail
      simp only [Formula.steps] at hF
      obtain ⟨K, rfl⟩ : ∃ K, F = ((((K + 1) + sp2) + e.steps) + 1) + sp :=
        ⟨F - sp - 1 - e.steps - sp2 - 1, by omega⟩
      have hK : K + 1 + sp2 + e.steps + 1 + sp - (Formula.paren sp e sp2).steps = K := by
        simp only [Formula.steps]; omega
      have hK2 : K + 1 + sp2 + e.steps - e.steps = K + 1 + sp2 := by omega
      simp only [Formula.textWith, Formula.toks, List.append_assoc, List.cons_append,
        List.nil_append]
      rw [tokenize_blanks, tokenize_lparen,
        ihT (blanks sp2 ++ ')' :: tail) _ (by omega) (delimStart_blanks sp2 (by decide) _),
        hK2, tokenize_blanks, tokenize_rparen, hK]
      cases tokenize K tail <;> simp
  | mul l sp r ihl ihr =>
    simp only [Formula.wf, Bool.and_eq_true] at hwf
    simp only [Formula.bound, Bool.and_eq_true] at hb
    have hwl : l.wf = true := by exact hwf.1.1.1
    have hwr : r.wf = true := by exact hwf.1.1.2
    obtain ⟨ihlS, ihlT⟩ := ihl hwl hb.1
    obtain ⟨ihrS, ihrT⟩ := ihr hwr hb.2
    constructor
    · intro tail
      simp only [Formula.textWith, List.append_assoc]
      exact ihlS _
    · intro tail F hF htail
      simp only [Formula.steps] at hF
      obtain ⟨K, rfl⟩ : ∃ K, F = (((K + r.steps) + 1) + sp) + l.steps :=
        ⟨F - l.steps - sp - 1 - r.steps, by omega⟩
      have hK : K + r.steps + 1 + sp + l.steps - (Formula.mul l sp r).steps = K := by
        simp only [Formula.steps]; omega
      have hK1 : K + r.steps + 1 + sp + l.steps - l.steps = K + r.steps + 1 + sp := by omega
      have hK2 : K + r.steps - r.steps = K := by omega
      simp only [Formula.textWith, Formula.toks, List.append_assoc, List.cons_append]
      rw [ihlT (blanks sp ++ '*' :: (r.textWith values ++ tail)) _ (by omega)
          (delimStart_blanks sp (by decide) _),
        hK1, tokenize_blanks,
        @tokenize_symbol _ Token.star _ _ (by simp) (ihrS tail),
        ihrT tail _ (by omega) htail, hK2, hK]
      cases tokenize K tail <;> simp
  | div l sp r ihl ihr =>
    simp only [Formula.wf, Bool.and_eq_true] at hwf
    simp only [Formula.bound, Bool.and_eq_true] at hb
    have hwl : l.wf = true := by exact hwf.1.1.1
    have hwr : r.wf = true := by exact hwf.1.1.2
    obtain ⟨ihlS, ihlT⟩ := ihl hwl hb.1
    obtain ⟨ihrS, ihrT⟩ := ihr hwr hb.2
    constructor
    · intro tail
      simp only [Formula.textWith, List.append_assoc]
      exact ihlS _
    · intro tail F hF htail
      simp only [Formula.steps] at hF
      obtain ⟨K, rfl⟩ : ∃ K, F = (((K + r.steps) + 1) + sp) + l.steps :=
        ⟨F - l.steps - sp - 1 - r.steps, by omega⟩
      have hK : K + r.steps + 1 + sp + l.steps - (Formula.div l sp r).steps = K := by
        simp only [Formula.steps]; omega
      have hK1 : K + r.steps + 1 + sp + l.steps - l.steps = K + r.steps + 1 + sp := by omega
      have hK2 : K + r.steps - r.steps = K := by omega
      simp only [Formula.textWith, Formula.toks, List.append_assoc, List.cons_append]
      rw [ihlT (blanks sp ++ '/' :: (r.textWith values ++ tail)) _ (by omega)
          (delimStart_blanks sp (by decide) _),
        hK1, tokenize_blanks,
        @tokenize_symbol _ Token.slash _ _ (by simp) (ihrS tail),
        ihrT tail _ (by omega) htail, hK2, hK]
      cases tokenize K tail <;> simp
  | add l sp r ihl ihr =>
    simp only [Formula.wf, Bool.and_eq_true] at hwf
    simp only [Formula.bound, Bool.and_eq_true] at hb
    have hwl : l.wf = true := by exact hwf.1.1
    have hwr : r.wf = true := by exact hwf.1.2
    obtain ⟨ihlS, ihlT⟩ := ihl hwl hb.1
    obtain ⟨ihrS, ihrT⟩ := ihr hwr hb.2
    constructor
    · intro tail
      simp only [Formula.textWith, List.append_assoc]
      exact ihlS _
    · intro tail F hF htail
      simp only [Formula.steps] at hF
      obtain ⟨K, rfl⟩ : ∃ K, F = (((K + r.steps) + 1) + sp) + l.steps :=
        ⟨F - l.steps - sp - 1 - r.steps, by omega⟩
      have hK : K + r.steps + 1 + sp + l.steps - (Formula.add l sp r).steps = K := by
        simp only [Formula.steps]; omega
      have hK1 : K + r.steps + 1 + sp + l.steps - l.steps = K + r.steps + 1 + sp := by omega
      have hK2 : K + r.steps - r.steps = K := by omega
      simp only [Formula.textWith, Formula.toks, List.append_assoc, List.cons_append]
      rw [ihlT (blanks sp ++ '+' :: (r.textWith values ++ tail)) _ (by omega)
          (delimStart_blanks sp (by decide) _),
        hK1, tokenize_blanks,
        @tokenize_symbol _ Token.plus _ _ (by simp) (ihrS tail),
        ihrT tail _ (by omega) htail, hK2, hK]
      cases tokenize K tail <;> simp
  | sub l sp r ihl ihr =>
    simp only [Formula.wf, Bool.and_eq_true] at hwf
    simp only [Formula.bound, Bool.and_eq_true] at hb
    have hwl : l.wf = true := by exact hwf.1.1
    have hwr : r.wf = true := by exact hwf.1.2
    obtain ⟨ihlS, ihlT⟩ := ihl hwl hb.1
    obtain ⟨ihrS, ihrT⟩ := ihr hwr hb.2
    constructor
    · intro tail
      simp only [Formula.textWith, List.append_assoc]
      exact ihlS _
    · intro tail F hF htail
      simp only [Formula.steps] at hF
      obtain ⟨K, rfl⟩ : ∃ K, F = (((K + r.steps) + 1) + sp) + l.steps :=
        ⟨F - l.steps - sp - 1 - r.steps, by omega⟩
      have hK : K + r.steps + 1 + sp + l.steps - (Formula.sub l sp r).steps = K := by
        simp only [Formula.steps]; omega
      have hK1 : K + r.steps + 1 + sp + l.steps - l.steps = K + r.steps + 1 + sp := by omega
      have hK2 : K + r.steps - r.steps = K := by omega
      simp only [Formula.textWith, Formula.toks, List.append_assoc, List.cons_append]
      rw [ihlT (blanks sp ++ '-' :: (r.textWith values ++ tail)) _ (by omega)
          (delimStart_blanks sp (by decide) _),
        hK1, tokenize_blanks,
        @tokenize_symbol _ Token.minus _ _ (by simp) (ihrS tail),
        ihrT tail _ (by omega) htail, hK2, hK]
      cases tokenize K tail <;> simp


/-! ## The substitution loop on a formula -/

theorem isWordChar_of_var {c : Char} (h : (c.isLower || c == '_') = true) :
    isWordChar c = true := by
  simp only [Bool.or_eq_true, beq_iff_eq] at h
  rcases h with h | h
  · simp [isWordChar, Char.isAlphanum, Char.isAlpha, h]
  · simp [isWordChar, h]

theorem isVarName_word {x : List Char} (h : isVarName x = true) :
    x ≠ [] ∧ x.all isWordChar = true := by
  simp only [isVarName, Bool.and_eq_true, List.all_eq_true] at h
  refine ⟨?_, ?_⟩
  · intro hx; subst hx; simp at h
  · simp only [List.all_eq_true]
    intro c hc
    exact isWordChar_of_var (h.2 c hc)

theorem isVarName_isWordKey {x : List Char} (h : isVarName x = true) :
    isWordKey x = true := by
  obtain ⟨hne, hall⟩ := isVarName_word h
  simp only [isWordKey, Bool.and_eq_true]
  refine ⟨?_, hall⟩
  cases x with
  | nil => exact absurd rfl hne
  | cons c cs => rfl

theorem isDigit_isWordChar {c : Char} (h : c.isDigit = true) : isWordChar c = true := by
  simp [isWordChar, Char.isAlphanum, h]

theorem isDigit_not_var {c : Char} (h : c.isDigit = true) :
    (c.isLower || c == '_') = false := by
  have h1 : c.isLower = false := by
    simp only [Char.isDigit, Char.isLower, Bool.and_eq_true, decide_eq_true_eq] at h ⊢
    have h48 : c.val ≤ 57 := h.2
    have : ¬((97 : UInt32) ≤ c.val ∧ c.val ≤ 122) := by
      intro ⟨h97, _⟩
      have a : (97 : UInt32).toNat ≤ c.val.toNat := h97
      have b : c.val.toNat ≤ (57 : UInt32).toNat := h48
      have e1 : (97 : UInt32).toNat = 97 := rfl
      have e2 : (57 : UInt32).toNat = 57 := rfl
      omega
    simpa using this
  have h2 : c ≠ '_' := by
    intro hc; subst hc; revert h; decide
  simp [h1, h2]

theorem digits_not_key {values : List (List Char × JsVal)}
    (hkeys : ∀ kv ∈ values, isVarName kv.1 = true) {i : List Char} (hne : i ≠ [])
    (hi : i.all Char.isDigit = true) : lookupText values i = i := by
  apply lookupText_of_not_key
  intro kv hkv heq
  have hk := hkeys kv hkv
  rw [heq] at hk
  cases i with
  | nil => exact hne rfl
  | cons d ds =>
    simp only [List.all_cons, Bool.and_eq_true] at hi
    simp only [isVarName, List.all_cons, Bool.and_eq_true] at hk
    rw [isDigit_not_var hi.1] at hk
    simp at hk

theorem substSegs_sep (values : List (List Char × JsVal)) {c : Char}
    (hc : isWordChar c = false) (s : List Char) :
    substAllSegs values (segments (c :: s)) = c :: substAllSegs values (segments s) := by
  rw [segments_sep hc]
  rfl

theorem substSegs_blanks (values : List (List Char × JsVal)) (n : Nat) (s : List Char) :
    substAllSegs values (segments (blanks n ++ s))
      = blanks n ++ substAllSegs values (segments s) := by
  induction n with
  | zero => rfl
  | succ n ih =>
    have : blanks (n + 1) ++ s = ' ' :: (blanks n ++ s) := by
      simp [blanks, List.replicate_succ]
    rw [this, substSegs_sep values (by decide), ih]
    simp [blanks, List.replicate_succ]

theorem substSegs_word (values : List (List Char × JsVal)) {w : List Char} (hne : w ≠ [])
    (hw : w.all isWordChar = true) {tail : List Char} (ht : boundaryAfter tail = true) :
    substAllSegs values (segments (w ++ tail))
      = lookupText values w ++ substAllSegs values (segments tail) := by
  rw [segments_append_of_boundary w tail ht, segments_word hne hw]
  rfl

theorem boundaryAfter_blanks (n : Nat) {c : Char} (hc : isWordChar c = false)
    (s : List Char) : boundaryAfter (blanks n ++ c :: s) = true := by
  cases n with
  | zero => simp [blanks, boundaryAfter, hc]
  | succ n =>
    simp only [blanks, List.replicate_succ, List.cons_append, boundaryAfter]
    decide

theorem substSegs_digits (values : List (List Char × JsVal))
    (hkeys : ∀ kv ∈ values, isVarName kv.1 = true) {i : List Char}
    (hi : i.all Char.isDigit = true) {tail : List Char} (ht : boundaryAfter tail = true) :
    substAllSegs values (segments (i ++ tail))
      = i ++ substAllSegs values (segments tail) := by
  by_cases hne : i = []
  · subst hne; rfl
  · have hw : i.all isWordChar = true := by
      simp only [List.all_eq_true] at hi ⊢
      exact fun c hc => isDigit_isWordChar (hi c hc)
    rw [substSegs_word values hne hw ht, digits_not_key hkeys hne hi]

theorem substSegs_text (values : List (List Char × JsVal))
    (hkeys : ∀ kv ∈ values, isVarName kv.1 = true) (g : Formula) (hwf : g.wf = true)
    (tail : List Char) (ht : boundaryAfter tail = true) :
    substAllSegs values (segments (g.text ++ tail))
      = g.textWith values ++ substAllSegs values (segments tail) := by
  induction g generalizing tail with
  | var sp x =>
    simp only [Formula.wf] at hwf
    obtain ⟨hne, hw⟩ := isVarName_word hwf
    simp only [Formula.text, Formula.textWith, List.append_assoc]
    rw [substSegs_blanks, substSegs_word values hne hw ht]
  | lit sp i f p =>
    simp only [Formula.wf, Bool.and_eq_true] at hwf
    obtain ⟨⟨⟨⟨_, hi⟩, hf⟩, _⟩, _⟩ := hwf
    simp only [Formula.text, Formula.textWith, List.append_assoc]
    rw [substSegs_blanks]
    cases p with
    | true =>
      simp only [if_true, List.cons_append]
      rw [substSegs_digits values hkeys hi (by simp [boundaryAfter]; decide),
        substSegs_sep values (by decide), substSegs_digits values hkeys hf ht]
    | false =>
      simp only [List.nil_append, Bool.false_eq_true, if_false]
      rw [substSegs_digits values hkeys hi ht]
  | paren sp e sp2 ih =>
    simp only [Formula.wf] at hwf
    simp only [Formula.text, Formula.textWith, List.append_assoc, List.cons_append,
      List.nil_append]
    rw [substSegs_blanks, substSegs_sep values (by decide),
      ih hwf _ (boundaryAfter_blanks sp2 (by decide) _), substSegs_blanks,
      substSegs_sep values (by decide)]
  | mul l sp r ihl ihr =>
    simp only [Formula.wf, Bool.and_eq_true] at hwf
    simp only [Formula.text, Formula.textWith, List.append_assoc, List.cons_append]
    rw [ihl hwf.1.1.1 _ (boundaryAfter_blanks sp (by decide) _), substSegs_blanks,
      substSegs_sep values (by decide), ihr hwf.1.1.2 _ ht]
  | div l sp r ihl ihr =>
    simp only [Formula.wf, Bool.and_eq_true] at hwf
    simp only [Formula.text, Formula.textWith, List.append_assoc, List.cons_append]
    rw [ihl hwf.1.1.1 _ (boundaryAfter_blanks sp (by decide) _), substSegs_blanks,
      substSegs_sep values (by decide), ihr hwf.1.1.2 _ ht]
  | add l sp r ihl ihr =>
    simp only [Formula.wf, Bool.and_eq_true] at hwf
    simp only [Formula.text, Formula.textWith, List.append_assoc, List.cons_append]
    rw [ihl hwf.1.1 _ (boundaryAfter_blanks sp (by decide) _), substSegs_blanks,
      substSegs_sep values (by decide), ihr hwf.1.2 _ ht]
  | sub l sp r ihl ihr =>
    simp only [Formula.wf, Bool.and_eq_true] at hwf
    simp only [Formula.text, Formula.textWith, List.append_assoc, List.cons_append]
    rw [ihl hwf.1.1 _ (boundaryAfter_blanks sp (by decide) _), substSegs_blanks,
      substSegs_sep values (by decide), ihr hwf.1.2 _ ht]

theorem substitute_text (values : List (List Char × JsVal))
    (hgood : goodBindings values = true) (hfresh : freshTexts values = true)
    (g : Formula) (hwf : g.wf = true) (k : Nat) :
    substitute (g.text ++ blanks k) values = g.textWith values ++ blanks k := by
  have hkeys : ∀ kv ∈ values, isVarName kv.1 = true := by
    intro kv hkv
    simp only [goodBindings, List.all_eq_true, Bool.and_eq_true] at hgood
    exact (hgood kv hkv).1
  rw [substitute_eq_substAllSegs _ values (fun kv h => isVarName_isWordKey (hkeys kv h))
    (freshTexts_spec hfresh)]
  have hb : boundaryAfter (blanks k) = true := by
    cases k with
    | zero => rfl
    | succ n => simp only [blanks, List.replicate_succ, boundaryAfter]; decide
  rw [substSegs_text values hkeys g hwf _ hb]
  have := substSegs_blanks values k []
  simp only [List.append_nil] at this
  rw [this]
  simp [segments, substAllSegs]


/-! ## From a formula to its value -/

theorem slashStartsRegex_toks (values : List (List Char × JsVal)) (g : Formula) (p : Bool)
    (rest : List Token) :
    slashStartsRegex p (g.toks values ++ rest) = slashStartsRegex true rest := by
  induction g generalizing p rest with
  | var sp x => rfl
  | lit sp i f pt => rfl
  | paren sp e sp2 ih =>
    have h : (Formula.paren sp e sp2).toks values ++ rest
        = .lparen :: (e.toks values ++ (.rparen :: rest)) := by simp [Formula.toks]
    rw [h]
    simp only [slashStartsRegex]
    rw [ih]
    rfl
  | mul l sp r ihl ihr =>
    simp only [Formula.toks, List.append_assoc, List.cons_append]
    rw [ihl]
    simp only [slashStartsRegex]
    rw [ihr]
  | div l sp r ihl ihr =>
    simp only [Formula.toks, List.append_assoc, List.cons_append]
    rw [ihl]
    simp only [slashStartsRegex, Bool.not_true, Bool.false_or]
    rw [ihr]
  | add l sp r ihl ihr =>
    simp only [Formula.toks, List.append_assoc, List.cons_append]
    rw [ihl]
    simp only [slashStartsRegex]
    rw [ihr]
  | sub l sp r ihl ihr =>
    simp only [Formula.toks, List.append_assoc, List.cons_append]
    rw [ihl]
    simp only [slashStartsRegex]
    rw [ihr]

theorem evalExpr_expr (values : List (List Char × JsVal)) (g : Formula) :
    evalExpr (g.expr values) = .value (.num (g.value values)) := by
  induction g with
  | var sp x => rfl
  | lit sp i f p => rfl
  | paren sp e sp2 ih => exact ih
  | mul l sp r ihl ihr => simp [Formula.expr, Formula.value, evalExpr, ihl, ihr, BinOp.apply, toNumber]
  | div l sp r ihl ihr => simp [Formula.expr, Formula.value, evalExpr, ihl, ihr, BinOp.apply, toNumber]
  | add l sp r ihl ihr => simp [Formula.expr, Formula.value, evalExpr, ihl, ihr, BinOp.apply, toNumber]
  | sub l sp r ihl ihr => simp [Formula.expr, Formula.value, evalExpr, ihl, ihr, BinOp.apply, toNumber]

theorem runTokens_formula (values : List (List Char × JsVal)) (g : Formula)
    (hwf : g.wf = true) :
    runTokens (g.toks values ++ [.rparen]) = some (.normal (.num (g.value values))) := by
  have hall : Token.lparen :: (g.toks values ++ [.rparen])
      = (Formula.paren 0 g 0).toks values := rfl
  obtain ⟨_, _, hA, _, has, hn⟩ := parse_complete values (.paren 0 g 0) (by simpa [Formula.wf] using hwf)
  have hparse := additive_complete hA has hn [] (4 * ((Formula.paren 0 g 0).toks values).length + 4)
    (by omega) rfl
  rw [List.append_nil] at hparse
  have hre : slashStartsRegex false (Token.lparen :: (g.toks values ++ [.rparen])) = false := by
    simp only [slashStartsRegex]
    rw [slashStartsRegex_toks]
    rfl
  have he : evalExpr ((Formula.paren 0 g 0).expr values)
      = .value (.num (g.value values)) := evalExpr_expr values g
  unfold runTokens
  rw [hall] at hre ⊢
  simp only [hre, Bool.false_eq_true, if_false, hparse, he]

theorem steps_le_length (values : List (List Char × JsVal))
    (hgood : goodBindings values = true) (g : Formula) (hwf : g.wf = true)
    (hb : g.bound values = true) : g.steps ≤ (g.textWith values).length := by
  induction g with
  | var sp x =>
    simp only [Formula.bound] at hb
    obtain ⟨hnum, _⟩ := lookup_good hgood (x := x) hb
    simp only [numeralOk, Bool.and_eq_true, beq_iff_eq] at hnum
    have : 1 ≤ (lookupText values x).length := by
      cases h : lookupText values x with
      | nil => rw [h] at hnum; simp at hnum
      | cons c cs => simp
    simp only [Formula.steps, Formula.textWith, List.length_append, blanks,
      List.length_replicate]
    omega
  | lit sp i f p =>
    simp only [Formula.wf, Bool.and_eq_true] at hwf
    have : 1 ≤ i.length := by
      cases i with
      | nil => simp at hwf
      | cons c cs => simp
    simp only [Formula.steps, Formula.textWith, List.length_append, blanks,
      List.length_replicate]
    omega
  | paren sp e sp2 ih =>
    simp only [Formula.wf] at hwf
    simp only [Formula.bound] at hb
    have := ih hwf hb
    simp only [Formula.steps, Formula.textWith, List.length_append, List.length_cons,
      blanks, List.length_replicate, List.length_nil]
    omega
  | mul l sp r ihl ihr =>
    simp only [Formula.wf, Bool.and_eq_true] at hwf
    simp only [Formula.bound, Bool.and_eq_true] at hb
    have h1 := ihl hwf.1.1.1 hb.1
    have h2 := ihr hwf.1.1.2 hb.2
    simp only [Formula.steps, Formula.textWith, List.length_append, List.length_cons,
      blanks, List.length_replicate]
    omega
  | div l sp r ihl ihr =>
    simp only [Formula.wf, Bool.and_eq_true] at hwf
    simp only [Formula.bound, Bool.and_eq_true] at hb
    have h1 := ihl hwf.1.1.1 hb.1
    have h2 := ihr hwf.1.1.2 hb.2
    simp only [Formula.steps, Formula.textWith, List.length_append, List.length_cons,
      blanks, List.length_replicate]
    omega
  | add l sp r ihl ihr =>
    simp only [Formula.wf, Bool.and_eq_true] at hwf
    simp only [Formula.bound, Bool.and_eq_true] at hb
    have h1 := ihl hwf.1.1 hb.1
    have h2 := ihr hwf.1.2 hb.2
    simp only [Formula.steps, Formula.textWith, List.length_append, List.length_cons,
      blanks, List.length_replicate]
    omega
  | sub l sp r ihl ihr =>
    simp only [Formula.wf, Bool.and_eq_true] at hwf
    simp only [Formula.bound, Bool.and_eq_true] at hb
    have h1 := ihl hwf.1.1 hb.1
    have h2 := ihr hwf.1.2 hb.2
    simp only [Formula.steps, Formula.textWith, List.length_append, List.length_cons,
      blanks, List.length_replicate]
    omega

theorem bodyTokens_formula (values : List (List Char × JsVal))
    (hgood : goodBindings values = true) (g : Formula) (hwf : g.wf = true)
    (hb : g.bound values = true) (k : Nat) :
    bodyTokens (g.textWith values ++ blanks k) = some (g.toks values ++ [.rparen]) := by
  have hsteps := steps_le_length values hgood g hwf hb
  obtain ⟨_, hT⟩ := tokenize_textWith values hgood g hwf hb
  unfold bodyTokens
  have hlen : (g.textWith values ++ blanks k ++ [')']).length
      = (g.textWith values).length + k + 1 := by
    simp [blanks]
    omega
  rw [hlen, List.append_assoc,
    hT (blanks k ++ [')']) _ (by omega) (delimStart_blanks k (by decide) [])]
  obtain ⟨K, hK⟩ : ∃ K, (g.textWith values).length + k + 1 - g.steps = (K + 1) + k :=
    ⟨(g.textWith values).length - g.steps, by omega⟩
  rw [hK, tokenize_blanks, tokenize_rparen]
  simp [tokenize]

theorem refRuntime_formula (values : List (List Char × JsVal))
    (hgood : goodBindings values = true) (hfresh : freshTexts values = true)
    (g : Formula) (hwf : g.wf = true) (hb : g.bound values = true) (k : Nat) :
    refRuntime (functionBody (substitute (g.text ++ blanks k) values))
      = some (.normal (.num (g.value values))) := by
  rw [refRuntime_functionBody, substitute_text values hgood hfresh g hwf k,
    bodyTokens_formula values hgood g hwf hb k]
  exact runTokens_formula values g hwf


/-! ## Bindings of either sign: the parser -/

theorem parseExponent_negative (n : JsNum) (rest : List Token) (K : Nat)
    (hrest : okAfterOperand rest = true) :
    parseExponent (K + 4) (Token.minus :: Token.num n :: rest)
      = .ok (.neg (.lit (.num n))) rest := by
  cases rest with
  | nil => simp [parseExponent, parseUnary, parsePrimary]
  | cons r rs => cases r <;> simp_all [parseExponent, parseUnary, parsePrimary, okAfterOperand]

theorem exponent_of_primary {ts : List Token} {e : JsExpr}
    (hstart : ∃ t ts1, ts = t :: ts1 ∧ t ≠ .minus ∧ t ≠ .plus)
    (hP : ∀ rest F, 4 * ts.length ≤ F + 3 → parsePrimary F (ts ++ rest) = .ok e rest)
    (rest : List Token) (K : Nat) (hK : 4 * ts.length ≤ K + 1)
    (hrest : okAfterOperand rest = true) :
    parseExponent K (ts ++ rest) = .ok e rest := by
  have hlen : 1 ≤ ts.length := by
    obtain ⟨t, ts1, rfl, _⟩ := hstart
    simp
  obtain ⟨F, rfl⟩ : ∃ F, K = F + 2 := ⟨K - 2, by omega⟩
  exact parseExponent_of_primary hstart (hP rest F (by omega)) hrest

theorem multiplicative_of_exponent {ts : List Token} {e : JsExpr}
    (hE : ∀ rest K, 4 * ts.length ≤ K + 1 → okAfterOperand rest = true →
      parseExponent K (ts ++ rest) = .ok e rest)
    (hlen : 1 ≤ ts.length) (rest : List Token) (F : Nat) (hF : 4 * ts.length ≤ F)
    (hrest : okAfterOperand rest = true) :
    parseMultiplicative F (ts ++ rest) = parseMulRest (F - 1) e rest := by
  obtain ⟨F0, rfl⟩ : ∃ F0, F = F0 + 1 := ⟨F - 1, by omega⟩
  have h := hE rest F0 (by omega) hrest
  simp only [parseMultiplicative, h]
  rfl

theorem numberToks_exponent (n : JsNum) (rest : List Token) (K : Nat)
    (hK : 4 * (numberToks n).length ≤ K + 1) (hrest : okAfterOperand rest = true) :
    parseExponent K (numberToks n ++ rest) = .ok (numberExpr n) rest := by
  unfold numberToks numberExpr at *
  by_cases hn : n.isNegative = true
  · simp only [hn, if_true, List.length_cons, List.length_nil] at hK ⊢
    obtain ⟨K0, rfl⟩ : ∃ K0, K = K0 + 4 := ⟨K - 4, by omega⟩
    exact parseExponent_negative _ rest K0 hrest
  · simp only [hn, if_false, List.length_cons, List.length_nil] at hK ⊢
    exact @exponent_of_primary [.num n] _ ⟨_, _, rfl, by simp, by simp⟩
      (fun rest F hF => by
        obtain ⟨F0, rfl⟩ : ∃ F0, F = F0 + 1 := ⟨F - 1, by simp at hF; omega⟩
        simp [parsePrimary]) rest K (by simpa using hK) hrest

theorem numberToks_length (n : JsNum) :
    1 ≤ (numberToks n).length ∧ (numberToks n).length ≤ 2 := by
  unfold numberToks
  split <;> simp

theorem signed_parse_complete (values : List (List Char × JsVal)) (g : Formula)
    (hwf : g.wf = true) :
    (g.level = 0 → ∀ rest K, 4 * (g.signedToks values).length ≤ K + 1 →
      okAfterOperand rest = true →
      parseExponent K (g.signedToks values ++ rest) = .ok (g.signedExpr values) rest) ∧
    (g.level ≤ 1 → ∀ rest F, 4 * (g.signedToks values).length ≤ F →
      okAfterOperand rest = true →
      parseMultiplicative F (g.signedToks values ++ rest)
        = parseMulRest (F - g.mulSteps) (g.signedExpr values) rest) ∧
    (∀ rest F, 4 * (g.signedToks values).length + 1 ≤ F → okAfterProduct rest = true →
      parseAdditive F (g.signedToks values ++ rest)
        = parseAddRest (F - g.addSteps) (g.signedExpr values) rest) ∧
    g.mulSteps ≤ (g.signedToks values).length ∧ g.addSteps ≤ (g.signedToks values).length ∧
    1 ≤ (g.signedToks values).length := by
  have factor : ∀ (g : Formula),
      (∀ rest K, 4 * (g.signedToks values).length ≤ K + 1 → okAfterOperand rest = true →
        parseExponent K (g.signedToks values ++ rest) = .ok (g.signedExpr values) rest) →
      1 ≤ (g.signedToks values).length → g.mulSteps = 1 → g.addSteps = 1 →
      (g.level = 0 → ∀ rest K, 4 * (g.signedToks values).length ≤ K + 1 →
        okAfterOperand rest = true →
        parseExponent K (g.signedToks values ++ rest) = .ok (g.signedExpr values) rest) ∧
      (g.level ≤ 1 → ∀ rest F, 4 * (g.signedToks values).length ≤ F →
        okAfterOperand rest = true →
        parseMultiplicative F (g.signedToks values ++ rest)
          = parseMulRest (F - g.mulSteps) (g.signedExpr values) rest) ∧
      (∀ rest F, 4 * (g.signedToks values).length + 1 ≤ F → okAfterProduct rest = true →
        parseAdditive F (g.signedToks values ++ rest)
          = parseAddRest (F - g.addSteps) (g.signedExpr values) rest) ∧
      g.mulSteps ≤ (g.signedToks values).length ∧
      g.addSteps ≤ (g.signedToks values).length ∧
      1 ≤ (g.signedToks values).length := by
    intro g hE hlen hm ha
    have hT := multiplicative_of_exponent hE hlen
    have hA := @additive_of_multiplicative _ _ 1 hT hlen hlen
    rw [hm, ha]
    exact ⟨fun _ => hE, fun _ => hT, hA, hlen, hlen, hlen⟩
  induction g with
  | var sp x =>
    exact factor (.var sp x) (fun rest K hK hrest => numberToks_exponent _ rest K hK hrest)
      (numberToks_length _).1 rfl rfl
  | lit sp i f p =>
    have hE : ∀ rest K, 4 * [Token.num (decimalValue i f 0)].length ≤ K + 1 →
        okAfterOperand rest = true →
        parseExponent K ([Token.num (decimalValue i f 0)] ++ rest)
          = .ok (.lit (.num (decimalValue i f 0))) rest :=
      exponent_of_primary ⟨_, _, rfl, by simp, by simp⟩
        (fun rest F hF => by
          obtain ⟨F0, rfl⟩ : ∃ F0, F = F0 + 1 := ⟨F - 1, by simp at hF; omega⟩
          simp [parsePrimary])
    exact factor (.lit sp i f p) hE (by simp [Formula.signedToks]) rfl rfl
  | paren sp e sp2 ih =>
    simp only [Formula.wf] at hwf
    obtain ⟨_, _, ihA, _, ihas, ihn⟩ := ih hwf
    have hlen : (Formula.signedToks values (.paren sp e sp2)).length
        = (e.signedToks values).length + 2 := by simp [Formula.signedToks]
    have hP : ∀ rest F, 4 * (Formula.signedToks values (.paren sp e sp2)).length ≤ F + 3 →
        parsePrimary F ((Formula.paren sp e sp2).signedToks values ++ rest)
          = .ok ((Formula.paren sp e sp2).signedExpr values) rest := by
      intro rest F hF
      rw [hlen] at hF
      obtain ⟨F0, rfl⟩ : ∃ F0, F = F0 + 1 := ⟨F - 1, by omega⟩
      have hA := additive_complete ihA ihas ihn (.rparen :: rest) F0 (by omega) rfl
      simp only [Formula.signedToks, Formula.signedExpr, List.cons_append, List.append_assoc,
        List.singleton_append, List.nil_append, parsePrimary, hA]
    have hs : ∃ t ts1, (Formula.paren sp e sp2).signedToks values = t :: ts1 ∧ t ≠ .minus ∧
        t ≠ .plus := ⟨_, _, rfl, by simp, by simp⟩
    exact factor (.paren sp e sp2) (exponent_of_primary hs hP) (by omega) rfl rfl
  | mul l sp r ihl ihr =>
    simp only [Formula.wf, Bool.and_eq_true, decide_eq_true_eq] at hwf
    obtain ⟨⟨⟨hwl, hwr⟩, hll⟩, hlr⟩ := hwf
    obtain ⟨_, ihlT, _, ihlm, _, ihln⟩ := ihl hwl
    obtain ⟨ihrE, _, _, _, _, ihrn⟩ := ihr hwr
    have hlen : (Formula.signedToks values (.mul l sp r)).length
        = (l.signedToks values).length + 1 + (r.signedToks values).length := by
      simp [Formula.signedToks]; omega
    have hT : ∀ rest F, 4 * (Formula.signedToks values (.mul l sp r)).length ≤ F →
        okAfterOperand rest = true →
        parseMultiplicative F ((Formula.mul l sp r).signedToks values ++ rest)
          = parseMulRest (F - (Formula.mul l sp r).mulSteps)
              ((Formula.mul l sp r).signedExpr values) rest := by
      intro rest F hF hrest
      rw [hlen] at hF
      have h1 := ihlT hll (Token.star :: (r.signedToks values ++ rest)) F (by omega) rfl
      obtain ⟨K, hK⟩ : ∃ K, F - l.mulSteps = K + 3 := ⟨F - l.mulSteps - 3, by omega⟩
      have hE := ihrE hlr rest (K + 2) (by omega) hrest
      have hsteps : F - (Formula.mul l sp r).mulSteps = K + 2 := by
        simp only [Formula.mulSteps]; omega
      simp only [Formula.signedToks, Formula.signedExpr, List.append_assoc, List.cons_append]
      rw [h1, hK, hsteps]
      simp only [parseMulRest, hE]
    refine ⟨fun h => by simp [Formula.level] at h, fun _ => hT, ?_,
      by simp only [Formula.mulSteps]; omega, by simp only [Formula.addSteps]; omega,
      by omega⟩
    have := @additive_of_multiplicative _ _ (Formula.mul l sp r).mulSteps hT
      (by simp only [Formula.mulSteps]; omega) (by omega)
    simpa [Formula.addSteps] using this
  | div l sp r ihl ihr =>
    simp only [Formula.wf, Bool.and_eq_true, decide_eq_true_eq] at hwf
    obtain ⟨⟨⟨hwl, hwr⟩, hll⟩, hlr⟩ := hwf
    obtain ⟨_, ihlT, _, ihlm, _, ihln⟩ := ihl hwl
    obtain ⟨ihrE, _, _, _, _, ihrn⟩ := ihr hwr
    have hlen : (Formula.signedToks values (.div l sp r)).length
        = (l.signedToks values).length + 1 + (r.signedToks values).length := by
      simp [Formula.signedToks]; omega
    have hT : ∀ rest F, 4 * (Formula.signedToks values (.div l sp r)).length ≤ F →
        okAfterOperand rest = true →
        parseMultiplicative F ((Formula.div l sp r).signedToks values ++ rest)
          = parseMulRest (F - (Formula.div l sp r).mulSteps)
              ((Formula.div l sp r).signedExpr values) rest := by
      intro rest F hF hrest
      rw [hlen] at hF
      have h1 := ihlT hll (Token.slash :: (r.signedToks values ++ rest)) F (by omega) rfl
      obtain ⟨K, hK⟩ : ∃ K, F - l.mulSteps = K + 3 := ⟨F - l.mulSteps - 3, by omega⟩
      have hE := ihrE hlr rest (K + 2) (by omega) hrest
      have hsteps : F - (Formula.div l sp r).mulSteps = K + 2 := by
        simp only [Formula.mulSteps]; omega
      simp only [Formula.signedToks, Formula.signedExpr, List.append_assoc, List.cons_append]
      rw [h1, hK, hsteps]
      simp only [parseMulRest, hE]
    refine ⟨fun h => by simp [Formula.level] at h, fun _ => hT, ?_,
      by simp only [Formula.mulSteps]; omega, by simp only [Formula.addSteps]; omega,
      by omega⟩
    have := @additive_of_multiplicative _ _ (Formula.div l sp r).mulSteps hT
      (by simp only [Formula.mulSteps]; omega) (by omega)
    simpa [Formula.addSteps] using this
  | add l sp r ihl ihr =>
    simp only [Formula.wf, Bool.and_eq_true, decide_eq_true_eq] at hwf
    obtain ⟨⟨hwl, hwr⟩, hlr⟩ := hwf
    obtain ⟨_, _, ihlA, _, ihla, ihln⟩ := ihl hwl
    obtain ⟨_, ihrT, _, ihrm, _, ihrn⟩ := ihr hwr
    have hlen : (Formula.signedToks values (.add l sp r)).length
        = (l.signedToks values).length + 1 + (r.signedToks values).length := by
      simp [Formula.signedToks]; omega
    have hA : ∀ rest F, 4 * (Formula.signedToks values (.add l sp r)).length + 1 ≤ F →
        okAfterProduct rest = true →
        parseAdditive F ((Formula.add l sp r).signedToks values ++ rest)
          = parseAddRest (F - (Formula.add l sp r).addSteps)
              ((Formula.add l sp r).signedExpr values) rest := by
      intro rest F hF hrest
      rw [hlen] at hF
      have h1 := ihlA (Token.plus :: (r.signedToks values ++ rest)) F (by omega) rfl
      obtain ⟨K, hK⟩ : ∃ K, F - l.addSteps = K + 1 := ⟨F - l.addSteps - 1, by omega⟩
      have hM := multiplicative_complete (ihrT hlr) ihrm ihrn rest K (by omega) hrest
      have hsteps : F - (Formula.add l sp r).addSteps = K := by
        simp only [Formula.addSteps]; omega
      simp only [Formula.signedToks, Formula.signedExpr, List.append_assoc, List.cons_append]
      rw [h1, hK, hsteps]
      simp only [parseAddRest, hM]
    refine ⟨fun h => by simp [Formula.level] at h, fun h => by simp [Formula.level] at h, hA,
      by simp only [Formula.mulSteps]; omega, by simp only [Formula.addSteps]; omega,
      by omega⟩
  | sub l sp r ihl ihr =>
    simp only [Formula.wf, Bool.and_eq_true, decide_eq_true_eq] at hwf
    obtain ⟨⟨hwl, hwr⟩, hlr⟩ := hwf
    obtain ⟨_, _, ihlA, _, ihla, ihln⟩ := ihl hwl
    obtain ⟨_, ihrT, _, ihrm, _, ihrn⟩ := ihr hwr
    have hlen : (Formula.signedToks values (.sub l sp r)).length
        = (l.signedToks values).length + 1 + (r.signedToks values).length := by
      simp [Formula.signedToks]; omega
    have hA : ∀ rest F, 4 * (Formula.signedToks values (.sub l sp r)).length + 1 ≤ F →
        okAfterProduct rest = true →
        parseAdditive F ((Formula.sub l sp r).signedToks values ++ rest)
          = parseAddRest (F - (Formula.sub l sp r).addSteps)
              ((Formula.sub l sp r).signedExpr values) rest := by
      intro rest F hF hrest
      rw [hlen] at hF
      have h1 := ihlA (Token.minus :: (r.signedToks values ++ rest)) F (by omega) rfl
      obtain ⟨K, hK⟩ : ∃ K, F - l.addSteps = K + 1 := ⟨F - l.addSteps - 1, by omega⟩
      have hM := multiplicative_complete (ihrT hlr) ihrm ihrn rest K (by omega) hrest
      have hsteps : F - (Formula.sub l sp r).addSteps = K := by
        simp only [Formula.addSteps]; omega
      simp only [Formula.signedToks, Formula.signedExpr, List.append_assoc, List.cons_append]
      rw [h1, hK, hsteps]
      simp only [parseAddRest, hM]
    refine ⟨fun h => by simp [Formula.level] at h, fun h => by simp [Formula.level] at h, hA,
      by simp only [Formula.mulSteps]; omega, by simp only [Formula.addSteps]; omega,
      by omega⟩

/-! ## Bindings of either sign: the lexer -/

theorem numberToString_negative {m : Nat} {e : Int} (hm : m ≠ 0) :
    numberToString (.fin true m e) = '-' :: numberToString (.fin false m e) := by
  simp [numberToString, hm]

theorem orZero_fin {v : JsVal} {s : Bool} {m : Nat} {e : Int}
    (h : orZero v = .num (.fin s m e)) : s = false ∨ m ≠ 0 := by
  unfold orZero at h
  split at h
  · rename_i ht
    subst h
    right
    simpa [toBoolean] using ht
  · left
    simp only [JsNum.zero, JsVal.num.injEq, JsNum.fin.injEq] at h
    exact h.1.symm

theorem lookup_finite {values : List (List Char × JsVal)}
    (hfin : finiteBindings values = true) {x : List Char}
    (hx : (values.any fun kv => kv.1 == x) = true) :
    ∃ s m e, lookupNum values x = .fin s m e ∧ (s = false ∨ m ≠ 0) ∧
      lookupText values x = numberToString (.fin s m e) ∧
      numeralOk (numberToString (.fin false m e)) (.fin false m e) = true := by
  induction values with
  | nil => simp at hx
  | cons kv rest ih =>
    obtain ⟨k, v⟩ := kv
    simp only [finiteBindings, List.all_cons, Bool.and_eq_true] at hfin
    obtain ⟨⟨_, hv⟩, hrest⟩ := hfin
    by_cases hk : x = k
    · simp only [lookupText, lookupNum, hk, if_true]
      unfold finiteBinding at hv
      split at hv
      · rename_i s m e heq
        rw [heq]
        exact ⟨s, m, e, rfl, orZero_fin heq, rfl, hv⟩
      · cases hv
    · simp only [lookupText, lookupNum, hk, if_false]
      apply ih hrest
      simp only [List.any_cons, Bool.or_eq_true] at hx
      rcases hx with hx | hx
      · simp at hx; exact absurd hx.symm hk
      · exact hx

theorem signedStart_of_operandStart {s : List Char} (h : operandStart s = true) :
    signedStart s = true := by
  cases s with
  | nil => simp [operandStart] at h
  | cons c cs =>
    simp only [operandStart] at h
    simp only [signedStart, h, Bool.true_or]

theorem operandStart_succ_blanks (n : Nat) (s : List Char) :
    operandStart (blanks (n + 1) ++ s) = true := by
  simp [blanks, List.replicate_succ, operandStart]

theorem signedStart_blanks (sp : Nat) {s : List Char} (h : signedStart s = true) :
    signedStart (blanks sp ++ s) = true := by
  cases sp with
  | zero => simpa [blanks] using h
  | succ n => exact signedStart_of_operandStart (operandStart_succ_blanks n s)

theorem tokenize_symbol_signed {c : Char} {tok : Token} {rest : List Char} (F : Nat)
    (hc : (c = '*' ∧ tok = .star) ∨ (c = '/' ∧ tok = .slash) ∨ (c = '+' ∧ tok = .plus))
    (hrest : signedStart rest = true) :
    tokenize (F + 1) (c :: rest) = (tokenize F rest).map (tok :: ·) := by
  by_cases ho : operandStart rest = true
  · exact tokenize_symbol F (by tauto) ho
  · cases rest with
    | nil => simp [signedStart] at hrest
    | cons d ds =>
      have hd : d = '-' := by
        simp only [operandStart] at ho
        simp only [signedStart] at hrest
        simp only [Bool.or_eq_true, beq_iff_eq] at ho hrest
        tauto
      subst hd
      rcases hc with ⟨rfl, rfl⟩ | ⟨rfl, rfl⟩ | ⟨rfl, rfl⟩
      · have e : isIdentStart '*' = false := by decide
        simp [tokenize, e]
      · have e : isIdentStart '/' = false := by decide
        simp [tokenize, e]
      · have e : isIdentStart '+' = false := by decide
        simp [tokenize, e]

theorem tokenize_decr (F : Nat) (rest : List Char) :
    tokenize (F + 1) ('-' :: '-' :: rest) = (tokenize F rest).map (Token.decr :: ·) := by
  have e : isIdentStart '-' = false := by decide
  simp [tokenize, e]

theorem map_cons_cancel {t : Token} {rt : List Token} {a b : Option (List Token)}
    (h : a.map (t :: ·) = b.map ((t :: rt) ++ ·)) : a = b.map (rt ++ ·) := by
  cases a <;> cases b <;> simp_all

theorem tokenize_raw (values : List (List Char × JsVal))
    (hfin : finiteBindings values = true) (g : Formula) (hwf : g.wf = true)
    (hb : g.bound values = true) :
    (∀ tail, signedStart (g.textWith values ++ tail) = true) ∧
    (g.startsNegative values = false →
      ∀ tail, operandStart (g.textWith values ++ tail) = true) ∧
    (g.startsNegative values = true →
      ∃ body rt, g.textWith values = '-' :: body ∧
        (∀ tail, operandStart (body ++ tail) = true) ∧
        g.rawToks values = .minus :: rt ∧ 1 ≤ g.rawSteps values) ∧
    ∀ tail F, g.rawSteps values ≤ F → delimStart tail = true →
      tokenize F (g.textWith values ++ tail)
        = (tokenize (F - g.rawSteps values) tail).map (g.rawToks values ++ ·) := by
  induction g with
  | var sp x =>
    simp only [Formula.bound] at hb
    obtain ⟨s, m, e, hnum, hsm, htext, hok⟩ := lookup_finite hfin (x := x) hb
    simp only [numeralOk, Bool.and_eq_true, beq_iff_eq, decide_eq_true_eq] at hok
    cases s with
    | false =>
      have htoks : numberToks (lookupNum values x) = [.num (.fin false m e)] := by
        rw [hnum]; rfl
      have hop : ∀ tail, operandStart ((Formula.var sp x).textWith values ++ tail) = true := by
        intro tail
        simp only [Formula.textWith, List.append_assoc]
        rw [htext]
        exact operandStart_blanks sp (operandStart_of_digit hok.1 tail)
      refine ⟨fun tail => signedStart_of_operandStart (hop tail), fun _ => hop, ?_, ?_⟩
      · intro hneg
        simp [Formula.startsNegative, hnum, JsNum.isNegative] at hneg
      · intro tail F hF htail
        simp only [Formula.rawSteps, htoks, List.length_singleton] at hF ⊢
        obtain ⟨K, rfl⟩ : ∃ K, F = (K + 1) + sp := ⟨F - sp - 1, by omega⟩
        have hK : K + 1 + sp - (sp + 1) = K := by omega
        simp only [Formula.textWith, Formula.rawToks, htoks, List.append_assoc]
        rw [htext, tokenize_blanks, tokenize_number K hok.1 hok.2 htail, hK]
        rfl
    | true =>
      have hm : m ≠ 0 := by
        rcases hsm with h | h
        · cases h
        · exact h
      have htoks : numberToks (lookupNum values x) = [.minus, .num (.fin false m e)] := by
        rw [hnum]; rfl
      have htext2 : lookupText values x = '-' :: numberToString (.fin false m e) := by
        rw [htext, numberToString_negative hm]
      refine ⟨?_, ?_, ?_, ?_⟩
      · intro tail
        simp only [Formula.textWith, List.append_assoc]
        rw [htext2]
        exact signedStart_blanks sp rfl
      · intro hneg tail
        simp only [Formula.startsNegative, hnum, JsNum.isNegative, Bool.and_true,
          beq_eq_false_iff_ne, ne_eq] at hneg
        obtain ⟨n, rfl⟩ : ∃ n, sp = n + 1 := ⟨sp - 1, by omega⟩
        simp only [Formula.textWith, List.append_assoc]
        exact operandStart_succ_blanks n _
      · intro hneg
        simp only [Formula.startsNegative, hnum, JsNum.isNegative, Bool.and_true,
          beq_iff_eq] at hneg
        subst hneg
        refine ⟨numberToString (.fin false m e), [.num (.fin false m e)], ?_,
          fun tail => operandStart_of_digit hok.1 tail, ?_, ?_⟩
        · simp [Formula.textWith, htext2, blanks]
        · simp only [Formula.rawToks, htoks]
        · simp only [Formula.rawSteps, htoks, List.length_cons, List.length_nil]; omega
      · intro tail F hF htail
        simp only [Formula.rawSteps, htoks, List.length_cons, List.length_nil] at hF ⊢
        obtain ⟨K, rfl⟩ : ∃ K, F = ((K + 1) + 1) + sp := ⟨F - sp - 2, by omega⟩
        have hK : K + 1 + 1 + sp - (sp + (0 + 1 + 1)) = K := by omega
        simp only [Formula.textWith, Formula.rawToks, htoks, List.append_assoc]
        rw [htext2, tokenize_blanks, List.cons_append,
          @tokenize_symbol _ Token.minus _ _ (by simp) (operandStart_of_digit hok.1 tail),
          tokenize_number K hok.1 hok.2 htail, hK]
        cases tokenize K tail <;> simp
  | lit sp i f p =>
    obtain ⟨hhead, hlex⟩ := lexNumber_literal hwf
    have hop : ∀ tail, operandStart ((Formula.lit sp i f p).textWith values ++ tail) = true := by
      intro tail
      simp only [Formula.textWith, List.append_assoc]
      have := operandStart_blanks sp (operandStart_of_digit hhead tail)
      simpa [List.append_assoc] using this
    refine ⟨fun tail => signedStart_of_operandStart (hop tail), fun _ => hop,
      fun hneg => by simp [Formula.startsNegative] at hneg, ?_⟩
    intro tail F hF htail
    simp only [Formula.rawSteps] at hF
    obtain ⟨K, rfl⟩ : ∃ K, F = (K + 1) + sp := ⟨F - sp - 1, by omega⟩
    have hK : K + 1 + sp - (Formula.lit sp i f p).rawSteps values = K := by
      simp only [Formula.rawSteps]; omega
    simp only [Formula.textWith, Formula.rawToks]
    rw [List.append_assoc, tokenize_blanks, tokenize_number K hhead hlex htail, hK]
    rfl
  | paren sp e sp2 ih =>
    simp only [Formula.wf] at hwf
    simp only [Formula.bound] at hb
    obtain ⟨_, _, _, ihT⟩ := ih hwf hb
    have hop : ∀ tail,
        operandStart ((Formula.paren sp e sp2).textWith values ++ tail) = true := by
      intro tail
      simp only [Formula.textWith, List.append_assoc]
      exact operandStart_blanks sp (by simp [operandStart])
    refine ⟨fun tail => signedStart_of_operandStart (hop tail), fun _ => hop,
      fun hneg => by simp [Formula.startsNegative] at hneg, ?_⟩
    intro tail F hF htail
    simp only [Formula.rawSteps] at hF
    obtain ⟨K, rfl⟩ : ∃ K, F = ((((K + 1) + sp2) + e.rawSteps values) + 1) + sp :=
      ⟨F - sp - 1 - e.rawSteps values - sp2 - 1, by omega⟩
    have hK : K + 1 + sp2 + e.rawSteps values + 1 + sp
        - (Formula.paren sp e sp2).rawSteps values = K := by
      simp only [Formula.rawSteps]; omega
    have hK2 : K + 1 + sp2 + e.rawSteps values - e.rawSteps values = K + 1 + sp2 := by
      omega
    simp only [Formula.textWith, Formula.rawToks, List.append_assoc, List.cons_append,
      List.nil_append]
    rw [tokenize_blanks, tokenize_lparen,
      ihT (blanks sp2 ++ ')' :: tail) _ (by omega) (delimStart_blanks sp2 (by decide) _),
      hK2, tokenize_blanks, tokenize_rparen, hK]
    cases tokenize K tail <;> simp
  | mul l sp r ihl ihr =>
    simp only [Formula.wf, Bool.and_eq_true] at hwf
    simp only [Formula.bound, Bool.and_eq_true] at hb
    have hwl : l.wf = true := by exact hwf.1.1.1
    have hwr : r.wf = true := by exact hwf.1.1.2
    obtain ⟨ihlS, ihlO, ihlN, ihlT⟩ := ihl hwl hb.1
    obtain ⟨ihrS, _, _, ihrT⟩ := ihr hwr hb.2
    refine ⟨?_, ?_, ?_, ?_⟩
    · intro tail
      simp only [Formula.textWith, List.append_assoc]
      exact ihlS _
    · intro hneg tail
      simp only [Formula.textWith, List.append_assoc]
      exact ihlO hneg _
    · intro hneg
      obtain ⟨body, rt, htext, hop, hraw, _⟩ := ihlN hneg
      refine ⟨body ++ (blanks sp ++ '*' :: r.textWith values),
        rt ++ .star :: r.rawToks values, ?_, ?_, ?_, ?_⟩
      · simp only [Formula.textWith, htext, List.cons_append]
      · intro tail
        rw [List.append_assoc]
        exact hop _
      · simp only [Formula.rawToks, hraw, List.cons_append]
      · simp only [Formula.rawSteps]; omega
    · intro tail F hF htail
      simp only [Formula.rawSteps] at hF
      obtain ⟨K, rfl⟩ : ∃ K,
          F = (((K + r.rawSteps values) + 1) + sp) + l.rawSteps values :=
        ⟨F - l.rawSteps values - sp - 1 - r.rawSteps values, by omega⟩
      have hK : K + r.rawSteps values + 1 + sp + l.rawSteps values
          - (Formula.mul l sp r).rawSteps values = K := by
        simp only [Formula.rawSteps]; omega
      have hK1 : K + r.rawSteps values + 1 + sp + l.rawSteps values
          - l.rawSteps values = K + r.rawSteps values + 1 + sp := by omega
      have hK2 : K + r.rawSteps values - r.rawSteps values = K := by omega
      simp only [Formula.textWith, Formula.rawToks, List.append_assoc, List.cons_append]
      rw [ihlT (blanks sp ++ '*' :: (r.textWith values ++ tail)) _ (by omega)
          (delimStart_blanks sp (by decide) _),
        hK1, tokenize_blanks,
        @tokenize_symbol_signed _ Token.star _ _ (by simp) (ihrS tail),
        ihrT tail _ (by omega) htail, hK2, hK]
      cases tokenize K tail <;> simp
  | div l sp r ihl ihr =>
    simp only [Formula.wf, Bool.and_eq_true] at hwf
    simp only [Formula.bound, Bool.and_eq_true] at hb
    have hwl : l.wf = true := by exact hwf.1.1.1
    have hwr : r.wf = true := by exact hwf.1.1.2
    obtain ⟨ihlS, ihlO, ihlN, ihlT⟩ := ihl hwl hb.1
    obtain ⟨ihrS, _, _, ihrT⟩ := ihr hwr hb.2
    refine ⟨?_, ?_, ?_, ?_⟩
    · intro tail
      simp only [Formula.textWith, List.append_assoc]
      exact ihlS _
    · intro hneg tail
      simp only [Formula.textWith, List.append_assoc]
      exact ihlO hneg _
    · intro hneg
      obtain ⟨body, rt, htext, hop, hraw, _⟩ := ihlN hneg
      refine ⟨body ++ (blanks sp ++ '/' :: r.textWith values),
        rt ++ .slash :: r.rawToks values, ?_, ?_, ?_, ?_⟩
      · simp only [Formula.textWith, htext, List.cons_append]
      · intro tail
        rw [List.append_assoc]
        exact hop _
      · simp only [Formula.rawToks, hraw, List.cons_append]
      · simp only [Formula.rawSteps]; omega
    · intro tail F hF htail
      simp only [Formula.rawSteps] at hF
      obtain ⟨K, rfl⟩ : ∃ K,
          F = (((K + r.rawSteps values) + 1) + sp) + l.rawSteps values :=
        ⟨F - l.rawSteps values - sp - 1 - r.rawSteps values, by omega⟩
      have hK : K + r.rawSteps values + 1 + sp + l.rawSteps values
          - (Formula.div l sp r).rawSteps values = K := by
        simp only [Formula.rawSteps]; omega
      have hK1 : K + r.rawSteps values + 1 + sp + l.rawSteps values
          - l.rawSteps values = K + r.rawSteps values + 1 + sp := by omega
      have hK2 : K + r.rawSteps values - r.rawSteps values = K := by omega
      simp only [Formula.textWith, Formula.rawToks, List.append_assoc, List.cons_append]
      rw [ihlT (blanks sp ++ '/' :: (r.textWith values ++ tail)) _ (by omega)
          (delimStart_blanks sp (by decide) _),
        hK1, tokenize_blanks,
        @tokenize_symbol_signed _ Token.slash _ _ (by simp) (ihrS tail),
        ihrT tail _ (by omega) htail, hK2, hK]
      cases tokenize K tail <;> simp
  | add l sp r ihl ihr =>
    simp only [Formula.wf, Bool.and_eq_true] at hwf
    simp only [Formula.bound, Bool.and_eq_true] at hb
    have hwl : l.wf = true := by exact hwf.1.1
    have hwr : r.wf = true := by exact hwf.1.2
    obtain ⟨ihlS, ihlO, ihlN, ihlT⟩ := ihl hwl hb.1
    obtain ⟨ihrS, _, _, ihrT⟩ := ihr hwr hb.2
    refine ⟨?_, ?_, ?_, ?_⟩
    · intro tail
      simp only [Formula.textWith, List.append_assoc]
      exact ihlS _
    · intro hneg tail
      simp only [Formula.textWith, List.append_assoc]
      exact ihlO hneg _
    · intro hneg
      obtain ⟨body, rt, htext, hop, hraw, _⟩ := ihlN hneg
      refine ⟨body ++ (blanks sp ++ '+' :: r.textWith values),
        rt ++ .plus :: r.rawToks values, ?_, ?_, ?_, ?_⟩
      · simp only [Formula.textWith, htext, List.cons_append]
      · intro tail
        rw [List.append_assoc]
        exact hop _
      · simp only [Formula.rawToks, hraw, List.cons_append]
      · simp only [Formula.rawSteps]; omega
    · intro tail F hF htail
      simp only [Formula.rawSteps] at hF
      obtain ⟨K, rfl⟩ : ∃ K,
          F = (((K + r.rawSteps values) + 1) + sp) + l.rawSteps values :=
        ⟨F - l.rawSteps values - sp - 1 - r.rawSteps values, by omega⟩
      have hK : K + r.rawSteps values + 1 + sp + l.rawSteps values
          - (Formula.add l sp r).rawSteps values = K := by
        simp only [Formula.rawSteps]; omega
      have hK1 : K + r.rawSteps values + 1 + sp + l.rawSteps values
          - l.rawSteps values = K + r.rawSteps values + 1 + sp := by omega
      have hK2 : K + r.rawSteps values - r.rawSteps values = K := by omega
      simp only [Formula.textWith, Formula.rawToks, List.append_assoc, List.cons_append]
      rw [ihlT (blanks sp ++ '+' :: (r.textWith values ++ tail)) _ (by omega)
          (delimStart_blanks sp (by decide) _),
        hK1, tokenize_blanks,
        @tokenize_symbol_signed _ Token.plus _ _ (by simp) (ihrS tail),
        ihrT tail _ (by omega) htail, hK2, hK]
      cases tokenize K tail <;> simp
  | sub l sp r ihl ihr =>
    simp only [Formula.wf, Bool.and_eq_true] at hwf
    simp only [Formula.bound, Bool.and_eq_true] at hb
    have hwl : l.wf = true := by exact hwf.1.1
    have hwr : r.wf = true := by exact hwf.1.2
    obtain ⟨ihlS, ihlO, ihlN, ihlT⟩ := ihl hwl hb.1
    obtain ⟨_, ihrO, ihrN, ihrT⟩ := ihr hwr hb.2
    refine ⟨?_, ?_, ?_, ?_⟩
    · intro tail
      simp only [Formula.textWith, List.append_assoc]
      exact ihlS _
    · intro hneg tail
      simp only [Formula.textWith, List.append_assoc]
      exact ihlO hneg _
    · intro hneg
      obtain ⟨body, rt, htext, hop, hraw, _⟩ := ihlN hneg
      by_cases hr : r.startsNegative values = true
      · refine ⟨body ++ (blanks sp ++ '-' :: r.textWith values),
          rt ++ .decr :: (r.rawToks values).tail, ?_, ?_, ?_, ?_⟩
        · simp only [Formula.textWith, htext, List.cons_append]
        · intro tail
          rw [List.append_assoc]
          exact hop _
        · simp only [Formula.rawToks, hr, if_true, hraw, List.cons_append]
        · simp only [Formula.rawSteps, hr, if_true]; omega
      · have hr0 : r.startsNegative values = false := by simpa using hr
        refine ⟨body ++ (blanks sp ++ '-' :: r.textWith values),
          rt ++ .minus :: r.rawToks values, ?_, ?_, ?_, ?_⟩
        · simp only [Formula.textWith, htext, List.cons_append]
        · intro tail
          rw [List.append_assoc]
          exact hop _
        · simp only [Formula.rawToks, hr0, Bool.false_eq_true, if_false, hraw,
            List.cons_append]
        · simp only [Formula.rawSteps, hr0, Bool.false_eq_true, if_false]; omega
    · intro tail F hF htail
      by_cases hr : r.startsNegative values = true
      · obtain ⟨body, rt, htext, hop, hraw, hone⟩ := ihrN hr
        simp only [Formula.rawSteps, hr, if_true] at hF
        obtain ⟨K, rfl⟩ : ∃ K,
            F = ((K + r.rawSteps values) + sp) + l.rawSteps values :=
          ⟨F - l.rawSteps values - sp - r.rawSteps values, by omega⟩
        obtain ⟨R, hR⟩ : ∃ R, r.rawSteps values = R + 1 :=
          ⟨r.rawSteps values - 1, by omega⟩
        have hK : K + r.rawSteps values + sp + l.rawSteps values
            - (Formula.sub l sp r).rawSteps values = K := by
          simp only [Formula.rawSteps, hr, if_true]; omega
        have hK1 : K + r.rawSteps values + sp + l.rawSteps values
            - l.rawSteps values = (K + R + 1) + sp := by omega
        have hbody : tokenize (K + R) (body ++ tail)
            = (tokenize K tail).map (rt ++ ·) := by
          have h1 := ihrT tail (K + R + 1) (by omega) htail
          rw [htext, List.cons_append,
            @tokenize_symbol _ Token.minus _ _ (by simp) (hop tail), hraw] at h1
          have hK3 : K + R + 1 - r.rawSteps values = K := by omega
          rw [hK3] at h1
          exact map_cons_cancel h1
        simp only [Formula.textWith, Formula.rawToks, hr, if_true, List.append_assoc,
          List.cons_append]
        rw [ihlT (blanks sp ++ '-' :: (r.textWith values ++ tail)) _ (by omega)
            (delimStart_blanks sp (by decide) _),
          hK1, tokenize_blanks, htext, List.cons_append, tokenize_decr, hbody, hK, hraw]
        cases tokenize K tail <;> simp
      · have hr0 : r.startsNegative values = false := by simpa using hr
        simp only [Formula.rawSteps, hr0, Bool.false_eq_true, if_false] at hF
        obtain ⟨K, rfl⟩ : ∃ K,
            F = (((K + r.rawSteps values) + 1) + sp) + l.rawSteps values :=
          ⟨F - l.rawSteps values - sp - 1 - r.rawSteps values, by omega⟩
        have hK : K + r.rawSteps values + 1 + sp + l.rawSteps values
            - (Formula.sub l sp r).rawSteps values = K := by
          simp only [Formula.rawSteps, hr0, Bool.false_eq_true, if_false]; omega
        have hK1 : K + r.rawSteps values + 1 + sp + l.rawSteps values
            - l.rawSteps values = K + r.rawSteps values + 1 + sp := by omega
        have hK2 : K + r.rawSteps values - r.rawSteps values = K := by omega
        simp only [Formula.textWith, Formula.rawToks, hr0, Bool.false_eq_true, if_false,
          List.append_assoc, List.cons_append]
        rw [ihlT (blanks sp ++ '-' :: (r.textWith values ++ tail)) _ (by omega)
            (delimStart_blanks sp (by decide) _),
          hK1, tokenize_blanks,
          @tokenize_symbol _ Token.minus _ _ (by simp) (ihrO hr0 tail),
          ihrT tail _ (by omega) htail, hK2, hK]
        cases tokenize K tail <;> simp

/-! ## Bindings of either sign: from a formula to its value -/

theorem finiteBindings_keys {values : List (List Char × JsVal)}
    (hfin : finiteBindings values = true) : ∀ kv ∈ values, isVarName kv.1 = true := by
  intro kv hkv
  simp only [finiteBindings, List.all_eq_true, Bool.and_eq_true] at hfin
  exact (hfin kv hkv).1

theorem substitute_text_of_keys (values : List (List Char × JsVal))
    (hkeys : ∀ kv ∈ values, isVarName kv.1 = true) (hfresh : freshTexts values = true)
    (g : Formula) (hwf : g.wf = true) (k : Nat) :
    substitute (g.text ++ blanks k) values = g.textWith values ++ blanks k := by
  rw [substitute_eq_substAllSegs _ values (fun kv h => isVarName_isWordKey (hkeys kv h))
    (freshTexts_spec hfresh)]
  have hb : boundaryAfter (blanks k) = true := by
    cases k with
    | zero => rfl
    | succ n => simp only [blanks, List.replicate_succ, boundaryAfter]; decide
  rw [substSegs_text values hkeys g hwf _ hb]
  have := substSegs_blanks values k []
  simp only [List.append_nil] at this
  rw [this]
  simp [segments, substAllSegs]

theorem slashStartsRegex_numberToks (n : JsNum) (p : Bool) (rest : List Token) :
    slashStartsRegex p (numberToks n ++ rest) = slashStartsRegex true rest := by
  unfold numberToks
  split <;> rfl

theorem slashStartsRegex_signed (values : List (List Char × JsVal)) (g : Formula) (p : Bool)
    (rest : List Token) :
    slashStartsRegex p (g.signedToks values ++ rest) = slashStartsRegex true rest := by
  induction g generalizing p rest with
  | var sp x => exact slashStartsRegex_numberToks _ p rest
  | lit sp i f pt => rfl
  | paren sp e sp2 ih =>
    have h : (Formula.paren sp e sp2).signedToks values ++ rest
        = .lparen :: (e.signedToks values ++ (.rparen :: rest)) := by
      simp [Formula.signedToks]
    rw [h]
    simp only [slashStartsRegex]
    rw [ih]
    rfl
  | mul l sp r ihl ihr =>
    simp only [Formula.signedToks, List.append_assoc, List.cons_append]
    rw [ihl]
    simp only [slashStartsRegex]
    rw [ihr]
  | div l sp r ihl ihr =>
    simp only [Formula.signedToks, List.append_assoc, List.cons_append]
    rw [ihl]
    simp only [slashStartsRegex, Bool.not_true, Bool.false_or]
    rw [ihr]
  | add l sp r ihl ihr =>
    simp only [Formula.signedToks, List.append_assoc, List.cons_append]
    rw [ihl]
    simp only [slashStartsRegex]
    rw [ihr]
  | sub l sp r ihl ihr =>
    simp only [Formula.signedToks, List.append_assoc, List.cons_append]
    rw [ihl]
    simp only [slashStartsRegex]
    rw [ihr]

theorem evalExpr_numberExpr (n : JsNum) : evalExpr (numberExpr n) = .value (.num n) := by
  cases n with
  | nan => rfl
  | inf s => rfl
  | fin s m e => cases s <;> rfl

theorem evalExpr_signed (values : List (List Char × JsVal)) (g : Formula) :
    evalExpr (g.signedExpr values) = .value (.num (g.value values)) := by
  induction g with
  | var sp x => exact evalExpr_numberExpr _
  | lit sp i f p => rfl
  | paren sp e sp2 ih => exact ih
  | mul l sp r ihl ihr =>
    simp [Formula.signedExpr, Formula.value, evalExpr, ihl, ihr, BinOp.apply, toNumber]
  | div l sp r ihl ihr =>
    simp [Formula.signedExpr, Formula.value, evalExpr, ihl, ihr, BinOp.apply, toNumber]
  | add l sp r ihl ihr =>
    simp [Formula.signedExpr, Formula.value, evalExpr, ihl, ihr, BinOp.apply, toNumber]
  | sub l sp r ihl ihr =>
    simp [Formula.signedExpr, Formula.value, evalExpr, ihl, ihr, BinOp.apply, toNumber]

theorem runTokens_signed (values : List (List Char × JsVal)) (g : Formula)
    (hwf : g.wf = true) :
    runTokens (g.signedToks values ++ [.rparen])
      = some (.normal (.num (g.value values))) := by
  have hall : Token.lparen :: (g.signedToks values ++ [.rparen])
      = (Formula.paren 0 g 0).signedToks values := rfl
  obtain ⟨_, _, hA, _, has, hn⟩ :=
    signed_parse_complete values (.paren 0 g 0) (by simpa [Formula.wf] using hwf)
  have hparse := additive_complete hA has hn []
    (4 * ((Formula.paren 0 g 0).signedToks values).length + 4) (by omega) rfl
  rw [List.append_nil] at hparse
  have hre : slashStartsRegex false (Token.lparen :: (g.signedToks values ++ [.rparen]))
      = false := by
    simp only [slashStartsRegex]
    rw [slashStartsRegex_signed]
    rfl
  have he : evalExpr ((Formula.paren 0 g 0).signedExpr values)
      = .value (.num (g.value values)) := evalExpr_signed values g
  unfold runTokens
  rw [hall] at hre ⊢
  simp only [hre, Bool.false_eq_true, if_false, hparse, he]

theorem rawSteps_le_length (values : List (List Char × JsVal))
    (hfin : finiteBindings values = true) (g : Formula) (hwf : g.wf = true)
    (hb : g.bound values = true) : g.rawSteps values ≤ (g.textWith values).length := by
  induction g with
  | var sp x =>
    simp only [Formula.bound] at hb
    obtain ⟨s, m, e, hnum, hsm, htext, hok⟩ := lookup_finite hfin (x := x) hb
    simp only [numeralOk, Bool.and_eq_true, beq_iff_eq] at hok
    have h1 : 1 ≤ (numberToString (.fin false m e)).length := by
      cases h : numberToString (.fin false m e) with
      | nil => rw [h] at hok; simp at hok
      | cons c cs => simp
    have h2 : (numberToks (lookupNum values x)).length ≤ (lookupText values x).length := by
      rw [hnum, htext]
      cases s with
      | false => exact h1
      | true =>
        have hm : m ≠ 0 := by
          rcases hsm with h | h
          · cases h
          · exact h
        rw [numberToString_negative hm]
        simp only [numberToks, JsNum.isNegative, if_true, List.length_cons, List.length_nil]
        omega
    simp only [Formula.rawSteps, Formula.textWith, List.length_append, blanks,
      List.length_replicate]
    omega
  | lit sp i f p =>
    simp only [Formula.wf, Bool.and_eq_true] at hwf
    have : 1 ≤ i.length := by
      cases i with
      | nil => simp at hwf
      | cons c cs => simp
    simp only [Formula.rawSteps, Formula.textWith, List.length_append, blanks,
      List.length_replicate]
    omega
  | paren sp e sp2 ih =>
    simp only [Formula.wf] at hwf
    simp only [Formula.bound] at hb
    have := ih hwf hb
    simp only [Formula.rawSteps, Formula.textWith, List.length_append, List.length_cons,
      blanks, List.length_replicate, List.length_nil]
    omega
  | mul l sp r ihl ihr =>
    simp only [Formula.wf, Bool.and_eq_true] at hwf
    simp only [Formula.bound, Bool.and_eq_true] at hb
    have h1 := ihl hwf.1.1.1 hb.1
    have h2 := ihr hwf.1.1.2 hb.2
    simp only [Formula.rawSteps, Formula.textWith, List.length_append, List.length_cons,
      blanks, List.length_replicate]
    omega
  | div l sp r ihl ihr =>
    simp only [Formula.wf, Bool.and_eq_true] at hwf
    simp only [Formula.bound, Bool.and_eq_true] at hb
    have h1 := ihl hwf.1.1.1 hb.1
    have h2 := ihr hwf.1.1.2 hb.2
    simp only [Formula.rawSteps, Formula.textWith, List.length_append, List.length_cons,
      blanks, List.length_replicate]
    omega
  | add l sp r ihl ihr =>
    simp only [Formula.wf, Bool.and_eq_true] at hwf
    simp only [Formula.bound, Bool.and_eq_true] at hb
    have h1 := ihl hwf.1.1 hb.1
    have h2 := ihr hwf.1.2 hb.2
    simp only [Formula.rawSteps, Formula.textWith, List.length_append, List.length_cons,
      blanks, List.length_replicate]
    omega
  | sub l sp r ihl ihr =>
    simp only [Formula.wf, Bool.and_eq_true] at hwf
    simp only [Formula.bound, Bool.and_eq_true] at hb
    have h1 := ihl hwf.1.1 hb.1
    have h2 := ihr hwf.1.2 hb.2
    simp only [Formula.rawSteps, Formula.textWith, List.length_append, List.length_cons,
      blanks, List.length_replicate]
    split <;> omega

theorem bodyTokens_raw (values : List (List Char × JsVal))
    (hfin : finiteBindings values = true) (g : Formula) (hwf : g.wf = true)
    (hb : g.bound values = true) (k : Nat) :
    bodyTokens (g.textWith values ++ blanks k) = some (g.rawToks values ++ [.rparen]) := by
  have hsteps := rawSteps_le_length values hfin g hwf hb
  obtain ⟨_, _, _, hT⟩ := tokenize_raw values hfin g hwf hb
  unfold bodyTokens
  have hlen : (g.textWith values ++ blanks k ++ [')']).length
      = (g.textWith values).length + k + 1 := by
    simp [blanks]
    omega
  rw [hlen, List.append_assoc,
    hT (blanks k ++ [')']) _ (by omega) (delimStart_blanks k (by decide) [])]
  obtain ⟨K, hK⟩ : ∃ K,
      (g.textWith values).length + k + 1 - g.rawSteps values = (K + 1) + k :=
    ⟨(g.textWith values).length - g.rawSteps values, by omega⟩
  rw [hK, tokenize_blanks, tokenize_rparen]
  simp [tokenize]

theorem rawToks_of_safe (values : List (List Char × JsVal)) (g : Formula)
    (hsafe : g.signSafe values = true) : g.rawToks values = g.signedToks values := by
  induction g with
  | var sp x => rfl
  | lit sp i f p => rfl
  | paren sp e sp2 ih =>
    simp only [Formula.signSafe] at hsafe
    simp only [Formula.rawToks, Formula.signedToks, ih hsafe]
  | mul l sp r ihl ihr =>
    simp only [Formula.signSafe, Bool.and_eq_true] at hsafe
    simp only [Formula.rawToks, Formula.signedToks, ihl hsafe.1, ihr hsafe.2]
  | div l sp r ihl ihr =>
    simp only [Formula.signSafe, Bool.and_eq_true] at hsafe
    simp only [Formula.rawToks, Formula.signedToks, ihl hsafe.1, ihr hsafe.2]
  | add l sp r ihl ihr =>
    simp only [Formula.signSafe, Bool.and_eq_true] at hsafe
    simp only [Formula.rawToks, Formula.signedToks, ihl hsafe.1, ihr hsafe.2]
  | sub l sp r ihl ihr =>
    simp only [Formula.signSafe, Bool.and_eq_true, Bool.not_eq_true'] at hsafe
    simp only [Formula.rawToks, Formula.signedToks, ihl hsafe.1.1, ihr hsafe.1.2, hsafe.2,
      Bool.false_eq_true, if_false]

theorem refRuntime_signed (values : List (List Char × JsVal))
    (hfin : finiteBindings values = true) (hfresh : freshTexts values = true)
    (g : Formula) (hwf : g.wf = true) (hb : g.bound values = true)
    (hsafe : g.signSafe values = true) (k : Nat) :
    refRuntime (functionBody (substitute (g.text ++ blanks k) values))
      = some (.normal (.num (g.value values))) := by
  rw [refRuntime_functionBody,
    substitute_text_of_keys values (finiteBindings_keys hfin) hfresh g hwf k,
    bodyTokens_raw values hfin g hwf hb k, rawToks_of_safe values g hsafe]
  exact runTokens_signed values g hwf

/-! ## A minus sign directly before a number below zero -/

theorem stopsAtDecr_cases {p : Parsed} (h : p.stopsAtDecr = true) :
    p = .syntaxError ∨ ∃ e r, p = .ok e (.decr :: r) := by
  cases p with
  | syntaxError => exact Or.inl rfl
  | outOfFuel => cases h
  | ok e rest =>
    cases rest with
    | nil => cases h
    | cons t ts => cases t <;> simp_all [Parsed.stopsAtDecr]

theorem parseMulRest_decr (fuel : Nat) (lhs : JsExpr) (r : List Token) :
    parseMulRest (fuel + 1) lhs (.decr :: r) = .ok lhs (.decr :: r) :=
  parseMulRest_exit fuel lhs _ rfl

theorem parseAddRest_decr (fuel : Nat) (lhs : JsExpr) (r : List Token) :
    parseAddRest (fuel + 1) lhs (.decr :: r) = .ok lhs (.decr :: r) :=
  parseAddRest_exit fuel lhs _ rfl

theorem multiplicative_stops {ts : List Token}
    (hE : ∀ rest K, 4 * ts.length ≤ K + 1 →
      (parseExponent K (ts ++ rest)).stopsAtDecr = true)
    (hlen : 1 ≤ ts.length) (rest : List Token) (F : Nat) (hF : 4 * ts.length ≤ F) :
    (parseMultiplicative F (ts ++ rest)).stopsAtDecr = true := by
  obtain ⟨F0, rfl⟩ : ∃ F0, F = F0 + 2 := ⟨F - 2, by omega⟩
  rcases stopsAtDecr_cases (hE rest (F0 + 1) (by omega)) with h | ⟨e, r, h⟩
  · simp only [parseMultiplicative, h]
    rfl
  · simp only [parseMultiplicative, h]
    rw [parseMulRest_decr]
    rfl

theorem additive_stops {ts : List Token}
    (hT : ∀ rest F, 4 * ts.length ≤ F →
      (parseMultiplicative F (ts ++ rest)).stopsAtDecr = true)
    (hlen : 1 ≤ ts.length) (rest : List Token) (F : Nat) (hF : 4 * ts.length + 1 ≤ F) :
    (parseAdditive F (ts ++ rest)).stopsAtDecr = true := by
  obtain ⟨F0, rfl⟩ : ∃ F0, F = F0 + 2 := ⟨F - 2, by omega⟩
  rcases stopsAtDecr_cases (hT rest (F0 + 1) (by omega)) with h | ⟨e, r, h⟩
  · simp only [parseAdditive, h]
    rfl
  · simp only [parseAdditive, h]
    rw [parseAddRest_decr]
    rfl

theorem rawToks_pos (values : List (List Char × JsVal)) (g : Formula) :
    1 ≤ (g.rawToks values).length := by
  cases g with
  | var sp x => exact (numberToks_length _).1
  | lit sp i f p => simp [Formula.rawToks]
  | paren sp e sp2 => simp [Formula.rawToks]
  | mul l sp r => simp only [Formula.rawToks, List.length_append, List.length_cons]; omega
  | div l sp r => simp only [Formula.rawToks, List.length_append, List.length_cons]; omega
  | add l sp r => simp only [Formula.rawToks, List.length_append, List.length_cons]; omega
  | sub l sp r =>
    simp only [Formula.rawToks]
    split <;> (simp only [List.length_append, List.length_cons]; omega)

theorem rawToks_of_startsNegative (values : List (List Char × JsVal)) (g : Formula)
    (h : g.startsNegative values = true) : ∃ rt, g.rawToks values = .minus :: rt := by
  induction g with
  | var sp x =>
    simp only [Formula.startsNegative, Bool.and_eq_true] at h
    exact ⟨[.num (lookupNum values x).abs], by simp [Formula.rawToks, numberToks, h.2]⟩
  | lit sp i f p => simp [Formula.startsNegative] at h
  | paren sp e sp2 ih => simp [Formula.startsNegative] at h
  | mul l sp r ihl ihr =>
    obtain ⟨rt, hrt⟩ := ihl h
    exact ⟨rt ++ .star :: r.rawToks values, by simp [Formula.rawToks, hrt]⟩
  | div l sp r ihl ihr =>
    obtain ⟨rt, hrt⟩ := ihl h
    exact ⟨rt ++ .slash :: r.rawToks values, by simp [Formula.rawToks, hrt]⟩
  | add l sp r ihl ihr =>
    obtain ⟨rt, hrt⟩ := ihl h
    exact ⟨rt ++ .plus :: r.rawToks values, by simp [Formula.rawToks, hrt]⟩
  | sub l sp r ihl ihr =>
    obtain ⟨rt, hrt⟩ := ihl h
    by_cases hr : r.startsNegative values = true
    · exact ⟨rt ++ .decr :: (r.rawToks values).tail, by simp [Formula.rawToks, hrt, hr]⟩
    · exact ⟨rt ++ .minus :: r.rawToks values, by simp [Formula.rawToks, hrt, hr]⟩

theorem slashStartsRegex_raw (values : List (List Char × JsVal)) (g : Formula) (p : Bool)
    (rest : List Token) :
    slashStartsRegex p (g.rawToks values ++ rest) = slashStartsRegex true rest := by
  induction g generalizing p rest with
  | var sp x => exact slashStartsRegex_numberToks _ p rest
  | lit sp i f pt => rfl
  | paren sp e sp2 ih =>
    have h : (Formula.paren sp e sp2).rawToks values ++ rest
        = .lparen :: (e.rawToks values ++ (.rparen :: rest)) := by
      simp [Formula.rawToks]
    rw [h]
    simp only [slashStartsRegex]
    rw [ih]
    rfl
  | mul l sp r ihl ihr =>
    simp only [Formula.rawToks, List.append_assoc, List.cons_append]
    rw [ihl]
    simp only [slashStartsRegex]
    rw [ihr]
  | div l sp r ihl ihr =>
    simp only [Formula.rawToks, List.append_assoc, List.cons_append]
    rw [ihl]
    simp only [slashStartsRegex, Bool.not_true, Bool.false_or]
    rw [ihr]
  | add l sp r ihl ihr =>
    simp only [Formula.rawToks, List.append_assoc, List.cons_append]
    rw [ihl]
    simp only [slashStartsRegex]
    rw [ihr]
  | sub l sp r ihl ihr =>
    by_cases hr : r.startsNegative values = true
    · obtain ⟨rt, hrt⟩ := rawToks_of_startsNegative values r hr
      have h2 := ihr false rest
      rw [hrt] at h2
      simp only [Formula.rawToks, hr, if_true, hrt, List.tail_cons, List.append_assoc,
        List.cons_append]
      rw [ihl]
      simp only [slashStartsRegex, endsOperand] at h2 ⊢
      exact h2
    · have hr0 : r.startsNegative values = false := by simpa using hr
      simp only [Formula.rawToks, hr0, Bool.false_eq_true, if_false, List.append_assoc,
        List.cons_append]
      rw [ihl]
      simp only [slashStartsRegex]
      rw [ihr]

theorem parse_stops (values : List (List Char × JsVal)) (g : Formula)
    (hwf : g.wf = true) (hdecr : g.signSafe values = false) :
    (g.level = 0 → ∀ rest K, 4 * (g.rawToks values).length ≤ K + 1 →
      (parseExponent K (g.rawToks values ++ rest)).stopsAtDecr = true) ∧
    (g.level ≤ 1 → ∀ rest F, 4 * (g.rawToks values).length ≤ F →
      (parseMultiplicative F (g.rawToks values ++ rest)).stopsAtDecr = true) ∧
    (∀ rest F, 4 * (g.rawToks values).length + 1 ≤ F →
      (parseAdditive F (g.rawToks values ++ rest)).stopsAtDecr = true) := by
  induction g with
  | var sp x => simp [Formula.signSafe] at hdecr
  | lit sp i f p => simp [Formula.signSafe] at hdecr
  | paren sp e sp2 ih =>
    simp only [Formula.wf] at hwf
    simp only [Formula.signSafe] at hdecr
    obtain ⟨_, _, ihA⟩ := ih hwf hdecr
    have hlen : (Formula.rawToks values (.paren sp e sp2)).length
        = (e.rawToks values).length + 2 := by simp [Formula.rawToks]
    have hE : ∀ rest K, 4 * (Formula.rawToks values (.paren sp e sp2)).length ≤ K + 1 →
        (parseExponent K ((Formula.paren sp e sp2).rawToks values ++ rest)).stopsAtDecr
          = true := by
      intro rest K hK
      rw [hlen] at hK
      obtain ⟨k, rfl⟩ : ∃ k, K = k + 3 := ⟨K - 3, by omega⟩
      have hA := ihA (.rparen :: rest) k (by omega)
      simp only [Formula.rawToks, List.cons_append, List.append_assoc,
        List.singleton_append, List.nil_append]
      rcases stopsAtDecr_cases hA with h | ⟨e1, r1, h⟩
      · simp only [parseExponent, parseUnary, parsePrimary, h]
        rfl
      · simp only [parseExponent, parseUnary, parsePrimary, h]
        rfl
    have hT := multiplicative_stops hE (by omega)
    exact ⟨fun _ => hE, fun _ => hT, additive_stops hT (by omega)⟩
  | mul l sp r ihl ihr =>
    simp only [Formula.wf, Bool.and_eq_true, decide_eq_true_eq] at hwf
    obtain ⟨⟨⟨hwl, hwr⟩, hll⟩, hlr⟩ := hwf
    have hrn := rawToks_pos values r
    have hlen : (Formula.rawToks values (.mul l sp r)).length
        = (l.rawToks values).length + 1 + (r.rawToks values).length := by
      simp [Formula.rawToks]; omega
    have hT : ∀ rest F, 4 * (Formula.rawToks values (.mul l sp r)).length ≤ F →
        (parseMultiplicative F ((Formula.mul l sp r).rawToks values ++ rest)).stopsAtDecr
          = true := by
      intro rest F hF
      rw [hlen] at hF
      by_cases hl : l.signSafe values = true
      · have hru : r.signSafe values = false := by
          simpa [Formula.signSafe, hl] using hdecr
        obtain ⟨_, ihlT, _, ihlm, _, ihln⟩ := signed_parse_complete values l hwl
        obtain ⟨ihrE, _, _⟩ := ihr hwr hru
        rw [← rawToks_of_safe values l hl] at ihlT ihlm ihln
        have h1 := ihlT hll (Token.star :: (r.rawToks values ++ rest)) F (by omega) rfl
        obtain ⟨K, hK⟩ : ∃ K, F - l.mulSteps = K + 3 := ⟨F - l.mulSteps - 3, by omega⟩
        have hE := ihrE hlr rest (K + 2) (by omega)
        simp only [Formula.rawToks, List.append_assoc, List.cons_append]
        rw [h1, hK]
        rcases stopsAtDecr_cases hE with h | ⟨e1, r1, h⟩
        · simp only [parseMulRest, h]
          rfl
        · simp only [parseMulRest, h]
          rfl
      · have hlu : l.signSafe values = false := by simpa using hl
        obtain ⟨_, ihlT, _⟩ := ihl hwl hlu
        simp only [Formula.rawToks, List.append_assoc, List.cons_append]
        exact ihlT hll _ F (by omega)
    exact ⟨fun h => by simp [Formula.level] at h, fun _ => hT,
      additive_stops hT (by omega)⟩
  | div l sp r ihl ihr =>
    simp only [Formula.wf, Bool.and_eq_true, decide_eq_true_eq] at hwf
    obtain ⟨⟨⟨hwl, hwr⟩, hll⟩, hlr⟩ := hwf
    have hrn := rawToks_pos values r
    have hlen : (Formula.rawToks values (.div l sp r)).length
        = (l.rawToks values).length + 1 + (r.rawToks values).length := by
      simp [Formula.rawToks]; omega
    have hT : ∀ rest F, 4 * (Formula.rawToks values (.div l sp r)).length ≤ F →
        (parseMultiplicative F ((Formula.div l sp r).rawToks values ++ rest)).stopsAtDecr
          = true := by
      intro rest F hF
      rw [hlen] at hF
      by_cases hl : l.signSafe values = true
      · have hru : r.signSafe values = false := by
          simpa [Formula.signSafe, hl] using hdecr
        obtain ⟨_, ihlT, _, ihlm, _, ihln⟩ := signed_parse_complete values l hwl
        obtain ⟨ihrE, _, _⟩ := ihr hwr hru
        rw [← rawToks_of_safe values l hl] at ihlT ihlm ihln
        have h1 := ihlT hll (Token.slash :: (r.rawToks values ++ rest)) F (by omega) rfl
        obtain ⟨K, hK⟩ : ∃ K, F - l.mulSteps = K + 3 := ⟨F - l.mulSteps - 3, by omega⟩
        have hE := ihrE hlr rest (K + 2) (by omega)
        simp only [Formula.rawToks, List.append_assoc, List.cons_append]
        rw [h1, hK]
        rcases stopsAtDecr_cases hE with h | ⟨e1, r1, h⟩
        · simp only [parseMulRest, h]
          rfl
        · simp only [parseMulRest, h]
          rfl
      · have hlu : l.signSafe values = false := by simpa using hl
        obtain ⟨_, ihlT, _⟩ := ihl hwl hlu
        simp only [Formula.rawToks, List.append_assoc, List.cons_append]
        exact ihlT hll _ F (by omega)
    exact ⟨fun h => by simp [Formula.level] at h, fun _ => hT,
      additive_stops hT (by omega)⟩
  | add l sp r ihl ihr =>
    simp only [Formula.wf, Bool.and_eq_true, decide_eq_true_eq] at hwf
    obtain ⟨⟨hwl, hwr⟩, hlr⟩ := hwf
    have hrn := rawToks_pos values r
    have hlen : (Formula.rawToks values (.add l sp r)).length
        = (l.rawToks values).length + 1 + (r.rawToks values).length := by
      simp [Formula.rawToks]; omega
    have hA : ∀ rest F, 4 * (Formula.rawToks values (.add l sp r)).length + 1 ≤ F →
        (parseAdditive F ((Formula.add l sp r).rawToks values ++ rest)).stopsAtDecr
          = true := by
      intro rest F hF
      rw [hlen] at hF
      by_cases hl : l.signSafe values = true
      · have hru : r.signSafe values = false := by
          simpa [Formula.signSafe, hl] using hdecr
        obtain ⟨_, _, ihlA, _, ihla, ihln⟩ := signed_parse_complete values l hwl
        obtain ⟨_, ihrT, _⟩ := ihr hwr hru
        rw [← rawToks_of_safe values l hl] at ihlA ihla ihln
        have h1 := ihlA (Token.plus :: (r.rawToks values ++ rest)) F (by omega) rfl
        obtain ⟨K, hK⟩ : ∃ K, F - l.addSteps = K + 2 := ⟨F - l.addSteps - 2, by omega⟩
        have hM := ihrT hlr rest (K + 1) (by omega)
        simp only [Formula.rawToks, List.append_assoc, List.cons_append]
        rw [h1, hK]
        rcases stopsAtDecr_cases hM with h | ⟨e1, r1, h⟩
        · simp only [parseAddRest, h]
          rfl
        · simp only [parseAddRest, h]
          rfl
      · have hlu : l.signSafe values = false := by simpa using hl
        obtain ⟨_, _, ihlA⟩ := ihl hwl hlu
        simp only [Formula.rawToks, List.append_assoc, List.cons_append]
        exact ihlA _ F (by omega)
    exact ⟨fun h => by simp [Formula.level] at h, fun h => by simp [Formula.level] at h, hA⟩
  | sub l sp r ihl ihr =>
    simp only [Formula.wf, Bool.and_eq_true, decide_eq_true_eq] at hwf
    obtain ⟨⟨hwl, hwr⟩, hlr⟩ := hwf
    have hrn := rawToks_pos values r
    have hA : ∀ rest F, 4 * (Formula.rawToks values (.sub l sp r)).length + 1 ≤ F →
        (parseAdditive F ((Formula.sub l sp r).rawToks values ++ rest)).stopsAtDecr
          = true := by
      intro rest F hF
      by_cases hl : l.signSafe values = true
      · obtain ⟨_, _, ihlA, _, ihla, ihln⟩ := signed_parse_complete values l hwl
        rw [← rawToks_of_safe values l hl] at ihlA ihla ihln
        by_cases hr : r.startsNegative values = true
        · have hlen : (Formula.rawToks values (.sub l sp r)).length
              = (l.rawToks values).length + 1 + (r.rawToks values).tail.length := by
            simp [Formula.rawToks, hr]; omega
          rw [hlen] at hF
          have h1 := ihlA (Token.decr :: ((r.rawToks values).tail ++ rest)) F (by omega) rfl
          obtain ⟨K, hK⟩ : ∃ K, F - l.addSteps = K + 1 := ⟨F - l.addSteps - 1, by omega⟩
          simp only [Formula.rawToks, hr, if_true, List.append_assoc, List.cons_append]
          rw [h1, hK, parseAddRest_decr]
          rfl
        · have hr0 : r.startsNegative values = false := by simpa using hr
          have hru : r.signSafe values = false := by
            simpa [Formula.signSafe, hl, hr0] using hdecr
          have hlen : (Formula.rawToks values (.sub l sp r)).length
              = (l.rawToks values).length + 1 + (r.rawToks values).length := by
            simp [Formula.rawToks, hr0]; omega
          rw [hlen] at hF
          obtain ⟨_, ihrT, _⟩ := ihr hwr hru
          have h1 := ihlA (Token.minus :: (r.rawToks values ++ rest)) F (by omega) rfl
          obtain ⟨K, hK⟩ : ∃ K, F - l.addSteps = K + 2 := ⟨F - l.addSteps - 2, by omega⟩
          have hM := ihrT hlr rest (K + 1) (by omega)
          simp only [Formula.rawToks, hr0, Bool.false_eq_true, if_false, List.append_assoc,
            List.cons_append]
          rw [h1, hK]
          rcases stopsAtDecr_cases hM with h | ⟨e1, r1, h⟩
          · simp only [parseAddRest, h]
            rfl
          · simp only [parseAddRest, h]
            rfl
      · have hlu : l.signSafe values = false := by simpa using hl
        obtain ⟨_, _, ihlA⟩ := ihl hwl hlu
        by_cases hr : r.startsNegative values = true
        · have hlen : (Formula.rawToks values (.sub l sp r)).length
              = (l.rawToks values).length + 1 + (r.rawToks values).tail.length := by
            simp [Formula.rawToks, hr]; omega
          rw [hlen] at hF
          simp only [Formula.rawToks, hr, if_true, List.append_assoc, List.cons_append]
          exact ihlA _ F (by omega)
        · have hr0 : r.startsNegative values = false := by simpa using hr
          have hlen : (Formula.rawToks values (.sub l sp r)).length
              = (l.rawToks values).length + 1 + (r.rawToks values).length := by
            simp [Formula.rawToks, hr0]; omega
          rw [hlen] at hF
          simp only [Formula.rawToks, hr0, Bool.false_eq_true, if_false, List.append_assoc,
            List.cons_append]
          exact ihlA _ F (by omega)
    exact ⟨fun h => by simp [Formula.level] at h, fun h => by simp [Formula.level] at h, hA⟩

theorem runTokens_decr (values : List (List Char × JsVal)) (g : Formula)
    (hwf : g.wf = true) (hdecr : g.signSafe values = false) :
    runTokens (g.rawToks values ++ [.rparen]) = some .throw := by
  have hall : Token.lparen :: (g.rawToks values ++ [.rparen])
      = (Formula.paren 0 g 0).rawToks values := rfl
  obtain ⟨_, _, hA⟩ := parse_stops values (.paren 0 g 0) (by simpa [Formula.wf] using hwf)
    (by simpa [Formula.signSafe] using hdecr)
  have hparse := hA [] (4 * ((Formula.paren 0 g 0).rawToks values).length + 4) (by omega)
  rw [List.append_nil] at hparse
  have hre : slashStartsRegex false (Token.lparen :: (g.rawToks values ++ [.rparen]))
      = false := by
    simp only [slashStartsRegex]
    rw [slashStartsRegex_raw]
    rfl
  unfold runTokens
  rw [hall] at hre ⊢
  rcases stopsAtDecr_cases hparse with h | ⟨e1, r1, h⟩
  · simp only [hre, Bool.false_eq_true, if_false, h]
  · simp only [hre, Bool.false_eq_true, if_false, h]

theorem refRuntime_decr (values : List (List Char × JsVal))
    (hfin : finiteBindings values = true) (hfresh : freshTexts values = true)
    (g : Formula) (hwf : g.wf = true) (hb : g.bound values = true)
    (hdecr : g.signSafe values = false) (k : Nat) :
    refRuntime (functionBody (substitute (g.text ++ blanks k) values)) = some .throw := by
  rw [refRuntime_functionBody,
    substitute_text_of_keys values (finiteBindings_keys hfin) hfresh g hwf k,
    bodyTokens_raw values hfin g hwf hb k]
  exact runTokens_decr values g hwf hdecr

theorem finiteBinding_of_good {v : JsVal} (h : goodBinding v = true) :
    finiteBinding v = true := by
  unfold goodBinding at h
  unfold finiteBinding
  split at h
  · rename_i m e heq
    rw [heq]
    exact h
  · cases h

theorem finiteBindings_of_good {values : List (List Char × JsVal)}
    (h : goodBindings values = true) : finiteBindings values = true := by
  simp only [goodBindings, finiteBindings, List.all_eq_true, Bool.and_eq_true] at h ⊢
  exact fun kv hkv => ⟨(h kv hkv).1, finiteBinding_of_good (h kv hkv).2⟩

theorem lookupNum_good {values : List (List Char × JsVal)}
    (h : goodBindings values = true) (x : List Char) :
    ∃ m e, lookupNum values x = .fin false m e := by
  induction values with
  | nil => exact ⟨0, -1074, rfl⟩
  | cons kv rest ih =>
    obtain ⟨k, v⟩ := kv
    simp only [goodBindings, List.all_cons, Bool.and_eq_true] at h
    obtain ⟨⟨_, hv⟩, hrest⟩ := h
    by_cases hk : x = k
    · simp only [lookupNum, hk, if_true]
      unfold goodBinding at hv
      split at hv
      · rename_i m e heq
        rw [heq]
        exact ⟨m, e, rfl⟩
      · cases hv
    · simp only [lookupNum, hk, if_false]
      exact ih hrest

theorem startsNegative_of_good {values : List (List Char × JsVal)}
    (h : goodBindings values = true) (g : Formula) :
    g.startsNegative values = false := by
  induction g with
  | var sp x =>
    obtain ⟨m, e, hnum⟩ := lookupNum_good h x
    simp [Formula.startsNegative, hnum, JsNum.isNegative]
  | lit sp i f p => rfl
  | paren sp e sp2 ih => rfl
  | mul l sp r ihl ihr => exact ihl
  | div l sp r ihl ihr => exact ihl
  | add l sp r ihl ihr => exact ihl
  | sub l sp r ihl ihr => exact ihl

theorem signSafe_of_good {values : List (List Char × JsVal)}
    (h : goodBindings values = true) (g : Formula) :
    g.signSafe values = true := by
  induction g with
  | var sp x => rfl
  | lit sp i f p => rfl
  | paren sp e sp2 ih => exact ih
  | mul l sp r ihl ihr => simp [Formula.signSafe, ihl, ihr]
  | div l sp r ihl ihr => simp [Formula.signSafe, ihl, ihr]
  | add l sp r ihl ihr => simp [Formula.signSafe, ihl, ihr]
  | sub l sp r ihl ihr => simp [Formula.signSafe, ihl, ihr, startsNegative_of_good h r]

/-! ## C3: the value of a well-formed expression -/

set_option maxRecDepth 100000 in
/-- C3 (as stated, refuted): `profit_l-investment_l` is well formed and its
value with `profit_l = 3`, `investment_l = -5` is the finite number 8, but
the substituted text is `3--5`, which JavaScript rejects, and
`evaluateFormula` returns `null`; written with blanks, `profit_l - investment_l`,
the same expression gives 8.  `007 + 1` has the value 8 and gives `null`, a
numeral with a superfluous leading zero being rejected in strict mode.  The
result of the example of the claim is the double 5541893285161290 / 2^34,
which is not 10000000/31. -/
theorem evaluateFormula_rejects_substituted_text :
    Implements refEngine ∧ differenceFormula.wf = true ∧
      differenceFormula.bound negativeValues = true ∧
      differenceFormula.text = "profit_l-investment_l".toList ∧
      differenceFormula.value negativeValues = JsNum.ofNat 8 ∧
      evaluateFormula refEngine "profit_l-investment_l".toList negativeValues emptyPage
        = (.normal .null, { emptyPage with errorLines := 1 }) ∧
      evaluateFormula refEngine "profit_l - investment_l".toList negativeValues emptyPage
        = (.normal (.num (JsNum.ofNat 8)), emptyPage) ∧
      paddedFormula.text = "007 + 1".toList ∧
      paddedFormula.value [] = JsNum.ofNat 8 ∧
      evaluateFormula refEngine "007 + 1".toList [] emptyPage
        = (.normal .null, { emptyPage with errorLines := 1 }) ∧
      evaluateFormula refEngine "profit_l / (expected_profit_pct / 100)".toList
          exampleValues emptyPage
        = (.normal (.num (.fin false 5541893285161290 (-34))), emptyPage) ∧
      31 * 5541893285161290 ≠ 10000000 * 2 ^ 34 := by
  refine ⟨implements_refEngine, by decide, by decide, by decide, by decide, ?_, ?_,
    by decide, by decide, ?_, ?_, by decide⟩
  · have hs : substitute "profit_l-investment_l".toList negativeValues = "3--5".toList := by
      decide
    have h : refRuntime (functionBody (substitute "profit_l-investment_l".toList
        negativeValues)) = some .throw := by
      rw [hs]; decide
    rw [evaluateFormula_of_ref_throw implements_refEngine h]
    rfl
  · have h := refRuntime_signed negativeValues (by decide) (by decide) spacedDifference
      (by decide) (by decide) (by decide) 0
    have ht : spacedDifference.text ++ blanks 0 = "profit_l - investment_l".toList := by
      decide
    have hv : spacedDifference.value negativeValues = JsNum.ofNat 8 := by decide
    rw [ht, hv] at h
    rw [evaluateFormula_of_ref implements_refEngine h]
    rfl
  · have hs : substitute "007 + 1".toList [] = "007 + 1".toList := by decide
    have h : refRuntime (functionBody (substitute "007 + 1".toList [])) = some .throw := by
      rw [hs]; decide
    rw [evaluateFormula_of_ref_throw implements_refEngine h]
    rfl
  · have h := refRuntime_signed exampleValues (by decide) (by decide) exampleFormula
      (by decide) (by decide) (by decide) 0
    have ht : exampleFormula.text ++ blanks 0
        = "profit_l / (expected_profit_pct / 100)".toList := by decide
    have hv : exampleFormula.value exampleValues = .fin false 5541893285161290 (-34) := by
      decide
    rw [ht, hv] at h
    rw [evaluateFormula_of_ref implements_refEngine h]
    rfl

set_option maxRecDepth 100000 in
/-- C3 (amended): for every well-formed expression over the grammar (bound
variable identifiers, decimal literals without a superfluous leading zero,
`+ - * /`, parentheses, blanks) and every binding set of finite numbers, of
either sign: when no variable bound to a number below zero is written
directly after the operator `-` (without a blank between the two),
`evaluateFormula` returns the value of the expression in binary64 arithmetic,
with standard precedence and each variable standing for its bound number,
whenever that value is finite, and `null` otherwise; when some such variable
is written directly after a `-`, the substituted text holds `--` and
`evaluateFormula` returns `null`, logging the error.
`profit_l / (expected_profit_pct / 100)` with `profit_l = 50000` and
`expected_profit_pct = 15.5` yields 5541893285161290 / 2^34, which is
322580.65 to two decimals (and is not exactly 10000000/31); a binding set
without numbers below zero meets the condition on `-` for every expression. -/
theorem evaluateFormula_value (run : Runtime) (hrun : Implements run)
    (values : List (List Char × JsVal)) (hfin : finiteBindings values = true)
    (hfresh : freshTexts values = true) (g : Formula) (hwf : g.wf = true)
    (hb : g.bound values = true) (k : Nat) (w : World) :
    (g.signSafe values = true →
      evaluateFormula run (g.text ++ blanks k) values w
        = (.normal (if isNaN (.num (g.value values)) || !isFinite (.num (g.value values))
            then .null else .num (g.value values)), w)) ∧
      (g.signSafe values = true → ∀ s m e, g.value values = .fin s m e →
        evaluateFormula run (g.text ++ blanks k) values w
          = (.normal (.num (g.value values)), w)) ∧
      (g.signSafe values = false →
        evaluateFormula run (g.text ++ blanks k) values w
          = (.normal .null, { w with errorLines := w.errorLines + 1 })) ∧
      (evaluateFormula run "profit_l / (expected_profit_pct / 100)".toList exampleValues w
          = (.normal (.num (.fin false 5541893285161290 (-34))), w) ∧
        322580645 * 2 ^ 34 ≤ 5541893285161290 * 1000 ∧
        5541893285161290 * 1000 < 322580655 * 2 ^ 34 ∧
        31 * 5541893285161290 ≠ 10000000 * 2 ^ 34) ∧
      (∀ (values1 : List (List Char × JsVal)) (g1 : Formula),
        goodBindings values1 = true →
        finiteBindings values1 = true ∧ g1.signSafe values1 = true) := by
  have main : ∀ (values : List (List Char × JsVal)) (g : Formula) (k : Nat),
      finiteBindings values = true → freshTexts values = true → g.wf = true →
      g.bound values = true → g.signSafe values = true →
      evaluateFormula run (g.text ++ blanks k) values w
        = (.normal (if isNaN (.num (g.value values)) || !isFinite (.num (g.value values))
            then .null else .num (g.value values)), w) :=
    fun values g k hfin hfresh hwf hb hsafe =>
      evaluateFormula_of_ref hrun (refRuntime_signed values hfin hfresh g hwf hb hsafe k)
  refine ⟨main values g k hfin hfresh hwf hb, ?_, ?_,
    ⟨?_, by decide, by decide, by decide⟩, ?_⟩
  · intro hsafe s m e hv
    rw [main values g k hfin hfresh hwf hb hsafe, hv]
    rfl
  · intro hdecr
    exact evaluateFormula_of_ref_throw hrun
      (refRuntime_decr values hfin hfresh g hwf hb hdecr k)
  · have h := main exampleValues exampleFormula 0 (by decide) (by decide) (by decide)
      (by decide) (by decide)
    have ht : exampleFormula.text ++ blanks 0
        = "profit_l / (expected_profit_pct / 100)".toList := by decide
    have hv : exampleFormula.value exampleValues = .fin false 5541893285161290 (-34) := by
      decide
    rw [ht, hv] at h
    rw [h]
    rfl
  · intro values1 g1 hgood
    exact ⟨finiteBindings_of_good hgood, signSafe_of_good hgood g1⟩

set_option maxRecDepth 100000 in
theorem evaluateFormula_value_witness :
    finiteBindings negativeValues = true ∧ freshTexts negativeValues = true ∧
      signedQuotient.wf = true ∧ signedQuotient.bound negativeValues = true ∧
      signedQuotient.signSafe negativeValues = true ∧
      evaluateFormula refEngine "profit_l*investment_l/(investment_l+profit_l)".toList
          negativeValues emptyPage
        = (.normal (.num (.fin false 8444249301319680 (-50))), emptyPage) := by
  refine ⟨by decide, by decide, by decide, by decide, by decide, ?_⟩
  have h := (evaluateFormula_value refEngine implements_refEngine negativeValues (by decide)
    (by decide) signedQuotient (by decide) (by decide) 0 emptyPage).1 (by decide)
  have ht : signedQuotient.text ++ blanks 0
      = "profit_l*investment_l/(investment_l+profit_l)".toList := by decide
  have hv : signedQuotient.value negativeValues = .fin false 8444249301319680 (-50) := by
    decide
  rw [ht, hv] at h
  rw [h]
  rfl

/-! ## C17: makeUsername -/

theorem digitChar_isDigit (k : Nat) (h : k < 10) : (Char.ofNat (48 + k)).isDigit = true := by
  interval_cases k <;> rfl

theorem natDigitsAux_digits (fuel n : Nat) (acc : List Char)
    (hacc : ∀ c ∈ acc, c.isDigit = true) :
    ∀ c ∈ natDigitsAux fuel n acc, c.isDigit = true := by
  induction fuel generalizing n acc with
  | zero => simpa [natDigitsAux] using hacc
  | succ fuel ih =>
    have hacc1 : ∀ c ∈ Char.ofNat (48 + n % 10) :: acc, c.isDigit = true := by
      intro c hc
      rcases List.mem_cons.mp hc with rfl | hc
      · exact digitChar_isDigit _ (Nat.mod_lt _ (by decide))
      · exact hacc c hc
    simp only [natDigitsAux]
    split
    · exact hacc1
    · exact ih _ _ hacc1

theorem natDigitsAux_length (fuel n k : Nat) (acc : List Char) (hn : n < 10 ^ (k + 1)) :
    (natDigitsAux fuel n acc).length ≤ acc.length + (k + 1) := by
  induction fuel generalizing n k acc with
  | zero => simp [natDigitsAux]
  | succ fuel ih =>
    simp only [natDigitsAux]
    split
    · simp
    · rename_i h10
      cases k with
      | zero => exact absurd (by simpa using hn) h10
      | succ k =>
        have hd : n / 10 < 10 ^ (k + 1) := by
          rw [Nat.div_lt_iff_lt_mul (by decide)]
          calc n < 10 ^ (k + 1 + 1) := hn
            _ = 10 ^ (k + 1) * 10 := by ring
        have := ih (n / 10) k (Char.ofNat (48 + n % 10) :: acc) hd
        simp only [List.length_cons] at this
        omega

theorem natDigits_ne_nil (n : Nat) : natDigits n ≠ [] := by
  unfold natDigits
  simp only [natDigitsAux]
  split
  · simp
  · intro h
    have hlen : ∀ fuel m (acc : List Char), acc.length ≤ (natDigitsAux fuel m acc).length := by
      intro fuel
      induction fuel with
      | zero => intro m acc; simp [natDigitsAux]
      | succ fuel ih =>
        intro m acc
        simp only [natDigitsAux]
        split
        · simp
        · exact Nat.le_trans (by simp) (ih _ _)
    have := hlen n (n / 10) [Char.ofNat (48 + n % 10)]
    rw [h] at this
    simp at this

theorem intText_spec (now : Int) (hnow : now.natAbs ≤ 8640000000000000) :
    intText now ≠ [] ∧ (intText now).length ≤ 17 ∧
      ∀ c ∈ intText now, isUsernameChar c = true := by
  have hd : ∀ c ∈ natDigits now.natAbs, c.isDigit = true :=
    natDigitsAux_digits _ _ [] (by simp)
  have hl : (natDigits now.natAbs).length ≤ 16 := by
    have := natDigitsAux_length (now.natAbs + 1) now.natAbs 15 []
      (Nat.lt_of_le_of_lt hnow (by norm_num))
    simpa [natDigits] using this
  have hu : ∀ c ∈ natDigits now.natAbs, isUsernameChar c = true := by
    intro c hc
    simp [isUsernameChar, hd c hc]
  unfold intText
  split
  · refine ⟨by simp, by simp only [List.length_cons]; omega, ?_⟩
    intro c hc
    rcases List.mem_cons.mp hc with rfl | hc
    · rfl
    · exact hu c hc
  · exact ⟨natDigits_ne_nil _, by omega, hu⟩

/-- The result of `makeUsername` in terms of `localPart`. -/
theorem makeUsername_localPart (toLowerCase : List Char → List Char) (now : Int)
    (hnow : now.natAbs ≤ 8640000000000000) (email : List Char) :
    makeUsername toLowerCase now email ≠ [] ∧
      (makeUsername toLowerCase now email).length ≤ 30 ∧
      (∀ c ∈ makeUsername toLowerCase now email, isUsernameChar c = true) ∧
      ((∃ c ∈ toLowerCase (localPart email), isUsernameChar c = true) →
        makeUsername toLowerCase now email
          = ((toLowerCase (localPart email)).filter isUsernameChar).take 30) := by
  obtain ⟨h1, h2, h3⟩ := intText_spec now hnow
  have huser : ∀ c ∈ "user".toList, isUsernameChar c = true := by decide
  by_cases he : ((toLowerCase (localPart email)).filter isUsernameChar).take 30 = []
  · have hm : makeUsername toLowerCase now email = "user".toList ++ intText now := by
      simp [makeUsername, he]
    rw [hm]
    refine ⟨by simp, ?_, ?_, ?_⟩
    · simp only [List.length_append]
      have : "user".toList.length = 4 := rfl
      omega
    · intro c hc
      rcases List.mem_append.mp hc with hc | hc
      · exact huser c hc
      · exact h3 c hc
    · rintro ⟨c, hc, hcu⟩
      have hf : c ∈ (toLowerCase (localPart email)).filter isUsernameChar :=
        List.mem_filter.mpr ⟨hc, hcu⟩
      have hnil : (toLowerCase (localPart email)).filter isUsernameChar = [] := by
        cases hfl : (toLowerCase (localPart email)).filter isUsernameChar with
        | nil => rfl
        | cons a l => rw [hfl] at he; simp at he
      rw [hnil] at hf
      simp at hf
  · have hm : makeUsername toLowerCase now email
        = ((toLowerCase (localPart email)).filter isUsernameChar).take 30 := by
      simp [makeUsername, he]
    rw [hm]
    refine ⟨he, by simp, ?_, fun _ => rfl⟩
    intro c hc
    exact (List.mem_filter.mp (List.mem_of_mem_take hc)).2

theorem localPart_append (a b : List Char) (ha : '@' ∉ a) :
    localPart a = a ∧ localPart (a ++ '@' :: b) = a := by
  induction a with
  | nil => simp [localPart]
  | cons c cs ih =>
    have hc : c ≠ '@' := fun h => ha (by simp [h])
    have hcs : '@' ∉ cs := fun h => ha (List.mem_cons_of_mem _ h)
    obtain ⟨h1, h2⟩ := ih hcs
    simp only [localPart] at h1 h2 ⊢
    have e : ∀ l : List Char, List.takeWhile (fun c => c != '@') (c :: l)
        = c :: List.takeWhile (fun c => c != '@') l := by
      intro l
      simp [List.takeWhile_cons, hc]
    constructor
    · rw [e, h1]
    · rw [List.cons_append, e, h2]

theorem localPart_split (email : List Char) :
    ∃ a b, '@' ∉ a ∧ (email = a ∨ email = a ++ '@' :: b) := by
  have hnot : '@' ∉ email.takeWhile (fun c => c != '@') := by
    intro h
    have := List.mem_takeWhile_imp h
    simp at this
  cases hd : email.dropWhile (fun c => c != '@') with
  | nil =>
    refine ⟨email.takeWhile (fun c => c != '@'), [], hnot, Or.inl ?_⟩
    have := List.takeWhile_append_dropWhile (fun c => c != '@') email
    rw [hd, List.append_nil] at this
    exact this.symm
  | cons x xs =>
    have hx : x = '@' := by
      have := List.head_dropWhile_not (fun c => c != '@') email (by rw [hd]; simp)
      simp only [hd, List.head_cons] at this
      simpa using this
    refine ⟨email.takeWhile (fun c => c != '@'), xs, hnot, Or.inr ?_⟩
    have := List.takeWhile_append_dropWhile (fun c => c != '@') email
    rw [hd, hx] at this
    exact this.symm

/-- C17: for every e-mail string, `makeUsername` returns a non-empty string of
at most 30 characters, each a lower-case letter, a digit, `.`, `_` or `-`.
Write the string as `a`, or as `a`, an `@` and a rest, where `a` holds no `@`
(the local part: the text before the first `@`, every string has it): when
the lower-cased `a` holds at least one such character, the result is the
lower-cased `a` with every other character removed, cut to its first 30
characters; when it holds none, the result is `user` followed by the digits
of the clock.  (`now` is a time value: at most 8.64e15 in magnitude.) -/
theorem makeUsername_spec (toLowerCase : List Char → List Char) (now : Int)
    (hnow : now.natAbs ≤ 8640000000000000) (email : List Char) :
    makeUsername toLowerCase now email ≠ [] ∧
      (makeUsername toLowerCase now email).length ≤ 30 ∧
      (∀ c ∈ makeUsername toLowerCase now email, isUsernameChar c = true) ∧
      (∃ a b, '@' ∉ a ∧ (email = a ∨ email = a ++ '@' :: b)) ∧
      (∀ a b, '@' ∉ a → (email = a ∨ email = a ++ '@' :: b) →
        (∃ c ∈ toLowerCase a, isUsernameChar c = true) →
        makeUsername toLowerCase now email
          = ((toLowerCase a).filter isUsernameChar).take 30) ∧
      (∀ a b, '@' ∉ a → (email = a ∨ email = a ++ '@' :: b) →
        (∀ c ∈ toLowerCase a, isUsernameChar c = false) →
        makeUsername toLowerCase now email = "user".toList ++ intText now) := by
  obtain ⟨h1, h2, h3, h4⟩ := makeUsername_localPart toLowerCase now hnow email
  have hl : ∀ a b, '@' ∉ a → (email = a ∨ email = a ++ '@' :: b) → localPart email = a := by
    intro a b ha he
    rcases he with he | he
    · rw [he]; exact (localPart_append a [] ha).1
    · rw [he]; exact (localPart_append a b ha).2
  refine ⟨h1, h2, h3, localPart_split email, ?_, ?_⟩
  · intro a b ha he hc
    have := hl a b ha he
    rw [this] at h4
    exact h4 hc
  · intro a b ha he hc
    have hf : (toLowerCase a).filter isUsernameChar = [] := by
      rw [List.filter_eq_nil_iff]
      intro c hcm
      simp [hc c hcm]
    simp [makeUsername, hl a b ha he, hf]

theorem makeUsername_spec_witness :
    (1700000000000 : Int).natAbs ≤ 8640000000000000 ∧
      makeUsername asciiLower 1700000000000 "Ana.Lopez+hn@eskala.org".toList
        = "ana.lopezhn".toList ∧
      makeUsername asciiLower 1700000000000 "+@eskala.org".toList
        = "user1700000000000".toList :=
  ⟨by decide,
    ((makeUsername_spec asciiLower 1700000000000 (by decide)
      "Ana.Lopez+hn@eskala.org".toList).2.2.2.2.1 "Ana.Lopez+hn".toList "eskala.org".toList
      (by decide) (Or.inr (by decide)) ⟨'a', by decide, by decide⟩).trans (by decide),
    ((makeUsername_spec asciiLower 1700000000000 (by decide)
      "+@eskala.org".toList).2.2.2.2.2 "+".toList "eskala.org".toList
      (by decide) (Or.inr (by decide)) (by decide)).trans (by decide)⟩

/-! ## C18: routeAfterLogin -/

/-- C18 (the code at the failing input): for the type `staff`,
`routeAfterLogin` stores `STAFF` under `eskala_role`, and assigns to
`window.location.href` the fixed text of its template literal, which is not
`/web/Dashboard.html?role=Staff`; the type `partner` gets the very same
address. -/
theorem routeAfterLogin_href_without_role :
    routeAfterLogin asciiLower (.str " Staff ".toList) loginPage
        = { storage := [("eskala_role".toList, "STAFF".toList)], storageThrows := false,
            href := "/web/Dashboard.html\n      roleParam\n    )\x7d".toList } ∧
      (routeAfterLogin asciiLower (.str " Staff ".toList) loginPage).href
        ≠ "/web/Dashboard.html?role=Staff".toList ∧
      (routeAfterLogin asciiLower (.str "partner".toList) loginPage).href
        = (routeAfterLogin asciiLower (.str " Staff ".toList) loginPage).href := by
  refine ⟨by decide, by decide, by decide⟩

/-! ## C19: combineRatesAndHistory -/

theorem unifiedRow_toRate (m : List (List Char × HistoryRecord)) (rate : Rate) :
    (unifiedRow m rate).toRate = rate := by
  cases rate
  rfl

theorem orderedInsert_congr {α : Type} (r s : α → α → Prop) [DecidableRel r] [DecidableRel s]
    (a : α) (l : List α) (h : ∀ b ∈ l, r a b ↔ s a b) :
    l.orderedInsert r a = l.orderedInsert s a := by
  induction l with
  | nil => rfl
  | cons b l ih =>
    have hb := h b (List.mem_cons_self _ _)
    have ih1 := ih fun c hc => h c (List.mem_cons_of_mem _ hc)
    by_cases hr : r a b
    · simp [List.orderedInsert, hr, hb.mp hr]
    · have hs : ¬ s a b := fun hs => hr (hb.mpr hs)
      simp [List.orderedInsert, hr, hs, ih1]

theorem insertionSort_congr {α : Type} (r s : α → α → Prop) [DecidableRel r] [DecidableRel s]
    (l : List α) (h : ∀ a ∈ l, ∀ b ∈ l, r a b ↔ s a b) :
    l.insertionSort r = l.insertionSort s := by
  induction l with
  | nil => rfl
  | cons a l ih =>
    have ih1 := ih fun x hx y hy => h x (List.mem_cons_of_mem _ hx) y (List.mem_cons_of_mem _ hy)
    simp only [List.insertionSort]
    rw [← ih1]
    apply orderedInsert_congr
    intro b hb
    have hb1 : b ∈ l := (List.perm_insertionSort r l).subset hb
    exact h a (List.mem_cons_self _ _) b (List.mem_cons_of_mem _ hb1)

theorem compareRows_iff (parseDate : List Char → Option Int) (a b : UnifiedRow)
    (ha : (parseDate a.valid_from).isSome = true) (hb : (parseDate b.valid_from).isSome = true) :
    compareRows parseDate a b ≤ 0 ↔ b.time parseDate ≤ a.time parseDate := by
  obtain ⟨ta, hta⟩ := Option.isSome_iff_exists.mp ha
  obtain ⟨tb, htb⟩ := Option.isSome_iff_exists.mp hb
  simp only [compareRows, UnifiedRow.time, hta, htb, Option.getD_some]
  omega

theorem sortRows_sorted (parseDate : List Char → Option Int) (rows : List UnifiedRow)
    (hvalid : ∀ r ∈ rows, (parseDate r.valid_from).isSome = true) :
    (sortRows parseDate rows).Pairwise fun a b => b.time parseDate ≤ a.time parseDate := by
  have hc : sortRows parseDate rows
      = rows.insertionSort fun a b => b.time parseDate ≤ a.time parseDate :=
    insertionSort_congr _ _ rows fun a ha b hb =>
      compareRows_iff parseDate a b (hvalid a ha) (hvalid b hb)
  rw [hc]
  haveI : IsTotal UnifiedRow fun a b => b.time parseDate ≤ a.time parseDate :=
    ⟨fun a b => le_total _ _⟩
  haveI : IsTrans UnifiedRow fun a b => b.time parseDate ≤ a.time parseDate :=
    ⟨fun a b c hab hbc => le_trans hbc hab⟩
  exact List.sorted_insertionSort _ rows

/-- C19: for every list of rates whose `valid_from` dates are valid and every
list of history records, `combineRatesAndHistory` returns exactly one row per
input rate (the rows, read back as rates, are a permutation of the input),
each row carrying its rate's currencies, rate and validity dates, ordered by
`valid_from` descending, most recent first. -/
theorem combineRatesAndHistory_spec (parseDate : List Char → Option Int)
    (rates : List Rate) (history : List HistoryRecord)
    (hvalid : ∀ r ∈ rates, (parseDate r.valid_from).isSome = true) :
    ((combineRatesAndHistory parseDate rates history).map UnifiedRow.toRate).Perm rates ∧
      (combineRatesAndHistory parseDate rates history).length = rates.length ∧
      (combineRatesAndHistory parseDate rates history).Pairwise
        fun a b => b.time parseDate ≤ a.time parseDate := by
  have hperm : (combineRatesAndHistory parseDate rates history).Perm
      (rates.map (unifiedRow (history.foldl
        (fun m h => mapSet (historyKey h.from_currency h.to_currency h.effective_date) h m)
        []))) :=
    List.perm_insertionSort _ _
  refine ⟨?_, ?_, ?_⟩
  · have h := hperm.map UnifiedRow.toRate
    rw [List.map_map] at h
    have hid : (UnifiedRow.toRate ∘ unifiedRow (history.foldl
        (fun m h => mapSet (historyKey h.from_currency h.to_currency h.effective_date) h m)
        [])) = id := by
      funext r
      exact unifiedRow_toRate _ r
    rw [hid, List.map_id] at h
    exact h
  · rw [hperm.length_eq, List.length_map]
  · apply sortRows_sorted
    intro r hr
    obtain ⟨rate, hrate, rfl⟩ := List.mem_map.mp hr
    exact hvalid rate hrate

theorem combineRatesAndHistory_spec_witness :
    (∀ r ∈ sampleRates, (sampleDates r.valid_from).isSome = true) ∧
      ((combineRatesAndHistory sampleDates sampleRates []).map UnifiedRow.toRate).Perm
        sampleRates ∧
      (combineRatesAndHistory sampleDates sampleRates []).length = sampleRates.length ∧
      (combineRatesAndHistory sampleDates sampleRates []).Pairwise
        fun a b => b.time sampleDates ≤ a.time sampleDates :=
  ⟨by decide, combineRatesAndHistory_spec sampleDates sampleRates [] (by decide)⟩

/-! ## C14: edits of the formula builder -/

theorem setValue_length (i : Nat) (v : List Char) (cs : List Component) :
    (setValue i v cs).length = cs.length := by
  induction cs generalizing i with
  | nil => simp [setValue]
  | cons c cs ih => cases i <;> simp [setValue, ih]

theorem setValue_types (i : Nat) (v : List Char) (cs : List Component) :
    (setValue i v cs).map Component.type = cs.map Component.type := by
  induction cs generalizing i with
  | nil => simp [setValue]
  | cons c cs ih => cases i <;> simp [setValue, ih]

theorem setValue_get_ne (i j : Nat) (v : List Char) (cs : List Component) (h : j ≠ i) :
    (setValue i v cs).get? j = cs.get? j := by
  induction cs generalizing i j with
  | nil => simp [setValue]
  | cons c cs ih =>
    cases i with
    | zero =>
      cases j with
      | zero => exact absurd rfl h
      | succ j => simp [setValue]
    | succ i =>
      cases j with
      | zero => simp [setValue]
      | succ j => simpa [setValue] using ih i j (fun e => h (by rw [e]))

theorem applyEdit_cases (cs : List Component) (e : Edit) :
    applyEdit cs e = cs ∨
      ∃ c, cs.get? e.index = some c ∧ c.type ≠ .variable ∧
        applyEdit cs e = setValue e.index e.value cs := by
  unfold applyEdit
  cases h : cs.get? e.index with
  | none => exact Or.inl rfl
  | some c =>
    by_cases hv : c.type = .variable
    · left; simp [hv]
    · right; exact ⟨c, rfl, hv, by simp [hv]⟩

theorem applyEdit_frame (cs : List Component) (e : Edit) :
    (applyEdit cs e).length = cs.length ∧
      (applyEdit cs e).map Component.type = cs.map Component.type ∧
      (∀ j, j ≠ e.index → (applyEdit cs e).get? j = cs.get? j) ∧
      (∀ i c, cs.get? i = some c → c.type = .variable → (applyEdit cs e).get? i = some c) := by
  rcases applyEdit_cases cs e with h | ⟨c, hc, hv, h⟩
  · rw [h]; exact ⟨rfl, rfl, fun _ _ => rfl, fun _ _ h _ => h⟩
  · rw [h]
    refine ⟨setValue_length _ _ _, setValue_types _ _ _,
      fun j hj => setValue_get_ne _ _ _ _ hj, ?_⟩
    intro i d hd hdv
    by_cases hi : i = e.index
    · subst hi
      rw [hc] at hd
      cases hd
      exact absurd hdv hv
    · rw [setValue_get_ne _ _ _ _ hi, hd]

/-- C14: every edit made through the formula builder changes at most the value
of one component whose type is operator or number, and no sequence of edits
changes the length of `formulaComponents`, the type of any component, or a
variable component. -/
theorem applyEdits_frame (formulaComponents : List Component) (edits : List Edit) :
    (∀ e : Edit, applyEdit formulaComponents e = formulaComponents ∨
        ∃ c, formulaComponents.get? e.index = some c ∧ c.type ≠ .variable ∧
          applyEdit formulaComponents e = setValue e.index e.value formulaComponents ∧
          ∀ j, j ≠ e.index →
            (applyEdit formulaComponents e).get? j = formulaComponents.get? j) ∧
      (applyEdits formulaComponents edits).length = formulaComponents.length ∧
      (applyEdits formulaComponents edits).map Component.type
        = formulaComponents.map Component.type ∧
      (∀ i c, formulaComponents.get? i = some c → c.type = .variable →
        (applyEdits formulaComponents edits).get? i = some c) := by
  refine ⟨?_, ?_⟩
  · intro e
    rcases applyEdit_cases formulaComponents e with h | ⟨c, hc, hv, h⟩
    · exact Or.inl h
    · exact Or.inr ⟨c, hc, hv, h, (applyEdit_frame formulaComponents e).2.2.1⟩
  · induction edits generalizing formulaComponents with
    | nil => exact ⟨rfl, rfl, fun _ _ h _ => h⟩
    | cons e edits ih =>
      obtain ⟨h1, h2, _, h4⟩ := applyEdit_frame formulaComponents e
      obtain ⟨k1, k2, k3⟩ := ih (applyEdit formulaComponents e)
      refine ⟨?_, ?_, ?_⟩
      · simpa [applyEdits] using k1.trans h1
      · simpa [applyEdits] using k2.trans h2
      · intro i c hc hv
        simpa [applyEdits] using k3 i c (h4 i c hc hv) hv

/-! ## C13: parsing, re-serializing and parsing again -/

theorem dropWhile_length_le (p : Char → Bool) (s : List Char) :
    (s.dropWhile p).length ≤ s.length := by
  induction s with
  | nil => simp
  | cons c s ih =>
    simp only [List.dropWhile]
    split
    · exact Nat.le_succ_of_le ih
    · exact Nat.le_refl _

theorem matchAt_length {c : Char} {s t r : List Char} (h : matchAt (c :: s) = some (t, r)) :
    r.length ≤ s.length := by
  simp only [matchAt] at h
  split at h
  · cases h; exact dropWhile_length_le _ _
  · split at h
    · split at h
      · rename_i r2 hr
        cases h
        have h1 := dropWhile_length_le Char.isDigit s
        have h2 := dropWhile_length_le Char.isDigit r2
        rw [hr] at h1
        simp only [List.length_cons] at h1
        omega
      · cases h; exact dropWhile_length_le _ _
    · split at h
      · cases h; exact Nat.le_refl _
      · cases h

theorem matchAll_fuel (fuel1 fuel2 : Nat) (s : List Char) (h1 : s.length ≤ fuel1)
    (h2 : s.length ≤ fuel2) : matchAll fuel1 s = matchAll fuel2 s := by
  induction fuel1 generalizing fuel2 s with
  | zero =>
    have : s = [] := List.length_eq_zero.mp (Nat.le_zero.mp h1)
    subst this
    cases fuel2 <;> rfl
  | succ fuel1 ih =>
    cases s with
    | nil => cases fuel2 <;> rfl
    | cons c s =>
      cases fuel2 with
      | zero => simp at h2
      | succ fuel2 =>
        simp only [List.length_cons, Nat.add_le_add_iff_right] at h1 h2
        simp only [matchAll]
        cases hm : matchAt (c :: s) with
        | none => exact ih fuel2 s h1 h2
        | some tr =>
          obtain ⟨t, r⟩ := tr
          have hr := matchAt_length hm
          simp only
          rw [ih fuel2 r (by omega) (by omega)]

theorem all_takeWhile (p : Char → Bool) (s : List Char) : (s.takeWhile p).all p = true := by
  induction s with
  | nil => rfl
  | cons c s ih =>
    simp only [List.takeWhile]
    split
    · rename_i h; simp only [List.all_cons, h, ih, Bool.and_self]
    · rfl

theorem dropWhile_takeWhile_append (p : Char → Bool) (s : List Char) (c : Char)
    (rest : List Char) (hc : p c = false) :
    ((s.takeWhile p) ++ c :: rest).dropWhile p = c :: rest ∧
      ((s.takeWhile p) ++ c :: rest).takeWhile p = s.takeWhile p := by
  have h := takeWhile_append_of_head (p := p) (s.takeWhile p) (c :: rest)
    (by intro d hd; cases hd; exact hc)
  have ha := takeWhile_all (all_takeWhile p s)
  rw [h.1, h.2, ha.1, ha.2]
  exact ⟨rfl, rfl⟩

theorem matchAt_isLexeme {s t r : List Char} (h : matchAt s = some (t, r)) :
    isLexeme t = true := by
  cases s with
  | nil => simp [matchAt] at h
  | cons c s =>
    simp only [matchAt] at h
    split at h
    · rename_i hc
      cases h
      simp [isLexeme, hc, all_takeWhile]
    · rename_i hc
      split at h
      · rename_i hd
        split at h
        · rename_i r2 hr
          cases h
          have hp : Char.isDigit '.' = false := by decide
          have hx := dropWhile_takeWhile_append Char.isDigit s '.'
            (r2.takeWhile Char.isDigit) hp
          simp only [isLexeme, hc, hd, hx.1]
          simp [all_takeWhile]
        · cases h
          have ha := takeWhile_all (all_takeWhile Char.isDigit s)
          simp [isLexeme, hc, hd, ha.2]
      · rename_i hd
        split at h
        · rename_i ho
          cases h
          simp [isLexeme, hc, hd, ho]
        · cases h

theorem sep_cases {c : Char} (h : (c == ' ' || isOperatorChar c) = true) :
    c = ' ' ∨ c = '+' ∨ c = '-' ∨ c = '*' ∨ c = '/' ∨ c = '(' ∨ c = ')' := by
  simp only [isOperatorChar, Bool.or_eq_true, beq_iff_eq] at h
  tauto

theorem sepStart_head {p : Char → Bool} {rest : List Char}
    (hp : p ' ' = false ∧ p '+' = false ∧ p '-' = false ∧ p '*' = false ∧ p '/' = false ∧
      p '(' = false ∧ p ')' = false)
    (h : sepStart rest = true) : ∀ c, rest.head? = some c → p c = false := by
  intro c hc
  cases rest with
  | nil => cases hc
  | cons d ds =>
    cases hc
    obtain ⟨h0, h1, h2, h3, h4, h5, h6⟩ := hp
    rcases sep_cases (by simpa [sepStart] using h : (c == ' ' || isOperatorChar c) = true)
      with e | e | e | e | e | e | e <;> (rw [e]; assumption)

theorem sep_not_name : isNameChar ' ' = false ∧ isNameChar '+' = false ∧
    isNameChar '-' = false ∧ isNameChar '*' = false ∧ isNameChar '/' = false ∧
    isNameChar '(' = false ∧ isNameChar ')' = false := by decide

theorem sep_not_digit : Char.isDigit ' ' = false ∧ Char.isDigit '+' = false ∧
    Char.isDigit '-' = false ∧ Char.isDigit '*' = false ∧ Char.isDigit '/' = false ∧
    Char.isDigit '(' = false ∧ Char.isDigit ')' = false := by decide

theorem matchAt_of_isLexeme {t rest : List Char} (ht : isLexeme t = true)
    (hrest : sepStart rest = true) : matchAt (t ++ rest) = some (t, rest) := by
  cases t with
  | nil => simp [isLexeme] at ht
  | cons c s =>
    simp only [isLexeme] at ht
    simp only [List.cons_append, matchAt]
    split at ht
    · rename_i hc
      have h := takeWhile_append_of_head (p := isNameChar) s rest
        (sepStart_head sep_not_name hrest)
      have ha := takeWhile_all ht
      simp [hc, h.1, h.2, ha.1, ha.2]
    · rename_i hc
      split at ht
      · rename_i hd
        have h := takeWhile_append_of_head (p := Char.isDigit) s rest
          (sepStart_head sep_not_digit hrest)
        have hsplit := List.takeWhile_append_dropWhile Char.isDigit s
        simp only [hc, hd, if_true, Bool.false_eq_true, if_false, h.2, h.1]
        cases hdw : s.dropWhile Char.isDigit with
        | nil =>
          rw [hdw, List.append_nil] at hsplit
          rw [hsplit, List.nil_append]
          cases rest with
          | nil => rfl
          | cons d ds =>
            rcases sep_cases (by simpa [sepStart] using hrest :
                (d == ' ' || isOperatorChar d) = true)
              with e | e | e | e | e | e | e <;> (subst e; rfl)
        | cons x f =>
          rw [hdw] at ht hsplit
          simp only [List.isEmpty_cons, Bool.false_or, List.head?_cons, List.drop_one,
            List.tail_cons, Bool.and_eq_true, beq_iff_eq, Option.some.injEq] at ht
          obtain ⟨hx, hf⟩ := ht
          subst hx
          have h2 := takeWhile_append_of_head (p := Char.isDigit) f rest
            (sepStart_head sep_not_digit hrest)
          have hb := takeWhile_all hf
          simp only [List.cons_append, h2.1, h2.2, hb.1, hb.2, List.nil_append, hsplit]
      · rename_i hd
        simp only [Bool.and_eq_true, List.isEmpty_iff] at ht
        obtain ⟨ho, hs⟩ := ht
        subst hs
        simp [hc, hd, ho]

theorem isLexeme_ne_nil {t : List Char} (ht : isLexeme t = true) : t ≠ [] := by
  intro h; subst h; simp [isLexeme] at ht

theorem matchAll_lexeme {t rest : List Char} (fuel : Nat) (ht : isLexeme t = true)
    (hrest : sepStart rest = true) :
    matchAll (fuel + 1) (t ++ rest) = t :: matchAll fuel rest := by
  have hm := matchAt_of_isLexeme ht hrest
  cases t with
  | nil => exact absurd rfl (isLexeme_ne_nil ht)
  | cons c s =>
    simp only [List.cons_append] at hm ⊢
    simp only [matchAll, hm]

theorem matchAll_blank (fuel : Nat) (rest : List Char) :
    matchAll (fuel + 1) (' ' :: rest) = matchAll fuel rest := by
  have h : matchAt (' ' :: rest) = none := by
    simp only [matchAt]
    have h1 : isNameChar ' ' = false := by decide
    have h2 : Char.isDigit ' ' = false := by decide
    have h3 : isOperatorChar ' ' = false := by decide
    simp [h1, h2, h3]
  simp only [matchAll, h]

theorem matchAll_joinValues (cs : List Component)
    (h : ∀ c ∈ cs, isLexeme c.value = true) :
    matchAll (joinValues cs).length (joinValues cs) = cs.map Component.value := by
  induction cs with
  | nil => rfl
  | cons c cs ih =>
    have hc := h c (List.mem_cons_self _ _)
    cases cs with
    | nil =>
      have hne := isLexeme_ne_nil hc
      obtain ⟨n, hn⟩ : ∃ n, c.value.length = n + 1 :=
        ⟨c.value.length - 1, by
          have : 0 < c.value.length := List.length_pos.mpr hne
          omega⟩
      have := @matchAll_lexeme _ [] n hc rfl
      simp only [List.append_nil] at this
      simp only [joinValues, hn, this, List.map_cons, List.map_nil]
      cases n <;> rfl
    | cons d ds =>
      have ih1 := ih fun x hx => h x (List.mem_cons_of_mem _ hx)
      have hlen : (joinValues (c :: d :: ds)).length
          = (c.value.length + (joinValues (d :: ds)).length) + 1 := by
        simp [joinValues]
        omega
      have hl := @matchAll_lexeme _ (' ' :: joinValues (d :: ds))
        (c.value.length + (joinValues (d :: ds)).length) hc rfl
      have hne := isLexeme_ne_nil hc
      obtain ⟨n, hn⟩ : ∃ n, c.value.length = n + 1 :=
        ⟨c.value.length - 1, by
          have : 0 < c.value.length := List.length_pos.mpr hne
          omega⟩
      have hfuel : c.value.length + (joinValues (d :: ds)).length
          = (n + (joinValues (d :: ds)).length) + 1 := by omega
      rw [hlen]
      show matchAll _ (c.value ++ ' ' :: joinValues (d :: ds)) = _
      rw [hl, hfuel, matchAll_blank,
        matchAll_fuel _ (joinValues (d :: ds)).length _ (by omega) (Nat.le_refl _), ih1]
      rfl

theorem componentOf_value {t : List Char} {c : Component} (h : componentOf t = some c) :
    c.value = t := by
  unfold componentOf at h
  split at h
  · cases h; rfl
  · split at h
    · cases h; rfl
    · split at h
      · cases h; rfl
      · cases h

theorem matchAll_isLexeme (fuel : Nat) (s : List Char) :
    ∀ t ∈ matchAll fuel s, isLexeme t = true := by
  induction fuel generalizing s with
  | zero => intro t ht; simp [matchAll] at ht
  | succ fuel ih =>
    cases s with
    | nil => intro t ht; simp [matchAll] at ht
    | cons c s =>
      intro t ht
      simp only [matchAll] at ht
      cases hm : matchAt (c :: s) with
      | none => rw [hm] at ht; exact ih s t ht
      | some tr =>
        obtain ⟨t1, r⟩ := tr
        rw [hm] at ht
        rcases List.mem_cons.mp ht with rfl | ht
        · exact matchAt_isLexeme hm
        · exact ih r t ht

theorem parseFormula_components (expression : List Char) :
    ∀ c ∈ parseFormula expression,
      isLexeme c.value = true ∧ componentOf c.value = some c := by
  intro c hc
  obtain ⟨t, ht, htc⟩ := List.mem_filterMap.mp hc
  have hv := componentOf_value htc
  rw [hv]
  exact ⟨matchAll_isLexeme _ _ t ht, htc⟩

theorem filterMap_componentOf (cs : List Component)
    (h : ∀ c ∈ cs, componentOf c.value = some c) :
    (cs.map Component.value).filterMap componentOf = cs := by
  induction cs with
  | nil => rfl
  | cons c cs ih =>
    simp only [List.map_cons, List.filterMap_cons, h c (List.mem_cons_self _ _)]
    rw [ih fun x hx => h x (List.mem_cons_of_mem _ hx)]

/-- C13: parsing and re-serializing is stable: for every expression string,
joining the component values of `parseFormula(e)` by single spaces (as
`updateFormulaPreview` does) and parsing the result again gives the same
component sequence as `parseFormula(e)`. -/
theorem parseFormula_joinValues (expression : List Char) :
    parseFormula (joinValues (parseFormula expression)) = parseFormula expression := by
  have h := parseFormula_components expression
  show (matchAll _ (joinValues (parseFormula expression))).filterMap componentOf = _
  rw [matchAll_joinValues _ fun c hc => (h c hc).1]
  exact filterMap_componentOf _ fun c hc => (h c hc).2

/-! ## C12: the components of an expression of the grammar -/

theorem isDigit_not_name {c : Char} (h : c.isDigit = true) : isNameChar c = false := by
  have hl := isDigit_not_var h
  simp only [Bool.or_eq_false_iff] at hl
  have hu : c.isUpper = false := by
    simp only [Char.isDigit, Char.isUpper, Bool.and_eq_true, decide_eq_true_eq] at h ⊢
    have h57 : c.val ≤ 57 := h.2
    have : ¬((65 : UInt32) ≤ c.val ∧ c.val ≤ 90) := by
      intro ⟨h65, _⟩
      have a : (65 : UInt32).toNat ≤ c.val.toNat := h65
      have b : c.val.toNat ≤ (57 : UInt32).toNat := h57
      have e1 : (65 : UInt32).toNat = 65 := rfl
      have e2 : (57 : UInt32).toNat = 57 := rfl
      omega
    simpa using this
  simp [isNameChar, Char.isAlpha, hu, hl.1, hl.2]

theorem matchTokens_lexeme {t rest : List Char} (ht : isLexeme t = true)
    (hrest : sepStart rest = true) : matchTokens (t ++ rest) = t :: matchTokens rest := by
  have hne := isLexeme_ne_nil ht
  obtain ⟨n, hn⟩ : ∃ n, (t ++ rest).length = n + 1 :=
    ⟨(t ++ rest).length - 1, by
      have : 0 < t.length := List.length_pos.mpr hne
      simp only [List.length_append]
      omega⟩
  have hpos : 0 < t.length := List.length_pos.mpr hne
  have hle : rest.length ≤ n := by
    simp only [List.length_append] at hn
    omega
  unfold matchTokens
  rw [hn, matchAll_lexeme n ht hrest, matchAll_fuel n rest.length rest hle (Nat.le_refl _)]

theorem matchTokens_blank (rest : List Char) :
    matchTokens (' ' :: rest) = matchTokens rest := by
  unfold matchTokens
  simp only [List.length_cons, matchAll_blank]

theorem matchTokens_blanks (n : Nat) (rest : List Char) :
    matchTokens (blanks n ++ rest) = matchTokens rest := by
  induction n with
  | zero => rfl
  | succ n ih =>
    have : blanks (n + 1) ++ rest = ' ' :: (blanks n ++ rest) := rfl
    rw [this, matchTokens_blank, ih]

theorem matchTokens_operator {c : Char} (hc : isOperatorChar c = true) (rest : List Char) :
    matchTokens (c :: rest) = [c] :: matchTokens rest := by
  have h1 : isNameChar c = false := by
    simp only [isOperatorChar, Bool.or_eq_true, beq_iff_eq] at hc
    rcases hc with ((((e | e) | e) | e) | e) | e <;> (subst e; rfl)
  have h2 : c.isDigit = false := by
    simp only [isOperatorChar, Bool.or_eq_true, beq_iff_eq] at hc
    rcases hc with ((((e | e) | e) | e) | e) | e <;> (subst e; rfl)
  have hm : matchAt (c :: rest) = some ([c], rest) := by
    simp [matchAt, h1, h2, hc]
  unfold matchTokens
  simp only [List.length_cons, matchAll, hm]

theorem isDigit_mem {c : Char} (h : c.isDigit = true) : c ∈ "0123456789".toList := by
  have h1 : 48 ≤ c.toNat ∧ c.toNat ≤ 57 := by
    simp only [Char.isDigit, Bool.and_eq_true, decide_eq_true_eq] at h
    have a : (48 : UInt32).toNat ≤ c.val.toNat := h.1
    have b : c.val.toNat ≤ (57 : UInt32).toNat := h.2
    exact ⟨a, b⟩
  have h2 : c = Char.ofNat c.toNat := (Char.ofNat_toNat c).symm
  obtain ⟨lo, hi⟩ := h1
  rw [h2]
  generalize c.toNat = n at lo hi
  interval_cases n <;> decide

theorem digit_facts : ∀ c ∈ "0123456789".toList,
    isJsSpace c = false ∧ c ≠ '-' ∧ c ≠ '+' ∧ c ≠ 'I' ∧ c ≠ '.' := by decide

theorem ite_ne_nan {c : Prop} [Decidable c] {a b : JsNum} (ha : a ≠ .nan) (hb : b ≠ .nan) :
    (if c then a else b) ≠ .nan := by
  split <;> assumption

theorem roundRat_ne_nan (neg : Bool) (n d : Nat) : roundRat neg n d ≠ .nan := by
  unfold roundRat
  exact ite_ne_nan (fun h => JsNum.noConfusion h)
    (ite_ne_nan (fun h => JsNum.noConfusion h) (fun h => JsNum.noConfusion h))

theorem decimalValue_ne_nan (i f : List Char) (ex : Int) : decimalValue i f ex ≠ .nan := by
  unfold decimalValue
  simp only
  split <;> exact roundRat_ne_nan _ _ _

theorem parseFloat_digit {c : Char} (hc : c.isDigit = true) (s : List Char) :
    isNaN (.num (parseFloat (c :: s))) = false := by
  obtain ⟨h1, h2, h3, h4, _⟩ := digit_facts c (isDigit_mem hc)
  have hs : stripKey "Infinity".toList (c :: s) = none := by
    show stripKey ('I' :: "nfinity".toList) (c :: s) = none
    simp only [stripKey]
    rw [if_neg (fun e => h4 e.symm)]
  have hv : parseFloat (c :: s)
      = decimalValue ((c :: s).takeWhile Char.isDigit)
          (fracDigitsOf ((c :: s).dropWhile Char.isDigit))
          (lexExponent (afterFraction ((c :: s).dropWhile Char.isDigit))).1 := by
    have ht : (c :: s).dropWhile isJsSpace = c :: s := by simp [List.dropWhile, h1]
    have hne : ((c :: s).head? == some '-') = false := by simp [h2]
    have hu : dropSign (c :: s) = c :: s := by
      unfold dropSign
      split
      · rename_i u heq; cases heq; exact absurd rfl h2
      · rename_i u heq; cases heq; exact absurd rfl h3
      · rfl
    unfold parseFloat
    simp only [ht, hne, hu, hs]
    simp [List.takeWhile, hc]
  rw [hv]
  have := decimalValue_ne_nan ((c :: s).takeWhile Char.isDigit)
    (fracDigitsOf ((c :: s).dropWhile Char.isDigit))
    (lexExponent (afterFraction ((c :: s).dropWhile Char.isDigit))).1
  revert this
  generalize decimalValue _ _ _ = v
  intro hv2
  cases v with
  | nan => exact absurd rfl hv2
  | inf b => rfl
  | fin b m e => rfl

theorem literal_shape {i f : List Char} {p : Bool}
    (h : (!i.isEmpty && i.all Char.isDigit && f.all Char.isDigit && (p || f.isEmpty)) = true) :
    ∃ c s, i ++ (if p then '.' :: f else []) = c :: s ∧ c.isDigit = true ∧
      isLexeme (c :: s) = true := by
  simp only [Bool.and_eq_true, Bool.not_eq_true', Bool.or_eq_true] at h
  obtain ⟨⟨⟨hne, hi⟩, hf⟩, hp⟩ := h
  cases i with
  | nil => simp at hne
  | cons c i1 =>
    simp only [List.all_cons, Bool.and_eq_true] at hi
    refine ⟨c, i1 ++ (if p then '.' :: f else []), rfl, hi.1, ?_⟩
    have hi1 := takeWhile_all hi.2
    simp only [isLexeme, isDigit_not_name hi.1, hi.1, Bool.false_eq_true, if_false, if_true]
    cases p with
    | true =>
      have hx := takeWhile_append_of_head (p := Char.isDigit) i1 ('.' :: f)
        (by intro d hd; cases hd; decide)
      simp [hx.2, hi1.2, hf]
    | false =>
      have hfe : f = [] := by simpa using hp
      simp [hi1.2]

theorem sepStart_blanks_operator (n : Nat) {c : Char} (hc : isOperatorChar c = true)
    (rest : List Char) : sepStart (blanks n ++ c :: rest) = true := by
  cases n with
  | zero => simp [blanks, sepStart, hc]
  | succ n => rfl

theorem isLexeme_variable : ∀ x ∈ AVAILABLE_VARIABLES, isLexeme x = true := by decide

theorem matchTokens_text (g : Formula) (hg : g.tokensOk AVAILABLE_VARIABLES = true)
    (rest : List Char) (hrest : sepStart rest = true) :
    matchTokens (g.text ++ rest) = g.components.map Component.value ++ matchTokens rest := by
  induction g generalizing rest with
  | var sp x =>
    have hx : x ∈ AVAILABLE_VARIABLES := by simpa [Formula.tokensOk] using hg
    simp only [Formula.text, List.append_assoc, matchTokens_blanks,
      matchTokens_lexeme (isLexeme_variable x hx) hrest, Formula.components, List.map_cons,
      List.map_nil, List.singleton_append]
  | lit sp i f p =>
    obtain ⟨c, s, hcs, _, hl⟩ := literal_shape (by simpa [Formula.tokensOk] using hg)
    simp only [Formula.text, List.append_assoc, matchTokens_blanks, Formula.components,
      List.map_cons, List.map_nil, List.singleton_append]
    rw [← List.append_assoc, hcs, matchTokens_lexeme hl hrest]
  | paren sp e sp2 ih =>
    simp only [Formula.tokensOk] at hg
    have h1 := ih hg (blanks sp2 ++ ')' :: rest)
      (sepStart_blanks_operator sp2 (by decide) rest)
    simp only [Formula.text, List.append_assoc, List.cons_append, matchTokens_blanks,
      matchTokens_operator (by decide : isOperatorChar '(' = true), List.nil_append, h1,
      matchTokens_operator (by decide : isOperatorChar ')' = true), Formula.components,
      List.map_cons, List.map_append, List.map_nil]
  | mul l sp r ihl ihr =>
    simp only [Formula.tokensOk, Bool.and_eq_true] at hg
    have h1 := ihl hg.1 (blanks sp ++ '*' :: (r.text ++ rest))
      (sepStart_blanks_operator sp (by decide) _)
    simp only [Formula.text, List.append_assoc, List.cons_append, h1, matchTokens_blanks,
      matchTokens_operator (by decide : isOperatorChar '*' = true), ihr hg.2 rest hrest,
      Formula.components, List.map_cons, List.map_append]
  | div l sp r ihl ihr =>
    simp only [Formula.tokensOk, Bool.and_eq_true] at hg
    have h1 := ihl hg.1 (blanks sp ++ '/' :: (r.text ++ rest))
      (sepStart_blanks_operator sp (by decide) _)
    simp only [Formula.text, List.append_assoc, List.cons_append, h1, matchTokens_blanks,
      matchTokens_operator (by decide : isOperatorChar '/' = true), ihr hg.2 rest hrest,
      Formula.components, List.map_cons, List.map_append]
  | add l sp r ihl ihr =>
    simp only [Formula.tokensOk, Bool.and_eq_true] at hg
    have h1 := ihl hg.1 (blanks sp ++ '+' :: (r.text ++ rest))
      (sepStart_blanks_operator sp (by decide) _)
    simp only [Formula.text, List.append_assoc, List.cons_append, h1, matchTokens_blanks,
      matchTokens_operator (by decide : isOperatorChar '+' = true), ihr hg.2 rest hrest,
      Formula.components, List.map_cons, List.map_append]
  | sub l sp r ihl ihr =>
    simp only [Formula.tokensOk, Bool.and_eq_true] at hg
    have h1 := ihl hg.1 (blanks sp ++ '-' :: (r.text ++ rest))
      (sepStart_blanks_operator sp (by decide) _)
    simp only [Formula.text, List.append_assoc, List.cons_append, h1, matchTokens_blanks,
      matchTokens_operator (by decide : isOperatorChar '-' = true), ihr hg.2 rest hrest,
      Formula.components, List.map_cons, List.map_append]

theorem builder_heads : ∀ x ∈ AVAILABLE_VARIABLES ++ AVAILABLE_OPERATORS,
    x.head?.map Char.isDigit = some false := by decide

theorem componentOf_number {c : Char} (hc : c.isDigit = true) (s : List Char) :
    componentOf (c :: s) = some { type := .number, value := c :: s } := by
  have hv : c :: s ∉ AVAILABLE_VARIABLES := by
    intro h
    have := builder_heads (c :: s) (List.mem_append_left _ h)
    simp [hc] at this
  have ho : c :: s ∉ AVAILABLE_OPERATORS := by
    intro h
    have := builder_heads (c :: s) (List.mem_append_right _ h)
    simp [hc] at this
  simp only [componentOf, hv, ho, if_false, parseFloat_digit hc s, Bool.not_false, if_true]

theorem componentOf_components (g : Formula) (hg : g.tokensOk AVAILABLE_VARIABLES = true) :
    ∀ c ∈ g.components, componentOf c.value = some c := by
  induction g with
  | var sp x =>
    have hx : x ∈ AVAILABLE_VARIABLES := by simpa [Formula.tokensOk] using hg
    intro c hc
    simp only [Formula.components, List.mem_singleton] at hc
    subst hc
    simp [componentOf, hx]
  | lit sp i f p =>
    obtain ⟨c, s, hcs, hd, _⟩ := literal_shape (by simpa [Formula.tokensOk] using hg)
    intro d hdm
    simp only [Formula.components, List.mem_singleton] at hdm
    subst hdm
    simp only [hcs]
    exact componentOf_number hd s
  | paren sp e sp2 ih =>
    simp only [Formula.tokensOk] at hg
    intro c hc
    simp only [Formula.components, List.mem_cons, List.mem_append, List.mem_singleton,
      List.not_mem_nil, or_false] at hc
    rcases hc with rfl | hc | rfl
    · decide
    · exact ih hg c hc
    · decide
  | mul l sp r ihl ihr =>
    simp only [Formula.tokensOk, Bool.and_eq_true] at hg
    intro c hc
    simp only [Formula.components, List.mem_cons, List.mem_append] at hc
    rcases hc with hc | rfl | hc
    · exact ihl hg.1 c hc
    · decide
    · exact ihr hg.2 c hc
  | div l sp r ihl ihr =>
    simp only [Formula.tokensOk, Bool.and_eq_true] at hg
    intro c hc
    simp only [Formula.components, List.mem_cons, List.mem_append] at hc
    rcases hc with hc | rfl | hc
    · exact ihl hg.1 c hc
    · decide
    · exact ihr hg.2 c hc
  | add l sp r ihl ihr =>
    simp only [Formula.tokensOk, Bool.and_eq_true] at hg
    intro c hc
    simp only [Formula.components, List.mem_cons, List.mem_append] at hc
    rcases hc with hc | rfl | hc
    · exact ihl hg.1 c hc
    · decide
    · exact ihr hg.2 c hc
  | sub l sp r ihl ihr =>
    simp only [Formula.tokensOk, Bool.and_eq_true] at hg
    intro c hc
    simp only [Formula.components, List.mem_cons, List.mem_append] at hc
    rcases hc with hc | rfl | hc
    · exact ihl hg.1 c hc
    · decide
    · exact ihr hg.2 c hc

/-- C12 (as stated, refuted): `reported_shares` is one of the six vocabulary
names, but `parseFormula` gives the expression `reported_shares * exchange_rate` two
components only: the token `reported_shares` is dropped. -/
theorem parseFormula_drops_reported_shares :
    "reported_shares".toList ∈ vocabulary ∧
      parseFormula "reported_shares * exchange_rate".toList
        = [{ type := .operator, value := ['*'] },
           { type := .variable, value := "exchange_rate".toList }] := by
  exact ⟨by decide, by decide⟩

/-- C12 (amended): for every expression over the grammar whose variables are
among the five names of `AVAILABLE_VARIABLES` (`profit_l`, `expected_profit_pct`,
`company_value_l`, `investment_l`, `exchange_rate`), `parseFormula` returns exactly one
component per token, in source order: a variable component for each name, an
operator component for each of `+ - * / ( )`, a number component for each
decimal literal; no token is dropped. -/
theorem parseFormula_text (g : Formula) (hg : g.tokensOk AVAILABLE_VARIABLES = true) :
    parseFormula g.text = g.components := by
  have h := matchTokens_text g hg [] rfl
  rw [List.append_nil] at h
  unfold parseFormula
  rw [h]
  simpa [matchTokens, matchAll] using
    filterMap_componentOf g.components (componentOf_components g hg)

theorem parseFormula_text_witness :
    exampleFormula.tokensOk AVAILABLE_VARIABLES = true ∧
      parseFormula exampleFormula.text = exampleFormula.components :=
  ⟨by decide, parseFormula_text exampleFormula (by decide)⟩

/-! ## C15: the storage key of an autosaved draft -/

/-- C15 (the code at the failing input): the users `ana@eskala.org` and
`luis@eskala.org` have different user keys, and the equity entry form stores
their drafts under different keys, but the draft of the form `ivl-form` of
`Loan_vs_Investments.client.js` is stored under `autosave_ivl-form` for both: that
key does not hold the user key. -/
theorem ivlForm_storageKey_shared :
    getCurrentUserKey asciiLower (some sessionAna) = "ana@eskala.org".toList ∧
      getCurrentUserKey asciiLower (some sessionLuis) = "luis@eskala.org".toList ∧
      AutosaveScript.storageKey (getCurrentUserKey asciiLower (some sessionAna)) .equityEntry
        ≠ AutosaveScript.storageKey (getCurrentUserKey asciiLower (some sessionLuis))
            .equityEntry ∧
      AutosaveScript.storageKey (getCurrentUserKey asciiLower (some sessionAna))
          .loanVsInvestments = "autosave_ivl-form".toList ∧
      AutosaveScript.storageKey (getCurrentUserKey asciiLower (some sessionLuis))
          .loanVsInvestments = "autosave_ivl-form".toList := by
  refine ⟨by decide, by decide, by decide, by decide, by decide⟩

/-! ## C16: at most one submission in flight -/

theorem handle_disable_inv (s : FormState) (e : FormEvent)
    (h : (s.pending = 0 ∧ s.disabled = false) ∨ (s.pending = 1 ∧ s.disabled = true)) :
    ((handle .disableButton s e).pending = 0 ∧ (handle .disableButton s e).disabled = false) ∨
      ((handle .disableButton s e).pending = 1 ∧
        (handle .disableButton s e).disabled = true) := by
  obtain ⟨d, b, p⟩ := s
  rcases h with ⟨hp, hd⟩ | ⟨hp, hd⟩ <;> simp only at hp hd <;> subst hp <;> subst hd
  · cases e with
    | activate valid => cases valid <;> simp [handle]
    | settle => simp [handle]
  · cases e with
    | activate valid => simp [handle]
    | settle => simp [handle]

theorem handle_busy_inv (s : FormState) (e : FormEvent)
    (h : s.disabled = false ∧
      ((s.pending = 0 ∧ s.busy = false) ∨ (s.pending = 1 ∧ s.busy = true))) :
    (handle .busyFlag s e).disabled = false ∧
      (((handle .busyFlag s e).pending = 0 ∧ (handle .busyFlag s e).busy = false) ∨
        ((handle .busyFlag s e).pending = 1 ∧ (handle .busyFlag s e).busy = true)) := by
  obtain ⟨d, b, p⟩ := s
  obtain ⟨hd, h⟩ := h
  simp only at hd
  subst hd
  rcases h with ⟨hp, hb⟩ | ⟨hp, hb⟩ <;> simp only at hp hb <;> subst hp <;> subst hb
  · cases e with
    | activate valid => cases valid <;> simp [handle]
    | settle => simp [handle]
  · cases e with
    | activate valid => simp [handle]
    | settle => simp [handle]

theorem foldl_invariant {P : FormState → Prop} (g : Guard)
    (hstep : ∀ s e, P s → P (handle g s e)) (events : List FormEvent) (s : FormState)
    (hs : P s) : P (events.foldl (handle g) s) := by
  induction events generalizing s with
  | nil => exact hs
  | cons e events ih => exact ih _ (hstep s e hs)

/-- C16 (as stated, refuted): on the login page a request is in flight after
one click while the submit button is not disabled (the handler guards with
its `busy` variable); and the handler of the equity entry form has no guard, so
two submissions put two requests in flight. -/
theorem submissions_unguarded :
    (runEvents SubmitHandler.login.guard [.activate true]).pending = 1 ∧
      (runEvents SubmitHandler.login.guard [.activate true]).disabled = false ∧
      (runEvents SubmitHandler.equityEntry.guard [.activate true, .activate true]).pending = 2 ∧
      (runEvents SubmitHandler.equityEntry.guard [.activate true, .activate true]).disabled
        = false := by
  decide

/-- C16 (amended): for the profit form, the matching form and the loan versus
investment form the submit button is disabled exactly while a submission
request is in flight, and on the login page the `busy` variable is set exactly
while a login request is in flight and a click is ignored meanwhile; so for
these four forms at no time are two submission requests in flight. -/
theorem guarded_single_flight (h : SubmitHandler) (hg : h.guard ≠ .unguarded)
    (events : List FormEvent) :
    (runEvents h.guard events).pending ≤ 1 ∧
      (h.guard = .disableButton →
        ((runEvents h.guard events).pending = 1 ↔ (runEvents h.guard events).disabled = true)) ∧
      (h.guard = .busyFlag →
        ((runEvents h.guard events).pending = 1 ↔ (runEvents h.guard events).busy = true)) := by
  cases hgd : h.guard with
  | unguarded => exact absurd hgd hg
  | disableButton =>
    have inv := foldl_invariant
      (P := fun s => (s.pending = 0 ∧ s.disabled = false) ∨ (s.pending = 1 ∧ s.disabled = true))
      .disableButton handle_disable_inv events FormState.initial (Or.inl ⟨rfl, rfl⟩)
    refine ⟨?_, ?_, ?_⟩
    · rcases inv with ⟨hp, _⟩ | ⟨hp, _⟩ <;> (unfold runEvents; omega)
    · intro _
      rcases inv with ⟨hp, hd⟩ | ⟨hp, hd⟩ <;> (unfold runEvents; simp [hp, hd])
    · intro hc
      exact Guard.noConfusion hc
  | busyFlag =>
    have inv := foldl_invariant
      (P := fun s => s.disabled = false ∧
        ((s.pending = 0 ∧ s.busy = false) ∨ (s.pending = 1 ∧ s.busy = true)))
      .busyFlag handle_busy_inv events FormState.initial ⟨rfl, Or.inl ⟨rfl, rfl⟩⟩
    refine ⟨?_, ?_, ?_⟩
    · rcases inv.2 with ⟨hp, _⟩ | ⟨hp, _⟩ <;> (unfold runEvents; omega)
    · intro hc
      exact Guard.noConfusion hc
    · intro _
      rcases inv.2 with ⟨hp, hd⟩ | ⟨hp, hd⟩ <;> (unfold runEvents; simp [hp, hd])

theorem guarded_single_flight_witness :
    SubmitHandler.profitForm.guard ≠ .unguarded ∧
      (runEvents SubmitHandler.profitForm.guard
          [.activate true, .activate true, .settle, .activate true]).pending ≤ 1 :=
  ⟨by decide,
    (guarded_single_flight .profitForm (by decide)
      [.activate true, .activate true, .settle, .activate true]).1⟩

/-! ## C11: an unevaluable formula leaves its field blank -/

theorem find_setField (id text : List Char) (fields : List (List Char × List Char))
    (h : (fields.find? fun kv => kv.1 == id).isSome = true) :
    ((setField id text fields).find? fun kv => kv.1 == id) = some (id, text) := by
  induction fields with
  | nil => simp at h
  | cons kv rest ih =>
    obtain ⟨k, v⟩ := kv
    by_cases hk : k = id
    · subst hk
      simp [setField]
    · have hb : (k == id) = false := by simpa using hk
      simp only [List.find?, hb] at h
      simp only [setField, if_neg hk, List.find?, hb]
      exact ih h

theorem fieldValue_withField (id text : List Char) (w : World)
    (h : (fieldValue id w).isSome = true) : fieldValue id (withField id text w) = some text := by
  unfold fieldValue at h ⊢
  have h1 : (w.fields.find? fun kv => kv.1 == id).isSome = true := by
    cases hf : w.fields.find? fun kv => kv.1 == id with
    | none => rw [hf] at h; simp at h
    | some x => rfl
  simp only [withField, find_setField id text w.fields h1, Option.map_some']

theorem computedField_null (run : Runtime) (expression id : List Char)
    (key : Option (List Char)) (values : List (List Char × JsVal)) (w w1 : World)
    (hnull : evaluateFormula run expression values w = (.normal .null, w1))
    (hfield : (fieldValue id w1).isSome = true) :
    computedField run (some expression) id key values w = .done values (withField id [] w1) := by
  obtain ⟨text, ht⟩ := Option.isSome_iff_exists.mp hfield
  simp [computedField, hnull, ht]

/-- C11: in `calculateFields` of the profit form and of the matching form,
whenever a formula is present for a computed field and `evaluateFormula` returns
`null` for it, the block of that field completes without an exception, sets
the value of the field to the empty string and does nothing else (no line
is logged, no other field changes); so the matching form's `calculateFields`
returns normally with `inv-usd` blank, and so does the profit form's with its
three fields when each of its formulas evaluates to `null`.  The elements of
the computed fields are elements of the page. -/
theorem calculateFields_blank_on_null (run : Runtime) :
    (∀ (expression id : List Char) (key : Option (List Char))
        (values : List (List Char × JsVal)) (w w1 : World),
        evaluateFormula run expression values w = (.normal .null, w1) →
        (fieldValue id w1).isSome = true →
        computedField run (some expression) id key values w
            = .done values (withField id [] w1) ∧
          fieldValue id (withField id [] w1) = some [] ∧
          (withField id [] w1).errorLines = w1.errorLines) ∧
      (∀ (activeFormulas : ActiveFormulas) (expression : List Char) (w w1 : World),
        activeFormulas.investment_usd = some expression →
        evaluateFormula run expression (MatchingForm.values w) w = (.normal .null, w1) →
        (fieldValue "inv-usd".toList w1).isSome = true →
        MatchingForm.calculateFields run activeFormulas w
          = (.normal .undefined, withField "inv-usd".toList [] w1)) ∧
      (∀ (e1 e2 e3 : List Char) (w w1 w2 w3 : World),
        evaluateFormula run e1 (ProfitForm.values w) w = (.normal .null, w1) →
        (fieldValue "company-value".toList w1).isSome = true →
        evaluateFormula run e2 (ProfitForm.values w) (withField "company-value".toList [] w1)
          = (.normal .null, w2) →
        (fieldValue "inv-l".toList w2).isSome = true →
        evaluateFormula run e3 (ProfitForm.values w) (withField "inv-l".toList [] w2)
          = (.normal .null, w3) →
        (fieldValue "inv-usd".toList w3).isSome = true →
        ProfitForm.calculateFields run
            { company_value_l := some e1, investment_l := some e2, investment_usd := some e3 } w
          = (.normal .undefined, withField "inv-usd".toList [] w3)) := by
  refine ⟨?_, ?_, ?_⟩
  · intro expression id key values w w1 hnull hfield
    exact ⟨computedField_null run expression id key values w w1 hnull hfield,
      fieldValue_withField id [] w1 hfield, rfl⟩
  · intro activeFormulas expression w w1 hf hnull hfield
    unfold MatchingForm.calculateFields
    rw [hf, computedField_null run expression _ none _ w w1 hnull hfield]
  · intro e1 e2 e3 w w1 w2 w3 h1 f1 h2 f2 h3 f3
    unfold ProfitForm.calculateFields
    simp only
    rw [computedField_null run e1 _ _ _ w w1 h1 f1]
    simp only
    rw [computedField_null run e2 _ _ _ _ w2 h2 f2]
    simp only
    rw [computedField_null run e3 _ _ _ _ w3 h3 f3]

set_option maxRecDepth 100000 in
theorem calculateFields_blank_on_null_witness :
    MatchingForm.calculateFields refEngine
        { company_value_l := none, investment_l := none,
          investment_usd := some "investment_l / exchange_rate".toList } matchingPage
      = (.normal .undefined, withField "inv-usd".toList [] matchingPage) := by
  have hs : substitute "investment_l / exchange_rate".toList (MatchingForm.values matchingPage)
      = "0 / 0".toList := by decide
  have hr : refRuntime (functionBody (substitute "investment_l / exchange_rate".toList
      (MatchingForm.values matchingPage))) = some (.normal (.num .nan)) := by
    rw [hs]; decide
  have hnull : evaluateFormula refEngine "investment_l / exchange_rate".toList
      (MatchingForm.values matchingPage) matchingPage = (.normal .null, matchingPage) := by
    rw [evaluateFormula_of_ref implements_refEngine hr]
    rfl
  exact (calculateFields_blank_on_null refEngine).2.1 _ _ matchingPage matchingPage rfl hnull
    (by decide)

/-! ## C20: the reference evaluator on expressions of the grammar -/

theorem referenceLex_fuel (fuel1 fuel2 : Nat) (s : List Char) (h1 : s.length < fuel1)
    (h2 : s.length < fuel2) : referenceLex fuel1 s = referenceLex fuel2 s := by
  induction fuel1 generalizing fuel2 s with
  | zero => omega
  | succ fuel1 ih =>
    cases fuel2 with
    | zero => omega
    | succ fuel2 =>
      cases s with
      | nil => rfl
      | cons c s =>
        simp only [List.length_cons, Nat.add_lt_add_iff_right] at h1 h2
        simp only [referenceLex]
        split
        · exact ih fuel2 s h1 h2
        · cases hm : matchAt (c :: s) with
          | none => rfl
          | some tr =>
            obtain ⟨t, r⟩ := tr
            have hr := matchAt_length hm
            simp only
            rw [ih fuel2 r (by omega) (by omega)]

theorem referenceLex_blank (rest : List Char) :
    referenceLexemes (' ' :: rest) = referenceLexemes rest := by
  have h : isJsSpace ' ' = true := by decide
  simp only [referenceLexemes, List.length_cons, referenceLex, h, if_true]

theorem referenceLex_blanks (n : Nat) (rest : List Char) :
    referenceLexemes (blanks n ++ rest) = referenceLexemes rest := by
  induction n with
  | zero => rfl
  | succ n ih =>
    have : blanks (n + 1) ++ rest = ' ' :: (blanks n ++ rest) := rfl
    rw [this, referenceLex_blank, ih]

theorem referenceLex_lexeme {t rest : List Char} (ht : isLexeme t = true)
    (hhead : ∀ c, t.head? = some c → isJsSpace c = false) (hrest : sepStart rest = true) :
    referenceLexemes (t ++ rest) = (referenceLexemes rest).map (t :: ·) := by
  unfold referenceLexemes
  have hm := matchAt_of_isLexeme ht hrest
  cases t with
  | nil => exact absurd rfl (isLexeme_ne_nil ht)
  | cons c s =>
    have hc := hhead c rfl
    simp only [List.cons_append] at hm ⊢
    simp only [List.length_cons, referenceLex, hc, Bool.false_eq_true, if_false, hm]
    rw [referenceLex_fuel _ (rest.length + 1) rest (by simp; omega) (by omega)]

theorem referenceLex_operator {c : Char} (hc : isOperatorChar c = true) (rest : List Char) :
    referenceLexemes (c :: rest) = (referenceLexemes rest).map ([c] :: ·) := by
  unfold referenceLexemes
  have h1 : isNameChar c = false ∧ c.isDigit = false ∧ isJsSpace c = false := by
    simp only [isOperatorChar, Bool.or_eq_true, beq_iff_eq] at hc
    rcases hc with ((((e | e) | e) | e) | e) | e <;> (subst e; decide)
  have hm : matchAt (c :: rest) = some ([c], rest) := by
    simp [matchAt, h1.1, h1.2.1, hc]
  simp only [List.length_cons, referenceLex, h1.2.2, Bool.false_eq_true, if_false, hm]

theorem vocabulary_lexemes : ∀ x ∈ vocabulary,
    isLexeme x = true ∧ (∀ c, x.head? = some c → isJsSpace c = false) ∧
      x.head?.map Char.isDigit ≠ some true := by decide

theorem referenceLex_text (g : Formula) (hg : g.tokensOk vocabulary = true)
    (rest : List Char) (hrest : sepStart rest = true) :
    referenceLexemes (g.text ++ rest)
      = (referenceLexemes rest).map (g.components.map Component.value ++ ·) := by
  induction g generalizing rest with
  | var sp x =>
    have hx : x ∈ vocabulary := by simpa [Formula.tokensOk] using hg
    obtain ⟨h1, h2, _⟩ := vocabulary_lexemes x hx
    simp only [Formula.text, List.append_assoc, referenceLex_blanks,
      referenceLex_lexeme h1 h2 hrest, Formula.components, List.map_cons, List.map_nil,
      List.singleton_append]
  | lit sp i f p =>
    obtain ⟨c, s, hcs, hd, hl⟩ := literal_shape (by simpa [Formula.tokensOk] using hg)
    have hsp : ∀ d, (c :: s).head? = some d → isJsSpace d = false := by
      intro d hdd
      cases hdd
      exact (digit_facts c (isDigit_mem hd)).1
    simp only [Formula.text, List.append_assoc, referenceLex_blanks, Formula.components,
      List.map_cons, List.map_nil, List.singleton_append]
    rw [← List.append_assoc, hcs, referenceLex_lexeme hl hsp hrest]
  | paren sp e sp2 ih =>
    simp only [Formula.tokensOk] at hg
    have h1 := ih hg (blanks sp2 ++ ')' :: rest)
      (sepStart_blanks_operator sp2 (by decide) rest)
    simp only [Formula.text, List.append_assoc, List.cons_append, referenceLex_blanks,
      referenceLex_operator (by decide : isOperatorChar '(' = true), List.nil_append, h1,
      referenceLex_operator (by decide : isOperatorChar ')' = true), Formula.components,
      List.map_cons, List.map_append, List.map_nil]
    cases referenceLexemes rest <;> simp
  | mul l sp r ihl ihr =>
    simp only [Formula.tokensOk, Bool.and_eq_true] at hg
    have h1 := ihl hg.1 (blanks sp ++ '*' :: (r.text ++ rest))
      (sepStart_blanks_operator sp (by decide) _)
    simp only [Formula.text, List.append_assoc, List.cons_append, h1, referenceLex_blanks,
      referenceLex_operator (by decide : isOperatorChar '*' = true), ihr hg.2 rest hrest,
      Formula.components, List.map_cons, List.map_append]
    cases referenceLexemes rest <;> simp
  | div l sp r ihl ihr =>
    simp only [Formula.tokensOk, Bool.and_eq_true] at hg
    have h1 := ihl hg.1 (blanks sp ++ '/' :: (r.text ++ rest))
      (sepStart_blanks_operator sp (by decide) _)
    simp only [Formula.text, List.append_assoc, List.cons_append, h1, referenceLex_blanks,
      referenceLex_operator (by decide : isOperatorChar '/' = true), ihr hg.2 rest hrest,
      Formula.components, List.map_cons, List.map_append]
    cases referenceLexemes rest <;> simp
  | add l sp r ihl ihr =>
    simp only [Formula.tokensOk, Bool.and_eq_true] at hg
    have h1 := ihl hg.1 (blanks sp ++ '+' :: (r.text ++ rest))
      (sepStart_blanks_operator sp (by decide) _)
    simp only [Formula.text, List.append_assoc, List.cons_append, h1, referenceLex_blanks,
      referenceLex_operator (by decide : isOperatorChar '+' = true), ihr hg.2 rest hrest,
      Formula.components, List.map_cons, List.map_append]
    cases referenceLexemes rest <;> simp
  | sub l sp r ihl ihr =>
    simp only [Formula.tokensOk, Bool.and_eq_true] at hg
    have h1 := ihl hg.1 (blanks sp ++ '-' :: (r.text ++ rest))
      (sepStart_blanks_operator sp (by decide) _)
    simp only [Formula.text, List.append_assoc, List.cons_append, h1, referenceLex_blanks,
      referenceLex_operator (by decide : isOperatorChar '-' = true), ihr hg.2 rest hrest,
      Formula.components, List.map_cons, List.map_append]
    cases referenceLexemes rest <;> simp

theorem referenceTokens_append (values : List (List Char × JsVal)) {a b : List (List Char)}
    {x y : List Token} (ha : referenceTokens values a = some x)
    (hb : referenceTokens values b = some y) :
    referenceTokens values (a ++ b) = some (x ++ y) := by
  induction a generalizing x with
  | nil =>
    simp only [referenceTokens, Option.some.injEq] at ha
    subst ha
    simpa using hb
  | cons t ts ih =>
    simp only [referenceTokens] at ha
    cases h1 : referenceToken values t with
    | none => rw [h1] at ha; simp at ha
    | some t1 =>
      cases h2 : referenceTokens values ts with
      | none => rw [h1, h2] at ha; simp at ha
      | some ts1 =>
        rw [h1, h2] at ha
        simp only [Option.some.injEq] at ha
        subst ha
        have h3 := ih h2
        show (match referenceToken values t, referenceTokens values (ts ++ b) with
          | some a, some b => some (a :: b)
          | _, _ => none) = _
        rw [h1, h3]
        rfl

theorem referenceToken_operator (values : List (List Char × JsVal)) :
    referenceToken values ['+'] = some .plus ∧ referenceToken values ['-'] = some .minus ∧
      referenceToken values ['*'] = some .star ∧ referenceToken values ['/'] = some .slash ∧
      referenceToken values ['('] = some .lparen ∧ referenceToken values [')'] = some .rparen := by
  have h1 : ['+'] ∉ vocabulary := by decide
  have h2 : ['-'] ∉ vocabulary := by decide
  have h3 : ['*'] ∉ vocabulary := by decide
  have h4 : ['/'] ∉ vocabulary := by decide
  have h5 : ['('] ∉ vocabulary := by decide
  have h6 : [')'] ∉ vocabulary := by decide
  refine ⟨?_, ?_, ?_, ?_, ?_, ?_⟩ <;> simp [referenceToken, h1, h2, h3, h4, h5, h6]

theorem literalValue_literal {i f : List Char} {p : Bool}
    (h : (!i.isEmpty && i.all Char.isDigit && f.all Char.isDigit && (p || f.isEmpty)) = true) :
    literalValue (i ++ (if p then '.' :: f else [])) = decimalValue i f 0 := by
  simp only [Bool.and_eq_true, Bool.not_eq_true', Bool.or_eq_true] at h
  obtain ⟨⟨⟨_, hi⟩, hf⟩, hp⟩ := h
  have hi1 := takeWhile_all hi
  unfold literalValue
  cases p with
  | true =>
    have hx := takeWhile_append_of_head (p := Char.isDigit) i ('.' :: f)
      (by intro d hd; cases hd; decide)
    have hf1 := takeWhile_all hf
    simp only [if_true, hx.1, hx.2, hi1.1, hi1.2, List.nil_append, fracDigitsOf, hf1.1]
  | false =>
    have hfe : f = [] := by simpa using hp
    subst hfe
    simp only [Bool.false_eq_true, if_false, List.append_nil, hi1.1, hi1.2, fracDigitsOf]

theorem referenceTokens_components (values : List (List Char × JsVal)) (g : Formula)
    (hg : g.tokensOk vocabulary = true) :
    referenceTokens values (g.components.map Component.value) = some (g.toks values) := by
  obtain ⟨o1, o2, o3, o4, o5, o6⟩ := referenceToken_operator values
  induction g with
  | var sp x =>
    have hx : x ∈ vocabulary := by simpa [Formula.tokensOk] using hg
    obtain ⟨_, _, h3⟩ := vocabulary_lexemes x hx
    simp [Formula.components, Formula.toks, referenceTokens, referenceToken, h3, hx]
  | lit sp i f p =>
    have hl : (!i.isEmpty && i.all Char.isDigit && f.all Char.isDigit && (p || f.isEmpty)) = true := by
      simpa [Formula.tokensOk] using hg
    obtain ⟨c, s, hcs, hd, _⟩ := literal_shape hl
    have hv := literalValue_literal hl
    simp only [Formula.components, Formula.toks, List.map_cons, List.map_nil, referenceTokens]
    rw [hcs] at hv ⊢
    simp [referenceToken, hd, hv]
  | paren sp e sp2 ih =>
    simp only [Formula.tokensOk] at hg
    have h1 := referenceTokens_append values (ih hg)
      (show referenceTokens values [[')']] = some [.rparen] by simp [referenceTokens, o6])
    simp only [Formula.components, Formula.toks, List.map_cons, List.map_append, List.map_nil,
      referenceTokens, o5, h1]
  | mul l sp r ihl ihr =>
    simp only [Formula.tokensOk, Bool.and_eq_true] at hg
    have h2 : referenceTokens values (['*'] :: r.components.map Component.value)
        = some (.star :: r.toks values) := by simp [referenceTokens, o3, ihr hg.2]
    simpa [Formula.components, Formula.toks] using referenceTokens_append values (ihl hg.1) h2
  | div l sp r ihl ihr =>
    simp only [Formula.tokensOk, Bool.and_eq_true] at hg
    have h2 : referenceTokens values (['/'] :: r.components.map Component.value)
        = some (.slash :: r.toks values) := by simp [referenceTokens, o4, ihr hg.2]
    simpa [Formula.components, Formula.toks] using referenceTokens_append values (ihl hg.1) h2
  | add l sp r ihl ihr =>
    simp only [Formula.tokensOk, Bool.and_eq_true] at hg
    have h2 : referenceTokens values (['+'] :: r.components.map Component.value)
        = some (.plus :: r.toks values) := by simp [referenceTokens, o1, ihr hg.2]
    simpa [Formula.components, Formula.toks] using referenceTokens_append values (ihl hg.1) h2
  | sub l sp r ihl ihr =>
    simp only [Formula.tokensOk, Bool.and_eq_true] at hg
    have h2 : referenceTokens values (['-'] :: r.components.map Component.value)
        = some (.minus :: r.toks values) := by simp [referenceTokens, o2, ihr hg.2]
    simpa [Formula.components, Formula.toks] using referenceTokens_append values (ihl hg.1) h2

theorem referenceTermRest_exit (fuel : Nat) (acc : JsNum) (rest : List Token)
    (h : okAfterProduct rest = true) :
    referenceTermRest (fuel + 1) acc rest = some (acc, rest) := by
  cases rest with
  | nil => simp [referenceTermRest]
  | cons t ts => cases t <;> simp_all [referenceTermRest, okAfterProduct]

theorem referenceSumRest_exit (fuel : Nat) (acc : JsNum) (rest : List Token)
    (h : okAfterSum rest = true) :
    referenceSumRest (fuel + 1) acc rest = some (acc, rest) := by
  cases rest with
  | nil => simp [referenceSumRest]
  | cons t ts => cases t <;> simp_all [referenceSumRest, okAfterSum]

theorem term_of_factor {ts : List Token} {v : JsNum} (hlen : 1 ≤ ts.length)
    (hP : ∀ rest F, 4 * ts.length ≤ F + 3 → referenceFactor F (ts ++ rest) = some (v, rest))
    (rest : List Token) (F : Nat) (hF : 4 * ts.length ≤ F) :
    referenceTerm F (ts ++ rest) = referenceTermRest (F - 1) v rest := by
  obtain ⟨F0, rfl⟩ : ∃ F0, F = F0 + 1 := ⟨F - 1, by omega⟩
  simp only [referenceTerm, hP rest F0 (by omega)]
  rfl

theorem term_complete {ts : List Token} {v : JsNum} {steps : Nat}
    (hT : ∀ rest F, 4 * ts.length ≤ F →
      referenceTerm F (ts ++ rest) = referenceTermRest (F - steps) v rest)
    (hsteps : steps ≤ ts.length) (hlen : 1 ≤ ts.length)
    (rest : List Token) (F : Nat) (hF : 4 * ts.length ≤ F)
    (hrest : okAfterProduct rest = true) :
    referenceTerm F (ts ++ rest) = some (v, rest) := by
  rw [hT rest F hF]
  obtain ⟨k, hk⟩ : ∃ k, F - steps = k + 1 := ⟨F - steps - 1, by omega⟩
  rw [hk, referenceTermRest_exit k v rest hrest]

theorem sum_of_term {ts : List Token} {v : JsNum} {steps : Nat}
    (hT : ∀ rest F, 4 * ts.length ≤ F →
      referenceTerm F (ts ++ rest) = referenceTermRest (F - steps) v rest)
    (hsteps : steps ≤ ts.length) (hlen : 1 ≤ ts.length)
    (rest : List Token) (F : Nat) (hF : 4 * ts.length + 1 ≤ F)
    (hrest : okAfterProduct rest = true) :
    referenceSum F (ts ++ rest) = referenceSumRest (F - 1) v rest := by
  obtain ⟨F1, rfl⟩ : ∃ F1, F = F1 + 1 := ⟨F - 1, by omega⟩
  have hM := term_complete hT hsteps hlen rest F1 (by omega) hrest
  simp only [referenceSum, hM]
  rfl

theorem sum_complete {ts : List Token} {v : JsNum} {steps : Nat}
    (hA : ∀ rest F, 4 * ts.length + 1 ≤ F → okAfterProduct rest = true →
      referenceSum F (ts ++ rest) = referenceSumRest (F - steps) v rest)
    (hsteps : steps ≤ ts.length) (hlen : 1 ≤ ts.length)
    (rest : List Token) (F : Nat) (hF : 4 * ts.length + 1 ≤ F)
    (hrest : okAfterSum rest = true) :
    referenceSum F (ts ++ rest) = some (v, rest) := by
  rw [hA rest F hF (okAfterProduct_of_sum hrest)]
  obtain ⟨k, hk⟩ : ∃ k, F - steps = k + 1 := ⟨F - steps - 1, by omega⟩
  rw [hk, referenceSumRest_exit k v rest hrest]

theorem reference_complete (values : List (List Char × JsVal)) (g : Formula)
    (hwf : g.wf = true) :
    (g.level = 0 → ∀ rest F, 4 * (g.toks values).length ≤ F + 3 →
      referenceFactor F (g.toks values ++ rest) = some (g.value values, rest)) ∧
    (g.level ≤ 1 → ∀ rest F, 4 * (g.toks values).length ≤ F →
      referenceTerm F (g.toks values ++ rest)
        = referenceTermRest (F - g.mulSteps) (g.value values) rest) ∧
    (∀ rest F, 4 * (g.toks values).length + 1 ≤ F → okAfterProduct rest = true →
      referenceSum F (g.toks values ++ rest)
        = referenceSumRest (F - g.addSteps) (g.value values) rest) ∧
    g.mulSteps ≤ (g.toks values).length ∧ g.addSteps ≤ (g.toks values).length ∧
    1 ≤ (g.toks values).length := by
  induction g with
  | var sp x =>
    have hP : ∀ rest F, 4 * (Formula.toks values (.var sp x)).length ≤ F + 3 →
        referenceFactor F ((Formula.var sp x).toks values ++ rest)
          = some ((Formula.var sp x).value values, rest) := by
      intro rest F hF
      obtain ⟨F0, rfl⟩ : ∃ F0, F = F0 + 1 := ⟨F - 1, by simp [Formula.toks] at hF; omega⟩
      simp [Formula.toks, Formula.value, referenceFactor]
    have hn : 1 ≤ (Formula.toks values (.var sp x)).length := by simp [Formula.toks]
    have hT := term_of_factor hn hP
    refine ⟨fun _ => hP, fun _ => hT, ?_, by simp [Formula.mulSteps, Formula.toks],
      by simp [Formula.addSteps, Formula.toks], hn⟩
    exact @sum_of_term _ _ 1 hT (by simp [Formula.toks]) hn
  | lit sp i f p =>
    have hP : ∀ rest F, 4 * (Formula.toks values (.lit sp i f p)).length ≤ F + 3 →
        referenceFactor F ((Formula.lit sp i f p).toks values ++ rest)
          = some ((Formula.lit sp i f p).value values, rest) := by
      intro rest F hF
      obtain ⟨F0, rfl⟩ : ∃ F0, F = F0 + 1 := ⟨F - 1, by simp [Formula.toks] at hF; omega⟩
      simp [Formula.toks, Formula.value, referenceFactor]
    have hn : 1 ≤ (Formula.toks values (.lit sp i f p)).length := by simp [Formula.toks]
    have hT := term_of_factor hn hP
    refine ⟨fun _ => hP, fun _ => hT, ?_, by simp [Formula.mulSteps, Formula.toks],
      by simp [Formula.addSteps, Formula.toks], hn⟩
    exact @sum_of_term _ _ 1 hT (by simp [Formula.toks]) hn
  | paren sp e sp2 ih =>
    simp only [Formula.wf] at hwf
    obtain ⟨_, _, ihA, _, ihas, ihn⟩ := ih hwf
    have hlen : (Formula.toks values (.paren sp e sp2)).length
        = (e.toks values).length + 2 := by simp [Formula.toks]
    have hP : ∀ rest F, 4 * (Formula.toks values (.paren sp e sp2)).length ≤ F + 3 →
        referenceFactor F ((Formula.paren sp e sp2).toks values ++ rest)
          = some ((Formula.paren sp e sp2).value values, rest) := by
      intro rest F hF
      rw [hlen] at hF
      obtain ⟨F0, rfl⟩ : ∃ F0, F = F0 + 1 := ⟨F - 1, by omega⟩
      have hA := sum_complete ihA ihas ihn (.rparen :: rest) F0 (by omega) rfl
      simp only [Formula.toks, Formula.value, List.cons_append, List.append_assoc,
        List.singleton_append, List.nil_append, referenceFactor, hA]
    have hn : 1 ≤ (Formula.toks values (.paren sp e sp2)).length := by omega
    have hT := term_of_factor hn hP
    refine ⟨fun _ => hP, fun _ => hT, ?_, by simp [Formula.mulSteps, Formula.toks],
      by simp [Formula.addSteps, Formula.toks], hn⟩
    exact @sum_of_term _ _ 1 hT (by simp [Formula.toks]) hn
  | mul l sp r ihl ihr =>
    simp only [Formula.wf, Bool.and_eq_true, decide_eq_true_eq] at hwf
    obtain ⟨⟨⟨hwl, hwr⟩, hll⟩, hlr⟩ := hwf
    obtain ⟨_, ihlT, _, ihlm, _, ihln⟩ := ihl hwl
    obtain ⟨ihrP, _, _, _, _, ihrn⟩ := ihr hwr
    have ihrP := ihrP hlr
    have hlen : (Formula.toks values (.mul l sp r)).length
        = (l.toks values).length + 1 + (r.toks values).length := by
      simp [Formula.toks]; omega
    have hT : ∀ rest F, 4 * (Formula.toks values (.mul l sp r)).length ≤ F →
        referenceTerm F ((Formula.mul l sp r).toks values ++ rest)
          = referenceTermRest (F - (Formula.mul l sp r).mulSteps)
              ((Formula.mul l sp r).value values) rest := by
      intro rest F hF
      rw [hlen] at hF
      have h1 := ihlT hll (Token.star :: (r.toks values ++ rest)) F (by omega)
      obtain ⟨K, hK⟩ : ∃ K, F - l.mulSteps = K + 1 := ⟨F - l.mulSteps - 1, by omega⟩
      have hE := ihrP rest K (by omega)
      have hsteps : F - (Formula.mul l sp r).mulSteps = K := by
        simp only [Formula.mulSteps]; omega
      simp only [Formula.toks, Formula.value, List.append_assoc, List.cons_append]
      rw [h1, hK, hsteps]
      simp only [referenceTermRest, hE]
    refine ⟨fun h => by simp [Formula.level] at h, fun _ => hT, ?_,
      by simp only [Formula.mulSteps]; omega, by simp only [Formula.addSteps]; omega,
      by omega⟩
    have := @sum_of_term _ _ (Formula.mul l sp r).mulSteps hT
      (by simp only [Formula.mulSteps]; omega) (by omega)
    simpa [Formula.addSteps] using this
  | div l sp r ihl ihr =>
    simp only [Formula.wf, Bool.and_eq_true, decide_eq_true_eq] at hwf
    obtain ⟨⟨⟨hwl, hwr⟩, hll⟩, hlr⟩ := hwf
    obtain ⟨_, ihlT, _, ihlm, _, ihln⟩ := ihl hwl
    obtain ⟨ihrP, _, _, _, _, ihrn⟩ := ihr hwr
    have ihrP := ihrP hlr
    have hlen : (Formula.toks values (.div l sp r)).length
        = (l.toks values).length + 1 + (r.toks values).length := by
      simp [Formula.toks]; omega
    have hT : ∀ rest F, 4 * (Formula.toks values (.div l sp r)).length ≤ F →
        referenceTerm F ((Formula.div l sp r).toks values ++ rest)
          = referenceTermRest (F - (Formula.div l sp r).mulSteps)
              ((Formula.div l sp r).value values) rest := by
      intro rest F hF
      rw [hlen] at hF
      have h1 := ihlT hll (Token.slash :: (r.toks values ++ rest)) F (by omega)
      obtain ⟨K, hK⟩ : ∃ K, F - l.mulSteps = K + 1 := ⟨F - l.mulSteps - 1, by omega⟩
      have hE := ihrP rest K (by omega)
      have hsteps : F - (Formula.div l sp r).mulSteps = K := by
        simp only [Formula.mulSteps]; omega
      simp only [Formula.toks, Formula.value, List.append_assoc, List.cons_append]
      rw [h1, hK, hsteps]
      simp only [referenceTermRest, hE]
    refine ⟨fun h => by simp [Formula.level] at h, fun _ => hT, ?_,
      by simp only [Formula.mulSteps]; omega, by simp only [Formula.addSteps]; omega,
      by omega⟩
    have := @sum_of_term _ _ (Formula.div l sp r).mulSteps hT
      (by simp only [Formula.mulSteps]; omega) (by omega)
    simpa [Formula.addSteps] using this
  | add l sp r ihl ihr =>
    simp only [Formula.wf, Bool.and_eq_true, decide_eq_true_eq] at hwf
    obtain ⟨⟨hwl, hwr⟩, hlr⟩ := hwf
    obtain ⟨_, _, ihlA, _, ihla, ihln⟩ := ihl hwl
    obtain ⟨_, ihrT, _, ihrm, _, ihrn⟩ := ihr hwr
    have hlen : (Formula.toks values (.add l sp r)).length
        = (l.toks values).length + 1 + (r.toks values).length := by
      simp [Formula.toks]; omega
    have hA : ∀ rest F, 4 * (Formula.toks values (.add l sp r)).length + 1 ≤ F →
        okAfterProduct rest = true →
        referenceSum F ((Formula.add l sp r).toks values ++ rest)
          = referenceSumRest (F - (Formula.add l sp r).addSteps)
              ((Formula.add l sp r).value values) rest := by
      intro rest F hF hrest
      rw [hlen] at hF
      have h1 := ihlA (Token.plus :: (r.toks values ++ rest)) F (by omega) rfl
      obtain ⟨K, hK⟩ : ∃ K, F - l.addSteps = K + 1 := ⟨F - l.addSteps - 1, by omega⟩
      have hM := term_complete (ihrT hlr) ihrm ihrn rest K (by omega) hrest
      have hsteps : F - (Formula.add l sp r).addSteps = K := by
        simp only [Formula.addSteps]; omega
      simp only [Formula.toks, Formula.value, List.append_assoc, List.cons_append]
      rw [h1, hK, hsteps]
      simp only [referenceSumRest, hM]
    refine ⟨fun h => by simp [Formula.level] at h, fun h => by simp [Formula.level] at h, hA,
      by simp only [Formula.mulSteps]; omega, by simp only [Formula.addSteps]; omega,
      by omega⟩
  | sub l sp r ihl ihr =>
    simp only [Formula.wf, Bool.and_eq_true, decide_eq_true_eq] at hwf
    obtain ⟨⟨hwl, hwr⟩, hlr⟩ := hwf
    obtain ⟨_, _, ihlA, _, ihla, ihln⟩ := ihl hwl
    obtain ⟨_, ihrT, _, ihrm, _, ihrn⟩ := ihr hwr
    have hlen : (Formula.toks values (.sub l sp r)).length
        = (l.toks values).length + 1 + (r.toks values).length := by
      simp [Formula.toks]; omega
    have hA : ∀ rest F, 4 * (Formula.toks values (.sub l sp r)).length + 1 ≤ F →
        okAfterProduct rest = true →
        referenceSum F ((Formula.sub l sp r).toks values ++ rest)
          = referenceSumRest (F - (Formula.sub l sp r).addSteps)
              ((Formula.sub l sp r).value values) rest := by
      intro rest F hF hrest
      rw [hlen] at hF
      have h1 := ihlA (Token.minus :: (r.toks values ++ rest)) F (by omega) rfl
      obtain ⟨K, hK⟩ : ∃ K, F - l.addSteps = K + 1 := ⟨F - l.addSteps - 1, by omega⟩
      have hM := term_complete (ihrT hlr) ihrm ihrn rest K (by omega) hrest
      have hsteps : F - (Formula.sub l sp r).addSteps = K := by
        simp only [Formula.addSteps]; omega
      simp only [Formula.toks, Formula.value, List.append_assoc, List.cons_append]
      rw [h1, hK, hsteps]
      simp only [referenceSumRest, hM]
    refine ⟨fun h => by simp [Formula.level] at h, fun h => by simp [Formula.level] at h, hA,
      by simp only [Formula.mulSteps]; omega, by simp only [Formula.addSteps]; omega,
      by omega⟩

theorem referenceLexemes_blanks (k : Nat) : referenceLexemes (blanks k) = some [] := by
  have h := referenceLex_blanks k []
  rw [List.append_nil] at h
  rw [h]
  rfl

theorem sepStart_blanks (k : Nat) : sepStart (blanks k) = true := by
  cases k <;> rfl

theorem referenceEvaluate_formula (values : List (List Char × JsVal)) (g : Formula)
    (hwf : g.wf = true) (hg : g.tokensOk vocabulary = true) (k : Nat) :
    referenceEvaluate (g.text ++ blanks k) values
      = if isFinite (.num (g.value values)) then some (g.value values) else none := by
  have hlex := referenceLex_text g hg (blanks k) (sepStart_blanks k)
  rw [referenceLexemes_blanks] at hlex
  simp only [Option.map_some', List.append_nil] at hlex
  obtain ⟨_, _, hA, _, has, hn⟩ := reference_complete values g hwf
  have hsum := sum_complete hA has hn [] (4 * (g.toks values).length + 4) (by omega) rfl
  rw [List.append_nil] at hsum
  unfold referenceEvaluate
  simp only [hlex, Option.some_bind, referenceTokens_components values g hg, hsum]

/-- C20 (as stated, refuted): `profit_l + 1` is a well-formed expression of the
grammar and the binding set `{exchange_rate: 2}` holds a finite number that is
not negative, but `evaluateFormula` returns `null` (the name `profit_l` has no
binding and stays in the evaluated text) while the reference evaluator, for
which a missing binding is zero, gives 1.  For `007 + 1`, `evaluateFormula` returns
`null` (strict mode rejects `007`) while the reference evaluator gives 8. -/
theorem reference_disagrees :
    Implements refEngine ∧ incrementFormula.wf = true ∧
      incrementFormula.tokensOk vocabulary = true ∧ goodBindings rateOnly = true ∧
      incrementFormula.text = "profit_l + 1".toList ∧
      evaluateFormula refEngine "profit_l + 1".toList rateOnly emptyPage
        = (.normal .null, { emptyPage with errorLines := 1 }) ∧
      referenceEvaluate "profit_l + 1".toList rateOnly = some n1 ∧
      paddedFormula.tokensOk vocabulary = true ∧
      paddedFormula.text = "007 + 1".toList ∧
      evaluateFormula refEngine "007 + 1".toList [] emptyPage
        = (.normal .null, { emptyPage with errorLines := 1 }) ∧
      referenceEvaluate "007 + 1".toList [] = some (JsNum.ofNat 8) := by
  have h1 : refRuntime (functionBody (substitute "profit_l + 1".toList rateOnly))
      = some .throw := by
    have hs : substitute "profit_l + 1".toList rateOnly = "profit_l + 1".toList := by decide
    rw [hs]; decide
  have h2 : refRuntime (functionBody (substitute "007 + 1".toList [])) = some .throw := by
    have hs : substitute "007 + 1".toList [] = "007 + 1".toList := by decide
    rw [hs]; decide
  refine ⟨implements_refEngine, by decide, by decide, by decide, by decide, ?_, by decide,
    by decide, by decide, ?_, by decide⟩
  · rw [evaluateFormula_of_ref_throw implements_refEngine h1]; rfl
  · rw [evaluateFormula_of_ref_throw implements_refEngine h2]; rfl

/-- C20 (amended): for every well-formed expression over the grammar (the six
variable names, decimal literals without a superfluous leading zero,
`+ - * /`, parentheses) and every binding set that binds every variable of the
expression, all its values being finite numbers that are not negative,
`evaluateFormula` agrees with the reference recursive-descent evaluator: both
return the same number, or `evaluateFormula` returns `null` and the reference
evaluator reports unevaluable. -/
theorem evaluateFormula_refines_reference (run : Runtime) (hrun : Implements run)
    (values : List (List Char × JsVal)) (hgood : goodBindings values = true)
    (hfresh : freshTexts values = true) (g : Formula) (hwf : g.wf = true)
    (hvars : g.tokensOk vocabulary = true) (hb : g.bound values = true) (k : Nat)
    (w : World) :
    evaluateFormula run (g.text ++ blanks k) values w
      = (.normal (referenceResult (referenceEvaluate (g.text ++ blanks k) values)), w) := by
  rw [evaluateFormula_of_ref hrun (refRuntime_formula values hgood hfresh g hwf hb k),
    referenceEvaluate_formula values g hwf hvars k]
  cases g.value values <;> rfl

set_option maxRecDepth 100000 in
theorem evaluateFormula_refines_reference_witness :
    evaluateFormula refEngine (exampleFormula.text ++ blanks 0) exampleValues emptyPage
      = (.normal (referenceResult
          (referenceEvaluate (exampleFormula.text ++ blanks 0) exampleValues)), emptyPage) :=
  evaluateFormula_refines_reference refEngine implements_refEngine exampleValues (by decide)
    (by decide) exampleFormula (by decide) (by decide) (by decide) 0 emptyPage

/-! ## C25: when a computed field gets a value -/

theorem exactNum_pos (m : Nat) (e : Int) : 0 < (exactNum m e).2 := by
  unfold exactNum
  split
  · exact Nat.one_pos
  · exact Nat.pos_pow_of_pos _ (by decide)

theorem fixedText_ne_nil (n : Nat) : fixedText n ≠ [] := by
  unfold fixedText
  simp

set_option maxRecDepth 100000 in
theorem evaluateFormula_profitPage :
    evaluateFormula refEngine "profit_l / (expected_profit_pct / 100)".toList
        (ProfitForm.values profitPage) profitPage
      = (.normal (.num (.fin false 5541893285161290 (-34))), profitPage) := by
  have hs : substitute "profit_l / (expected_profit_pct / 100)".toList
      (ProfitForm.values profitPage) = "50000 / (15.5 / 100)".toList := by decide
  have hr : refRuntime (functionBody (substitute "profit_l / (expected_profit_pct / 100)".toList
      (ProfitForm.values profitPage)))
      = some (.normal (.num (.fin false 5541893285161290 (-34)))) := by
    rw [hs]; decide
  rw [evaluateFormula_of_ref implements_refEngine hr]
  rfl

theorem toFixed2_example :
    toFixed2 (.fin false 5541893285161290 (-34)) = "322580.65".toList := by decide

/-- C25 (as stated, refuted): the formula `true` evaluates to `true`, which is
not `null` and is greater than 0, but `calculateFields` of the profit form gives
the field no value: `true` has no `toFixed`, the call throws and the field is
left as it was. -/
theorem calculateFields_true_throws :
    Implements refEngine ∧
      evaluateFormula refEngine "true".toList (ProfitForm.values profitPage) profitPage
        = (.normal (.bool true), profitPage) ∧
      ((JsVal.bool true) != .null && (toNumber (.bool true)).isPositive) = true ∧
      ProfitForm.calculateFields refEngine booleanFormulas profitPage
        = (.throw, profitPage) := by
  have hs : substitute "true".toList (ProfitForm.values profitPage) = "true".toList := by
    decide
  have hr : refRuntime (functionBody (substitute "true".toList
      (ProfitForm.values profitPage))) = some (.normal (.bool true)) := by
    rw [hs]; decide
  have he : evaluateFormula refEngine "true".toList (ProfitForm.values profitPage) profitPage
      = (.normal (.bool true), profitPage) := by
    rw [evaluateFormula_of_ref implements_refEngine hr]
    rfl
  refine ⟨implements_refEngine, he, by decide, ?_⟩
  simp only [ProfitForm.calculateFields, booleanFormulas, computedField, he]
  rfl

/-- C25 (amended): in a block of `calculateFields` whose formula evaluates to
`result`, the computed field is given a value exactly when `result` is a number
greater than 0: the field then holds `result.toFixed(2)`, which below `10^21` is
the integer `N` nearest to `100 * result` (so `N / 100` is `result` rounded to two
decimals) written with two decimals.  Every other result but `true` (0, a
negative number, `false`, `undefined`) leaves the field blank exactly as `null`
does.  The result `true` is greater than 0 but has no `toFixed`: the block throws
and the field is left as it was. -/
theorem computedField_value_iff (run : Runtime) (expression id : List Char)
    (key : Option (List Char)) (values : List (List Char × JsVal)) (w w1 : World)
    (result : JsVal)
    (heval : evaluateFormula run expression values w = (.normal result, w1))
    (hfield : (fieldValue id w1).isSome = true) :
    (∀ n, result = .num n → n.isPositive = true →
      computedField run (some expression) id key values w
          = .done (match key with
              | some k => setBinding k result values
              | none => values) (withField id (toFixed2 n) w1) ∧
        fieldValue id (withField id (toFixed2 n) w1) = some (toFixed2 n)) ∧
      (∀ m e, (exactNum m e).1 < 10 ^ 21 * (exactNum m e).2 →
        toFixed2 (.fin false m e)
            = fixedText ((200 * (exactNum m e).1 + (exactNum m e).2) / (2 * (exactNum m e).2)) ∧
          toFixed2 (.fin false m e) ≠ [] ∧
          2 * (exactNum m e).2 *
              ((200 * (exactNum m e).1 + (exactNum m e).2) / (2 * (exactNum m e).2))
            ≤ 200 * (exactNum m e).1 + (exactNum m e).2 ∧
          200 * (exactNum m e).1 + (exactNum m e).2
            < 2 * (exactNum m e).2 *
              ((200 * (exactNum m e).1 + (exactNum m e).2) / (2 * (exactNum m e).2) + 1)) ∧
      ((result != .null && (toNumber result).isPositive) = false →
        computedField run (some expression) id key values w
            = .done values (withField id [] w1) ∧
          fieldValue id (withField id [] w1) = some []) ∧
      (result = .bool true →
        computedField run (some expression) id key values w = .thrown w1) := by
  obtain ⟨text, ht⟩ := Option.isSome_iff_exists.mp hfield
  refine ⟨?_, ?_, ?_, ?_⟩
  · intro n hn hpos
    subst hn
    have hc : ((JsVal.num n) != .null && (toNumber (.num n)).isPositive) = true := by
      simp [toNumber, hpos]
    refine ⟨?_, fieldValue_withField id _ w1 hfield⟩
    simp only [computedField, heval, hc, if_true, ht]
    all_goals (cases key <;> rfl)
  · intro m e hlt
    have hb := exactNum_pos m e
    have hv : toFixed2 (.fin false m e)
        = fixedText ((200 * (exactNum m e).1 + (exactNum m e).2) / (2 * (exactNum m e).2)) := by
      simp only [toFixed2, Nat.not_le.mpr hlt, if_false, Bool.false_and, Bool.false_eq_true,
        List.nil_append]
    refine ⟨hv, by rw [hv]; exact fixedText_ne_nil _, Nat.mul_div_le _ _, ?_⟩
    exact Nat.lt_mul_div_succ _ (by omega)
  · intro hc
    refine ⟨?_, fieldValue_withField id [] w1 hfield⟩
    simp only [computedField, heval, hc, Bool.false_eq_true, if_false, ht]
  · intro hr
    subst hr
    have hc : ((JsVal.bool true) != .null && (toNumber (.bool true)).isPositive) = true := by
      decide
    simp only [computedField, heval, hc, if_true]

theorem computedField_value_iff_witness :
    computedField refEngine (some "profit_l / (expected_profit_pct / 100)".toList)
        "company-value".toList (some "company_value_l".toList)
        (ProfitForm.values profitPage) profitPage
      = .done (setBinding "company_value_l".toList
            (.num (.fin false 5541893285161290 (-34))) (ProfitForm.values profitPage))
          (withField "company-value".toList
            (toFixed2 (.fin false 5541893285161290 (-34))) profitPage) :=
  ((computedField_value_iff refEngine _ "company-value".toList
    (some "company_value_l".toList) _ profitPage profitPage _ evaluateFormula_profitPage
    (by decide)).1 _ rfl (by decide)).1

/-! ## C26: the bindings of one recalculation -/

theorem find_setField_ne (id id1 text : List Char) (fields : List (List Char × List Char))
    (h : id1 ≠ id) :
    ((setField id text fields).find? fun kv => kv.1 == id1)
      = fields.find? fun kv => kv.1 == id1 := by
  induction fields with
  | nil => rfl
  | cons kv rest ih =>
    obtain ⟨k, v⟩ := kv
    by_cases hk : k = id
    · subst hk
      have hb : (k == id1) = false := by simpa using fun e => h e.symm
      simp only [setField, if_true, List.find?, hb]
    · by_cases hk1 : k = id1
      · subst hk1
        simp [setField, hk]
      · have hb : (k == id1) = false := by simpa using hk1
        simp only [setField, if_neg hk, List.find?, hb, ih]

theorem fieldValue_withField_ne (id id1 text : List Char) (w : World) (h : id1 ≠ id) :
    fieldValue id1 (withField id text w) = fieldValue id1 w := by
  simp only [fieldValue, withField, find_setField_ne id id1 text w.fields h]

theorem readNumber_withField_ne (id id1 text : List Char) (w : World) (h : id1 ≠ id) :
    readNumber id1 (withField id text w) = readNumber id1 w := by
  simp only [readNumber, fieldValue_withField_ne id id1 text w h]

theorem values_withField (id text : List Char) (w : World)
    (h : id ≠ "profit-l".toList ∧ id ≠ "expected-pct".toList ∧ id ≠ "fx".toList) :
    ProfitForm.values (withField id text w) = ProfitForm.values w := by
  simp only [ProfitForm.values,
    readNumber_withField_ne id _ text w (Ne.symm h.1),
    readNumber_withField_ne id _ text w (Ne.symm h.2.1),
    readNumber_withField_ne id _ text w (Ne.symm h.2.2)]

theorem lookupNum_setBinding_ne (k k1 : List Char) (v : JsVal)
    (values : List (List Char × JsVal)) (h : k1 ≠ k) :
    lookupNum (setBinding k v values) k1 = lookupNum values k1 := by
  induction values with
  | nil => rfl
  | cons kv rest ih =>
    obtain ⟨a, b⟩ := kv
    by_cases ha : a = k
    · subst ha
      simp [setBinding, lookupNum, h]
    · by_cases ha1 : k1 = a
      · subst ha1
        simp [setBinding, lookupNum, ha]
      · simp [setBinding, lookupNum, ha, ha1, ih]

theorem lookupNum_setBinding (k : List Char) (v : JsVal)
    (values : List (List Char × JsVal)) (h : values.any (fun kv => kv.1 == k) = true) :
    lookupNum (setBinding k v values) k = toNumber (orZero v) := by
  induction values with
  | nil => simp at h
  | cons kv rest ih =>
    obtain ⟨a, b⟩ := kv
    by_cases ha : a = k
    · subst ha
      simp [setBinding, lookupNum]
    · have hr : rest.any (fun kv => kv.1 == k) = true := by
        simp only [List.any_cons, Bool.or_eq_true, beq_iff_eq] at h
        rcases h with h | h
        · exact absurd h ha
        · exact h
      have hk : ¬ k = a := fun e => ha e.symm
      simp [setBinding, lookupNum, ha, hk, ih hr]

theorem orZero_positive {n : JsNum} (h : n.isPositive = true) :
    toNumber (orZero (.num n)) = n := by
  cases n with
  | nan => simp [JsNum.isPositive] at h
  | inf neg => rfl
  | fin neg m e =>
    have hm : m ≠ 0 := by
      simp only [JsNum.isPositive, Bool.and_eq_true, decide_eq_true_eq] at h
      omega
    simp [orZero, toBoolean, toNumber, hm]

/-- What a block that completes leaves in `values` under its own key, which
was bound to 0 before, and under every other key. -/
theorem computedField_bindings (run : Runtime) (formula : Option (List Char))
    (id k : List Char) (values values1 : List (List Char × JsVal)) (w w1 : World)
    (hk : values.any (fun kv => kv.1 == k) = true)
    (h0 : lookupNum values k = JsNum.zero)
    (h : computedField run formula id (some k) values w = .done values1 w1) :
    lookupNum values1 k = computedValue run formula values w ∧
      ∀ k1, k1 ≠ k → lookupNum values1 k1 = lookupNum values k1 := by
  cases formula with
  | none =>
    simp only [computedField, BlockResult.done.injEq] at h
    obtain ⟨rfl, _⟩ := h
    exact ⟨h0, fun _ _ => rfl⟩
  | some expression =>
    simp only [computedField] at h
    cases he : evaluateFormula run expression values w with
    | mk c w0 =>
      rw [he] at h
      cases c with
      | throw => simp at h
      | normal result =>
        simp only at h
        by_cases hc : (result != .null && (toNumber result).isPositive) = true
        · simp only [hc, if_true] at h
          cases result with
          | num n =>
            cases hf : fieldValue id w0 with
            | none => rw [hf] at h; simp at h
            | some t =>
              rw [hf] at h
              simp only [BlockResult.done.injEq] at h
              obtain ⟨rfl, _⟩ := h
              have hp : n.isPositive = true := by simpa [toNumber] using hc
              refine ⟨?_, fun k1 hk1 => lookupNum_setBinding_ne k k1 _ values hk1⟩
              rw [lookupNum_setBinding k _ values hk, orZero_positive hp]
              show n = positiveOrZero (evaluateFormula run expression values w)
              rw [he]
              have hc2 : ((JsVal.num n) != JsVal.null && n.isPositive) = true := hc
              simp only [positiveOrZero, toNumber, hc2, if_true]
          | bool b => simp at h
          | null => simp at h
          | undefined => simp at h
        · simp only [hc, Bool.false_eq_true, if_false] at h
          cases hf : fieldValue id w0 with
          | none => rw [hf] at h; simp at h
          | some t =>
            rw [hf] at h
            simp only [BlockResult.done.injEq] at h
            obtain ⟨rfl, _⟩ := h
            refine ⟨?_, fun _ _ => rfl⟩
            show _ = positiveOrZero (evaluateFormula run expression values w)
            rw [he]
            simp only [positiveOrZero, hc, Bool.false_eq_true, if_false]
            exact h0

theorem any_setBinding (k k1 : List Char) (v : JsVal) (values : List (List Char × JsVal)) :
    (setBinding k v values).any (fun kv => kv.1 == k1) = values.any (fun kv => kv.1 == k1) := by
  induction values with
  | nil => rfl
  | cons kv rest ih =>
    obtain ⟨a, b⟩ := kv
    by_cases ha : a = k
    · simp [setBinding, ha]
    · simp only [setBinding, if_neg ha, List.any_cons, ih]

theorem computedField_keys (run : Runtime) (formula : Option (List Char))
    (id : List Char) (key : Option (List Char)) (values values1 : List (List Char × JsVal))
    (w w1 : World) (h : computedField run formula id key values w = .done values1 w1)
    (k1 : List Char) :
    values1.any (fun kv => kv.1 == k1) = values.any (fun kv => kv.1 == k1) := by
  cases formula with
  | none =>
    simp only [computedField, BlockResult.done.injEq] at h
    obtain ⟨rfl, _⟩ := h
    rfl
  | some expression =>
    simp only [computedField] at h
    cases he : evaluateFormula run expression values w with
    | mk c w0 =>
      rw [he] at h
      cases c with
      | throw => simp at h
      | normal result =>
        simp only at h
        split at h
        · split at h
          · simp only [BlockResult.done.injEq] at h
            obtain ⟨rfl, _⟩ := h
            cases key with
            | none => rfl
            | some k => exact any_setBinding k k1 _ values
          · simp at h
        · split at h
          · simp only [BlockResult.done.injEq] at h
            obtain ⟨rfl, _⟩ := h
            rfl
          · simp at h

theorem profit_values_start (w : World) :
    lookupNum (ProfitForm.values w) "company_value_l".toList = JsNum.zero ∧
      lookupNum (ProfitForm.values w) "investment_l".toList = JsNum.zero ∧
      (ProfitForm.values w).any (fun kv => kv.1 == "company_value_l".toList) = true ∧
      (ProfitForm.values w).any (fun kv => kv.1 == "investment_l".toList) = true := by
  have h1 : ¬ "company_value_l".toList = "profit_l".toList := by decide
  have h2 : ¬ "company_value_l".toList = "expected_profit_pct".toList := by decide
  have h3 : ¬ "investment_l".toList = "profit_l".toList := by decide
  have h4 : ¬ "investment_l".toList = "expected_profit_pct".toList := by decide
  have h5 : ¬ "investment_l".toList = "company_value_l".toList := by decide
  refine ⟨?_, ?_, ?_, ?_⟩
  · simp only [ProfitForm.values, lookupNum, if_neg h1, if_neg h2, if_true]
    rfl
  · simp only [ProfitForm.values, lookupNum, if_neg h3, if_neg h4, if_neg h5, if_true]
    rfl
  · simp [ProfitForm.values]
  · simp [ProfitForm.values]

/-- C26: in `calculateFields` of the profit form the binding set is built anew
from the three input fields with `company_value_l` and `investment_l` at 0 (what the
computed fields hold from an earlier call does not enter it); the binding
`company_value_l` that the blocks of `investment_l` and `investment_usd` evaluate with is the
company value computed in this call when that is greater than 0 and 0
otherwise, and the binding `investment_l` that the block of `investment_usd` evaluates
with is the investment computed in this call when greater than 0 and 0
otherwise. -/
theorem calculateFields_bindings (run : Runtime) (activeFormulas : ActiveFormulas)
    (w : World) :
    lookupNum (ProfitForm.values w) "company_value_l".toList = JsNum.zero ∧
      lookupNum (ProfitForm.values w) "investment_l".toList = JsNum.zero ∧
      (∀ text, ProfitForm.values (withField "company-value".toList text w) = ProfitForm.values w ∧
        ProfitForm.values (withField "inv-l".toList text w) = ProfitForm.values w ∧
        ProfitForm.values (withField "inv-usd".toList text w) = ProfitForm.values w) ∧
      (∀ values1 w1,
        computedField run activeFormulas.company_value_l "company-value".toList
            (some "company_value_l".toList) (ProfitForm.values w) w = .done values1 w1 →
        lookupNum values1 "company_value_l".toList
            = computedValue run activeFormulas.company_value_l (ProfitForm.values w) w ∧
          lookupNum values1 "investment_l".toList = JsNum.zero ∧
          ∀ values2 w2,
            computedField run activeFormulas.investment_l "inv-l".toList
                (some "investment_l".toList) values1 w1 = .done values2 w2 →
            lookupNum values2 "company_value_l".toList
                = lookupNum values1 "company_value_l".toList ∧
              lookupNum values2 "investment_l".toList
                = computedValue run activeFormulas.investment_l values1 w1 ∧
              ProfitForm.calculateFields run activeFormulas w
                = (match computedField run activeFormulas.investment_usd "inv-usd".toList none
                      values2 w2 with
                  | .thrown w3 => (.throw, w3)
                  | .done _ w3 => (.normal .undefined, w3))) := by
  obtain ⟨s1, s2, a1, a2⟩ := profit_values_start w
  refine ⟨s1, s2, ?_, ?_⟩
  · intro text
    exact ⟨values_withField _ text w (by decide), values_withField _ text w (by decide),
      values_withField _ text w (by decide)⟩
  · intro values1 w1 h1
    obtain ⟨b1, b2⟩ := computedField_bindings run _ _ _ _ _ w w1 a1 s1 h1
    have s2' : lookupNum values1 "investment_l".toList = JsNum.zero := by
      rw [b2 _ (by decide), s2]
    refine ⟨b1, s2', ?_⟩
    intro values2 w2 h2
    have a2' : values1.any (fun kv => kv.1 == "investment_l".toList) = true := by
      rw [computedField_keys run _ _ _ _ _ w w1 h1, a2]
    obtain ⟨c1, c2⟩ := computedField_bindings run _ _ _ _ _ w1 w2 a2' s2' h2
    refine ⟨c2 _ (by decide), c1, ?_⟩
    simp only [ProfitForm.calculateFields, h1, h2]
    all_goals rfl

theorem calculateFields_bindings_witness :
    lookupNum (setBinding "company_value_l".toList (.num (.fin false 5541893285161290 (-34)))
        (ProfitForm.values profitPage)) "company_value_l".toList
      = computedValue refEngine (some "profit_l / (expected_profit_pct / 100)".toList)
          (ProfitForm.values profitPage) profitPage := by
  have h1 : computedField refEngine (some "profit_l / (expected_profit_pct / 100)".toList)
      "company-value".toList (some "company_value_l".toList)
      (ProfitForm.values profitPage) profitPage
      = .done (setBinding "company_value_l".toList
            (.num (.fin false 5541893285161290 (-34))) (ProfitForm.values profitPage))
          (withField "company-value".toList
            (toFixed2 (.fin false 5541893285161290 (-34))) profitPage) := by
    have hf : fieldValue "company-value".toList profitPage = some [] := by decide
    have hc : ((JsVal.num (.fin false 5541893285161290 (-34))) != .null &&
        (toNumber (.num (.fin false 5541893285161290 (-34)))).isPositive) = true := by decide
    simp only [computedField, evaluateFormula_profitPage, hc, if_true, hf]
  exact ((calculateFields_bindings refEngine
    { company_value_l := some "profit_l / (expected_profit_pct / 100)".toList,
      investment_l := none, investment_usd := none } profitPage).2.2.2 _ _ h1).1

/-! ## C27: validateForm -/


theorem emailPattern_nil : emailPattern [] = false := by decide

theorem mem_afterDotPlus {s r : List Char} :
    r ∈ afterDotPlus s ↔
      ∃ a, a ≠ [] ∧ (∀ c ∈ a, isLineTerminator c = false) ∧ s = a ++ r := by
  induction s with
  | nil =>
    simp only [afterDotPlus, List.not_mem_nil, false_iff]
    rintro ⟨a, ha, _, h⟩
    cases a with
    | nil => exact ha rfl
    | cons x xs => cases h
  | cons c s ih =>
    simp only [afterDotPlus]
    by_cases hc : isLineTerminator c = true
    · simp only [hc, if_true, List.not_mem_nil, false_iff]
      rintro ⟨a, ha, hall, h⟩
      cases a with
      | nil => exact ha rfl
      | cons x xs =>
        simp only [List.cons_append, List.cons.injEq] at h
        have := hall x (List.mem_cons_self _ _)
        rw [← h.1, hc] at this
        cases this
    · have hc1 : isLineTerminator c = false := by simpa using hc
      simp only [hc1, Bool.false_eq_true, if_false, List.mem_cons]
      constructor
      · rintro (rfl | h)
        · exact ⟨[c], by simp, by simpa using hc1, rfl⟩
        · obtain ⟨a, ha, hall, rfl⟩ := ih.mp h
          refine ⟨c :: a, by simp, ?_, rfl⟩
          intro d hd
          rcases List.mem_cons.mp hd with rfl | hd
          · exact hc1
          · exact hall d hd
      · rintro ⟨a, ha, hall, h⟩
        cases a with
        | nil => exact absurd rfl ha
        | cons x xs =>
          simp only [List.cons_append, List.cons.injEq] at h
          obtain ⟨rfl, rfl⟩ := h
          cases xs with
          | nil => left; rfl
          | cons y ys =>
            right
            exact ih.mpr ⟨y :: ys, by simp,
              fun d hd => hall d (List.mem_cons_of_mem _ hd), rfl⟩

theorem emailAt_iff {t : List Char} :
    emailAt t = true ↔
      ∃ a b c post, t = a ++ '@' :: (b ++ '.' :: (c ++ post)) ∧ a ≠ [] ∧ b ≠ [] ∧ c ≠ [] ∧
        (∀ x ∈ a, isLineTerminator x = false) ∧ (∀ x ∈ b, isLineTerminator x = false) ∧
        (∀ x ∈ c, isLineTerminator x = false) := by
  unfold emailAt
  simp only [List.any_eq_true]
  constructor
  · rintro ⟨r1, h1, h⟩
    cases r1 with
    | nil => simp at h
    | cons x r2 =>
      by_cases hx : x = '@'
      · subst hx
        simp only [List.any_eq_true] at h
        obtain ⟨r3, h3, h⟩ := h
        cases r3 with
        | nil => simp at h
        | cons y r4 =>
          by_cases hy : y = '.'
          · subst hy
            simp only [Bool.not_eq_true', List.isEmpty_eq_false] at h
            obtain ⟨r5, h5⟩ := List.exists_mem_of_ne_nil _ h
            obtain ⟨a, ha, hla, rfl⟩ := mem_afterDotPlus.mp h1
            obtain ⟨b, hb, hlb, rfl⟩ := mem_afterDotPlus.mp h3
            obtain ⟨c, hc, hlc, rfl⟩ := mem_afterDotPlus.mp h5
            exact ⟨a, b, c, r5, rfl, ha, hb, hc, hla, hlb, hlc⟩
          · simp [hy] at h
      · simp [hx] at h
  · rintro ⟨a, b, c, post, rfl, ha, hb, hc, hla, hlb, hlc⟩
    refine ⟨'@' :: (b ++ '.' :: (c ++ post)), mem_afterDotPlus.mpr ⟨a, ha, hla, rfl⟩, ?_⟩
    simp only [List.any_eq_true]
    refine ⟨'.' :: (c ++ post), mem_afterDotPlus.mpr ⟨b, hb, hlb, rfl⟩, ?_⟩
    simp only [Bool.not_eq_true', List.isEmpty_eq_false]
    exact List.ne_nil_of_mem (mem_afterDotPlus.mpr ⟨c, hc, hlc, rfl⟩)

theorem emailPattern_iff {s : List Char} :
    emailPattern s = true ↔
      ∃ pre a b c post, s = pre ++ (a ++ '@' :: (b ++ '.' :: (c ++ post))) ∧
        a ≠ [] ∧ b ≠ [] ∧ c ≠ [] ∧
        (∀ x ∈ a, isLineTerminator x = false) ∧ (∀ x ∈ b, isLineTerminator x = false) ∧
        (∀ x ∈ c, isLineTerminator x = false) := by
  unfold emailPattern
  simp only [List.any_eq_true, List.mem_tails]
  constructor
  · rintro ⟨t, ⟨pre, rfl⟩, ht⟩
    obtain ⟨a, b, c, post, rfl, h⟩ := emailAt_iff.mp ht
    exact ⟨pre, a, b, c, post, rfl, h⟩
  · rintro ⟨pre, a, b, c, post, rfl, h⟩
    exact ⟨_, ⟨pre, rfl⟩, emailAt_iff.mpr ⟨a, b, c, post, rfl, h⟩⟩

/-- The checks of `validateForm` in terms of `jsTrim`. -/
theorem validateForm_cases (toLowerCase : List Char → List Char) (f : SignupFields) :
    (validateForm toLowerCase f = none ↔
        emailPattern (toLowerCase (jsTrim f.email)) = true ∧ 8 ≤ utf16Length f.pw1 ∧
          f.pw1 = f.pw2 ∧
          (f.roleApi ≠ "COMMUNITY_REP".toList ∨ rtnPattern f.rtnText = true)) ∧
      (emailPattern (toLowerCase (jsTrim f.email)) = false →
        validateForm toLowerCase f = some .invalidEmail) ∧
      (emailPattern (toLowerCase (jsTrim f.email)) = true → utf16Length f.pw1 < 8 →
        validateForm toLowerCase f = some .shortPassword) ∧
      (emailPattern (toLowerCase (jsTrim f.email)) = true → 8 ≤ utf16Length f.pw1 →
        f.pw1 ≠ f.pw2 → validateForm toLowerCase f = some .passwordMismatch) ∧
      (emailPattern (toLowerCase (jsTrim f.email)) = true → 8 ≤ utf16Length f.pw1 →
        f.pw1 = f.pw2 → f.roleApi = "COMMUNITY_REP".toList → rtnPattern f.rtnText = false →
        validateForm toLowerCase f = some .missingRtn ∨
          validateForm toLowerCase f = some .rtnNotNumeric) ∧
      (emailPattern (toLowerCase (jsTrim f.email)) = true ↔
        ∃ pre a b c post,
          toLowerCase (jsTrim f.email) = pre ++ (a ++ '@' :: (b ++ '.' :: (c ++ post))) ∧
          a ≠ [] ∧ b ≠ [] ∧ c ≠ [] ∧
          (∀ x ∈ a, isLineTerminator x = false) ∧ (∀ x ∈ b, isLineTerminator x = false) ∧
          (∀ x ∈ c, isLineTerminator x = false)) ∧
      (rtnPattern f.rtnText = true ↔
        (∀ x ∈ f.rtnText, x.isDigit = true) ∧ 5 ≤ f.rtnText.length) := by
  have hempty : ∀ e : List Char, emailPattern e = true → e.isEmpty = false := by
    intro e he
    cases e with
    | nil => rw [emailPattern_nil] at he; cases he
    | cons x xs => rfl
  have e1 : emailPattern (toLowerCase (jsTrim f.email)) = false →
      validateForm toLowerCase f = some .invalidEmail := by
    intro h
    simp [validateForm, h]
  have e0 : emailPattern (toLowerCase (jsTrim f.email)) = true →
      validateForm toLowerCase f
        = (if utf16Length f.pw1 < 8 then some .shortPassword
          else if f.pw1 ≠ f.pw2 then some .passwordMismatch
          else if f.roleApi = "COMMUNITY_REP".toList then
            if f.rtnText.isEmpty then some .missingRtn
            else if !rtnPattern f.rtnText then some .rtnNotNumeric
            else none
          else none) := by
    intro h
    have c1 : ((toLowerCase (jsTrim f.email)).isEmpty ||
        !emailPattern (toLowerCase (jsTrim f.email))) = false := by
      simp [h, hempty _ h]
    unfold validateForm
    simp only [c1, Bool.false_eq_true, if_false]
  have e2 : emailPattern (toLowerCase (jsTrim f.email)) = true → utf16Length f.pw1 < 8 →
      validateForm toLowerCase f = some .shortPassword := by
    intro h hl
    rw [e0 h, if_pos hl]
  have e3 : emailPattern (toLowerCase (jsTrim f.email)) = true → 8 ≤ utf16Length f.pw1 →
      f.pw1 ≠ f.pw2 → validateForm toLowerCase f = some .passwordMismatch := by
    intro h hl hp
    rw [e0 h, if_neg (Nat.not_lt.mpr hl), if_pos hp]
  have e4 : emailPattern (toLowerCase (jsTrim f.email)) = true → 8 ≤ utf16Length f.pw1 →
      f.pw1 = f.pw2 → f.roleApi = "COMMUNITY_REP".toList → rtnPattern f.rtnText = false →
      validateForm toLowerCase f = some .missingRtn ∨
        validateForm toLowerCase f = some .rtnNotNumeric := by
    intro h hl hp hr hn
    rw [e0 h, if_neg (Nat.not_lt.mpr hl), if_neg (not_not.mpr hp), if_pos hr]
    by_cases he : f.rtnText.isEmpty = true
    · left; rw [if_pos he]
    · right; rw [if_neg he, hn]; rfl
  refine ⟨?_, e1, e2, e3, e4, emailPattern_iff, ?_⟩
  · constructor
    · intro hv
      cases he : emailPattern (toLowerCase (jsTrim f.email)) with
      | false => rw [e1 he] at hv; cases hv
      | true =>
        by_cases hl : 8 ≤ utf16Length f.pw1
        · by_cases hp : f.pw1 = f.pw2
          · refine ⟨rfl, hl, hp, ?_⟩
            by_cases hr : f.roleApi = "COMMUNITY_REP".toList
            · right
              cases hn : rtnPattern f.rtnText with
              | true => rfl
              | false => rcases e4 he hl hp hr hn with h | h <;> (rw [h] at hv; cases hv)
            · left; exact hr
          · rw [e3 he hl hp] at hv; cases hv
        · rw [e2 he (by omega)] at hv; cases hv
    · rintro ⟨he, hl, hp, hr⟩
      rw [e0 he, if_neg (Nat.not_lt.mpr hl), if_neg (not_not.mpr hp)]
      rcases hr with hr | hr
      · rw [if_neg hr]
      · have hne : ¬ f.rtnText.isEmpty = true := by
          cases hx : f.rtnText with
          | nil => rw [hx] at hr; simp [rtnPattern] at hr
          | cons a l => simp
        by_cases hrole : f.roleApi = "COMMUNITY_REP".toList
        · rw [if_pos hrole, if_neg hne, hr]; rfl
        · rw [if_neg hrole]
  · simp [rtnPattern]

theorem dropWhile_append_all {p : Char → Bool} (a b : List Char) (h : a.all p = true) :
    (a ++ b).dropWhile p = b.dropWhile p := by
  induction a with
  | nil => rfl
  | cons x xs ih =>
    simp only [List.all_cons, Bool.and_eq_true] at h
    simp [List.dropWhile, h.1, ih h.2]

theorem dropWhile_of_head {p : Char → Bool} (b : List Char)
    (h : b.head?.map p ≠ some true) (hne : b ≠ []) : b.dropWhile p = b := by
  cases b with
  | nil => exact absurd rfl hne
  | cons x xs =>
    have hx : p x = false := by
      cases hp : p x with
      | false => rfl
      | true => simp [hp] at h
    simp [List.dropWhile, hx]

theorem dropWhile_all_nil {p : Char → Bool} (a : List Char) (h : a.all p = true) :
    a.dropWhile p = [] := by
  have := dropWhile_append_all a [] h
  simpa using this

theorem jsTrim_spec (pre core post : List Char) (hpre : pre.all isJsSpace = true)
    (hpost : post.all isJsSpace = true) (hhead : core.head?.map isJsSpace ≠ some true)
    (hlast : core.getLast?.map isJsSpace ≠ some true) :
    jsTrim (pre ++ core ++ post) = core := by
  unfold jsTrim
  rw [List.append_assoc, dropWhile_append_all pre _ hpre]
  by_cases hc : core = []
  · subst hc
    simp [dropWhile_all_nil post hpost]
  · have hne : core ++ post ≠ [] := by simp [hc]
    have hh : (core ++ post).head?.map isJsSpace ≠ some true := by
      cases core with
      | nil => exact absurd rfl hc
      | cons x xs => simpa using hhead
    rw [dropWhile_of_head _ hh hne, List.reverse_append,
      dropWhile_append_all post.reverse _ (by simpa using hpost)]
    have hr : core.reverse.head?.map isJsSpace ≠ some true := by
      rw [List.head?_reverse]; exact hlast
    rw [dropWhile_of_head _ hr (by simpa using hc), List.reverse_reverse]

theorem jsTrim_split (s : List Char) :
    ∃ pre core post, s = pre ++ core ++ post ∧ pre.all isJsSpace = true ∧
      post.all isJsSpace = true ∧ core.head?.map isJsSpace ≠ some true ∧
      core.getLast?.map isJsSpace ≠ some true := by
  have hdrop : ∀ l : List Char, (l.dropWhile isJsSpace).head?.map isJsSpace ≠ some true := by
    intro l
    induction l with
    | nil => simp
    | cons x xs ih =>
      by_cases hx : isJsSpace x = true
      · simpa [List.dropWhile, hx] using ih
      · simp [List.dropWhile, hx]
  have htake : ∀ l : List Char, (l.takeWhile isJsSpace).all isJsSpace = true := by
    intro l
    simp only [List.all_eq_true]
    intro c hc
    exact List.mem_takeWhile_imp hc
  let d := s.dropWhile isJsSpace
  refine ⟨s.takeWhile isJsSpace, (d.reverse.dropWhile isJsSpace).reverse,
    (d.reverse.takeWhile isJsSpace).reverse, ?_, htake s, ?_, ?_, ?_⟩
  · rw [List.append_assoc, ← List.reverse_append, List.takeWhile_append_dropWhile,
      List.reverse_reverse, List.takeWhile_append_dropWhile]
  · simp
  · have hd : d = (d.reverse.dropWhile isJsSpace).reverse
        ++ (d.reverse.takeWhile isJsSpace).reverse := by
      rw [← List.reverse_append, List.takeWhile_append_dropWhile, List.reverse_reverse]
    by_cases hc : (d.reverse.dropWhile isJsSpace).reverse = []
    · rw [hc]; simp
    · have h1 := hdrop s
      have h2 : d.head? = ((d.reverse.dropWhile isJsSpace).reverse).head? := by
        conv_lhs => rw [hd]
        cases hx : (d.reverse.dropWhile isJsSpace).reverse with
        | nil => exact absurd hx hc
        | cons x xs => rfl
      rw [← h2]
      exact h1
  · rw [List.getLast?_reverse]
    exact hdrop d.reverse

/-- C27: write the value of the email element as blanks, a text that neither
starts nor ends with a blank, and blanks (the middle is the trimmed value), and
the value of the RTN element likewise.  `validateForm` returns without throwing
exactly when the lower-cased trimmed email matches `.+@.+\..+` (somewhere in
it a non-empty run without line break, `@`, a non-empty run, a point, a
non-empty run), the password has at least 8 characters (UTF-16 code units, the
`length` of the string), both passwords are equal, and the role is not
`COMMUNITY_REP` or the trimmed RTN is made of at least 5 decimal digits and
nothing else; when several checks fail the error is that of the first failing
check in the order email, password length, password match, RTN (for the RTN:
missing when the trimmed text is empty, not numeric otherwise).  Every text
splits in this way. -/
theorem validateForm_spec (toLowerCase : List Char → List Char) (f : SignupFields)
    (pre email post pre1 rtn post1 : List Char)
    (hemail : f.email = pre ++ email ++ post) (hrtn : f.rtn.getD [] = pre1 ++ rtn ++ post1)
    (hpre : pre.all isJsSpace = true) (hpost : post.all isJsSpace = true)
    (hhead : email.head?.map isJsSpace ≠ some true)
    (hlast : email.getLast?.map isJsSpace ≠ some true)
    (hpre1 : pre1.all isJsSpace = true) (hpost1 : post1.all isJsSpace = true)
    (hhead1 : rtn.head?.map isJsSpace ≠ some true)
    (hlast1 : rtn.getLast?.map isJsSpace ≠ some true) :
    (validateForm toLowerCase f = none ↔
        emailPattern (toLowerCase email) = true ∧ 8 ≤ utf16Length f.pw1 ∧ f.pw1 = f.pw2 ∧
          (f.roleApi ≠ "COMMUNITY_REP".toList ∨
            ((∀ x ∈ rtn, x.isDigit = true) ∧ 5 ≤ rtn.length))) ∧
      (emailPattern (toLowerCase email) = false →
        validateForm toLowerCase f = some .invalidEmail) ∧
      (emailPattern (toLowerCase email) = true → utf16Length f.pw1 < 8 →
        validateForm toLowerCase f = some .shortPassword) ∧
      (emailPattern (toLowerCase email) = true → 8 ≤ utf16Length f.pw1 →
        f.pw1 ≠ f.pw2 → validateForm toLowerCase f = some .passwordMismatch) ∧
      (emailPattern (toLowerCase email) = true → 8 ≤ utf16Length f.pw1 →
        f.pw1 = f.pw2 → f.roleApi = "COMMUNITY_REP".toList → rtn = [] →
        validateForm toLowerCase f = some .missingRtn) ∧
      (emailPattern (toLowerCase email) = true → 8 ≤ utf16Length f.pw1 →
        f.pw1 = f.pw2 → f.roleApi = "COMMUNITY_REP".toList → rtn ≠ [] →
        ¬((∀ x ∈ rtn, x.isDigit = true) ∧ 5 ≤ rtn.length) →
        validateForm toLowerCase f = some .rtnNotNumeric) ∧
      (emailPattern (toLowerCase email) = true ↔
        ∃ a0 a b c post0,
          toLowerCase email = a0 ++ (a ++ '@' :: (b ++ '.' :: (c ++ post0))) ∧
          a ≠ [] ∧ b ≠ [] ∧ c ≠ [] ∧
          (∀ x ∈ a, isLineTerminator x = false) ∧ (∀ x ∈ b, isLineTerminator x = false) ∧
          (∀ x ∈ c, isLineTerminator x = false)) ∧
      (∀ s : List Char, ∃ s0 s1 s2, s = s0 ++ s1 ++ s2 ∧ s0.all isJsSpace = true ∧
        s2.all isJsSpace = true ∧ s1.head?.map isJsSpace ≠ some true ∧
        s1.getLast?.map isJsSpace ≠ some true) := by
  have he : jsTrim f.email = email := by
    rw [hemail]; exact jsTrim_spec pre email post hpre hpost hhead hlast
  have hr : f.rtnText = rtn := by
    unfold SignupFields.rtnText
    rw [hrtn]; exact jsTrim_spec pre1 rtn post1 hpre1 hpost1 hhead1 hlast1
  obtain ⟨h1, h2, h3, h4, h5, h6, h7⟩ := validateForm_cases toLowerCase f
  rw [he] at h1 h2 h3 h4 h5 h6
  rw [hr] at h1 h5 h7
  have hpat : rtnPattern rtn = true ↔ (∀ x ∈ rtn, x.isDigit = true) ∧ 5 ≤ rtn.length := h7
  refine ⟨?_, h2, h3, h4, ?_, ?_, h6, jsTrim_split⟩
  · rw [h1, hpat]
  · intro e1 e2 e3 e4 e5
    have hm : validateForm toLowerCase f
        = (if utf16Length f.pw1 < 8 then some .shortPassword
          else if f.pw1 ≠ f.pw2 then some .passwordMismatch
          else if f.roleApi = "COMMUNITY_REP".toList then
            if f.rtnText.isEmpty then some .missingRtn
            else if !rtnPattern f.rtnText then some .rtnNotNumeric
            else none
          else none) := by
      have hne : (toLowerCase email).isEmpty = false := by
        cases hx : toLowerCase email with
        | nil => rw [hx, emailPattern_nil] at e1; cases e1
        | cons x xs => rfl
      unfold validateForm
      simp only [he, hne, e1, Bool.not_true, Bool.or_self, Bool.false_eq_true, if_false]
    rw [hm, if_neg (Nat.not_lt.mpr e2), if_neg (not_not.mpr e3), if_pos e4, hr, e5]
    rfl
  · intro e1 e2 e3 e4 e5 e6
    have hn : rtnPattern rtn = false := by
      cases hx : rtnPattern rtn with
      | false => rfl
      | true => exact absurd (hpat.mp hx) e6
    rcases h5 e1 e2 e3 e4 hn with h | h
    · exfalso
      have hne : (toLowerCase email).isEmpty = false := by
        cases hx : toLowerCase email with
        | nil => rw [hx, emailPattern_nil] at e1; cases e1
        | cons x xs => rfl
      have hre : rtn.isEmpty = false := by
        cases rtn with
        | nil => exact absurd rfl e5
        | cons x xs => rfl
      unfold validateForm at h
      simp only [he, hne, e1, Bool.not_true, Bool.or_self, Bool.false_eq_true, if_false,
        if_neg (Nat.not_lt.mpr e2), if_neg (not_not.mpr e3), if_pos e4, hr, hre, hn,
        Bool.not_false, if_true] at h
      cases h
    · exact h

theorem validateForm_spec_witness :
    validateForm asciiLower partnerSignup = none ∧
      validateForm asciiLower { partnerSignup with rtn := some " 0801 1999 ".toList }
        = some .rtnNotNumeric :=
  ⟨(validateForm_spec asciiLower partnerSignup " ".toList "Ana@Eskala.org".toList " ".toList
      " ".toList "08011999".toList " ".toList rfl rfl (by decide) (by decide) (by decide)
      (by decide) (by decide) (by decide) (by decide) (by decide)).1.mpr
      ⟨by decide, by decide, rfl, Or.inr ⟨by decide, by decide⟩⟩,
    (validateForm_spec asciiLower { partnerSignup with rtn := some " 0801 1999 ".toList }
      " ".toList "Ana@Eskala.org".toList " ".toList
      " ".toList "0801 1999".toList " ".toList rfl rfl (by decide) (by decide) (by decide)
      (by decide) (by decide) (by decide) (by decide) (by decide)).2.2.2.2.2.1
      (by decide) (by decide) rfl rfl (by decide) (by decide)⟩

/-! ## C21: the status for an account that cannot log in yet -/

/-- C21 (the code at the failing input): a login response that is not a
success (`ok` is `false`) and carries `needs_verification` ends in the status of type
`error` with the error text of the response, not in the informational message:
`postJSON` throws for `res.ok` false and for `data.ok === false`, before the handler
reads the flags.  The same body sent with status 200 fares the same; only a
body whose `ok` is neither `true` nor `false` reaches the informational message. -/
theorem loginClick_flag_lost :
    loginClick false unverifiedResponse = .error (.text "Email not verified".toList) ∧
      loginClick false { unverifiedResponse with ok := true }
        = .error (.text "Email not verified".toList) ∧
      loginClick false
          { ok := true, statusLine := "200 OK".toList,
            data := some { unverifiedData with ok := .other } }
        = .info .verifyEmail := by
  decide

/-! ## C22: excluded fields and the saved draft -/

/-- C22 (the code at the failing input): the field with name `amount` and id
`amt` is listed in `excludeFields` by its id, and `init` gives it no save listener, but
`saveDraft` looks up `input.name || input.id` only and writes the field into the draft
under its name. -/
theorem saveDraft_keeps_field_excluded_by_id :
    listens ["amt".toList]
        { kind := .text, name := "amount".toList, id := "amt".toList, value := "5".toList,
          checked := false } = false ∧
      draftData ["amt".toList]
        [{ kind := .text, name := "amount".toList, id := "amt".toList, value := "5".toList,
           checked := false }] = [("amount".toList, .text "5".toList)] ∧
      saveDraft "autosave_ivl-form".toList ["amt".toList] 1700000000000
        [{ kind := .text, name := "amount".toList, id := "amt".toList, value := "5".toList,
           checked := false }] []
        = [("autosave_ivl-form".toList,
            .draft [("amount".toList, .text "5".toList)] (some 1700000000000))] := by
  decide

/-! ## C23: saving and restoring -/

/-- C23 (the code at the failing input): a draft of the payment form, saved
with the second radio button of the group `method` checked and restored one
second later on the reset form, brings the text back but checks no radio
button: `querySelector` finds the first button of the group only, and its value
is not the saved one.  In the form of the fields `amount` and `total`, whose keys
differ, the value of `total` is written into the field `amount`, whose id is
`total`, and the field `total` stays empty. -/
theorem restoreDraft_loses_radio :
    (restoreDraft isCssIdent "autosave_payment".toList 1700000001000 paymentFormReset
        (saveDraft "autosave_payment".toList [] 1700000000000 paymentForm [])).form
      = [{ kind := .text, name := "partner_name".toList, id := "partner-name".toList,
           value := "Coop".toList, checked := false },
         { kind := .radio, name := "method".toList, id := "method-cash".toList,
           value := "cash".toList, checked := false },
         { kind := .radio, name := "method".toList, id := "method-bank".toList,
           value := "bank".toList, checked := false }] ∧
      (restoreDraft isCssIdent "autosave_payment".toList 1700000001000 paymentFormReset
        (saveDraft "autosave_payment".toList [] 1700000000000 paymentForm [])).form
        ≠ paymentForm ∧
      (totalsForm.map Control.key).Nodup ∧
      (restoreDraft isCssIdent "autosave_totals".toList 1700000001000 totalsFormReset
        (saveDraft "autosave_totals".toList [] 1700000000000 totalsForm [])).form
      = [{ kind := .text, name := "amount".toList, id := "total".toList,
           value := "99".toList, checked := false },
         { kind := .text, name := "total".toList, id := [], value := [],
           checked := false }] := by
  decide
/-! ## C24: expired and corrupt drafts -/

theorem applyEntries_ok (selectorOk : List Char → Bool)
    (entries : List (List Char × DraftValue)) (form : List Control)
    (h : ∀ kv ∈ entries, selectorOk kv.1 = true) :
    applyEntries selectorOk entries form
      = (entries.foldl (fun f kv => restoreEntry f kv.1 kv.2) form, true) := by
  induction entries generalizing form with
  | nil => rfl
  | cons kv rest ih =>
    obtain ⟨k, v⟩ := kv
    have hk : selectorOk k = true := h (k, v) (List.mem_cons_self _ _)
    simp only [applyEntries, hk, if_true, List.foldl_cons]
    exact ih _ fun x hx => h x (List.mem_cons_of_mem _ hx)

theorem applyEntries_bad (selectorOk : List Char → Bool)
    (entries : List (List Char × DraftValue)) (form : List Control)
    (h : ∃ kv ∈ entries, selectorOk kv.1 = false) :
    (applyEntries selectorOk entries form).2 = false := by
  induction entries generalizing form with
  | nil => obtain ⟨kv, hkv, _⟩ := h; cases hkv
  | cons kv rest ih =>
    obtain ⟨k, v⟩ := kv
    by_cases hk : selectorOk k = true
    · simp only [applyEntries, hk, if_true]
      apply ih
      obtain ⟨x, hx, hbad⟩ := h
      rcases List.mem_cons.mp hx with rfl | hx
      · rw [hk] at hbad; cases hbad
      · exact ⟨x, hx, hbad⟩
    · simp only [applyEntries, hk, Bool.false_eq_true, if_false]

theorem mem_entriesOf (data : List (List Char × DraftValue)) (kv : List Char × DraftValue) :
    kv ∈ entriesOf data ↔ kv ∈ data := by
  unfold entriesOf
  rw [List.mem_append, (List.perm_insertionSort _ _).mem_iff, List.mem_filter, List.mem_filter]
  constructor
  · rintro (h | h) <;> exact h.1
  · intro h
    by_cases hi : isIndexKey kv.1 = true
    · exact Or.inl ⟨h, hi⟩
    · exact Or.inr ⟨h, by simpa using hi⟩

theorem getItem_removeItem (key : List Char) (storage : List (List Char × Stored)) :
    getItem key (removeItem key storage) = none := by
  induction storage with
  | nil => rfl
  | cons kv rest ih =>
    obtain ⟨k, v⟩ := kv
    by_cases hk : k = key
    · subst hk
      simpa [removeItem] using ih
    · have hne : (k != key) = true := by simpa using hk
      have : removeItem key ((k, v) :: rest) = (k, v) :: removeItem key rest := by
        simp [removeItem, List.filter, hne]
      rw [this]
      simp only [getItem, if_neg hk]
      exact ih

/-- C24 (as stated, refuted): an empty string stored under the key is no valid
JSON, yet `restoreDraft` returns at `if (!saved)` and leaves it in storage; and the
draft of a form whose field is named `2fa`, one second old, is not applied: the
selector `[name='2fa'], #2fa` is invalid, `querySelector` throws, and the `catch` block
removes the draft. -/
theorem restoreDraft_edge_cases :
    restoreDraft isCssIdent "autosave_code".toList 1700000001000 codeFormReset
        [("autosave_code".toList, .empty)]
      = { form := codeFormReset, storage := [("autosave_code".toList, .empty)],
          restored := false, errorLogged := false } ∧
    saveDraft "autosave_code".toList [] 1700000000000 codeForm []
      = [("autosave_code".toList,
          .draft [("2fa".toList, .text "123456".toList)] (some 1700000000000))] ∧
    restoreDraft isCssIdent "autosave_code".toList 1700000001000 codeFormReset
        (saveDraft "autosave_code".toList [] 1700000000000 codeForm [])
      = { form := codeFormReset, storage := [], restored := false, errorLogged := true } := by
  decide

/-- C24 (amended): `restoreDraft` never applies an expired or corrupt draft: when
the timestamp of the stored draft is more than 7 days before now, or the
stored text is not empty and is no valid JSON, the draft is removed from
storage and no form field is modified (an empty stored text is left where it
is); a draft that is not expired and whose keys all make a valid selector is
applied, entry by entry in the order of `Object.entries`, and stays in storage; a
draft that is not expired with a key that makes no valid selector is removed
and is not reported as restored. -/
theorem restoreDraft_spec (selectorOk : List Char → Bool) (storageKey : List Char)
    (now : Int) (form : List Control) (storage : List (List Char × Stored)) :
    (∀ data t, getItem storageKey storage = some (.draft data (some t)) →
        maxAge < now - t →
        restoreDraft selectorOk storageKey now form storage
          = { form := form, storage := removeItem storageKey storage, restored := false,
              errorLogged := false }) ∧
      (getItem storageKey storage = some .notJson →
        restoreDraft selectorOk storageKey now form storage
          = { form := form, storage := removeItem storageKey storage, restored := false,
              errorLogged := true }) ∧
      (getItem storageKey storage = some .empty →
        restoreDraft selectorOk storageKey now form storage
          = { form := form, storage := storage, restored := false, errorLogged := false }) ∧
      (∀ data t, getItem storageKey storage = some (.draft data (some t)) →
        now - t ≤ maxAge → (∀ kv ∈ data, selectorOk kv.1 = true) →
        restoreDraft selectorOk storageKey now form storage
          = { form := (entriesOf data).foldl (fun f kv => restoreEntry f kv.1 kv.2) form,
              storage := storage, restored := true, errorLogged := false }) ∧
      (∀ data t, getItem storageKey storage = some (.draft data (some t)) →
        now - t ≤ maxAge → (∃ kv ∈ data, selectorOk kv.1 = false) →
        (restoreDraft selectorOk storageKey now form storage).storage
            = removeItem storageKey storage ∧
          (restoreDraft selectorOk storageKey now form storage).restored = false) ∧
      getItem storageKey (removeItem storageKey storage) = none := by
  refine ⟨?_, ?_, ?_, ?_, ?_, getItem_removeItem storageKey storage⟩
  · intro data t hg hold
    have he : isExpired (some t) now = true := by simp [isExpired, hold]
    simp only [restoreDraft, hg, he, if_true]
  · intro hg
    simp only [restoreDraft, hg]
  · intro hg
    simp only [restoreDraft, hg]
  · intro data t hg hfresh hok
    have he : isExpired (some t) now = false := by
      simp only [isExpired, decide_eq_false_iff_not]; omega
    have ha := applyEntries_ok selectorOk (entriesOf data) form
      fun kv hkv => hok kv ((mem_entriesOf data kv).mp hkv)
    simp only [restoreDraft, hg, he, Bool.false_eq_true, if_false, ha]
  · intro data t hg hfresh hbad
    have he : isExpired (some t) now = false := by
      simp only [isExpired, decide_eq_false_iff_not]; omega
    obtain ⟨kv, hkv, hk⟩ := hbad
    have hb := applyEntries_bad selectorOk (entriesOf data) form
      ⟨kv, (mem_entriesOf data kv).mpr hkv, hk⟩
    simp only [restoreDraft, hg, he, Bool.false_eq_true, if_false]
    cases hr : applyEntries selectorOk (entriesOf data) form with
    | mk f b =>
      rw [hr] at hb
      simp only at hb
      subst hb
      exact ⟨rfl, rfl⟩

theorem restoreDraft_spec_witness :
    restoreDraft isCssIdent "autosave_totals".toList 1700000001000 totalsFormReset
        [("autosave_totals".toList,
          .draft [("amount".toList, .text "12".toList)] (some 1700000000000))]
      = { form := (entriesOf [("amount".toList, .text "12".toList)]).foldl
            (fun f kv => restoreEntry f kv.1 kv.2) totalsFormReset,
          storage := [("autosave_totals".toList,
            .draft [("amount".toList, .text "12".toList)] (some 1700000000000))],
          restored := true, errorLogged := false } :=
  (restoreDraft_spec isCssIdent "autosave_totals".toList 1700000001000 totalsFormReset
    [("autosave_totals".toList,
      .draft [("amount".toList, .text "12".toList)] (some 1700000000000))]).2.2.2.1
    [("amount".toList, .text "12".toList)] 1700000000000 (by decide) (by decide) (by decide)

end Eskala
